import Mathlib

/-!
# Open-addressing hash map: shallow embedding and verification

Embedding of `src/include/policy.h`, `src/include/hash_map.h` and the parts of
`src/include/hash_set.h` whose code differs from the map's.

Modelling conventions.
* `size_t` is modelled twice. The main development computes in `Nat` without wrap-around;
  it is exact as long as the constructor argument is below `SIZE_MAX` and the sums and
  products `expected_max_size + 1`, `size() + 1`, `bucket_count() * 3`,
  `ind + probing.next()` and `ind * ind` (quadratic probing) stay below `2 ^ 64`. The
  section "`size_t` arithmetic" at the end of the definitions embeds the constructor, the
  probing policies, the probing loops and `rehash` again with every such operation reduced
  modulo `2 ^ 64`; the statements whose content is that arithmetic (the number of buckets
  a constructor or `rehash` produces, the values of `next()`) are made about those
  definitions.
* `std::vector<std::unique_ptr<Bucket>>` is a `List (Option (Bucket K V))`;
  `nullptr` is `none`.
* The hasher, the key-equality predicate and the probing policy are template
  arguments / constant members; they are collected in `Params`.
* The key type's own `operator==` (used by `std::pair` comparison inside the
  container `operator==`) is Lean's `=`; it is a different thing from
  `Params.equal_fn`.
* Loops whose trip count is not syntactically bounded take a fuel argument and
  return `none` when the fuel runs out; `none` is also used for a null
  dereference (undefined behaviour in the source).
-/

namespace OAHash

/-! ## policy.h -/

/-- The two probing policies of `policy.h`. -/
inductive CollisionPolicy where
  | LinearProbing
  | QuadraticProbing
  deriving DecidableEq, Repr

/-- Method `start()`: `ind = 0`. The state of a policy object is its field `ind`. -/
def CollisionPolicy.start (_p : CollisionPolicy) : Nat := 0

/-- Method `next()`: takes the state `ind`, returns the new state and the returned offset.
`LinearProbing`: `return ++ind;`  `QuadraticProbing`: `++ind; return ind * ind;`.
Computed in `Nat`; `CollisionPolicy.nextW` below is the method on `size_t`, and the two agree
as long as the returned offset does not exceed `SIZE_MAX`. -/
def CollisionPolicy.next : CollisionPolicy → Nat → Nat × Nat
  | .LinearProbing, ind => (ind + 1, ind + 1)
  | .QuadraticProbing, ind => (ind + 1, (ind + 1) * (ind + 1))

/-! ## hash_map.h : data -/

/-- `struct Bucket { value_type value; bool is_deleted; }` with `value = (first, second)`. -/
structure Bucket (K V : Type) where
  first : K
  second : V
  is_deleted : Bool
  deriving DecidableEq, Repr

/-- Template arguments and constant members: `hash_fn`, `equal_fn`, `CollisionPolicy`,
and the value produced by `mapped_type()`. -/
structure Params (K V : Type) where
  hash_fn : K → Nat
  equal_fn : K → K → Bool
  policy : CollisionPolicy
  mapped_default : V

/-- The mutable members of `HashMap`: `data`, `el_count`, `del_count`. -/
structure HashMap (K V : Type) where
  data : List (Option (Bucket K V))
  el_count : Nat
  del_count : Nat
  deriving DecidableEq, Repr

/-- Constructor `HashMap(expected_max_size)`: pushes `expected_max_size + 1` null slots, the
bound computed in `Nat`; `HashMap.newW` below computes it in `size_t`, and the two agree for
`expected_max_size < SIZE_MAX`. -/
def HashMap.new {K V : Type} (expected_max_size : Nat) : HashMap K V :=
  { data := List.replicate (expected_max_size + 1) none, el_count := 0, del_count := 0 }

/-- Method `bucket_count()`. -/
def HashMap.bucket_count {K V : Type} (m : HashMap K V) : Nat := m.data.length

/-- Method `size()`. -/
def HashMap.size {K V : Type} (m : HashMap K V) : Nat := m.el_count

/-- Method `bucket(key)`: `hash_fn(key) % bucket_count()`. -/
def bucket {K V : Type} (c : Params K V) (m : HashMap K V) (key : K) : Nat :=
  c.hash_fn key % m.bucket_count

/-- Read of `data[i]` (a null slot and an index outside the array both give `none`;
every index the code computes is reduced modulo the array length). -/
def slot {K V : Type} (data : List (Option (Bucket K V))) (i : Nat) : Option (Bucket K V) :=
  data.getD i none

/-- Negation of the scan test `data[i].get() == nullptr || data[i]->is_deleted`. -/
def isLive {K V : Type} (data : List (Option (Bucket K V))) (i : Nat) : Bool :=
  match slot data i with
  | none => false
  | some b => !b.is_deleted

/-! ## hash_map.h : iterators -/

/-- The fields of `Iterator` / `ConstIterator` other than the pointer `values`. -/
structure Iterator where
  current : Nat
  starting_pos : Nat
  iterator_end : Bool
  element_order : List Nat
  is_ordered : Bool
  deriving DecidableEq, Repr

/-- Default constructor `Iterator()`: the end iterator. -/
def Iterator.endIt : Iterator :=
  { current := 0, starting_pos := 0, iterator_end := true, element_order := [], is_ordered := false }

/-- Copy constructor: copies `current`, `starting_pos`, `iterator_end`; sets `is_ordered(false)`
and leaves `element_order` empty. -/
def Iterator.copy (other : Iterator) : Iterator :=
  { current := other.current, starting_pos := other.starting_pos,
    iterator_end := other.iterator_end, element_order := [], is_ordered := false }

/-- Iterator `operator==`:
`it1.iterator_end ? it2.iterator_end : !it2.iterator_end && it1.current == it2.current`. -/
def Iterator.eq (it1 it2 : Iterator) : Bool :=
  if it1.iterator_end then it2.iterator_end
  else !it2.iterator_end && it1.current == it2.current

/-- The `while` loop of the scanning constructor (lines 90-96), with fuel:
`while (null or deleted at current) { current = (current + 1) % size;
 if (current == starting_pos) { iterator_end = true; break; } }`.
Returns the final `(current, iterator_end)`. -/
def Iterator.ctorLoop {K V : Type} (data : List (Option (Bucket K V))) (starting_pos : Nat) :
    Nat → Nat → Option (Nat × Bool)
  | 0, current => if isLive data current then some (current, false) else none
  | fuel + 1, current =>
    if isLive data current then some (current, false)
    else
      let current1 := (current + 1) % data.length
      if current1 = starting_pos then some (current1, true)
      else Iterator.ctorLoop data starting_pos fuel current1

/-- Scanning constructor `Iterator(cont, ind)` (lines 84-98). -/
def Iterator.ofIndex {K V : Type} (data : List (Option (Bucket K V))) (ind : Nat) :
    Option Iterator :=
  if ind ≥ data.length then
    some { current := ind, starting_pos := ind, iterator_end := true,
           element_order := [], is_ordered := false }
  else
    (Iterator.ctorLoop data ind data.length ind).map fun r =>
      { current := r.1, starting_pos := ind, iterator_end := r.2,
        element_order := [], is_ordered := false }

/-- The `do ... while` loop of `operator++` (lines 133-139), with fuel. -/
def Iterator.incLoop {K V : Type} (data : List (Option (Bucket K V))) (starting_pos : Nat) :
    Nat → Nat → Option (Nat × Bool)
  | 0, _ => none
  | fuel + 1, current =>
    let current1 := (current + 1) % data.length
    if current1 = starting_pos then some (current1, true)
    else if isLive data current1 then some (current1, false)
    else Iterator.incLoop data starting_pos fuel current1

/-- Pre-increment `operator++` (lines 123-143). -/
def Iterator.next {K V : Type} (data : List (Option (Bucket K V))) (it : Iterator) :
    Option Iterator :=
  if it.iterator_end then some it
  else if it.is_ordered then
    match it.element_order.getLast? with
    | none => some { it with iterator_end := true }
    | some last => some { it with current := last, element_order := it.element_order.dropLast }
  else
    (Iterator.incLoop data it.starting_pos data.length it.current).map fun r =>
      { it with current := r.1, iterator_end := r.2 }

/-- Dereference `operator*` (lines 109-114): `none` models the thrown `std::out_of_range`
(end iterator) and a null slot. -/
def Iterator.deref {K V : Type} (data : List (Option (Bucket K V))) (it : Iterator) :
    Option (K × V) :=
  if it.iterator_end then none
  else (slot data it.current).map fun b => (b.first, b.second)

/-- Method `begin()` / `cbegin()`: `iterator(&data)` with the default index 0. -/
def HashMap.begin {K V : Type} (m : HashMap K V) : Option Iterator :=
  Iterator.ofIndex m.data 0

/-! ## hash_map.h : lookup -/

/-- The `for` loop of `find` (lines 872-884); the first argument counts the remaining
iterations, `ps` is the state of `probing_local`. Falling out of the loop returns
`iterator()`. -/
def findLoop {K V : Type} (c : Params K V) (data : List (Option (Bucket K V))) (key : K)
    (ind : Nat) : Nat → Nat → Nat → Option Iterator
  | 0, _, _ => some Iterator.endIt
  | n + 1, cur, ps =>
    match slot data cur with
    | none => some Iterator.endIt
    | some b =>
      if c.equal_fn b.first key then
        if b.is_deleted then some Iterator.endIt else Iterator.ofIndex data cur
      else
        findLoop c data key ind n ((ind + (c.policy.next ps).2) % data.length)
          (c.policy.next ps).1

/-- Method `find(key)` (lines 867-886). -/
def find {K V : Type} (c : Params K V) (m : HashMap K V) (key : K) : Option Iterator :=
  findLoop c m.data key (bucket c m key) m.bucket_count (bucket c m key) c.policy.start

/-- Method `contains(key)`: `find(key) != cend()`. -/
def contains {K V : Type} (c : Params K V) (m : HashMap K V) (key : K) : Option Bool :=
  (find c m key).map fun it => !(Iterator.eq it Iterator.endIt)

/-! ## hash_map.h : the probing loop of the insert family -/

/-- Outcome of the `for (i = 0; i < bucket_count() / 2; ++i)` loop shared by
`force_insert_ptr`, `emplace`, `insert_or_assign`, `try_emplace` and `operator[]`:
the loop leaves at the first inspected slot that is null (`empty`) or holds an equal key
(`tomb` when `is_deleted`, `live` otherwise), or runs out of iterations (`exhausted`). -/
inductive ProbeResult where
  | empty (cur : Nat)
  | tomb (cur : Nat)
  | live (cur : Nat)
  | exhausted
  deriving DecidableEq, Repr

/-- The shared probing loop; the first numeric argument counts the remaining iterations,
`ps` is the state of the member `probing`. -/
def probe {K V : Type} (c : Params K V) (data : List (Option (Bucket K V))) (key : K)
    (ind : Nat) : Nat → Nat → Nat → ProbeResult
  | 0, _, _ => .exhausted
  | n + 1, cur, ps =>
    match slot data cur with
    | none => .empty cur
    | some b =>
      if c.equal_fn b.first key then
        if b.is_deleted then .tomb cur else .live cur
      else
        probe c data key ind n ((ind + (c.policy.next ps).2) % data.length)
          (c.policy.next ps).1

/-- One pass of the probing loop as the insert family starts it:
`ind = bucket(key); probing.start(); cur = ind;` with budget `bucket_count() / 2`. -/
def probeKey {K V : Type} (c : Params K V) (m : HashMap K V) (key : K) : ProbeResult :=
  probe c m.data key (bucket c m key) (m.bucket_count / 2) (bucket c m key) c.policy.start

/-! ## hash_map.h : rehash -/

/-- Move assignment `operator=(HashMap&&)` (lines 362-377): `el_count` is taken over,
`del_count = 0`, and only the slots that are non-null and not deleted are moved. -/
def moveAssign {K V : Type} (other : HashMap K V) : HashMap K V :=
  { data := other.data.map fun s =>
      match s with
      | some b => if b.is_deleted then none else some b
      | none => none,
    el_count := other.el_count,
    del_count := 0 }

/-- The `while (true)` loop of `force_insert_ptr` (lines 420-440); `rh` is `rehash`. -/
def forceInsertLoop {K V : Type} (rh : HashMap K V → Nat → Option (HashMap K V))
    (c : Params K V) (ptr : Bucket K V) : Nat → HashMap K V → Option (HashMap K V)
  | 0, _ => none
  | w + 1, t =>
    match probeKey c t ptr.first with
    | .empty cur =>
      some { t with el_count := t.el_count + 1, data := t.data.set cur (some ptr) }
    | .tomb cur =>
      some { t with del_count := t.del_count - 1, el_count := t.el_count + 1,
                    data := t.data.set cur (some ptr) }
    | .live cur => some { t with data := t.data.set cur (some ptr) }
    | .exhausted => (rh t (t.bucket_count * 3)).bind (forceInsertLoop rh c ptr w)

/-- Method `force_insert_ptr` (lines 418-441): `reserve(size() + 1)` then the loop. -/
def forceInsertPtr {K V : Type} (rh : HashMap K V → Nat → Option (HashMap K V))
    (c : Params K V) (w : Nat) (t : HashMap K V) (ptr : Bucket K V) : Option (HashMap K V) :=
  (rh t (t.size + 1)).bind (forceInsertLoop rh c ptr w)

/-- The migration loop of `rehash` (lines 1043-1045):
`for (it = begin(); it != end(); ++it) t.force_insert_ptr(std::move(data[it.current]));`
The state is the source array (slots are moved out, leaving null), the new table and the
iterator. -/
def rehashLoop {K V : Type} (rh : HashMap K V → Nat → Option (HashMap K V))
    (c : Params K V) (w : Nat) :
    Nat → List (Option (Bucket K V)) → HashMap K V → Iterator → Option (HashMap K V)
  | 0, _, _, _ => none
  | f + 1, data, t, it =>
    if it.iterator_end then some t
    else
      match slot data it.current with
      | none => none
      | some b =>
        (forceInsertPtr rh c w t b).bind fun t1 =>
          (Iterator.next (data.set it.current none) it).bind fun it1 =>
            rehashLoop rh c w f (data.set it.current none) t1 it1

/-- Method `rehash(count)` (lines 1040-1048). The fuel bounds the nesting depth of
`rehash` inside `force_insert_ptr` and the number of rounds of its `while (true)` loop. -/
def rehash {K V : Type} (c : Params K V) : Nat → HashMap K V → Nat → Option (HashMap K V)
  | 0, m, count =>
    if count > m.bucket_count ∨ m.del_count > m.size then none else some m
  | fuel + 1, m, count =>
    if count > m.bucket_count ∨ m.del_count > m.size then
      (m.begin).bind fun it =>
        (rehashLoop (rehash c fuel) c fuel (m.bucket_count + 1) m.data
          (HashMap.new (max m.bucket_count count)) it).map moveAssign
    else some m

/-- Method `reserve(count)`: `rehash(count)`. -/
def reserve {K V : Type} (c : Params K V) (fuel : Nat) (m : HashMap K V) (count : Nat) :
    Option (HashMap K V) :=
  rehash c fuel m count

/-- Method `force_insert_ptr` with `rehash` instantiated. -/
def force_insert_ptr {K V : Type} (c : Params K V) (fuel : Nat) (t : HashMap K V)
    (ptr : Bucket K V) : Option (HashMap K V) :=
  forceInsertPtr (rehash c fuel) c fuel t ptr

/-! ## hash_map.h : the insert family -/

/-- The `while (true)` loop of `emplace` (lines 627-649); `link` is the bucket built from
the arguments. Returns the new state, the returned iterator and the `bool`. -/
def emplaceLoop {K V : Type} (c : Params K V) (fuel : Nat) (link : Bucket K V) :
    Nat → HashMap K V → Option (HashMap K V × Iterator × Bool)
  | 0, _ => none
  | w + 1, m =>
    match probeKey c m link.first with
    | .empty cur =>
      let m1 : HashMap K V :=
        { m with el_count := m.el_count + 1, data := m.data.set cur (some link) }
      (Iterator.ofIndex m1.data cur).map fun it => (m1, it, true)
    | .tomb cur =>
      let m1 : HashMap K V :=
        { m with del_count := m.del_count - 1, el_count := m.el_count + 1,
                 data := m.data.set cur (some link) }
      (Iterator.ofIndex m1.data cur).map fun it => (m1, it, true)
    | .live cur => (Iterator.ofIndex m.data cur).map fun it => (m, it, false)
    | .exhausted => (rehash c fuel m (m.bucket_count * 3)).bind (emplaceLoop c fuel link w)

/-- Method `emplace(args...)` (lines 623-650) with `args = (key, value)`. -/
def emplace {K V : Type} (c : Params K V) (fuel : Nat) (m : HashMap K V) (key : K)
    (value : V) : Option (HashMap K V × Iterator × Bool) :=
  (reserve c fuel m (m.size + 1)).bind
    (emplaceLoop c fuel { first := key, second := value, is_deleted := false } fuel)

/-- Method `insert(const value_type&)` (lines 444-446): `return emplace(inserted_value)`. -/
def insert {K V : Type} (c : Params K V) (fuel : Nat) (m : HashMap K V) (kv : K × V) :
    Option (HashMap K V × Iterator × Bool) :=
  emplace c fuel m kv.1 kv.2

/-- The `while (true)` loop of `insert_or_assign(const key_type&, M&&)` (lines 486-509). -/
def insertOrAssignLoop {K V : Type} (c : Params K V) (fuel : Nat) (key : K) (value : V) :
    Nat → HashMap K V → Option (HashMap K V × Iterator × Bool)
  | 0, _ => none
  | w + 1, m =>
    match probeKey c m key with
    | .empty cur =>
      let m1 : HashMap K V :=
        { m with el_count := m.el_count + 1,
                 data := m.data.set cur
                   (some { first := key, second := value, is_deleted := false }) }
      (Iterator.ofIndex m1.data cur).map fun it => (m1, it, true)
    | .tomb cur =>
      let m1 : HashMap K V :=
        { m with del_count := m.del_count - 1, el_count := m.el_count + 1,
                 data := m.data.set cur
                   (some { first := key, second := value, is_deleted := false }) }
      (Iterator.ofIndex m1.data cur).map fun it => (m1, it, true)
    | .live cur =>
      let m1 : HashMap K V :=
        { m with data := m.data.set cur
                   ((slot m.data cur).map fun b => { b with second := value }) }
      (Iterator.ofIndex m1.data cur).map fun it => (m1, it, false)
    | .exhausted =>
      (rehash c fuel m (m.bucket_count * 3)).bind (insertOrAssignLoop c fuel key value w)

/-- Method `insert_or_assign(key, value)` (lines 483-510). -/
def insert_or_assign {K V : Type} (c : Params K V) (fuel : Nat) (m : HashMap K V) (key : K)
    (value : V) : Option (HashMap K V × Iterator × Bool) :=
  (reserve c fuel m (m.size + 1)).bind (insertOrAssignLoop c fuel key value fuel)

/-- The `while (true)` loop of `operator[](const key_type&)` (lines 944-966); the returned
reference is modelled by the value it refers to. -/
def indexLoop {K V : Type} (c : Params K V) (fuel : Nat) (key : K) :
    Nat → HashMap K V → Option (HashMap K V × V)
  | 0, _ => none
  | w + 1, m =>
    match probeKey c m key with
    | .empty cur =>
      some ({ m with el_count := m.el_count + 1,
                     data := m.data.set cur
                       (some { first := key, second := c.mapped_default, is_deleted := false }) },
            c.mapped_default)
    | .tomb cur =>
      some ({ m with del_count := m.del_count - 1, el_count := m.el_count + 1,
                     data := m.data.set cur
                       (some { first := key, second := c.mapped_default, is_deleted := false }) },
            c.mapped_default)
    | .live cur => (slot m.data cur).map fun b => (m, b.second)
    | .exhausted => (rehash c fuel m (m.bucket_count * 3)).bind (indexLoop c fuel key w)

/-- Method `operator[](key)` (lines 942-967). -/
def index {K V : Type} (c : Params K V) (fuel : Nat) (m : HashMap K V) (key : K) :
    Option (HashMap K V × V) :=
  (reserve c fuel m (m.size + 1)).bind (indexLoop c fuel key fuel)

/-! ## hash_map.h : erase -/

/-- Method `erase(const_iterator pos)` (lines 836-844). The parameter is passed by value,
so the iterator that is advanced and returned is a copy. -/
def eraseAt {K V : Type} (m : HashMap K V) (pos : Iterator) :
    Option (HashMap K V × Iterator) :=
  if pos.iterator_end then some (m, pos.copy)
  else
    match slot m.data pos.current with
    | none => none
    | some b =>
      let m1 : HashMap K V :=
        { data := m.data.set pos.current (some { b with is_deleted := true }),
          del_count := m.del_count + 1,
          el_count := m.el_count - 1 }
      (Iterator.next m1.data pos.copy).map fun it => (m1, it)

/-- The `for` loop of `erase(const key_type&)` (lines 856-859), with fuel:
`for (it = find(key); it != end(); it = find(key)) { erase(it); ++counter; }`. -/
def eraseLoop {K V : Type} (c : Params K V) (key : K) :
    Nat → HashMap K V → Nat → Option (HashMap K V × Nat)
  | 0, _, _ => none
  | f + 1, m, counter =>
    match find c m key with
    | none => none
    | some it =>
      if it.iterator_end then some (m, counter)
      else (eraseAt m it).bind fun r => eraseLoop c key f r.1 (counter + 1)

/-- Method `erase(const key_type&)` (lines 854-861). -/
def erase {K V : Type} (c : Params K V) (fuel : Nat) (m : HashMap K V) (key : K) :
    Option (HashMap K V × Nat) :=
  eraseLoop c key fuel m 0

/-! ## hash_map.h : copy and comparison -/

/-- The second loop of the copy constructor (lines 318-320):
`for (it = other.cbegin(); it != other.cend(); ++it)
   data[it.current] = std::make_unique<Bucket>(*it);`. -/
def copyLoop {K V : Type} (other : HashMap K V) :
    Nat → List (Option (Bucket K V)) → Iterator → Option (List (Option (Bucket K V)))
  | 0, _, _ => none
  | f + 1, data, it =>
    if it.iterator_end then some data
    else
      match Iterator.deref other.data it with
      | none => none
      | some kv =>
        (Iterator.next other.data it).bind
          (copyLoop other f
            (data.set it.current (some { first := kv.1, second := kv.2, is_deleted := false })))

/-- Copy constructor `HashMap(const HashMap&)` (lines 309-321); copy assignment
(lines 347-360) has the same body. -/
def copyConstruct {K V : Type} (other : HashMap K V) : Option (HashMap K V) :=
  (other.begin).bind fun it =>
    (copyLoop other (other.bucket_count + 1) (List.replicate other.bucket_count none) it).map
      fun d => { data := d, el_count := other.el_count, del_count := other.del_count }

/-- Copy assignment `operator=(const HashMap&)` (lines 347-360). -/
def copyAssign {K V : Type} (_self other : HashMap K V) : Option (HashMap K V) :=
  copyConstruct other

/-- One of the two loops of `operator==` (lines 1055-1060): every element of `first` must be
found in `second` and compare equal as a `std::pair` (the key type's `==`, not `equal_fn`). -/
def subsetLoop {K V : Type} [DecidableEq K] [DecidableEq V] (c : Params K V)
    (first second : HashMap K V) : Nat → Iterator → Option Bool
  | 0, _ => none
  | f + 1, it =>
    if it.iterator_end then some true
    else
      match Iterator.deref first.data it with
      | none => none
      | some kv =>
        match find c second kv.1 with
        | none => none
        | some el =>
          if el.iterator_end then some false
          else
            match Iterator.deref second.data el with
            | none => none
            | some kv2 =>
              if kv2 ≠ kv then some false
              else (Iterator.next first.data it).bind (subsetLoop c first second f)

/-- Friend `operator==(first, second)` (lines 1054-1068). -/
def mapEq {K V : Type} [DecidableEq K] [DecidableEq V] (c : Params K V)
    (first second : HashMap K V) : Option Bool :=
  (first.begin).bind fun it1 =>
    (subsetLoop c first second (first.bucket_count + 1) it1).bind fun r1 =>
      if r1 = false then some false
      else (second.begin).bind fun it2 =>
        subsetLoop c second first (second.bucket_count + 1) it2

/-! ## Abstract model (from the spec): a finite key-value association -/

/-- Value associated with `k` in the abstract association list. -/
def absFind {K V : Type} (c : Params K V) (a : List (K × V)) (k : K) : Option V :=
  (a.find? fun p => c.equal_fn p.1 k).map fun p => p.2

/-- Abstract `insert`: no effect when the key is present, otherwise adds the pair. -/
def absInsert {K V : Type} (c : Params K V) (a : List (K × V)) (k : K) (v : V) :
    List (K × V) :=
  if (absFind c a k).isSome then a else (k, v) :: a

/-- Abstract `insert_or_assign`: overwrites the value when the key is present, otherwise adds
the pair. -/
def absAssign {K V : Type} (c : Params K V) (a : List (K × V)) (k : K) (v : V) :
    List (K × V) :=
  if (absFind c a k).isSome then a.map fun p => if c.equal_fn p.1 k then (p.1, v) else p
  else (k, v) :: a

/-- Abstract `erase`: removes the key. -/
def absErase {K V : Type} (c : Params K V) (a : List (K × V)) (k : K) : List (K × V) :=
  a.filter fun p => !c.equal_fn p.1 k

/-- The mutating public operations considered for reachability. -/
inductive Op (K V : Type) where
  | insert (k : K) (v : V)
  | insert_or_assign (k : K) (v : V)
  | index (k : K)
  | erase (k : K)
  | rehash (n : Nat)

/-- Effect of an operation on the concrete state. -/
def applyOp {K V : Type} (c : Params K V) (fuel : Nat) (m : HashMap K V) :
    Op K V → Option (HashMap K V)
  | .insert k v => (insert c fuel m (k, v)).map fun r => r.1
  | .insert_or_assign k v => (insert_or_assign c fuel m k v).map fun r => r.1
  | .index k => (index c fuel m k).map fun r => r.1
  | .erase k => (erase c fuel m k).map fun r => r.1
  | .rehash n => rehash c fuel m n

/-- Effect of an operation on the abstract association. -/
def absApply {K V : Type} (c : Params K V) (a : List (K × V)) : Op K V → List (K × V)
  | .insert k v => absInsert c a k v
  | .insert_or_assign k v => absAssign c a k v
  | .index k => absInsert c a k c.mapped_default
  | .erase k => absErase c a k
  | .rehash _ => a

/-- States reachable from a freshly constructed map, paired with the abstract association
that the same operations build. -/
inductive Reachable {K V : Type} (c : Params K V) : HashMap K V → List (K × V) → Prop where
  | init (hint : Nat) : Reachable c (HashMap.new hint) []
  | step {m m1 : HashMap K V} {a : List (K × V)} (op : Op K V) (fuel : Nat) :
      Reachable c m a → applyOp c fuel m op = some m1 → Reachable c m1 (absApply c a op)

/-- Requirements on the collaborators (spec section 6): `equal_fn` is an equivalence
relation and equal keys have equal hashes. -/
structure Params.Lawful {K V : Type} (c : Params K V) : Prop where
  refl : ∀ a, c.equal_fn a a = true
  symm : ∀ a b, c.equal_fn a b = true → c.equal_fn b a = true
  trans : ∀ a b d, c.equal_fn a b = true → c.equal_fn b d = true → c.equal_fn a d = true
  hash_eq : ∀ a b, c.equal_fn a b = true → c.hash_fn a = c.hash_fn b

/-- Value found for `key`: `find` followed by a dereference (`none` when `find` gives
`end()`). -/
def lookup {K V : Type} (c : Params K V) (m : HashMap K V) (key : K) : Option V :=
  match find c m key with
  | none => none
  | some it => (Iterator.deref m.data it).map fun kv => kv.2

/-- Parameters used for concrete runs: identity hasher, `==` on keys. -/
def natParams (p : CollisionPolicy) : Params Nat Char :=
  { hash_fn := fun k => k, equal_fn := fun a b => a == b, policy := p, mapped_default := ' ' }

/-! ## Specification vocabulary: probe sequences, slot counts, invariant -/

/-- Closed form of the offset used at probe step `s`: `0` at step 0, then the `s`-th value of
`next()` after `start()`. -/
def offset (p : CollisionPolicy) (s : Nat) : Nat :=
  match p with
  | .LinearProbing => s
  | .QuadraticProbing => s * s

/-- The slot inspected at step `s` of the probe sequence of `key` in a table of `B` buckets. -/
def probePos {K V : Type} (c : Params K V) (B : Nat) (key : K) (s : Nat) : Nat :=
  (c.hash_fn key % B + offset c.policy s) % B

/-- Every probe step `lo ≤ j < hi` of `key` hits a non-null slot holding a different key. -/
def Blocked {K V : Type} (c : Params K V) (data : List (Option (Bucket K V))) (key : K)
    (lo hi : Nat) : Prop :=
  ∀ j, lo ≤ j → j < hi →
    ∃ b, slot data (probePos c data.length key j) = some b ∧ c.equal_fn b.first key = false

/-- Slot `i` is a TOMBSTONE: non-null with `is_deleted`. -/
def isTomb {K V : Type} (data : List (Option (Bucket K V))) (i : Nat) : Bool :=
  match slot data i with
  | none => false
  | some b => b.is_deleted

/-- Number of LIVE slots with index below `n`. -/
def countLiveBelow {K V : Type} (data : List (Option (Bucket K V))) (n : Nat) : Nat :=
  ((Finset.range n).filter fun i => isLive data i = true).card

/-- Number of LIVE slots. -/
def countLive {K V : Type} (data : List (Option (Bucket K V))) : Nat :=
  countLiveBelow data data.length

/-- Number of TOMBSTONE slots. -/
def countTomb {K V : Type} (data : List (Option (Bucket K V))) : Nat :=
  ((Finset.range data.length).filter fun i => isTomb data i = true).card

/-- The table invariant: at least one bucket, exact counters, and every non-null slot lies on
the probe sequence of its key within the insertion budget, behind slots that are non-null and
hold different keys. -/
structure Inv {K V : Type} (c : Params K V) (m : HashMap K V) : Prop where
  pos : 0 < m.data.length
  el : m.el_count = countLive m.data
  del : m.del_count = countTomb m.data
  path : ∀ i b, slot m.data i = some b →
    ∃ s, s < m.data.length / 2 ∧ probePos c m.data.length b.first s = i ∧
      Blocked c m.data b.first 0 s

/-- Bucket `b` is stored in a LIVE slot of `m`. -/
def LiveB {K V : Type} (m : HashMap K V) (b : Bucket K V) : Prop :=
  ∃ i, slot m.data i = some b ∧ b.is_deleted = false

/-- No slot of `m` is a TOMBSTONE. -/
def NoTomb {K V : Type} (m : HashMap K V) : Prop :=
  ∀ i b, slot m.data i = some b → b.is_deleted = false

/-- No slot of `m` (LIVE or TOMBSTONE) holds a key equal to `key`. -/
def KeyFree {K V : Type} (c : Params K V) (m : HashMap K V) (key : K) : Prop :=
  ∀ i b, slot m.data i = some b → c.equal_fn b.first key = false

/-! ## hash_map.h : clear, at, traversal -/

/-- Method `clear()` (lines 998-1002): `data.clear(); el_count = 0; del_count = 0;`. -/
def clear {K V : Type} (_m : HashMap K V) : HashMap K V :=
  { data := [], el_count := 0, del_count := 0 }

/-- Ways a dereference can go wrong: the thrown `std::out_of_range`, and the dereference of a
null `unique_ptr` (undefined behaviour in the source). -/
inductive Fault where
  | out_of_range
  | null_deref
  deriving DecidableEq, Repr

/-- Dereference `operator*` / `operator->` (lines 109-121) with the two failure modes kept
apart. -/
def Iterator.derefE {K V : Type} (data : List (Option (Bucket K V))) (it : Iterator) :
    Except Fault (K × V) :=
  if it.iterator_end then .error .out_of_range
  else
    match slot data it.current with
    | none => .error .null_deref
    | some b => .ok (b.first, b.second)

/-- Method `at(key)` (lines 933-939): `return (*find(key)).second;`. -/
def atKey {K V : Type} (c : Params K V) (m : HashMap K V) (key : K) : Except Fault V :=
  match find c m key with
  | none => .error .null_deref
  | some it => (Iterator.derefE m.data it).map fun kv => kv.2

/-- The loop `for (it = begin(); it != end(); ++it)` collecting the visited slot indices;
the first argument bounds the number of iterations. -/
def traverseLoop {K V : Type} (data : List (Option (Bucket K V))) :
    Nat → Iterator → Option (List Nat)
  | 0, _ => none
  | f + 1, it =>
    if it.iterator_end then some []
    else (Iterator.next data it).bind fun it1 =>
      (traverseLoop data f it1).map fun l => it.current :: l

/-- Slot indices visited by a traversal from `begin()` to `end()`. -/
def traverse {K V : Type} (m : HashMap K V) : Option (List Nat) :=
  (m.begin).bind (traverseLoop m.data (m.bucket_count + 1))

/-- Successive `insert` calls for the pairs of a list, front to back. -/
def insertAll {K V : Type} (c : Params K V) (fuel : Nat) :
    HashMap K V → List (K × V) → Option (HashMap K V)
  | m, [] => some m
  | m, kv :: rest => (insert c fuel m kv).bind fun r => insertAll c fuel r.1 rest

/-- The iterator that `find` returns for a key stored in the LIVE slot `cur`. -/
def liveIt (cur : Nat) : Iterator :=
  { current := cur, starting_pos := cur, iterator_end := false, element_order := [],
    is_ordered := false }

/-- The LIVE slot indices from `p` upwards, in increasing order. -/
def liveFrom {K V : Type} (data : List (Option (Bucket K V))) (p : Nat) : List Nat :=
  (List.range' p (data.length - p)).filter fun i => isLive data i

/-- The iterator of a traversal started by `begin()` that still has the slots `l` to visit. -/
def itOf (l : List Nat) : Iterator :=
  match l with
  | [] => { current := 0, starting_pos := 0, iterator_end := true, element_order := [],
            is_ordered := false }
  | q :: _ => { current := q, starting_pos := 0, iterator_end := false, element_order := [],
                is_ordered := false }

/-- A bucket count from which a table with `M` non-null slots cannot exhaust the probe
budget: the first `M + 1` probe offsets are then distinct, below the bucket count and within
the budget. -/
def Thr (M : Nat) : Nat := M * M + 2 * M + 2

/-- Fuel that suffices for `rehash` on a table with at most `N` LIVE slots. -/
def need (N : Nat) : Nat := Thr N + N + 2

/-- What `rehash(count)` establishes, from state `m` to state `r`. -/
structure RehashPost {K V : Type} (c : Params K V) (m : HashMap K V) (count : Nat)
    (r : HashMap K V) : Prop where
  inv : Inv c r
  live : ∀ b, LiveB r b ↔ LiveB m b
  el : r.el_count = m.el_count
  same : ¬(count > m.bucket_count ∨ m.del_count > m.size) → r = m
  fresh : (count > m.bucket_count ∨ m.del_count > m.size) →
    NoTomb r ∧ max m.data.length count + 1 ≤ r.data.length

/-- The function `rh` behaves as `rehash` on every table with at most `N` LIVE slots. -/
def RhOK {K V : Type} (c : Params K V) (rh : HashMap K V → Nat → Option (HashMap K V))
    (N : Nat) : Prop :=
  ∀ t count, Inv c t → countLive t.data ≤ N → ∃ r, rh t count = some r ∧ RehashPost c t count r

/-- What a call of the insert family for the bucket `link` establishes, from state `m` to
state `r`; `upd` is what the call does to a LIVE bucket with an equal key (nothing for
`insert`, `emplace` and `operator[]`, the assignment for `insert_or_assign`). -/
structure InsPost {K V : Type} (c : Params K V) (upd : Bucket K V → Bucket K V)
    (m : HashMap K V) (link : Bucket K V) (r : HashMap K V) : Prop where
  inv : Inv c r
  present : ∀ b0, LiveB m b0 → c.equal_fn b0.first link.first = true →
    (∀ x, LiveB r x ↔ ∃ b, LiveB m b ∧
      x = if c.equal_fn b.first link.first = true then upd b else b) ∧
    r.el_count = m.el_count
  absent : (∀ b, LiveB m b → c.equal_fn b.first link.first = false) →
    (∀ x, LiveB r x ↔ (LiveB m x ∨ x = link)) ∧ r.el_count = m.el_count + 1
  noTomb : NoTomb m → NoTomb r
  len : m.data.length ≤ r.data.length

/-- What `insert_or_assign(key, value)` does to a LIVE bucket with an equal key. -/
def assignTo {K V : Type} (value : V) (b : Bucket K V) : Bucket K V :=
  { b with second := value }

/-- Post-condition of `emplace` / `insert` / `insert_or_assign` on their result
`(state, iterator, inserted)`. -/
def InsRes {K V : Type} (c : Params K V) (upd : Bucket K V → Bucket K V) (m : HashMap K V)
    (link : Bucket K V) (r : HashMap K V × Iterator × Bool) : Prop :=
  InsPost c upd m link r.1 ∧
  (∃ j b, r.2.1 = liveIt j ∧ slot r.1.data j = some b ∧ b.is_deleted = false ∧
    c.equal_fn b.first link.first = true) ∧
  (r.2.2 = true ↔ ∀ b, LiveB m b → c.equal_fn b.first link.first = false)

/-- Post-condition of `operator[]` on its result `(state, value referred to)`. -/
def IdxRes {K V : Type} (c : Params K V) (m : HashMap K V) (key : K)
    (r : HashMap K V × V) : Prop :=
  InsPost c id m { first := key, second := c.mapped_default, is_deleted := false } r.1 ∧
  ∃ j b, slot r.1.data j = some b ∧ b.is_deleted = false ∧
    c.equal_fn b.first key = true ∧ r.2 = b.second

/-- Post-condition of `erase(key)` on its result `(state, count)`. -/
def ErsRes {K V : Type} (c : Params K V) (m : HashMap K V) (key : K)
    (r : HashMap K V × Nat) : Prop :=
  Inv c r.1 ∧
  (∀ x, LiveB r.1 x ↔ (LiveB m x ∧ c.equal_fn x.first key = false)) ∧
  ((∃ b, LiveB m b ∧ c.equal_fn b.first key = true) →
    r.2 = 1 ∧ r.1.el_count + 1 = m.el_count ∧ r.1.del_count = m.del_count + 1) ∧
  ((∀ b, LiveB m b → c.equal_fn b.first key = false) → r = (m, 0)) ∧
  r.1.data.length = m.data.length

/-- The pair `p` is stored in a LIVE slot of `m`. -/
def LivePair {K V : Type} (m : HashMap K V) (p : K × V) : Prop :=
  LiveB m { first := p.1, second := p.2, is_deleted := false }

/-- The abstraction relation: the table satisfies the invariant, the association has pairwise
different keys, its pairs are exactly the pairs in LIVE slots, and `size()` is its length. -/
structure Agree {K V : Type} (c : Params K V) (m : HashMap K V) (a : List (K × V)) : Prop where
  inv : Inv c m
  distinct : a.Pairwise fun p q => c.equal_fn p.1 q.1 = false
  rel : ∀ p, p ∈ a ↔ LivePair m p
  size : m.el_count = a.length

/-- The association built by successive abstract inserts of the pairs of a list. -/
def absInsertAll {K V : Type} (c : Params K V) (a : List (K × V)) :
    List (K × V) → List (K × V)
  | [] => a
  | kv :: rest => absInsertAll c (absInsert c a kv.1 kv.2) rest

/-- Iterators a container hands out: the default-constructed end iterator, the result of the
scanning constructor (used by `begin()` and `find`), and the result of `++` on such an
iterator. -/
inductive Produced {K V : Type} (data : List (Option (Bucket K V))) : Iterator → Prop where
  | default : Produced data Iterator.endIt
  | scan (ind : Nat) (it : Iterator) : Iterator.ofIndex data ind = some it → Produced data it
  | inc (it it1 : Iterator) : Produced data it → Iterator.next data it = some it1 →
      Produced data it1

/-- Dereference of a `HashSet` iterator (`hash_set.h`, lines 102-114). The set's bucket
`{ key, is_deleted }` is the map's bucket with a unit payload, `first` playing the role of
`key`; the iterator fields are those of the map iterator. -/
def Iterator.derefSetE {K : Type} (data : List (Option (Bucket K Unit))) (it : Iterator) :
    Except Fault K :=
  if it.iterator_end then .error .out_of_range
  else
    match slot data it.current with
    | none => .error .null_deref
    | some b => .ok b.first

/-- Parameters whose equality predicate is coarser than `==` on the keys: keys are equal when
they have the same parity, and the hasher is consistent with that. -/
def parityParams : Params Nat Char :=
  { hash_fn := fun k => k % 2, equal_fn := fun a b => a % 2 == b % 2,
    policy := .LinearProbing, mapped_default := ' ' }

/-! ## Concrete runs -/

/-- Successive operations, front to back. -/
def runOps {K V : Type} (c : Params K V) (fuel : Nat) :
    HashMap K V → List (Op K V) → Option (HashMap K V)
  | m, [] => some m
  | m, op :: rest => (applyOp c fuel m op).bind fun m1 => runOps c fuel m1 rest

/-- The abstract association after successive operations. -/
def absRun {K V : Type} (c : Params K V) : List (K × V) → List (Op K V) → List (K × V)
  | a, [] => a
  | a, op :: rest => absRun c (absApply c a op) rest

/-- Spec scenario 2 with linear probing: hint 3, `insert (0,'a')`, `insert (4,'b')`,
`erase 0`. Slot 0 is a TOMBSTONE on the probe path of key 4, which sits in slot 1. -/
def exTomb : HashMap Nat Char :=
  { data := [some ⟨0, 'a', true⟩, some ⟨4, 'b', false⟩, none, none], el_count := 1,
    del_count := 1 }

/-- Hint 3, `insert (0,'u')`. -/
def exU : HashMap Nat Char :=
  { data := [some ⟨0, 'u', false⟩, none, none, none], el_count := 1, del_count := 0 }

/-- Spec scenario 1 as the code runs it with linear probing: hint 3, `insert (0,'a')`,
`insert (4,'b')`, `insert (8,'c')`. The third insert exhausts the budget of two probes and
rehashes to 13 buckets. -/
def exThree : HashMap Nat Char :=
  { data := [some ⟨0, 'a', false⟩, none, none, none, some ⟨4, 'b', false⟩, none, none, none,
      some ⟨8, 'c', false⟩, none, none, none, none], el_count := 3, del_count := 0 }

/-- The state `exThree` after `erase 0`. -/
def exThreeErased : HashMap Nat Char :=
  { data := [some ⟨0, 'a', true⟩, none, none, none, some ⟨4, 'b', false⟩, none, none, none,
      some ⟨8, 'c', false⟩, none, none, none, none], el_count := 2, del_count := 1 }

/-- What the copy constructor makes of `exTomb`: the TOMBSTONE of slot 0 is not copied, the
counters are. -/
def exCopy : HashMap Nat Char :=
  { data := [none, some ⟨4, 'b', false⟩, none, none], el_count := 1, del_count := 1 }

/-- Hint 3, `insert (0,'a')`, `insert (0,'b')`: the second insert finds key 0 present. -/
def exA0 : HashMap Nat Char :=
  { data := [some ⟨0, 'a', false⟩, none, none, none], el_count := 1, del_count := 0 }

/-- Hint 3, `insert (0,'b')`, `insert (0,'a')`. -/
def exB0 : HashMap Nat Char :=
  { data := [some ⟨0, 'b', false⟩, none, none, none], el_count := 1, del_count := 0 }

/-- Method `empty()`: `size() == 0`. -/
def HashMap.empty {K V : Type} (m : HashMap K V) : Bool := m.size == 0

/-- States reachable when `clear()` is among the operations. After `clear()` the bucket array
is empty; `erase(key)` (through `find`) then evaluates `hash_fn(key) % 0`, which is undefined
in the source, so such a step is not part of the relation. -/
inductive ReachC {K V : Type} (c : Params K V) : HashMap K V → Prop where
  | init (hint : Nat) : ReachC c (HashMap.new hint)
  | clear {m : HashMap K V} : ReachC c m → ReachC c (clear m)
  | step {m m1 : HashMap K V} (op : Op K V) (fuel : Nat) :
      ReachC c m → (m.bucket_count = 0 → ∀ k, op ≠ Op.erase k) →
      applyOp c fuel m op = some m1 → ReachC c m1

/-- The state `exThree` after `erase 0` and `erase 4`: one LIVE slot, two TOMBSTONEs. -/
def exTwoErased : HashMap Nat Char :=
  { data := [some ⟨0, 'a', true⟩, none, none, none, some ⟨4, 'b', true⟩, none, none, none,
      some ⟨8, 'c', false⟩, none, none, none, none], el_count := 1, del_count := 2 }

/-! ## The probe sequence as the loops walk it -/

/-- State of a policy object after `start()` and `s` calls of `next()`. -/
def policyState (p : CollisionPolicy) : Nat → Nat
  | 0 => p.start
  | s + 1 => (p.next (policyState p s)).1

/-- The value returned by the `s`-th call of `next()` after `start()` (`s` counted from 1). -/
def nthNext (p : CollisionPolicy) (s : Nat) : Nat := (p.next (policyState p (s - 1))).2

/-- The slot indices `cur` at which a probing loop reads `data[cur]`, in order: the loop of
`find` (budget `bucket_count()`) and of the insert family (budget `bucket_count() / 2`) with
the index recorded at every iteration. The loop goes on to the next iteration exactly when
the slot is non-null and holds a different key. -/
def probeTrace {K V : Type} (c : Params K V) (data : List (Option (Bucket K V))) (key : K)
    (ind : Nat) : Nat → Nat → Nat → List Nat
  | 0, _, _ => []
  | n + 1, cur, ps =>
    cur :: (match slot data cur with
      | none => []
      | some b =>
        if c.equal_fn b.first key then []
        else
          probeTrace c data key ind n ((ind + (c.policy.next ps).2) % data.length)
            (c.policy.next ps).1)

/-- Slots read by `find(key)`. -/
def findTrace {K V : Type} (c : Params K V) (m : HashMap K V) (key : K) : List Nat :=
  probeTrace c m.data key (bucket c m key) m.bucket_count (bucket c m key) c.policy.start

/-- Slots read by one pass of the probing loop of the insert family. -/
def insertTrace {K V : Type} (c : Params K V) (m : HashMap K V) (key : K) : List Nat :=
  probeTrace c m.data key (bucket c m key) (m.bucket_count / 2) (bucket c m key)
    c.policy.start

/-- Quadratic probing, hint 7 (8 buckets), `insert (0,'a')`, `insert (8,'b')`,
`insert (16,'c')`: the three keys hash to bucket 0 and fill the slots 0, 1 and 4, the only
slots that the offsets 0, 1, 4, 9, 16, ... reach from bucket 0 modulo 8. -/
def exQuad : HashMap Nat Char :=
  { data := [some ⟨0, 'a', false⟩, some ⟨8, 'b', false⟩, none, none, some ⟨16, 'c', false⟩,
      none, none, none], el_count := 3, del_count := 0 }

/-- Linear probing, hint 3, `insert (0,'a')`, `insert (4,'b')`. -/
def exTwo : HashMap Nat Char :=
  { data := [some ⟨0, 'a', false⟩, some ⟨4, 'b', false⟩, none, none], el_count := 2,
    del_count := 0 }

/-- The loop of `erase(const_iterator first, const_iterator last)` (lines 846-852), with fuel:
`for (auto it = first; it != last; ++it) { last_del = iterator(erase(it)); }`. `erase(it)`
receives a copy of `it`; `++it` then runs on the table as `erase` left it. -/
def eraseRangeLoop {K V : Type} (last : Iterator) :
    Nat → HashMap K V → Iterator → Iterator → Option (HashMap K V × Iterator)
  | 0, _, _, _ => none
  | f + 1, m, it, last_del =>
    if Iterator.eq it last then some (m, last_del)
    else
      (eraseAt m it).bind fun r =>
        (Iterator.next r.1.data it).bind fun it1 => eraseRangeLoop last f r.1 it1 r.2.copy

/-- Method `erase(const_iterator first, const_iterator last)` (lines 846-852):
`last_del = cend()` before the loop, `return last_del` after it. -/
def eraseRange {K V : Type} (fuel : Nat) (m : HashMap K V) (first last : Iterator) :
    Option (HashMap K V × Iterator) :=
  eraseRangeLoop last fuel m first.copy Iterator.endIt

/-- The slot indices that the loop `for (auto it = first; it != last; ++it)` visits when its
body leaves the table alone: the elements of the range `[first, last)`. -/
def rangeLoop {K V : Type} (data : List (Option (Bucket K V))) (last : Iterator) :
    Nat → Iterator → Option (List Nat)
  | 0, _ => none
  | f + 1, it =>
    if Iterator.eq it last then some []
    else (Iterator.next data it).bind fun it1 =>
      (rangeLoop data last f it1).map fun l => it.current :: l

/-- The write of `erase(pos)` to slot `i`: `data[i]->is_deleted = true`. -/
def tombAt {K V : Type} (data : List (Option (Bucket K V))) (i : Nat) :
    List (Option (Bucket K V)) :=
  match slot data i with
  | none => data
  | some b => data.set i (some { b with is_deleted := true })

/-- Number of `current = (current + 1) % B` steps that lead from `starting_pos` to slot `p`
(for `sp, p < B`): the order in which a scan that started at `sp` meets the slots. -/
def scanRank (B sp p : Nat) : Nat := if sp ≤ p then p - sp else p + B - sp

/-! ## hash_map.h : equal_range -/

/-- Constructor `Iterator(cont, order_list)` (lines 100-106): `current` and `starting_pos`
take their default member initialisers, `iterator_end(false)`, `is_ordered(true)`, and the
body runs `operator++()`. -/
def Iterator.ofOrder {K V : Type} (data : List (Option (Bucket K V))) (order_list : List Nat) :
    Option Iterator :=
  Iterator.next data { current := 0, starting_pos := 0, iterator_end := false,
                       element_order := order_list, is_ordered := true }

/-- The loop of `equal_range` (lines 915-919), with fuel:
`for (auto it = begin(); it != end(); it++)
   if (equal_fn(key, (*it).first)) order_list.push_back(it.current);`. -/
def equalRangeLoop {K V : Type} (c : Params K V) (data : List (Option (Bucket K V)))
    (key : K) : Nat → Iterator → List Nat → Option (List Nat)
  | 0, _, _ => none
  | f + 1, it, order_list =>
    if Iterator.eq it Iterator.endIt then some order_list
    else
      match slot data it.current with
      | none => none
      | some b =>
        (Iterator.next data it).bind fun it1 =>
          equalRangeLoop c data key f it1
            (if c.equal_fn key b.first then order_list ++ [it.current] else order_list)

/-- Method `equal_range(key)` (lines 913-921):
`return {iterator(&data, std::move(order_list)), iterator()};`. The two members of the
returned `std::pair` are built by the copy constructor of `Iterator` (the class declares a
copy constructor, so it has no move constructor). -/
def equal_range {K V : Type} (c : Params K V) (m : HashMap K V) (key : K) :
    Option (Iterator × Iterator) :=
  (m.begin).bind fun it =>
    (equalRangeLoop c m.data key (m.bucket_count + 1) it []).bind fun order_list =>
      (Iterator.ofOrder m.data order_list).map fun fst => (fst.copy, Iterator.endIt.copy)

/-! ## hash_map.h : the hinted insert family -/

/-- Method `emplace_hint(hint, args...)` (lines 652-690). After the test of the hinted slot
the body is that of `emplace` (`reserve`, then the same `while (true)` loop), returning the
iterator alone. -/
def emplace_hint {K V : Type} (c : Params K V) (fuel : Nat) (m : HashMap K V)
    (hint : Iterator) (key : K) (value : V) : Option (HashMap K V × Iterator) :=
  let link : Bucket K V := { first := key, second := value, is_deleted := false }
  let rest : Option (HashMap K V × Iterator) :=
    (reserve c fuel m (m.size + 1)).bind fun m1 =>
      (emplaceLoop c fuel link fuel m1).map fun r => (r.1, r.2.1)
  if Iterator.eq hint Iterator.endIt then rest
  else
    match slot m.data hint.current with
    | none => rest
    | some t =>
      if c.equal_fn t.first link.first then
        if t.is_deleted then
          some ({ m with del_count := m.del_count - 1, el_count := m.el_count + 1,
                         data := m.data.set hint.current (some link) }, hint.copy)
        else some (m, hint.copy)
      else rest

/-- Method `insert(const_iterator hint, const value_type&)` (lines 457-459). -/
def insert_hint {K V : Type} (c : Params K V) (fuel : Nat) (m : HashMap K V)
    (hint : Iterator) (kv : K × V) : Option (HashMap K V × Iterator) :=
  emplace_hint c fuel m hint kv.1 kv.2

/-- Method `insert_or_assign(const_iterator hint, const key_type&, M&&)` (lines 541-580).
After the test of the hinted slot the body is that of the unhinted `insert_or_assign`,
returning the iterator alone. -/
def insert_or_assign_hint {K V : Type} (c : Params K V) (fuel : Nat) (m : HashMap K V)
    (hint : Iterator) (key : K) (value : V) : Option (HashMap K V × Iterator) :=
  let rest : Option (HashMap K V × Iterator) :=
    (reserve c fuel m (m.size + 1)).bind fun m1 =>
      (insertOrAssignLoop c fuel key value fuel m1).map fun r => (r.1, r.2.1)
  if Iterator.eq hint Iterator.endIt then rest
  else
    match slot m.data hint.current with
    | none => rest
    | some t =>
      if c.equal_fn t.first key then
        if t.is_deleted then
          some ({ m with del_count := m.del_count - 1, el_count := m.el_count + 1,
                         data := m.data.set hint.current
                           (some { first := t.first, second := value, is_deleted := false }) },
                hint.copy)
        else
          some ({ m with data := m.data.set hint.current (some { t with second := value }) },
                hint.copy)
      else rest

/-! ## hash_set.h

The set keeps the same members as the map (`data`, `el_count`, `del_count`); its bucket
`{ key, is_deleted }` is the map's bucket with a unit payload, `first` playing the role of
`key`. The constructor, `operator=(HashSet&&)`, `begin`, `find`, `contains`, `erase` and the
iterator class have the code of their map counterparts and are embedded by them
(`HashMap.new`, `moveAssign`, `HashMap.begin`, `find`, `contains`, `erase`, `Iterator`). The
insert family and `rehash` differ and are embedded here. -/

/-- A `HashSet<Key>` state. -/
abbrev HashSet (K : Type) : Type := HashMap K Unit

/-- The write `data[cur]->is_deleted = false`. -/
def reviveAt {K V : Type} (data : List (Option (Bucket K V))) (cur : Nat) :
    List (Option (Bucket K V)) :=
  match slot data cur with
  | none => data
  | some b => data.set cur (some { b with is_deleted := false })

/-- Private method `insert(std::unique_ptr<Bucket> ptr)` (`hash_set.h`, lines 277-300):
`reserve(size() + 1)`, one pass over the probe sequence, and on exhaustion
`rehash(bucket_count() * 3); insert(std::move(ptr));`. The fuel bounds the recursion; `rh`
is `rehash`. -/
def setInsertPtr {K : Type} (rh : HashSet K → Nat → Option (HashSet K)) (c : Params K Unit)
    (ptr : Bucket K Unit) : Nat → HashSet K → Option (HashSet K)
  | 0, _ => none
  | w + 1, t =>
    (rh t (t.size + 1)).bind fun t1 =>
      match probeKey c t1 ptr.first with
      | .empty cur =>
        some { t1 with el_count := t1.el_count + 1, data := t1.data.set cur (some ptr) }
      | .tomb cur =>
        some { t1 with del_count := t1.del_count - 1, el_count := t1.el_count + 1,
                       data := reviveAt t1.data cur }
      | .live _ => some t1
      | .exhausted => (rh t1 (t1.bucket_count * 3)).bind (setInsertPtr rh c ptr w)

/-- The migration loop of `HashSet::rehash` (`hash_set.h`, lines 580-582):
`for (auto it = begin(); it != end(); ++it) t.insert(std::move(data[it.current]));`. -/
def setRehashLoop {K : Type} (rh : HashSet K → Nat → Option (HashSet K)) (c : Params K Unit)
    (w : Nat) : Nat → List (Option (Bucket K Unit)) → HashSet K → Iterator → Option (HashSet K)
  | 0, _, _, _ => none
  | f + 1, data, t, it =>
    if it.iterator_end then some t
    else
      match slot data it.current with
      | none => none
      | some b =>
        (setInsertPtr rh c b w t).bind fun t1 =>
          (Iterator.next (data.set it.current none) it).bind fun it1 =>
            setRehashLoop rh c w f (data.set it.current none) t1 it1

/-- Method `HashSet::rehash(count)` (`hash_set.h`, lines 577-585). -/
def setRehash {K : Type} (c : Params K Unit) : Nat → HashSet K → Nat → Option (HashSet K)
  | 0, m, count =>
    if count > m.bucket_count ∨ m.del_count > m.size then none else some m
  | fuel + 1, m, count =>
    if count > m.bucket_count ∨ m.del_count > m.size then
      (m.begin).bind fun it =>
        (setRehashLoop (setRehash c fuel) c fuel (m.bucket_count + 1) m.data
          (HashMap.new (max m.bucket_count count)) it).map moveAssign
    else some m

/-- Method `HashSet::insert(const value_type&)` (`hash_set.h`, lines 303-328):
`reserve(size() + 1)`, one pass over the probe sequence, and on exhaustion
`rehash(bucket_count() * 3); return insert(inserted_value);`. The second fuel argument bounds
the recursion. -/
def setInsertLoop {K : Type} (c : Params K Unit) (fuel : Nat) (key : K) :
    Nat → HashSet K → Option (HashSet K × Iterator × Bool)
  | 0, _ => none
  | w + 1, m =>
    (setRehash c fuel m (m.size + 1)).bind fun m1 =>
      match probeKey c m1 key with
      | .empty cur =>
        let m2 : HashSet K :=
          { m1 with el_count := m1.el_count + 1,
                    data := m1.data.set cur
                      (some { first := key, second := (), is_deleted := false }) }
        (Iterator.ofIndex m2.data cur).map fun it => (m2, it, true)
      | .tomb cur =>
        let m2 : HashSet K :=
          { m1 with del_count := m1.del_count - 1, el_count := m1.el_count + 1,
                    data := reviveAt m1.data cur }
        (Iterator.ofIndex m2.data cur).map fun it => (m2, it, true)
      | .live cur => (Iterator.ofIndex m1.data cur).map fun it => (m1, it, false)
      | .exhausted =>
        (setRehash c fuel m1 (m1.bucket_count * 3)).bind (setInsertLoop c fuel key w)

/-- Method `HashSet::insert(const value_type&)`. -/
def setInsert {K : Type} (c : Params K Unit) (fuel : Nat) (m : HashSet K) (key : K) :
    Option (HashSet K × Iterator × Bool) :=
  setInsertLoop c fuel key fuel m

/-- Method `HashSet::insert(const_iterator hint, const value_type&)` (`hash_set.h`,
lines 357-370). -/
def setInsertHint {K : Type} (c : Params K Unit) (fuel : Nat) (m : HashSet K)
    (hint : Iterator) (key : K) : Option (HashSet K × Iterator) :=
  let rest : Option (HashSet K × Iterator) :=
    (setInsert c fuel m key).map fun r => (r.1, r.2.1)
  if Iterator.eq hint Iterator.endIt then rest
  else
    match slot m.data hint.current with
    | none => rest
    | some t =>
      if c.equal_fn t.first key then
        if t.is_deleted then
          some ({ m with del_count := m.del_count - 1, el_count := m.el_count + 1,
                         data := reviveAt m.data hint.current }, hint.copy)
        else some (m, hint.copy)
      else rest

/-- Method `HashSet::count(key)`: `contains(key) ? 1 : 0`. -/
def setCount {K : Type} (c : Params K Unit) (m : HashSet K) (key : K) : Option Nat :=
  (contains c m key).map fun b => if b then 1 else 0

/-- Operations of the set interface that change the state. -/
inductive SetOp (K : Type) where
  | insert (k : K)
  | erase (k : K)
  | rehash (n : Nat)

/-- Effect of a set operation on the state. -/
def applySetOp {K : Type} (c : Params K Unit) (fuel : Nat) (m : HashSet K) :
    SetOp K → Option (HashSet K)
  | .insert k => (setInsert c fuel m k).map fun r => r.1
  | .erase k => (erase c fuel m k).map fun r => r.1
  | .rehash n => setRehash c fuel m n

/-- Sets obtained from a constructed set by `insert`, `erase(key)` and `rehash` calls that
return. -/
inductive SetReach {K : Type} (c : Params K Unit) : HashSet K → Prop where
  | init (n : Nat) : SetReach c (HashMap.new n)
  | step {m m1 : HashSet K} (op : SetOp K) (fuel : Nat) :
      SetReach c m → applySetOp c fuel m op = some m1 → SetReach c m1

/-- Element `k` is in the set: some LIVE bucket holds a key equal to `k`. -/
def Member {K : Type} (c : Params K Unit) (m : HashSet K) (k : K) : Prop :=
  ∃ b, LiveB m b ∧ c.equal_fn b.first k = true

/-- Parameters used for concrete runs of the set: identity hasher, `==` on keys. -/
def setParams (p : CollisionPolicy) : Params Nat Unit :=
  { hash_fn := fun k => k, equal_fn := fun a b => a == b, policy := p, mapped_default := () }

/-- The set with the elements 0 and 4 (hint 3, linear probing). -/
def exSet : HashSet Nat :=
  { data := [some ⟨0, (), false⟩, some ⟨4, (), false⟩, none, none], el_count := 2,
    del_count := 0 }

/-- Iterator `it` of state `m` stands at a LIVE slot whose key equals `k`. -/
def AtKey {K V : Type} (c : Params K V) (m : HashMap K V) (it : Iterator) (k : K) : Prop :=
  it.iterator_end = false ∧
    ∃ b, slot m.data it.current = some b ∧ b.is_deleted = false ∧ c.equal_fn b.first k = true

/-- Post-condition of `HashSet::insert(key)` on its result `(state, iterator, inserted)`: that
of the map's `insert` for some bucket whose key equals `key` (the revived bucket keeps the key
it held). -/
def SetRes {K : Type} (c : Params K Unit) (m : HashSet K) (key : K)
    (r : HashSet K × Iterator × Bool) : Prop :=
  ∃ b : Bucket K Unit, c.equal_fn b.first key = true ∧ b.is_deleted = false ∧ InsRes c id m b r

/-! ## Traversal from an iterator that `find` or `insert` returned -/

/-- The LIVE slot indices `a ≤ i < b`, in increasing order. -/
def liveBetween {K V : Type} (data : List (Option (Bucket K V))) (a b : Nat) : List Nat :=
  (List.range' a (b - a)).filter fun i => isLive data i

/-- The LIVE slots a scan that started at `sp` still has to visit after slot `q`: those above
`q` up to the end of the array followed by those below `sp`, or, once the scan has wrapped,
those between `q` and `sp`. -/
def cycRest {K V : Type} (data : List (Option (Bucket K V))) (sp q : Nat) : List Nat :=
  if sp ≤ q then liveFrom data (q + 1) ++ liveBetween data 0 sp
  else liveBetween data (q + 1) sp

/-- The iterator of a scan that started at `sp` and still has the slots `l` to visit. -/
def itCyc (sp : Nat) (l : List Nat) : Iterator :=
  match l with
  | [] => { current := sp, starting_pos := sp, iterator_end := true, element_order := [],
            is_ordered := false }
  | q :: _ => { current := q, starting_pos := sp, iterator_end := false, element_order := [],
                is_ordered := false }

/-! ## The set against the map -/

/-- The template arguments of a `HashSet` built with the hasher, equality and probing policy
of a `HashMap`. -/
def setOf {K V : Type} (c : Params K V) : Params K Unit :=
  { hash_fn := c.hash_fn, equal_fn := c.equal_fn, policy := c.policy, mapped_default := () }

/-- A slot of the set and a slot of the map are in the same state (EMPTY, LIVE, TOMBSTONE) and,
when occupied, hold keys that are equal under the equality predicate. -/
def SlotSim {K V : Type} (c : Params K V) (x : Option (Bucket K Unit))
    (y : Option (Bucket K V)) : Prop :=
  match x, y with
  | none, none => True
  | some a, some b => c.equal_fn a.first b.first = true ∧ a.is_deleted = b.is_deleted
  | _, _ => False

/-- Two bucket arrays of the same length with slots in the same state. -/
def DataSim {K V : Type} (c : Params K V) (ds : List (Option (Bucket K Unit)))
    (dm : List (Option (Bucket K V))) : Prop :=
  ds.length = dm.length ∧ ∀ i, SlotSim c (slot ds i) (slot dm i)

/-- A set and a map with the same bucket count, slots in the same state at every index, and
the same counters. -/
structure Sim {K V : Type} (c : Params K V) (s : HashSet K) (m : HashMap K V) : Prop where
  data : DataSim c s.data m.data
  el : s.el_count = m.el_count
  del : s.del_count = m.del_count

/-- Two optional results are both absent, or both present and related. -/
def OptRel {α β : Type} (R : α → β → Prop) : Option α → Option β → Prop
  | none, none => True
  | some a, some b => R a b
  | _, _ => False

/-- The map operation that corresponds to a set operation: `insert(k)` becomes
`emplace(k, v)` for the value that comes with it. -/
def mapOpOf {K V : Type} : SetOp K × V → Op K V
  | (.insert k, v) => .insert k v
  | (.erase k, _) => .erase k
  | (.rehash n, _) => .rehash n

/-- Successive set operations, front to back. -/
def runSetOps {K : Type} (c : Params K Unit) (fuel : Nat) :
    HashSet K → List (SetOp K) → Option (HashSet K)
  | m, [] => some m
  | m, op :: rest => (applySetOp c fuel m op).bind fun m1 => runSetOps c fuel m1 rest

/-! ## Copies and the counters -/

/-- Linear probing, hint 3, `insert (0,'a')`, `insert (1,'b')`, `insert (2,'c')`,
`insert (3,'d')`, `erase 0`, `erase 1`: four buckets, two LIVE slots, two TOMBSTONEs. -/
def exFourErased : HashMap Nat Char :=
  { data := [some ⟨0, 'a', true⟩, some ⟨1, 'b', true⟩, some ⟨2, 'c', false⟩,
      some ⟨3, 'd', false⟩], el_count := 2, del_count := 2 }

/-- The copy of `exFourErased` that the copy constructor and the copy assignment build: the
LIVE buckets at their indices, null slots where the source has TOMBSTONEs, and the two
counters of the source. -/
def exFourCopy : HashMap Nat Char :=
  { data := [none, none, some ⟨2, 'c', false⟩, some ⟨3, 'd', false⟩], el_count := 2,
    del_count := 2 }

/-- The state `exFourCopy` after `insert (0,'x')`. -/
def exFourCopyIns : HashMap Nat Char :=
  { data := [some ⟨0, 'x', false⟩, none, some ⟨2, 'c', false⟩, some ⟨3, 'd', false⟩],
    el_count := 3, del_count := 2 }

/-! ## `size_t` arithmetic

The code of the constructor, of the probing policies, of the probing loops and of `rehash`
once more, with the arithmetic of the 64-bit `size_t`: every sum and product is reduced
modulo `2 ^ 64`. Comparisons, `std::max`, `/ 2` and `% bucket_count()` do not leave the range
and are computed as before; `hash_fn` returns a `size_t`. -/

/-- The largest `size_t`: `2 ^ 64 - 1`. -/
def SIZE_MAX : Nat := 18446744073709551615

/-- Conversion of an arithmetic result to `size_t`: reduction modulo `SIZE_MAX + 1`. -/
def wrap (n : Nat) : Nat := n % (SIZE_MAX + 1)

/-- Method `next()` on `size_t`. `LinearProbing`: `return ++ind;`  `QuadraticProbing`:
`++ind; return ind * ind;`, increment and product both modulo `2 ^ 64`. -/
def CollisionPolicy.nextW : CollisionPolicy → Nat → Nat × Nat
  | .LinearProbing, ind => (wrap (ind + 1), wrap (ind + 1))
  | .QuadraticProbing, ind => (wrap (ind + 1), wrap (wrap (ind + 1) * wrap (ind + 1)))

/-- Constructor `HashMap(expected_max_size)` (`hash_map.h` lines 290-298, `hash_set.h` lines
157-165): `for (size_type i = 0; i < expected_max_size + 1; ++i) data.push_back(nullptr);`.
The bound `expected_max_size + 1` is a `size_t`; it is 0 for `expected_max_size = SIZE_MAX`. -/
def HashMap.newW {K V : Type} (expected_max_size : Nat) : HashMap K V :=
  { data := List.replicate (wrap (expected_max_size + 1)) none, el_count := 0, del_count := 0 }

/-- State of a policy object after `start()` and `s` calls of `next()`, on `size_t`. -/
def policyStateW (p : CollisionPolicy) : Nat → Nat
  | 0 => p.start
  | s + 1 => (p.nextW (policyStateW p s)).1

/-- The value returned by the `s`-th call of `next()` after `start()` (`s` counted from 1), on
`size_t`. -/
def nthNextW (p : CollisionPolicy) (s : Nat) : Nat := (p.nextW (policyStateW p (s - 1))).2

/-- The probing loop of the insert family on `size_t`:
`cur = (ind + probing.next()) % bucket_count()` with the sum reduced modulo `2 ^ 64`. -/
def probeW {K V : Type} (c : Params K V) (data : List (Option (Bucket K V))) (key : K)
    (ind : Nat) : Nat → Nat → Nat → ProbeResult
  | 0, _, _ => .exhausted
  | n + 1, cur, ps =>
    match slot data cur with
    | none => .empty cur
    | some b =>
      if c.equal_fn b.first key then
        if b.is_deleted then .tomb cur else .live cur
      else
        probeW c data key ind n (wrap (ind + (c.policy.nextW ps).2) % data.length)
          (c.policy.nextW ps).1

/-- One pass of the probing loop on `size_t`, as the insert family starts it. -/
def probeKeyW {K V : Type} (c : Params K V) (m : HashMap K V) (key : K) : ProbeResult :=
  probeW c m.data key (bucket c m key) (m.bucket_count / 2) (bucket c m key) c.policy.start

/-- The slot indices at which a probing loop reads `data[cur]`, in order, on `size_t`. -/
def probeTraceW {K V : Type} (c : Params K V) (data : List (Option (Bucket K V))) (key : K)
    (ind : Nat) : Nat → Nat → Nat → List Nat
  | 0, _, _ => []
  | n + 1, cur, ps =>
    cur :: (match slot data cur with
      | none => []
      | some b =>
        if c.equal_fn b.first key then []
        else
          probeTraceW c data key ind n (wrap (ind + (c.policy.nextW ps).2) % data.length)
            (c.policy.nextW ps).1)

/-- Slots read by `find(key)` (loop bound `bucket_count()`), on `size_t`. -/
def findTraceW {K V : Type} (c : Params K V) (m : HashMap K V) (key : K) : List Nat :=
  probeTraceW c m.data key (bucket c m key) m.bucket_count (bucket c m key) c.policy.start

/-- Slots read by one pass of the probing loop of the insert family (loop bound
`bucket_count() / 2`), on `size_t`. -/
def insertTraceW {K V : Type} (c : Params K V) (m : HashMap K V) (key : K) : List Nat :=
  probeTraceW c m.data key (bucket c m key) (m.bucket_count / 2) (bucket c m key)
    c.policy.start

/-- The `while (true)` loop of `force_insert_ptr` (lines 420-440) on `size_t`: `++el_count`,
`--del_count` and `bucket_count() * 3` are reduced modulo `2 ^ 64`; `rh` is `rehash`. -/
def forceInsertLoopW {K V : Type} (rh : HashMap K V → Nat → Option (HashMap K V))
    (c : Params K V) (ptr : Bucket K V) : Nat → HashMap K V → Option (HashMap K V)
  | 0, _ => none
  | w + 1, t =>
    match probeKeyW c t ptr.first with
    | .empty cur =>
      some { t with el_count := wrap (t.el_count + 1), data := t.data.set cur (some ptr) }
    | .tomb cur =>
      some { t with del_count := wrap (t.del_count + SIZE_MAX),
                    el_count := wrap (t.el_count + 1),
                    data := t.data.set cur (some ptr) }
    | .live cur => some { t with data := t.data.set cur (some ptr) }
    | .exhausted =>
      (rh t (wrap (t.bucket_count * 3))).bind (forceInsertLoopW rh c ptr w)

/-- Method `force_insert_ptr` (lines 418-441) on `size_t`: `reserve(size() + 1)` then the
loop. -/
def forceInsertPtrW {K V : Type} (rh : HashMap K V → Nat → Option (HashMap K V))
    (c : Params K V) (w : Nat) (t : HashMap K V) (ptr : Bucket K V) : Option (HashMap K V) :=
  (rh t (wrap (t.size + 1))).bind (forceInsertLoopW rh c ptr w)

/-- The migration loop of `rehash` (lines 1043-1045) with `force_insert_ptr` on `size_t`. -/
def rehashLoopW {K V : Type} (rh : HashMap K V → Nat → Option (HashMap K V))
    (c : Params K V) (w : Nat) :
    Nat → List (Option (Bucket K V)) → HashMap K V → Iterator → Option (HashMap K V)
  | 0, _, _, _ => none
  | f + 1, data, t, it =>
    if it.iterator_end then some t
    else
      match slot data it.current with
      | none => none
      | some b =>
        (forceInsertPtrW rh c w t b).bind fun t1 =>
          (Iterator.next (data.set it.current none) it).bind fun it1 =>
            rehashLoopW rh c w f (data.set it.current none) t1 it1

/-- Method `rehash(count)` (lines 1040-1048) on `size_t`: the new table is
`HashMap(std::max(bucket_count(), count))`, built by the constructor `HashMap.newW`. The fuel
bounds the nesting depth of `rehash` inside `force_insert_ptr` and the number of rounds of its
`while (true)` loop. -/
def rehashW {K V : Type} (c : Params K V) : Nat → HashMap K V → Nat → Option (HashMap K V)
  | 0, m, count =>
    if count > m.bucket_count ∨ m.del_count > m.size then none else some m
  | fuel + 1, m, count =>
    if count > m.bucket_count ∨ m.del_count > m.size then
      (m.begin).bind fun it =>
        (rehashLoopW (rehashW c fuel) c fuel (m.bucket_count + 1) m.data
          (HashMap.newW (max m.bucket_count count)) it).map moveAssign
    else some m

/-- Method `reserve(count)` on `size_t`: `rehash(count)`. -/
def reserveW {K V : Type} (c : Params K V) (fuel : Nat) (m : HashMap K V) (count : Nat) :
    Option (HashMap K V) :=
  rehashW c fuel m count

/-- The state `exU` after `rehash(SIZE_MAX)`: the new table is built with 0 buckets, the
`reserve(1)` of `force_insert_ptr` replaces it by one of 2 buckets, and key 0 goes to slot 0. -/
def exUWrapped : HashMap Nat Char :=
  { data := [some ⟨0, 'u', false⟩, none], el_count := 1, del_count := 0 }

/-! ## Basic facts about slots -/

theorem slot_some_lt {K V : Type} {data : List (Option (Bucket K V))} {i : Nat}
    {b : Bucket K V} (h : slot data i = some b) : i < data.length := by
  by_contra hlt
  have : slot data i = none := by
    unfold slot
    rw [List.getD_eq_default]
    omega
  rw [this] at h
  cases h

theorem slot_set_self {K V : Type} (data : List (Option (Bucket K V))) (i : Nat)
    (x : Option (Bucket K V)) (h : i < data.length) : slot (data.set i x) i = x := by
  unfold slot
  simp [List.getD_eq_getElem?_getD, List.getElem?_set, h]

theorem slot_set_other {K V : Type} (data : List (Option (Bucket K V))) (i j : Nat)
    (x : Option (Bucket K V)) (h : i ≠ j) : slot (data.set i x) j = slot data j := by
  unfold slot
  simp [List.getD_eq_getElem?_getD, List.getElem?_set, h]

theorem slot_replicate {K V : Type} (n i : Nat) :
    slot (List.replicate n (none : Option (Bucket K V))) i = none := by
  unfold slot
  by_cases h : i < n
  · simp [List.getD_eq_getElem?_getD, List.getElem?_replicate, h]
  · rw [List.getD_eq_default]
    simp; omega

theorem isLive_iff {K V : Type} (data : List (Option (Bucket K V))) (i : Nat) :
    isLive data i = true ↔ ∃ b, slot data i = some b ∧ b.is_deleted = false := by
  unfold isLive
  cases h : slot data i with
  | none => simp
  | some b => simp

theorem isTomb_iff {K V : Type} (data : List (Option (Bucket K V))) (i : Nat) :
    isTomb data i = true ↔ ∃ b, slot data i = some b ∧ b.is_deleted = true := by
  unfold isTomb
  cases h : slot data i with
  | none => simp
  | some b => simp

/-! ## The probing policies in closed form -/

theorem next_fst (p : CollisionPolicy) (s : Nat) : (p.next s).1 = s + 1 := by
  cases p <;> rfl

theorem next_snd (p : CollisionPolicy) (s : Nat) : (p.next s).2 = offset p (s + 1) := by
  cases p <;> rfl

theorem offset_zero (p : CollisionPolicy) : offset p 0 = 0 := by
  cases p <;> rfl

theorem probePos_zero {K V : Type} (c : Params K V) (B : Nat) (key : K) :
    probePos c B key 0 = c.hash_fn key % B := by
  unfold probePos
  rw [offset_zero, Nat.add_zero, Nat.mod_mod]

theorem probePos_lt {K V : Type} (c : Params K V) (B : Nat) (key : K) (s : Nat) (hB : 0 < B) :
    probePos c B key s < B := Nat.mod_lt _ hB

theorem probePos_congr {K V : Type} (c : Params K V) (hc : c.Lawful) (B : Nat) (k1 k2 : K)
    (h : c.equal_fn k1 k2 = true) (s : Nat) : probePos c B k1 s = probePos c B k2 s := by
  unfold probePos
  rw [hc.hash_eq k1 k2 h]

theorem equal_fn_congr_right {K V : Type} (c : Params K V) (hc : c.Lawful) (x k1 k2 : K)
    (h : c.equal_fn k1 k2 = true) : c.equal_fn x k1 = c.equal_fn x k2 := by
  cases h1 : c.equal_fn x k1 <;> cases h2 : c.equal_fn x k2 <;> try rfl
  · have := hc.trans x k2 k1 h2 (hc.symm _ _ h)
    rw [h1] at this; cases this
  · have := hc.trans x k1 k2 h1 h
    rw [h2] at this; cases this

theorem Blocked_congr {K V : Type} (c : Params K V) (hc : c.Lawful)
    (data : List (Option (Bucket K V))) (k1 k2 : K) (h : c.equal_fn k1 k2 = true)
    (lo hi : Nat) (hb : Blocked c data k1 lo hi) : Blocked c data k2 lo hi := by
  intro j h1 h2
  obtain ⟨b, hs, he⟩ := hb j h1 h2
  refine ⟨b, ?_, ?_⟩
  · rw [← probePos_congr c hc _ k1 k2 h]; exact hs
  · rw [← equal_fn_congr_right c hc b.first k1 k2 h]; exact he

theorem Blocked_extend {K V : Type} (c : Params K V)
    (data : List (Option (Bucket K V))) (key : K) (lo hi : Nat) (b : Bucket K V)
    (hb : Blocked c data key lo hi)
    (hs : slot data (probePos c data.length key hi) = some b)
    (he : c.equal_fn b.first key = false) : Blocked c data key lo (hi + 1) := by
  intro j h1 h2
  by_cases hj : j < hi
  · exact hb j h1 hj
  · have : j = hi := by omega
    subst this
    exact ⟨b, hs, he⟩

/-! ## Characterisation of the probing loop -/

/-- What the probing loop returns, in terms of the probe sequence. -/
theorem probe_spec {K V : Type} (c : Params K V) (data : List (Option (Bucket K V))) (key : K)
    (n s : Nat) :
    match probe c data key (c.hash_fn key % data.length) n
        (probePos c data.length key s) s with
    | .empty cur => ∃ t, s ≤ t ∧ t < s + n ∧ cur = probePos c data.length key t ∧
        slot data cur = none ∧ Blocked c data key s t
    | .tomb cur => ∃ t b, s ≤ t ∧ t < s + n ∧ cur = probePos c data.length key t ∧
        slot data cur = some b ∧ c.equal_fn b.first key = true ∧ b.is_deleted = true ∧
        Blocked c data key s t
    | .live cur => ∃ t b, s ≤ t ∧ t < s + n ∧ cur = probePos c data.length key t ∧
        slot data cur = some b ∧ c.equal_fn b.first key = true ∧ b.is_deleted = false ∧
        Blocked c data key s t
    | .exhausted => Blocked c data key s (s + n) := by
  induction n generalizing s with
  | zero =>
    simp only [probe]
    intro j h1 h2; omega
  | succ n ih =>
    unfold probe
    cases hsl : slot data (probePos c data.length key s) with
    | none =>
      simp only
      exact ⟨s, le_refl _, by omega, rfl, hsl, fun j h1 h2 => by omega⟩
    | some b =>
      simp only
      by_cases he : c.equal_fn b.first key = true
      · rw [if_pos he]
        by_cases hd : b.is_deleted = true
        · rw [if_pos hd]
          exact ⟨s, b, le_refl _, by omega, rfl, hsl, he, hd, fun j h1 h2 => by omega⟩
        · rw [if_neg hd]
          have hd' : b.is_deleted = false := by simpa using hd
          exact ⟨s, b, le_refl _, by omega, rfl, hsl, he, hd', fun j h1 h2 => by omega⟩
      · rw [if_neg he]
        have he' : c.equal_fn b.first key = false := by simpa using he
        rw [next_fst, next_snd]
        have ih' := ih (s + 1)
        have hpp : (c.hash_fn key % data.length + offset c.policy (s + 1)) % data.length
            = probePos c data.length key (s + 1) := rfl
        rw [hpp]
        have hblk : Blocked c data key s (s + 1) :=
          Blocked_extend c data key s s b (fun j h1 h2 => by omega) hsl he'
        have glue : ∀ t, Blocked c data key (s + 1) t → Blocked c data key s t := by
          intro t hb j h1 h2
          by_cases hj : j < s + 1
          · exact hblk j h1 hj
          · exact hb j (by omega) h2
        revert ih'
        cases probe c data key (c.hash_fn key % data.length) n
            (probePos c data.length key (s + 1)) (s + 1) with
        | empty cur =>
          rintro ⟨t, h1, h2, h3, h4, h5⟩
          exact ⟨t, by omega, by omega, h3, h4, glue t h5⟩
        | tomb cur =>
          rintro ⟨t, b', h1, h2, h3, h4, h5, h6, h7⟩
          exact ⟨t, b', by omega, by omega, h3, h4, h5, h6, glue t h7⟩
        | live cur =>
          rintro ⟨t, b', h1, h2, h3, h4, h5, h6, h7⟩
          exact ⟨t, b', by omega, by omega, h3, h4, h5, h6, glue t h7⟩
        | exhausted =>
          intro h
          have := glue _ h
          rw [show s + (n + 1) = s + 1 + n by omega]
          exact this

/-! ## Uniqueness of keys and determinism of probing under the invariant -/

theorem path_for_key {K V : Type} {c : Params K V} (hc : c.Lawful) {m : HashMap K V}
    (hI : Inv c m) {i : Nat} {b : Bucket K V} {key : K} (hs : slot m.data i = some b)
    (he : c.equal_fn b.first key = true) :
    ∃ s, s < m.data.length / 2 ∧ probePos c m.data.length key s = i ∧
      Blocked c m.data key 0 s := by
  obtain ⟨s, h1, h2, h3⟩ := hI.path i b hs
  refine ⟨s, h1, ?_, Blocked_congr c hc _ _ _ he _ _ h3⟩
  rw [← probePos_congr c hc _ _ _ he]; exact h2

/-- A probe sequence that is blocked before step `t` cannot reach a slot holding an equal key
at an earlier step, nor at a different step. -/
theorem step_unique {K V : Type} {c : Params K V} {data : List (Option (Bucket K V))} {key : K}
    {s t : Nat} {b : Bucket K V}
    (hs : slot data (probePos c data.length key s) = some b)
    (he : c.equal_fn b.first key = true)
    (hbs : Blocked c data key 0 s) (hbt : Blocked c data key 0 t)
    (ht : slot data (probePos c data.length key t) = none ∨
      ∃ b', slot data (probePos c data.length key t) = some b' ∧ c.equal_fn b'.first key = true) :
    s = t := by
  rcases Nat.lt_trichotomy s t with h | h | h
  · obtain ⟨x, hx, hxe⟩ := hbt s (Nat.zero_le _) h
    rw [hs] at hx
    cases hx
    rw [he] at hxe; cases hxe
  · exact h
  · obtain ⟨x, hx, hxe⟩ := hbs t (Nat.zero_le _) h
    rcases ht with ht | ⟨b', hb', hbe⟩
    · rw [ht] at hx; cases hx
    · rw [hb'] at hx
      cases hx
      rw [hbe] at hxe; cases hxe

theorem slot_unique {K V : Type} {c : Params K V} (hc : c.Lawful) {m : HashMap K V}
    (hI : Inv c m) {i j : Nat} {b b' : Bucket K V} (hi : slot m.data i = some b)
    (hj : slot m.data j = some b') (he : c.equal_fn b.first b'.first = true) : i = j := by
  obtain ⟨s, _, hp, hb⟩ := path_for_key hc hI hi he
  obtain ⟨t, _, hp', hb'⟩ := path_for_key hc hI hj (hc.refl _)
  have : s = t := by
    apply step_unique (b := b) (by rw [hp]; exact hi) he hb hb'
    right
    exact ⟨b', by rw [hp']; exact hj, hc.refl _⟩
  subst this
  rw [← hp, ← hp']

/-- With a budget of at least half the bucket count, probing for a key that is stored in
slot `i` ends at slot `i`. -/
theorem probe_found {K V : Type} {c : Params K V} (hc : c.Lawful) {m : HashMap K V}
    (hI : Inv c m) {i : Nat} {b : Bucket K V} {key : K} (hs : slot m.data i = some b)
    (he : c.equal_fn b.first key = true) (n : Nat) (hn : m.data.length / 2 ≤ n) :
    probe c m.data key (c.hash_fn key % m.data.length) n (c.hash_fn key % m.data.length) 0
      = if b.is_deleted then .tomb i else .live i := by
  obtain ⟨s, hsl, hp, hb⟩ := path_for_key hc hI hs he
  have hsp := probe_spec c m.data key n 0
  rw [probePos_zero] at hsp
  have hsi : slot m.data (probePos c m.data.length key s) = some b := by rw [hp]; exact hs
  revert hsp
  cases probe c m.data key (c.hash_fn key % m.data.length) n
      (c.hash_fn key % m.data.length) 0 with
  | empty cur =>
    rintro ⟨t, _, _, h3, h4, h5⟩
    have : s = t := step_unique hsi he hb h5 (Or.inl (by rw [← h3]; exact h4))
    subst this
    rw [← h3, h4] at hsi; cases hsi
  | tomb cur =>
    rintro ⟨t, b', _, _, h3, h4, h5, h6, h7⟩
    have : s = t := step_unique hsi he hb h7 (Or.inr ⟨b', by rw [← h3]; exact h4, h5⟩)
    subst this
    rw [← h3, h4] at hsi
    cases hsi
    rw [h6, if_pos rfl, h3, hp]
  | live cur =>
    rintro ⟨t, b', _, _, h3, h4, h5, h6, h7⟩
    have : s = t := step_unique hsi he hb h7 (Or.inr ⟨b', by rw [← h3]; exact h4, h5⟩)
    subst this
    rw [← h3, h4] at hsi
    cases hsi
    rw [h6, h3, hp]
    simp
  | exhausted =>
    intro h
    obtain ⟨x, hx, hxe⟩ := h s (Nat.zero_le _) (by omega)
    rw [hsi] at hx
    cases hx
    rw [he] at hxe; cases hxe

/-- Probing for a key that no slot holds ends at a null slot or exhausts the budget. -/
theorem probe_absent {K V : Type} {c : Params K V} {m : HashMap K V} {key : K}
    (hf : KeyFree c m key) (n : Nat) :
    (∃ t, t < n ∧ slot m.data (probePos c m.data.length key t) = none ∧
        Blocked c m.data key 0 t ∧
        probe c m.data key (c.hash_fn key % m.data.length) n (c.hash_fn key % m.data.length) 0
          = .empty (probePos c m.data.length key t)) ∨
      (Blocked c m.data key 0 n ∧
        probe c m.data key (c.hash_fn key % m.data.length) n (c.hash_fn key % m.data.length) 0
          = .exhausted) := by
  have hsp := probe_spec c m.data key n 0
  rw [probePos_zero] at hsp
  revert hsp
  cases probe c m.data key (c.hash_fn key % m.data.length) n
      (c.hash_fn key % m.data.length) 0 with
  | empty cur =>
    rintro ⟨t, _, h2, h3, h4, h5⟩
    left
    exact ⟨t, by omega, by rw [← h3]; exact h4, h5, by rw [h3]⟩
  | tomb cur =>
    rintro ⟨t, b', _, _, _, h4, h5, _, _⟩
    rw [hf cur b' h4] at h5; cases h5
  | live cur =>
    rintro ⟨t, b', _, _, _, h4, h5, _, _⟩
    rw [hf cur b' h4] at h5; cases h5
  | exhausted =>
    intro h
    right
    exact ⟨by simpa using h, rfl⟩

/-- Under the invariant, a probe that ends at a null slot or exhausts the insertion budget
shows that no slot holds the key. -/
theorem keyFree_of_probeKey {K V : Type} {c : Params K V} (hc : c.Lawful) {m : HashMap K V}
    (hI : Inv c m) {key : K}
    (h : (∃ cur, probeKey c m key = .empty cur) ∨ probeKey c m key = .exhausted) :
    KeyFree c m key := by
  intro i b hs
  by_contra hne
  have he : c.equal_fn b.first key = true := by simpa using hne
  have := probe_found hc hI hs he (m.data.length / 2) (le_refl _)
  unfold probeKey bucket HashMap.bucket_count CollisionPolicy.start at h
  rw [this] at h
  rcases h with ⟨cur, h⟩ | h <;> split at h <;> cases h

/-! ## `find` in terms of the probing loop -/

theorem findLoop_eq_probe {K V : Type} (c : Params K V) (data : List (Option (Bucket K V)))
    (key : K) (ind n cur ps : Nat) :
    findLoop c data key ind n cur ps =
      match probe c data key ind n cur ps with
      | .live cur => Iterator.ofIndex data cur
      | _ => some Iterator.endIt := by
  induction n generalizing cur ps with
  | zero => rfl
  | succ n ih =>
    unfold findLoop probe
    cases hsl : slot data cur with
    | none => rfl
    | some b =>
      simp only
      by_cases he : c.equal_fn b.first key = true
      · rw [if_pos he, if_pos he]
        by_cases hd : b.is_deleted = true
        · rw [if_pos hd, if_pos hd]
        · rw [if_neg hd, if_neg hd]
      · rw [if_neg he, if_neg he]
        exact ih _ _

theorem ofIndex_live {K V : Type} {data : List (Option (Bucket K V))} {cur : Nat}
    (h : isLive data cur = true) : Iterator.ofIndex data cur = some (liveIt cur) := by
  have hlt : cur < data.length := by
    obtain ⟨b, hb, _⟩ := (isLive_iff data cur).1 h
    exact slot_some_lt hb
  unfold Iterator.ofIndex
  rw [if_neg (by omega)]
  cases hl : data.length with
  | zero => omega
  | succ n =>
    unfold Iterator.ctorLoop
    rw [if_pos h]
    rfl

/-- A key stored in a LIVE slot is found there. -/
theorem find_live {K V : Type} {c : Params K V} (hc : c.Lawful) {m : HashMap K V}
    (hI : Inv c m) {i : Nat} {b : Bucket K V} {key : K} (hs : slot m.data i = some b)
    (he : c.equal_fn b.first key = true) (hd : b.is_deleted = false) :
    find c m key = some (liveIt i) := by
  unfold find bucket HashMap.bucket_count CollisionPolicy.start
  rw [findLoop_eq_probe, probe_found hc hI hs he m.data.length (Nat.div_le_self _ _), hd]
  simp only [Bool.false_eq_true, if_false]
  exact ofIndex_live ((isLive_iff _ _).2 ⟨b, hs, hd⟩)

/-- A key whose slot is a TOMBSTONE is not found. -/
theorem find_tomb {K V : Type} {c : Params K V} (hc : c.Lawful) {m : HashMap K V}
    (hI : Inv c m) {i : Nat} {b : Bucket K V} {key : K} (hs : slot m.data i = some b)
    (he : c.equal_fn b.first key = true) (hd : b.is_deleted = true) :
    find c m key = some Iterator.endIt := by
  unfold find bucket HashMap.bucket_count CollisionPolicy.start
  rw [findLoop_eq_probe, probe_found hc hI hs he m.data.length (Nat.div_le_self _ _), hd]
  simp only [if_true]

/-- A key that no slot holds is not found. -/
theorem find_keyFree {K V : Type} {c : Params K V} {m : HashMap K V} {key : K}
    (hf : KeyFree c m key) : find c m key = some Iterator.endIt := by
  unfold find bucket HashMap.bucket_count CollisionPolicy.start
  rw [findLoop_eq_probe]
  rcases probe_absent hf m.data.length with ⟨t, _, _, _, h⟩ | ⟨_, h⟩ <;> rw [h]

/-! ## Counters under a single-slot update -/

theorem card_filter_change (n i : Nat) (hi : i < n) (f g : Nat → Bool)
    (h : ∀ j, j ≠ i → g j = f j) :
    ((Finset.range n).filter fun j => g j = true).card + (if f i = true then 1 else 0)
      = ((Finset.range n).filter fun j => f j = true).card + (if g i = true then 1 else 0) := by
  rw [Finset.card_filter, Finset.card_filter]
  rw [← Finset.add_sum_erase (Finset.range n) (fun j => if g j = true then 1 else 0)
      (Finset.mem_range.2 hi),
    ← Finset.add_sum_erase (Finset.range n) (fun j => if f j = true then 1 else 0)
      (Finset.mem_range.2 hi)]
  have : ∑ x in (Finset.range n).erase i, (if g x = true then 1 else 0)
      = ∑ x in (Finset.range n).erase i, (if f x = true then 1 else 0) :=
    Finset.sum_congr rfl (fun x hx => by rw [h x (Finset.ne_of_mem_erase hx)])
  rw [this]
  omega

theorem isLive_set_self {K V : Type} (data : List (Option (Bucket K V))) (i : Nat)
    (b : Bucket K V) (h : i < data.length) :
    isLive (data.set i (some b)) i = !b.is_deleted := by
  unfold isLive; rw [slot_set_self _ _ _ h]

theorem isTomb_set_self {K V : Type} (data : List (Option (Bucket K V))) (i : Nat)
    (b : Bucket K V) (h : i < data.length) :
    isTomb (data.set i (some b)) i = b.is_deleted := by
  unfold isTomb; rw [slot_set_self _ _ _ h]

theorem isLive_set_other {K V : Type} (data : List (Option (Bucket K V))) (i j : Nat)
    (x : Option (Bucket K V)) (h : i ≠ j) : isLive (data.set i x) j = isLive data j := by
  unfold isLive; rw [slot_set_other _ _ _ _ h]

theorem isTomb_set_other {K V : Type} (data : List (Option (Bucket K V))) (i j : Nat)
    (x : Option (Bucket K V)) (h : i ≠ j) : isTomb (data.set i x) j = isTomb data j := by
  unfold isTomb; rw [slot_set_other _ _ _ _ h]

theorem countLive_set {K V : Type} (data : List (Option (Bucket K V))) (i : Nat)
    (b : Bucket K V) (h : i < data.length) :
    countLive (data.set i (some b)) + (if isLive data i = true then 1 else 0)
      = countLive data + (if b.is_deleted = true then 0 else 1) := by
  unfold countLive countLiveBelow
  rw [List.length_set]
  have := card_filter_change data.length i h (isLive data) (isLive (data.set i (some b)))
    (fun j hj => isLive_set_other _ _ _ _ (Ne.symm hj))
  rw [this, isLive_set_self _ _ _ h]
  cases b.is_deleted <;> simp

theorem countTomb_set {K V : Type} (data : List (Option (Bucket K V))) (i : Nat)
    (b : Bucket K V) (h : i < data.length) :
    countTomb (data.set i (some b)) + (if isTomb data i = true then 1 else 0)
      = countTomb data + (if b.is_deleted = true then 1 else 0) := by
  unfold countTomb
  rw [List.length_set]
  have := card_filter_change data.length i h (isTomb data) (isTomb (data.set i (some b)))
    (fun j hj => isTomb_set_other _ _ _ _ (Ne.symm hj))
  rw [this, isTomb_set_self _ _ _ h]

theorem countLive_pos {K V : Type} {data : List (Option (Bucket K V))} {i : Nat}
    (h : isLive data i = true) : 0 < countLive data := by
  obtain ⟨b, hb, _⟩ := (isLive_iff data i).1 h
  exact Finset.card_pos.2 ⟨i, Finset.mem_filter.2 ⟨Finset.mem_range.2 (slot_some_lt hb), h⟩⟩

theorem countTomb_pos {K V : Type} {data : List (Option (Bucket K V))} {i : Nat}
    (h : isTomb data i = true) : 0 < countTomb data := by
  obtain ⟨b, hb, _⟩ := (isTomb_iff data i).1 h
  exact Finset.card_pos.2 ⟨i, Finset.mem_filter.2 ⟨Finset.mem_range.2 (slot_some_lt hb), h⟩⟩

/-- LIVE and TOMBSTONE slots together fit in the bucket array. -/
theorem countLive_add_countTomb_le {K V : Type} (data : List (Option (Bucket K V))) :
    countLive data + countTomb data ≤ data.length := by
  unfold countLive countLiveBelow countTomb
  rw [← Finset.card_union_of_disjoint]
  · calc _ ≤ (Finset.range data.length).card := Finset.card_le_card (by
          intro x hx
          rcases Finset.mem_union.1 hx with h | h <;> exact (Finset.mem_filter.1 h).1)
      _ = data.length := Finset.card_range _
  · rw [Finset.disjoint_left]
    intro x h1 h2
    have h1' := (Finset.mem_filter.1 h1).2
    have h2' := (Finset.mem_filter.1 h2).2
    obtain ⟨b, hb, hd⟩ := (isLive_iff _ _).1 h1'
    obtain ⟨b', hb', hd'⟩ := (isTomb_iff _ _).1 h2'
    rw [hb] at hb'; cases hb'
    rw [hd] at hd'; cases hd'

/-! ## Preservation of the invariant by single-slot updates -/

theorem equal_fn_congr_left {K V : Type} (c : Params K V) (hc : c.Lawful) (k1 k2 x : K)
    (h : c.equal_fn k1 k2 = true) : c.equal_fn k1 x = c.equal_fn k2 x := by
  cases h1 : c.equal_fn k1 x <;> cases h2 : c.equal_fn k2 x <;> try rfl
  · have := hc.trans k1 k2 x h h2
    rw [h1] at this; cases this
  · have := hc.trans k2 k1 x (hc.symm _ _ h) h1
    rw [h2] at this; cases this

theorem Blocked_set_equiv {K V : Type} {c : Params K V} (hc : c.Lawful)
    {data : List (Option (Bucket K V))} {i : Nat} {b b' : Bucket K V}
    (hs : slot data i = some b) (he : c.equal_fn b.first b'.first = true)
    {key : K} {lo hi : Nat} (hb : Blocked c data key lo hi) :
    Blocked c (data.set i (some b')) key lo hi := by
  intro j h1 h2
  obtain ⟨y, hy, hye⟩ := hb j h1 h2
  rw [List.length_set]
  by_cases hp : i = probePos c data.length key j
  · rw [← hp] at hy ⊢
    rw [hs] at hy
    cases hy
    refine ⟨b', slot_set_self _ _ _ (slot_some_lt hs), ?_⟩
    rw [← equal_fn_congr_left c hc _ _ key he]; exact hye
  · exact ⟨y, by rw [slot_set_other _ _ _ _ hp]; exact hy, hye⟩

theorem Blocked_set_none {K V : Type} {c : Params K V}
    {data : List (Option (Bucket K V))} {i : Nat} {x : Option (Bucket K V)}
    (hs : slot data i = none) {key : K} {lo hi : Nat} (hb : Blocked c data key lo hi) :
    Blocked c (data.set i x) key lo hi := by
  intro j h1 h2
  obtain ⟨y, hy, hye⟩ := hb j h1 h2
  rw [List.length_set]
  by_cases hp : i = probePos c data.length key j
  · rw [← hp, hs] at hy; cases hy
  · exact ⟨y, by rw [slot_set_other _ _ _ _ hp]; exact hy, hye⟩

/-- Replacing the bucket of a slot by one with an equal key keeps the invariant, given the
matching counter updates. -/
theorem Inv_replace {K V : Type} {c : Params K V} (hc : c.Lawful) {m : HashMap K V}
    (hI : Inv c m) {i : Nat} {b b' : Bucket K V} (hs : slot m.data i = some b)
    (he : c.equal_fn b.first b'.first = true) (el' del' : Nat)
    (hel : el' + (if b.is_deleted = true then 0 else 1)
      = m.el_count + (if b'.is_deleted = true then 0 else 1))
    (hdel : del' + (if b.is_deleted = true then 1 else 0)
      = m.del_count + (if b'.is_deleted = true then 1 else 0)) :
    Inv c { data := m.data.set i (some b'), el_count := el', del_count := del' } := by
  have hlt := slot_some_lt hs
  refine ⟨?_, ?_, ?_, ?_⟩
  · simp only [List.length_set]; exact hI.pos
  · have h := countLive_set m.data i b' hlt
    have hl : isLive m.data i = !b.is_deleted := by unfold isLive; rw [hs]
    rw [hl] at h
    have := hI.el
    simp only
    revert h hel
    cases b.is_deleted <;> cases b'.is_deleted <;> simp <;> omega
  · have h := countTomb_set m.data i b' hlt
    have hl : isTomb m.data i = b.is_deleted := by unfold isTomb; rw [hs]
    rw [hl] at h
    have := hI.del
    simp only
    revert h hdel
    cases b.is_deleted <;> cases b'.is_deleted <;> simp <;> omega
  · intro j x hx
    simp only at hx ⊢
    rw [List.length_set]
    by_cases hji : i = j
    · subst hji
      rw [slot_set_self _ _ _ hlt] at hx
      cases hx
      obtain ⟨s, h1, h2, h3⟩ := path_for_key hc hI hs he
      exact ⟨s, h1, h2, Blocked_set_equiv hc hs he h3⟩
    · rw [slot_set_other _ _ _ _ hji] at hx
      obtain ⟨s, h1, h2, h3⟩ := hI.path j x hx
      exact ⟨s, h1, h2, Blocked_set_equiv hc hs he h3⟩

/-- Storing a bucket in the null slot where the probe sequence of its key ended keeps the
invariant, given the matching counter updates. -/
theorem Inv_fill {K V : Type} {c : Params K V} {m : HashMap K V}
    (hI : Inv c m) {t : Nat} {link : Bucket K V}
    (hs : slot m.data (probePos c m.data.length link.first t) = none)
    (ht : t < m.data.length / 2) (hb : Blocked c m.data link.first 0 t) (el' del' : Nat)
    (hel : el' = m.el_count + (if link.is_deleted = true then 0 else 1))
    (hdel : del' = m.del_count + (if link.is_deleted = true then 1 else 0)) :
    Inv c { data := m.data.set (probePos c m.data.length link.first t) (some link),
            el_count := el', del_count := del' } := by
  have hlt : probePos c m.data.length link.first t < m.data.length := probePos_lt _ _ _ _ hI.pos
  refine ⟨?_, ?_, ?_, ?_⟩
  · simp only [List.length_set]; exact hI.pos
  · have h := countLive_set m.data _ link hlt
    have hl : isLive m.data (probePos c m.data.length link.first t) = false := by
      unfold isLive; rw [hs]
    rw [hl] at h
    have := hI.el
    simp only
    simp at h
    omega
  · have h := countTomb_set m.data _ link hlt
    have hl : isTomb m.data (probePos c m.data.length link.first t) = false := by
      unfold isTomb; rw [hs]
    rw [hl] at h
    have := hI.del
    simp only
    simp at h
    omega
  · intro j x hx
    simp only at hx ⊢
    rw [List.length_set]
    by_cases hji : probePos c m.data.length link.first t = j
    · rw [← hji, slot_set_self _ _ _ hlt] at hx
      cases hx
      exact ⟨t, ht, hji, Blocked_set_none hs hb⟩
    · rw [slot_set_other _ _ _ _ hji] at hx
      obtain ⟨s, h1, h2, h3⟩ := hI.path j x hx
      exact ⟨s, h1, h2, Blocked_set_none hs h3⟩

/-! ## Iterators -/

theorem succ_mod (cur B : Nat) (h : cur < B) :
    (cur + 1) % B = if cur + 1 = B then 0 else cur + 1 := by
  split
  · next he => rw [he, Nat.mod_self]
  · next hne => exact Nat.mod_eq_of_lt (by omega)

theorem liveFrom_ge {K V : Type} (data : List (Option (Bucket K V))) (p : Nat)
    (h : data.length ≤ p) : liveFrom data p = [] := by
  unfold liveFrom
  rw [show data.length - p = 0 by omega]
  rfl

theorem liveFrom_step {K V : Type} (data : List (Option (Bucket K V))) (p : Nat)
    (h : p < data.length) :
    liveFrom data p = if isLive data p = true then p :: liveFrom data (p + 1)
      else liveFrom data (p + 1) := by
  unfold liveFrom
  rw [show data.length - p = (data.length - (p + 1)) + 1 by omega, List.range'_succ,
    List.filter_cons]

theorem liveFrom_cons {K V : Type} (data : List (Option (Bucket K V))) (n : Nat) :
    ∀ (p q : Nat) (rest : List Nat), data.length - p ≤ n → liveFrom data p = q :: rest →
      p ≤ q ∧ q < data.length ∧ isLive data q = true ∧ rest = liveFrom data (q + 1) := by
  induction n with
  | zero =>
    intro p q rest hn h
    rw [liveFrom_ge data p (by omega)] at h
    cases h
  | succ n ih =>
    intro p q rest hn h
    by_cases hp : p < data.length
    · rw [liveFrom_step data p hp] at h
      by_cases hl : isLive data p = true
      · rw [if_pos hl] at h
        cases h
        exact ⟨le_refl _, hp, hl, rfl⟩
      · rw [if_neg hl] at h
        obtain ⟨h1, h2, h3, h4⟩ := ih (p + 1) q rest (by omega) h
        exact ⟨by omega, h2, h3, h4⟩
    · rw [liveFrom_ge data p (by omega)] at h
      cases h

theorem liveFrom_set_lt {K V : Type} (data : List (Option (Bucket K V))) (i p : Nat)
    (x : Option (Bucket K V)) (h : i < p) : liveFrom (data.set i x) p = liveFrom data p := by
  unfold liveFrom
  rw [List.length_set]
  apply List.filter_congr
  intro j hj
  have := (List.mem_range'_1.1 hj).1
  exact isLive_set_other _ _ _ _ (by omega)

theorem ctorLoop_zero {K V : Type} (data : List (Option (Bucket K V))) (fuel : Nat) :
    ∀ p, p < data.length → data.length ≤ p + fuel →
      Iterator.ctorLoop data 0 fuel p =
        some (match liveFrom data p with
          | [] => (0, true)
          | q :: _ => (q, false)) := by
  induction fuel with
  | zero => intro p h1 h2; omega
  | succ fuel ih =>
    intro p h1 h2
    unfold Iterator.ctorLoop
    rw [liveFrom_step data p h1]
    by_cases hl : isLive data p = true
    · rw [if_pos hl, if_pos hl]
    · rw [if_neg hl, if_neg hl]
      simp only
      rw [succ_mod p data.length h1]
      by_cases he : p + 1 = data.length
      · rw [if_pos he, if_pos rfl, liveFrom_ge data (p + 1) (by omega)]
      · rw [if_neg he, if_neg (by omega)]
        exact ih (p + 1) (by omega) (by omega)

theorem incLoop_zero {K V : Type} (data : List (Option (Bucket K V))) (fuel : Nat) :
    ∀ p, p < data.length → data.length ≤ p + fuel →
      Iterator.incLoop data 0 fuel p =
        some (match liveFrom data (p + 1) with
          | [] => (0, true)
          | q :: _ => (q, false)) := by
  induction fuel with
  | zero => intro p h1 h2; omega
  | succ fuel ih =>
    intro p h1 h2
    unfold Iterator.incLoop
    simp only
    rw [succ_mod p data.length h1]
    by_cases he : p + 1 = data.length
    · rw [if_pos he, if_pos rfl, liveFrom_ge data (p + 1) (by omega)]
    · rw [if_neg he, if_neg (by omega), liveFrom_step data (p + 1) (by omega)]
      by_cases hl : isLive data (p + 1) = true
      · rw [if_pos hl, if_pos hl]
      · rw [if_neg hl, if_neg hl]
        exact ih (p + 1) (by omega) (by omega)

/-- The iterator `begin()` stands at the first LIVE slot. -/
theorem begin_eq {K V : Type} (m : HashMap K V) : m.begin = some (itOf (liveFrom m.data 0)) := by
  unfold HashMap.begin Iterator.ofIndex
  by_cases h : 0 < m.data.length
  · rw [if_neg (by omega), ctorLoop_zero m.data m.data.length 0 h (by omega)]
    cases liveFrom m.data 0 <;> rfl
  · rw [if_pos (by omega), liveFrom_ge m.data 0 (by omega)]
    rfl

/-- Advancing the iterator of a traversal moves it to the next LIVE slot. -/
theorem next_itOf {K V : Type} (data : List (Option (Bucket K V))) (q : Nat) (rest : List Nat)
    (hq : q < data.length) :
    Iterator.next data (itOf (q :: rest)) = some (itOf (liveFrom data (q + 1))) := by
  unfold Iterator.next itOf
  simp only [Bool.false_eq_true, if_false]
  rw [incLoop_zero data data.length q hq (by omega)]
  cases liveFrom data (q + 1) <;> rfl

/-- The increment loop ends within one turn around the bucket array. -/
theorem incLoop_isSome {K V : Type} (data : List (Option (Bucket K V))) (sp : Nat)
    (hsp : sp < data.length) (fuel : Nat) :
    ∀ cur, cur < data.length →
      (if cur < sp then sp - cur else data.length - cur + sp) ≤ fuel →
      (Iterator.incLoop data sp fuel cur).isSome = true := by
  induction fuel with
  | zero =>
    intro cur h1 h2
    split at h2 <;> omega
  | succ fuel ih =>
    intro cur h1 h2
    unfold Iterator.incLoop
    simp only
    rw [succ_mod cur data.length h1]
    by_cases he : cur + 1 = data.length
    · rw [if_pos he]
      by_cases h0 : 0 = sp
      · rw [if_pos h0]; rfl
      · rw [if_neg h0]
        by_cases hl : isLive data 0 = true
        · rw [if_pos hl]; rfl
        · rw [if_neg hl]
          apply ih 0 (by omega)
          rw [if_pos (by omega)]
          split at h2 <;> omega
    · rw [if_neg he]
      by_cases h0 : cur + 1 = sp
      · rw [if_pos h0]; rfl
      · rw [if_neg h0]
        by_cases hl : isLive data (cur + 1) = true
        · rw [if_pos hl]; rfl
        · rw [if_neg hl]
          apply ih (cur + 1) (by omega)
          split at h2 <;> split <;> omega

/-- Advancing the iterator returned by `find` always yields an iterator. -/
theorem next_liveIt_isSome {K V : Type} (data : List (Option (Bucket K V))) (i : Nat)
    (hi : i < data.length) : (Iterator.next data (liveIt i).copy).isSome = true := by
  unfold Iterator.next Iterator.copy liveIt
  simp only [Bool.false_eq_true, if_false]
  have := incLoop_isSome data i hi data.length i hi (by rw [if_neg (by omega)]; omega)
  cases h : Iterator.incLoop data i data.length i with
  | none => rw [h] at this; cases this
  | some r => rfl

/-! ## Traversal -/

theorem traverseLoop_eq {K V : Type} (data : List (Option (Bucket K V))) (l : List Nat) :
    ∀ (p f : Nat), liveFrom data p = l → l.length < f →
      traverseLoop data f (itOf l) = some l := by
  induction l with
  | nil =>
    intro p f _ hf
    cases f with
    | zero => omega
    | succ f => rfl
  | cons q rest ih =>
    intro p f hl hf
    cases f with
    | zero => omega
    | succ f =>
      obtain ⟨_, h2, _, h4⟩ := liveFrom_cons data _ p q rest (le_refl _) hl
      unfold traverseLoop
      rw [next_itOf data q rest h2, ← h4]
      have : (itOf (q :: rest)).iterator_end = false := rfl
      rw [this]
      simp only [Bool.false_eq_true, if_false]
      show Option.map (fun l => (itOf (q :: rest)).current :: l) (traverseLoop data f (itOf rest))
        = some (q :: rest)
      rw [ih (q + 1) f h4.symm (by simpa using hf)]
      rfl

theorem liveFrom_length_le {K V : Type} (data : List (Option (Bucket K V))) (p : Nat) :
    (liveFrom data p).length ≤ data.length := by
  unfold liveFrom
  calc _ ≤ (List.range' p (data.length - p)).length := List.length_filter_le _ _
    _ ≤ data.length := by rw [List.length_range']; omega

theorem liveFrom_zero {K V : Type} (data : List (Option (Bucket K V))) :
    liveFrom data 0 = (List.range data.length).filter fun i => isLive data i := by
  unfold liveFrom
  rw [List.range_eq_range']
  rfl

theorem countLiveBelow_eq {K V : Type} (data : List (Option (Bucket K V))) (n : Nat) :
    countLiveBelow data n = ((List.range n).filter fun i => isLive data i).length := by
  induction n with
  | zero => rfl
  | succ n ih =>
    unfold countLiveBelow at ih ⊢
    rw [Finset.range_succ, Finset.filter_insert, List.range_succ, List.filter_append,
      List.length_append, ← ih]
    by_cases hl : isLive data n = true
    · rw [if_pos hl, Finset.card_insert_of_not_mem (by simp)]
      simp [hl]
    · rw [if_neg hl]
      simp [hl]

theorem liveFrom_zero_length {K V : Type} (data : List (Option (Bucket K V))) :
    (liveFrom data 0).length = countLive data := by
  rw [liveFrom_zero]
  unfold countLive
  rw [countLiveBelow_eq]

/-- A traversal from `begin()` to `end()` visits the LIVE slots in increasing order. -/
theorem traverse_eq {K V : Type} (m : HashMap K V) :
    traverse m = some (liveFrom m.data 0) := by
  unfold traverse
  rw [begin_eq]
  show traverseLoop m.data (m.bucket_count + 1) (itOf (liveFrom m.data 0)) = _
  apply traverseLoop_eq m.data _ 0 _ rfl
  have := liveFrom_length_le m.data 0
  unfold HashMap.bucket_count
  omega

/-! ## The probe budget suffices in a large enough table -/

theorem card_live_union_tomb {K V : Type} (data : List (Option (Bucket K V))) :
    (((Finset.range data.length).filter fun i => isLive data i = true) ∪
      ((Finset.range data.length).filter fun i => isTomb data i = true)).card
      = countLive data + countTomb data := by
  unfold countLive countLiveBelow countTomb
  rw [Finset.card_union_of_disjoint]
  rw [Finset.disjoint_left]
  intro x h1 h2
  have h1' := (Finset.mem_filter.1 h1).2
  have h2' := (Finset.mem_filter.1 h2).2
  obtain ⟨b, hb, hd⟩ := (isLive_iff _ _).1 h1'
  obtain ⟨b', hb', hd'⟩ := (isTomb_iff _ _).1 h2'
  rw [hb] at hb'; cases hb'
  rw [hd] at hd'; cases hd'

theorem offset_le (p : CollisionPolicy) (s M : Nat) (h : s ≤ M) : offset p s ≤ M * M + M := by
  cases p
  · show s ≤ _
    have := Nat.zero_le (M * M)
    omega
  · show s * s ≤ _
    have := Nat.mul_le_mul h h
    omega

theorem offset_inj (p : CollisionPolicy) (s t : Nat) (h : offset p s = offset p t) : s = t := by
  cases p
  · exact h
  · exact Nat.mul_self_inj.1 h

theorem probePos_inj {K V : Type} (c : Params K V) (B : Nat) (key : K) (s t : Nat)
    (hs : offset c.policy s < B) (ht : offset c.policy t < B)
    (h : probePos c B key s = probePos c B key t) : s = t := by
  unfold probePos at h
  have h1 : offset c.policy s ≡ offset c.policy t [MOD B] := Nat.ModEq.add_left_cancel' _ h
  have h2 : offset c.policy s = offset c.policy t := by
    have := h1
    unfold Nat.ModEq at this
    rwa [Nat.mod_eq_of_lt hs, Nat.mod_eq_of_lt ht] at this
  exact offset_inj _ _ _ h2

/-- If the first `n` probe steps of a key are all blocked and their offsets stay below the
bucket count, the table has at least `n` non-null slots. -/
theorem blocked_le_count {K V : Type} (c : Params K V) (data : List (Option (Bucket K V)))
    (key : K) (n : Nat) (hb : Blocked c data key 0 n)
    (hoff : ∀ s, s < n → offset c.policy s < data.length) :
    n ≤ countLive data + countTomb data := by
  rw [← card_live_union_tomb]
  have := Finset.card_le_card_of_injOn (s := Finset.range n)
    (t := ((Finset.range data.length).filter fun i => isLive data i = true) ∪
      ((Finset.range data.length).filter fun i => isTomb data i = true))
    (fun s => probePos c data.length key s) ?_ ?_
  · rwa [Finset.card_range] at this
  · intro s hs
    have hs' : s < n := Finset.mem_range.1 (by simpa using hs)
    obtain ⟨b, hsl, _⟩ := hb s (Nat.zero_le _) hs'
    have hlt := slot_some_lt hsl
    rw [Finset.mem_union, Finset.mem_filter, Finset.mem_filter, Finset.mem_range]
    cases hd : b.is_deleted
    · left; exact ⟨hlt, (isLive_iff _ _).2 ⟨b, hsl, hd⟩⟩
    · right; exact ⟨hlt, (isTomb_iff _ _).2 ⟨b, hsl, hd⟩⟩
  · intro s hs t ht h
    have hs' : s < n := Finset.mem_range.1 (by simpa using hs)
    have ht' : t < n := Finset.mem_range.1 (by simpa using ht)
    exact probePos_inj c _ key s t (hoff s hs') (hoff t ht') h

/-- In a table with at least `Thr M` buckets and at most `M` non-null slots, the probe budget
cannot be exhausted. -/
theorem not_blocked_of_Thr {K V : Type} (c : Params K V) (data : List (Option (Bucket K V)))
    (key : K) (M : Nat) (hM : countLive data + countTomb data ≤ M)
    (hB : Thr M ≤ data.length) : ¬ Blocked c data key 0 (data.length / 2) := by
  intro hb
  unfold Thr at hB
  have hb' : Blocked c data key 0 (M + 1) := by
    intro j h1 h2
    exact hb j h1 (by omega)
  have := blocked_le_count c data key (M + 1) hb' (by
    intro s hs
    have := offset_le c.policy s M (by omega)
    omega)
  omega

theorem Thr_mono {a b : Nat} (h : a ≤ b) : Thr a ≤ Thr b := by
  unfold Thr
  have := Nat.mul_le_mul h h
  omega

theorem need_mono {a b : Nat} (h : a ≤ b) : need a ≤ need b := by
  unfold need
  have := Thr_mono h
  omega

theorem RhOK_mono {K V : Type} {c : Params K V} {rh : HashMap K V → Nat → Option (HashMap K V)}
    {a b : Nat} (h : a ≤ b) (hr : RhOK c rh b) : RhOK c rh a :=
  fun t count hI hN => hr t count hI (by omega)

/-! ## Auxiliary facts: fresh tables, tables without tombstones -/

theorem probeKey_eq {K V : Type} (c : Params K V) (m : HashMap K V) (key : K) :
    probeKey c m key = probe c m.data key (c.hash_fn key % m.data.length) (m.data.length / 2)
      (c.hash_fn key % m.data.length) 0 := rfl

theorem slot_set_some_iff {K V : Type} (data : List (Option (Bucket K V))) (i j : Nat)
    (y : Option (Bucket K V)) (x : Bucket K V) (hi : i < data.length) :
    slot (data.set i y) j = some x ↔ (j = i ∧ y = some x) ∨ (j ≠ i ∧ slot data j = some x) := by
  by_cases h : i = j
  · subst h
    rw [slot_set_self _ _ _ hi]
    constructor
    · intro h; exact Or.inl ⟨rfl, h⟩
    · rintro (⟨_, h⟩ | ⟨h, _⟩)
      · exact h
      · exact absurd rfl h
  · rw [slot_set_other _ _ _ _ h]
    constructor
    · intro h'; exact Or.inr ⟨fun e => h e.symm, h'⟩
    · rintro (⟨e, _⟩ | ⟨_, h'⟩)
      · exact absurd e.symm h
      · exact h'

theorem countTomb_noTomb {K V : Type} {m : HashMap K V} (h : NoTomb m) :
    countTomb m.data = 0 := by
  unfold countTomb
  rw [Finset.card_eq_zero, Finset.filter_eq_empty_iff]
  intro i _ hi
  obtain ⟨b, hb, hd⟩ := (isTomb_iff _ _).1 hi
  rw [h i b hb] at hd; cases hd

theorem countLive_replicate {K V : Type} (n : Nat) :
    countLive (List.replicate n (none : Option (Bucket K V))) = 0 := by
  unfold countLive countLiveBelow
  rw [Finset.card_eq_zero, Finset.filter_eq_empty_iff]
  intro i _ hi
  obtain ⟨b, hb, _⟩ := (isLive_iff _ _).1 hi
  rw [slot_replicate] at hb; cases hb

theorem countTomb_replicate {K V : Type} (n : Nat) :
    countTomb (List.replicate n (none : Option (Bucket K V))) = 0 := by
  unfold countTomb
  rw [Finset.card_eq_zero, Finset.filter_eq_empty_iff]
  intro i _ hi
  obtain ⟨b, hb, _⟩ := (isTomb_iff _ _).1 hi
  rw [slot_replicate] at hb; cases hb

theorem slot_new {K V : Type} (h i : Nat) : slot (HashMap.new h : HashMap K V).data i = none :=
  slot_replicate _ _

theorem Inv_new {K V : Type} (c : Params K V) (h : Nat) : Inv c (HashMap.new h) := by
  refine ⟨?_, ?_, ?_, ?_⟩
  · simp [HashMap.new]
  · exact (countLive_replicate _).symm
  · exact (countTomb_replicate _).symm
  · intro i b hb
    rw [slot_new] at hb; cases hb

theorem noTomb_new {K V : Type} (h : Nat) : NoTomb (HashMap.new h : HashMap K V) := by
  intro i b hb
  rw [slot_new] at hb; cases hb

theorem mem_slot {K V : Type} {data : List (Option (Bucket K V))} {x : Option (Bucket K V)}
    (h : x ∈ data) : ∃ i, slot data i = x := by
  obtain ⟨i, hi, he⟩ := List.getElem_of_mem h
  refine ⟨i, ?_⟩
  unfold slot
  rw [List.getD_eq_getElem?_getD, List.getElem?_eq_getElem hi, he]
  rfl

/-- Move assignment from a table without tombstones whose counters are exact is the identity. -/
theorem moveAssign_noTomb {K V : Type} {c : Params K V} {t : HashMap K V} (hI : Inv c t)
    (hN : NoTomb t) : moveAssign t = t := by
  have hd : t.del_count = 0 := by rw [hI.del, countTomb_noTomb hN]
  have hm : (moveAssign t).data = t.data := by
    unfold moveAssign
    simp only
    conv_rhs => rw [← List.map_id t.data]
    apply List.map_congr_left
    intro x hx
    cases x with
    | none => rfl
    | some b =>
      obtain ⟨i, hi⟩ := mem_slot hx
      have := hN i b hi
      simp [this]
  have h2 : (moveAssign t).el_count = t.el_count := rfl
  have h3 : (moveAssign t).del_count = 0 := rfl
  calc moveAssign t
      = ⟨(moveAssign t).data, (moveAssign t).el_count, (moveAssign t).del_count⟩ := rfl
    _ = ⟨t.data, t.el_count, t.del_count⟩ := by rw [hm, h2, h3, hd]
    _ = t := rfl

/-! ## Storing a bucket in the null slot found by probing -/

theorem fill_ok {K V : Type} {c : Params K V} {t : HashMap K V} (hI : Inv c t)
    (hN : NoTomb t) {ptr : Bucket K V} (hptr : ptr.is_deleted = false) {s : Nat}
    (hs : slot t.data (probePos c t.data.length ptr.first s) = none)
    (ht : s < t.data.length / 2) (hb : Blocked c t.data ptr.first 0 s) :
    Inv c (HashMap.mk (t.data.set (probePos c t.data.length ptr.first s) (some ptr))
      (t.el_count + 1) t.del_count) ∧
    NoTomb (HashMap.mk (t.data.set (probePos c t.data.length ptr.first s) (some ptr))
      (t.el_count + 1) t.del_count) ∧
    (∀ x, LiveB (HashMap.mk (t.data.set (probePos c t.data.length ptr.first s) (some ptr))
      (t.el_count + 1) t.del_count) x ↔
      (LiveB t x ∨ x = ptr)) := by
  have hlt : probePos c t.data.length ptr.first s < t.data.length :=
    probePos_lt _ _ _ _ hI.pos
  refine ⟨?_, ?_, ?_⟩
  · exact Inv_fill hI hs ht hb _ _ (by simp [hptr]) (by simp [hptr])
  · intro j x hx
    rcases (slot_set_some_iff _ _ _ _ _ hlt).1 hx with ⟨_, h⟩ | ⟨_, h⟩
    · cases h; exact hptr
    · exact hN j x h
  · intro x
    constructor
    · rintro ⟨j, hj, hd⟩
      rcases (slot_set_some_iff _ _ _ _ _ hlt).1 hj with ⟨_, h⟩ | ⟨_, h⟩
      · cases h; exact Or.inr rfl
      · exact Or.inl ⟨j, h, hd⟩
    · rintro (⟨j, hj, hd⟩ | h)
      · refine ⟨j, (slot_set_some_iff _ _ _ _ _ hlt).2 (Or.inr ⟨?_, hj⟩), hd⟩
        intro e
        rw [e, hs] at hj; cases hj
      · subst h
        exact ⟨_, (slot_set_some_iff _ _ _ _ _ hlt).2 (Or.inl ⟨rfl, rfl⟩), hptr⟩

theorem keyFree_of_live {K V : Type} {c : Params K V} {t t' : HashMap K V} {key : K}
    (hN : NoTomb t') (hl : ∀ b, LiveB t' b → LiveB t b) (hf : KeyFree c t key) :
    KeyFree c t' key := by
  intro i b hb
  obtain ⟨j, hj, _⟩ := hl b ⟨i, hb, hN i b hb⟩
  exact hf j b hj

/-! ## `force_insert_ptr` -/

theorem forceInsertLoop_ok {K V : Type} {c : Params K V}
    (rh : HashMap K V → Nat → Option (HashMap K V)) (N : Nat) (hrh : RhOK c rh N)
    (ptr : Bucket K V) (hptr : ptr.is_deleted = false) (w : Nat) :
    ∀ t, Inv c t → NoTomb t → countLive t.data ≤ N → KeyFree c t ptr.first →
      Thr N ≤ t.data.length + w →
      ∃ r, forceInsertLoop rh c ptr (w + 1) t = some r ∧ Inv c r ∧ NoTomb r ∧
        (∀ x, LiveB r x ↔ (LiveB t x ∨ x = ptr)) ∧ r.el_count = t.el_count + 1 ∧
        t.data.length ≤ r.data.length := by
  induction w with
  | zero =>
    intro t hI hN hcnt hf hthr
    unfold forceInsertLoop
    rcases probe_absent hf (t.data.length / 2) with ⟨s, hs1, hs2, hs3, hs4⟩ | ⟨hb, _⟩
    · rw [probeKey_eq, hs4]
      obtain ⟨h1, h2, h3⟩ := fill_ok hI hN hptr hs2 hs1 hs3
      exact ⟨_, rfl, h1, h2, h3, rfl, by simp⟩
    · exact absurd hb (not_blocked_of_Thr c t.data ptr.first N
        (by rw [countTomb_noTomb hN]; omega) (by omega))
  | succ w ih =>
    intro t hI hN hcnt hf hthr
    unfold forceInsertLoop
    rcases probe_absent hf (t.data.length / 2) with ⟨s, hs1, hs2, hs3, hs4⟩ | ⟨hb, hex⟩
    · rw [probeKey_eq, hs4]
      obtain ⟨h1, h2, h3⟩ := fill_ok hI hN hptr hs2 hs1 hs3
      exact ⟨_, rfl, h1, h2, h3, rfl, by simp⟩
    · rw [probeKey_eq, hex]
      obtain ⟨t1, ht1, hpost⟩ := hrh t (t.bucket_count * 3) hI hcnt
      have htrig : t.bucket_count * 3 > t.bucket_count ∨ t.del_count > t.size := by
        left
        have := hI.pos
        unfold HashMap.bucket_count
        omega
      obtain ⟨hN1, hlen⟩ := hpost.fresh htrig
      have hcnt1 : countLive t1.data ≤ N := by
        rw [← hpost.inv.el, hpost.el, hI.el]; exact hcnt
      obtain ⟨r, hr, g1, g2, g3, g4, g5⟩ := ih t1 hpost.inv hN1 hcnt1
        (keyFree_of_live hN1 (fun b hb => (hpost.live b).1 hb) hf) (by omega)
      refine ⟨r, ?_, g1, g2, ?_, ?_, ?_⟩
      · simp only [ht1, Option.bind_some]
        exact hr
      · intro x
        rw [g3 x, hpost.live x]
      · rw [g4, hpost.el]
      · omega

theorem forceInsertPtr_ok {K V : Type} {c : Params K V}
    (rh : HashMap K V → Nat → Option (HashMap K V)) (N : Nat) (hrh : RhOK c rh N)
    (ptr : Bucket K V) (hptr : ptr.is_deleted = false) (w : Nat) (hw : Thr N < w)
    (t : HashMap K V) (hI : Inv c t) (hN : NoTomb t) (hcnt : countLive t.data ≤ N)
    (hf : KeyFree c t ptr.first) :
    ∃ r, forceInsertPtr rh c w t ptr = some r ∧ Inv c r ∧ NoTomb r ∧
      (∀ x, LiveB r x ↔ (LiveB t x ∨ x = ptr)) ∧ r.el_count = t.el_count + 1 ∧
      t.data.length ≤ r.data.length := by
  unfold forceInsertPtr
  obtain ⟨t1, ht1, hpost⟩ := hrh t (t.size + 1) hI hcnt
  have hN1 : NoTomb t1 := by
    by_cases htrig : t.size + 1 > t.bucket_count ∨ t.del_count > t.size
    · exact (hpost.fresh htrig).1
    · rw [hpost.same htrig]; exact hN
  have hlen : t.data.length ≤ t1.data.length := by
    by_cases htrig : t.size + 1 > t.bucket_count ∨ t.del_count > t.size
    · have := (hpost.fresh htrig).2
      omega
    · rw [hpost.same htrig]
  have hcnt1 : countLive t1.data ≤ N := by
    rw [← hpost.inv.el, hpost.el, hI.el]; exact hcnt
  obtain ⟨w', rfl⟩ : ∃ w', w = w' + 1 := ⟨w - 1, by omega⟩
  obtain ⟨r, hr, g1, g2, g3, g4, g5⟩ := forceInsertLoop_ok rh N hrh ptr hptr w' t1 hpost.inv hN1
    hcnt1 (keyFree_of_live hN1 (fun b hb => (hpost.live b).1 hb) hf) (by omega)
  refine ⟨r, ?_, g1, g2, ?_, ?_, ?_⟩
  · simp only [ht1, Option.bind_some]
    exact hr
  · intro x
    rw [g3 x, hpost.live x]
  · rw [g4, hpost.el]
  · omega

/-! ## The migration loop of `rehash` -/

theorem liveFrom_mem {K V : Type} (data : List (Option (Bucket K V))) (p i : Nat) :
    i ∈ liveFrom data p ↔ p ≤ i ∧ i < data.length ∧ isLive data i = true := by
  unfold liveFrom
  rw [List.mem_filter, List.mem_range'_1]
  constructor
  · rintro ⟨⟨h1, h2⟩, h3⟩
    exact ⟨h1, by omega, h3⟩
  · rintro ⟨h1, h2, h3⟩
    exact ⟨⟨h1, by omega⟩, h3⟩

theorem liveFrom_congr {K V : Type} (data D : List (Option (Bucket K V))) (p : Nat)
    (hlen : data.length = D.length) (h : ∀ i, p ≤ i → slot data i = slot D i) :
    liveFrom data p = liveFrom D p := by
  unfold liveFrom
  rw [hlen]
  apply List.filter_congr
  intro j hj
  have := (List.mem_range'_1.1 hj).1
  unfold isLive
  rw [h j this]

theorem rehashLoop_ok {K V : Type} {c : Params K V} (hc : c.Lawful)
    (rh : HashMap K V → Nat → Option (HashMap K V)) (N w : Nat) (hw : Thr N < w)
    (m : HashMap K V) (hIm : Inv c m) (l : List Nat) :
    ∀ (f : Nat) (data : List (Option (Bucket K V))) (t : HashMap K V) (p : Nat),
      (l ≠ [] → RhOK c rh N) →
      liveFrom m.data p = l → l.length < f → data.length = m.data.length →
      (∀ i, p ≤ i → slot data i = slot m.data i) → Inv c t → NoTomb t →
      (∀ x, LiveB t x ↔ ∃ i, i < p ∧ slot m.data i = some x ∧ x.is_deleted = false) →
      t.el_count + l.length ≤ N + 1 →
      ∃ r, rehashLoop rh c w f data t (itOf l) = some r ∧ Inv c r ∧ NoTomb r ∧
        (∀ x, LiveB r x ↔ LiveB m x) ∧ r.el_count = t.el_count + l.length ∧
        t.data.length ≤ r.data.length := by
  induction l with
  | nil =>
    intro f data t p _ hl hf hlen hag hI hN hlive hel
    cases f with
    | zero => simp at hf
    | succ f =>
      refine ⟨t, rfl, hI, hN, ?_, rfl, le_refl _⟩
      intro x
      rw [hlive x]
      constructor
      · rintro ⟨i, _, h1, h2⟩
        exact ⟨i, h1, h2⟩
      · rintro ⟨i, h1, h2⟩
        refine ⟨i, ?_, h1, h2⟩
        by_contra hge
        have : i ∈ liveFrom m.data p :=
          (liveFrom_mem _ _ _).2 ⟨by omega, slot_some_lt h1, (isLive_iff _ _).2 ⟨x, h1, h2⟩⟩
        rw [hl] at this
        cases this
  | cons q rest ih =>
    intro f data t p hrh hl hf hlen hag hI hN hlive hel
    cases f with
    | zero => simp at hf
    | succ f =>
      obtain ⟨hpq, hq, hql, hrest⟩ := liveFrom_cons m.data _ p q rest (le_refl _) hl
      obtain ⟨b, hb, hbd⟩ := (isLive_iff _ _).1 hql
      have hrh' := hrh (List.cons_ne_nil _ _)
      have hcnt : countLive t.data ≤ N := by
        rw [← hI.el]
        simp only [List.length_cons] at hel
        omega
      have hfree : KeyFree c t b.first := by
        intro i x hx
        by_contra hne
        have he : c.equal_fn x.first b.first = true := by simpa using hne
        obtain ⟨j, hj, hjx, _⟩ := (hlive x).1 ⟨i, hx, hN i x hx⟩
        have := slot_unique hc hIm hjx hb he
        omega
      obtain ⟨t1, ht1, g1, g2, g3, g4, g5⟩ :=
        forceInsertPtr_ok rh N hrh' b hbd w hw t hI hN hcnt hfree
      have hdq : slot data q = some b := by rw [hag q hpq]; exact hb
      have hq' : q < (data.set q none).length := by rw [List.length_set, hlen]; exact hq
      have hnext : Iterator.next (data.set q none) (itOf (q :: rest)) = some (itOf rest) := by
        rw [next_itOf _ q rest hq', liveFrom_set_lt _ _ _ _ (by omega),
          liveFrom_congr data m.data (q + 1) hlen (fun i hi => hag i (by omega)), ← hrest]
      obtain ⟨r, hr, k1, k2, k3, k4, k5⟩ := ih f (data.set q none) t1 (q + 1)
        (fun _ => hrh') hrest.symm (by simpa using hf) (by rw [List.length_set, hlen])
        (fun i hi => by rw [slot_set_other _ _ _ _ (by omega)]; exact hag i (by omega))
        g1 g2
        (by
          intro x
          rw [g3 x, hlive x]
          constructor
          · rintro (⟨i, h1, h2, h3⟩ | h)
            · exact ⟨i, by omega, h2, h3⟩
            · subst h
              exact ⟨q, by omega, hb, hbd⟩
          · rintro ⟨i, h1, h2, h3⟩
            by_cases hip : i < p
            · exact Or.inl ⟨i, hip, h2, h3⟩
            · right
              have hmem : i ∈ liveFrom m.data p :=
                (liveFrom_mem _ _ _).2 ⟨by omega, slot_some_lt h2, (isLive_iff _ _).2 ⟨x, h2, h3⟩⟩
              rw [hl] at hmem
              rcases List.mem_cons.1 hmem with h | h
              · subst h
                rw [hb] at h2
                cases h2
                rfl
              · rw [hrest] at h
                have := ((liveFrom_mem _ _ _).1 h).1
                omega)
        (by
          rw [g4]
          simp only [List.length_cons] at hel
          omega)
      refine ⟨r, ?_, k1, k2, k3, ?_, by omega⟩
      · unfold rehashLoop
        have he : (itOf (q :: rest)).iterator_end = false := rfl
        have hcur : (itOf (q :: rest)).current = q := rfl
        rw [he, hcur, hdq]
        simp only [Bool.false_eq_true, if_false, ht1, Option.bind_some, hnext]
        exact hr
      · rw [k4, g4]
        simp only [List.length_cons]
        omega

/-! ## `rehash` returns, and what it establishes -/

theorem need_pos (N : Nat) : 0 < need N := by unfold need; omega

theorem rehash_ok {K V : Type} {c : Params K V} (hc : c.Lawful) :
    ∀ fuel N, need N ≤ fuel → RhOK c (rehash c fuel) N := by
  intro fuel
  induction fuel with
  | zero =>
    intro N hN
    have := need_pos N
    omega
  | succ fuel ih =>
    intro N hN t count hI hcnt
    unfold rehash
    by_cases htrig : count > t.bucket_count ∨ t.del_count > t.size
    · rw [if_pos htrig, begin_eq]
      show ∃ r, Option.map moveAssign (rehashLoop (rehash c fuel) c fuel (t.bucket_count + 1)
        t.data (HashMap.new (max t.bucket_count count)) (itOf (liveFrom t.data 0))) = some r ∧
        RehashPost c t count r
      have hlen0 : (liveFrom t.data 0).length = countLive t.data := liveFrom_zero_length _
      obtain ⟨r, hr, k1, k2, k3, k4, k5⟩ := rehashLoop_ok hc (rehash c fuel) (N - 1) fuel
        (by
          have h1 : Thr (N - 1) ≤ Thr N := Thr_mono (by omega)
          unfold need at hN
          omega)
        t hI (liveFrom t.data 0) (t.bucket_count + 1) t.data
        (HashMap.new (max t.bucket_count count)) 0
        (by
          intro hne
          have hpos : 0 < (liveFrom t.data 0).length := List.length_pos.2 hne
          apply ih (N - 1)
          have h1 : Thr (N - 1) ≤ Thr N := Thr_mono (by omega)
          unfold need at hN ⊢
          omega)
        rfl
        (by
          have := liveFrom_length_le t.data 0
          unfold HashMap.bucket_count
          omega)
        rfl (fun _ _ => rfl) (Inv_new c _) (noTomb_new _)
        (by
          intro x
          constructor
          · rintro ⟨i, hi, _⟩
            rw [slot_new] at hi; cases hi
          · rintro ⟨i, hi, _⟩
            omega)
        (by
          show 0 + _ ≤ _
          omega)
      refine ⟨r, ?_, ?_⟩
      · rw [hr]
        show some (moveAssign r) = some r
        rw [moveAssign_noTomb k1 k2]
      · refine ⟨k1, k3, ?_, fun h => absurd htrig h, fun _ => ⟨k2, ?_⟩⟩
        · rw [k4, hI.el, hlen0]
          show 0 + _ = _
          omega
        · have hnl : (HashMap.new (max t.bucket_count count) : HashMap K V).data.length
              = max t.bucket_count count + 1 := by simp [HashMap.new]
          rw [hnl] at k5
          exact k5
    · rw [if_neg htrig]
      exact ⟨t, rfl, hI, fun _ => Iff.rfl, rfl, fun _ => rfl, fun h => absurd h htrig⟩

/-! ## More fuel never changes a result -/

theorem forceInsertLoop_mono {K V : Type} {c : Params K V}
    {rh rh' : HashMap K V → Nat → Option (HashMap K V)}
    (hrh : ∀ t n r, rh t n = some r → rh' t n = some r) (ptr : Bucket K V) (w : Nat) :
    ∀ (w' : Nat) (t r : HashMap K V), w ≤ w' → forceInsertLoop rh c ptr w t = some r →
      forceInsertLoop rh' c ptr w' t = some r := by
  induction w with
  | zero => intro w' t r _ h; cases h
  | succ w ih =>
    intro w' t r hw h
    obtain ⟨w'', rfl⟩ : ∃ w'', w' = w'' + 1 := ⟨w' - 1, by omega⟩
    unfold forceInsertLoop at h ⊢
    cases hp : probeKey c t ptr.first with
    | empty cur => rw [hp] at h; exact h
    | tomb cur => rw [hp] at h; exact h
    | live cur => rw [hp] at h; exact h
    | exhausted =>
      rw [hp] at h
      simp only at h ⊢
      obtain ⟨t1, h1, h2⟩ := Option.bind_eq_some.1 h
      rw [hrh _ _ _ h1]
      exact ih w'' t1 r (by omega) h2

theorem rehashLoop_mono {K V : Type} {c : Params K V}
    {rh rh' : HashMap K V → Nat → Option (HashMap K V)}
    (hrh : ∀ t n r, rh t n = some r → rh' t n = some r) (w w' : Nat) (hw : w ≤ w') (f : Nat) :
    ∀ (data : List (Option (Bucket K V))) (t : HashMap K V) (it : Iterator) (r : HashMap K V),
      rehashLoop rh c w f data t it = some r → rehashLoop rh' c w' f data t it = some r := by
  induction f with
  | zero => intro data t it r h; cases h
  | succ f ih =>
    intro data t it r h
    unfold rehashLoop at h ⊢
    by_cases he : it.iterator_end = true
    · rw [if_pos he] at h ⊢; exact h
    · rw [if_neg he] at h ⊢
      cases hs : slot data it.current with
      | none => rw [hs] at h; cases h
      | some b =>
        rw [hs] at h
        simp only at h ⊢
        obtain ⟨t1, h1, h2⟩ := Option.bind_eq_some.1 h
        obtain ⟨it1, h3, h4⟩ := Option.bind_eq_some.1 h2
        unfold forceInsertPtr at h1 ⊢
        obtain ⟨t0, h5, h6⟩ := Option.bind_eq_some.1 h1
        rw [hrh _ _ _ h5]
        simp only [Option.some_bind]
        rw [forceInsertLoop_mono hrh b w w' t0 t1 hw h6]
        simp only [Option.some_bind, h3]
        exact ih _ _ _ _ h4

theorem rehash_mono {K V : Type} (c : Params K V) (fuel : Nat) :
    ∀ (fuel' : Nat) (m : HashMap K V) (n : Nat) (r : HashMap K V), fuel ≤ fuel' →
      rehash c fuel m n = some r → rehash c fuel' m n = some r := by
  induction fuel with
  | zero =>
    intro fuel' m n r _ h
    unfold rehash at h
    by_cases ht : n > m.bucket_count ∨ m.del_count > m.size
    · rw [if_pos ht] at h; cases h
    · rw [if_neg ht] at h
      cases fuel' <;> (unfold rehash; rw [if_neg ht]; exact h)
  | succ fuel ih =>
    intro fuel' m n r hf h
    obtain ⟨f'', rfl⟩ : ∃ f'', fuel' = f'' + 1 := ⟨fuel' - 1, by omega⟩
    unfold rehash at h ⊢
    by_cases ht : n > m.bucket_count ∨ m.del_count > m.size
    · rw [if_pos ht] at h ⊢
      obtain ⟨it, h1, h2⟩ := Option.bind_eq_some.1 h
      rw [h1]
      simp only [Option.some_bind]
      obtain ⟨t, h3, h4⟩ := Option.map_eq_some'.1 h2
      rw [rehashLoop_mono (fun t n r hr => ih f'' t n r (by omega) hr) fuel f'' (by omega)
        _ _ _ _ _ h3]
      exact congrArg some h4
    · rw [if_neg ht] at h ⊢; exact h

theorem emplaceLoop_mono {K V : Type} (c : Params K V) (fuel fuel' : Nat) (hf : fuel ≤ fuel')
    (link : Bucket K V) (w : Nat) :
    ∀ (w' : Nat) (m : HashMap K V) (r : HashMap K V × Iterator × Bool), w ≤ w' →
      emplaceLoop c fuel link w m = some r → emplaceLoop c fuel' link w' m = some r := by
  induction w with
  | zero => intro w' m r _ h; cases h
  | succ w ih =>
    intro w' m r hw h
    obtain ⟨w'', rfl⟩ : ∃ w'', w' = w'' + 1 := ⟨w' - 1, by omega⟩
    unfold emplaceLoop at h ⊢
    cases hp : probeKey c m link.first with
    | empty cur => rw [hp] at h; exact h
    | tomb cur => rw [hp] at h; exact h
    | live cur => rw [hp] at h; exact h
    | exhausted =>
      rw [hp] at h
      simp only at h ⊢
      obtain ⟨t1, h1, h2⟩ := Option.bind_eq_some.1 h
      rw [rehash_mono c fuel fuel' _ _ _ hf h1]
      exact ih w'' t1 r (by omega) h2

theorem insertOrAssignLoop_mono {K V : Type} (c : Params K V) (fuel fuel' : Nat)
    (hf : fuel ≤ fuel') (key : K) (value : V) (w : Nat) :
    ∀ (w' : Nat) (m : HashMap K V) (r : HashMap K V × Iterator × Bool), w ≤ w' →
      insertOrAssignLoop c fuel key value w m = some r →
      insertOrAssignLoop c fuel' key value w' m = some r := by
  induction w with
  | zero => intro w' m r _ h; cases h
  | succ w ih =>
    intro w' m r hw h
    obtain ⟨w'', rfl⟩ : ∃ w'', w' = w'' + 1 := ⟨w' - 1, by omega⟩
    unfold insertOrAssignLoop at h ⊢
    cases hp : probeKey c m key with
    | empty cur => rw [hp] at h; exact h
    | tomb cur => rw [hp] at h; exact h
    | live cur => rw [hp] at h; exact h
    | exhausted =>
      rw [hp] at h
      simp only at h ⊢
      obtain ⟨t1, h1, h2⟩ := Option.bind_eq_some.1 h
      rw [rehash_mono c fuel fuel' _ _ _ hf h1]
      exact ih w'' t1 r (by omega) h2

theorem indexLoop_mono {K V : Type} (c : Params K V) (fuel fuel' : Nat) (hf : fuel ≤ fuel')
    (key : K) (w : Nat) :
    ∀ (w' : Nat) (m : HashMap K V) (r : HashMap K V × V), w ≤ w' →
      indexLoop c fuel key w m = some r → indexLoop c fuel' key w' m = some r := by
  induction w with
  | zero => intro w' m r _ h; cases h
  | succ w ih =>
    intro w' m r hw h
    obtain ⟨w'', rfl⟩ : ∃ w'', w' = w'' + 1 := ⟨w' - 1, by omega⟩
    unfold indexLoop at h ⊢
    cases hp : probeKey c m key with
    | empty cur => rw [hp] at h; exact h
    | tomb cur => rw [hp] at h; exact h
    | live cur => rw [hp] at h; exact h
    | exhausted =>
      rw [hp] at h
      simp only at h ⊢
      obtain ⟨t1, h1, h2⟩ := Option.bind_eq_some.1 h
      rw [rehash_mono c fuel fuel' _ _ _ hf h1]
      exact ih w'' t1 r (by omega) h2

theorem eraseLoop_mono {K V : Type} (c : Params K V) (key : K) (f : Nat) :
    ∀ (f' : Nat) (m : HashMap K V) (n : Nat) (r : HashMap K V × Nat), f ≤ f' →
      eraseLoop c key f m n = some r → eraseLoop c key f' m n = some r := by
  induction f with
  | zero => intro f' m n r _ h; cases h
  | succ f ih =>
    intro f' m n r hf h
    obtain ⟨f'', rfl⟩ : ∃ f'', f' = f'' + 1 := ⟨f' - 1, by omega⟩
    unfold eraseLoop at h ⊢
    cases hfd : find c m key with
    | none => rw [hfd] at h; cases h
    | some it =>
      rw [hfd] at h
      simp only at h ⊢
      by_cases he : it.iterator_end = true
      · rw [if_pos he] at h ⊢; exact h
      · rw [if_neg he] at h ⊢
        obtain ⟨t1, h1, h2⟩ := Option.bind_eq_some.1 h
        rw [h1]
        exact ih f'' _ _ r (by omega) h2

theorem applyOp_mono {K V : Type} (c : Params K V) (fuel fuel' : Nat) (hf : fuel ≤ fuel')
    (m : HashMap K V) (op : Op K V) (r : HashMap K V) (h : applyOp c fuel m op = some r) :
    applyOp c fuel' m op = some r := by
  cases op with
  | insert k v =>
    simp only [applyOp, insert, emplace, reserve] at h ⊢
    obtain ⟨x, h1, h2⟩ := Option.map_eq_some'.1 h
    obtain ⟨t, h3, h4⟩ := Option.bind_eq_some.1 h1
    rw [rehash_mono c fuel fuel' _ _ _ hf h3]
    simp only [Option.some_bind]
    rw [emplaceLoop_mono c fuel fuel' hf _ fuel fuel' t x hf h4]
    exact congrArg some h2
  | insert_or_assign k v =>
    simp only [applyOp, insert_or_assign, reserve] at h ⊢
    obtain ⟨x, h1, h2⟩ := Option.map_eq_some'.1 h
    obtain ⟨t, h3, h4⟩ := Option.bind_eq_some.1 h1
    rw [rehash_mono c fuel fuel' _ _ _ hf h3]
    simp only [Option.some_bind]
    rw [insertOrAssignLoop_mono c fuel fuel' hf _ _ fuel fuel' t x hf h4]
    exact congrArg some h2
  | index k =>
    simp only [applyOp, index, reserve] at h ⊢
    obtain ⟨x, h1, h2⟩ := Option.map_eq_some'.1 h
    obtain ⟨t, h3, h4⟩ := Option.bind_eq_some.1 h1
    rw [rehash_mono c fuel fuel' _ _ _ hf h3]
    simp only [Option.some_bind]
    rw [indexLoop_mono c fuel fuel' hf _ fuel fuel' t x hf h4]
    exact congrArg some h2
  | erase k =>
    simp only [applyOp, erase] at h ⊢
    obtain ⟨x, h1, h2⟩ := Option.map_eq_some'.1 h
    rw [eraseLoop_mono c k fuel fuel' m 0 x hf h1]
    exact congrArg some h2
  | rehash n =>
    simp only [applyOp] at h ⊢
    exact rehash_mono c fuel fuel' m n r hf h

/-! ## The three outcomes of a probing round -/

theorem probeKey_cases {K V : Type} {c : Params K V} (hc : c.Lawful) {m : HashMap K V}
    (hI : Inv c m) (key : K) :
    (∃ i b, slot m.data i = some b ∧ c.equal_fn b.first key = true ∧
        probeKey c m key = if b.is_deleted then .tomb i else .live i) ∨
    (KeyFree c m key ∧ ∃ t, t < m.data.length / 2 ∧
        slot m.data (probePos c m.data.length key t) = none ∧ Blocked c m.data key 0 t ∧
        probeKey c m key = .empty (probePos c m.data.length key t)) ∨
    (KeyFree c m key ∧ Blocked c m.data key 0 (m.data.length / 2) ∧
        probeKey c m key = .exhausted) := by
  by_cases h : ∃ i b, slot m.data i = some b ∧ c.equal_fn b.first key = true
  · obtain ⟨i, b, h1, h2⟩ := h
    exact Or.inl ⟨i, b, h1, h2, probe_found hc hI h1 h2 _ (le_refl _)⟩
  · have hf : KeyFree c m key := by
      intro i b hb
      by_contra hne
      exact h ⟨i, b, hb, by simpa using hne⟩
    rcases probe_absent hf (m.data.length / 2) with ⟨t, h1, h2, h3, h4⟩ | ⟨h1, h2⟩
    · exact Or.inr (Or.inl ⟨hf, t, h1, h2, h3, h4⟩)
    · exact Or.inr (Or.inr ⟨hf, h1, h2⟩)

theorem LiveB_set {K V : Type} (data : List (Option (Bucket K V))) (i : Nat) (b' : Bucket K V)
    (e d : Nat) (hi : i < data.length) (x : Bucket K V) :
    LiveB (HashMap.mk (data.set i (some b')) e d) x ↔
      (x = b' ∧ b'.is_deleted = false) ∨
        ∃ j, j ≠ i ∧ slot data j = some x ∧ x.is_deleted = false := by
  constructor
  · rintro ⟨j, hj, hd⟩
    rcases (slot_set_some_iff _ _ _ _ _ hi).1 hj with ⟨_, h⟩ | ⟨h1, h2⟩
    · cases h; exact Or.inl ⟨rfl, hd⟩
    · exact Or.inr ⟨j, h1, h2, hd⟩
  · rintro (⟨h1, h2⟩ | ⟨j, h1, h2, h3⟩)
    · subst h1
      exact ⟨i, (slot_set_some_iff _ _ _ _ _ hi).2 (Or.inl ⟨rfl, rfl⟩), h2⟩
    · exact ⟨j, (slot_set_some_iff _ _ _ _ _ hi).2 (Or.inr ⟨h1, h2⟩), h3⟩

theorem ofIndex_set {K V : Type} (data : List (Option (Bucket K V))) (i : Nat)
    (b : Bucket K V) (hi : i < data.length) (hb : b.is_deleted = false) :
    Iterator.ofIndex (data.set i (some b)) i = some (liveIt i) := by
  apply ofIndex_live
  rw [isLive_set_self _ _ _ hi, hb]
  rfl

/-- Outcome "null slot": the bucket is stored there. -/
theorem empty_post {K V : Type} {c : Params K V} (upd : Bucket K V → Bucket K V)
    {m : HashMap K V} (hI : Inv c m) {link : Bucket K V} (hl : link.is_deleted = false)
    (hf : KeyFree c m link.first) {s : Nat}
    (hs : slot m.data (probePos c m.data.length link.first s) = none)
    (ht : s < m.data.length / 2) (hb : Blocked c m.data link.first 0 s) :
    InsPost c upd m link (HashMap.mk
      (m.data.set (probePos c m.data.length link.first s) (some link))
      (m.el_count + 1) m.del_count) := by
  have hlt : probePos c m.data.length link.first s < m.data.length :=
    probePos_lt _ _ _ _ hI.pos
  refine ⟨?_, ?_, ?_, ?_, ?_⟩
  · exact Inv_fill hI hs ht hb _ _ (by simp [hl]) (by simp [hl])
  · rintro b0 ⟨j, hj, _⟩ he
    rw [hf j b0 hj] at he; cases he
  · intro _
    refine ⟨?_, rfl⟩
    intro x
    rw [LiveB_set _ _ _ _ _ hlt]
    constructor
    · rintro (⟨h, _⟩ | ⟨j, _, h2, h3⟩)
      · exact Or.inr h
      · exact Or.inl ⟨j, h2, h3⟩
    · rintro (⟨j, h2, h3⟩ | h)
      · refine Or.inr ⟨j, ?_, h2, h3⟩
        intro e
        rw [e, hs] at h2; cases h2
      · exact Or.inl ⟨h, hl⟩
  · intro hN j x hx
    rcases (slot_set_some_iff _ _ _ _ _ hlt).1 hx with ⟨_, h⟩ | ⟨_, h⟩
    · cases h; exact hl
    · exact hN j x h
  · simp

/-- Outcome "tombstone with an equal key": the slot is revived. -/
theorem tomb_post {K V : Type} {c : Params K V} (hc : c.Lawful)
    (upd : Bucket K V → Bucket K V)
    {m : HashMap K V} (hI : Inv c m) {link : Bucket K V} (hl : link.is_deleted = false)
    {i : Nat} {b : Bucket K V} (hs : slot m.data i = some b)
    (he : c.equal_fn b.first link.first = true) (hd : b.is_deleted = true) :
    InsPost c upd m link (HashMap.mk (m.data.set i (some link))
      (m.el_count + 1) (m.del_count - 1)) := by
  have hlt := slot_some_lt hs
  have hdel : 0 < m.del_count := by
    rw [hI.del]
    exact countTomb_pos ((isTomb_iff _ _).2 ⟨b, hs, hd⟩)
  have habs : ∀ b0, LiveB m b0 → c.equal_fn b0.first link.first = false := by
    rintro b0 ⟨j, hj, hd0⟩
    by_contra hne
    have he0 : c.equal_fn b0.first link.first = true := by simpa using hne
    have := slot_unique hc hI hj hs (hc.trans _ _ _ he0 (hc.symm _ _ he))
    subst this
    rw [hs] at hj
    cases hj
    rw [hd] at hd0; cases hd0
  refine ⟨?_, ?_, ?_, ?_, ?_⟩
  · exact Inv_replace hc hI hs he _ _ (by simp [hl, hd]) (by simp [hl, hd]; omega)
  · intro b0 h0 he0
    rw [habs b0 h0] at he0; cases he0
  · intro _
    refine ⟨?_, rfl⟩
    intro x
    rw [LiveB_set _ _ _ _ _ hlt]
    constructor
    · rintro (⟨h, _⟩ | ⟨j, _, h2, h3⟩)
      · exact Or.inr h
      · exact Or.inl ⟨j, h2, h3⟩
    · rintro (⟨j, h2, h3⟩ | h)
      · refine Or.inr ⟨j, ?_, h2, h3⟩
        intro e
        rw [e, hs] at h2
        cases h2
        rw [hd] at h3; cases h3
      · exact Or.inl ⟨h, hl⟩
  · intro hN
    rw [hN i b hs] at hd; cases hd
  · simp

/-- Outcome "budget exhausted": the post-condition of the remaining rounds, run on the
rehashed table, is a post-condition for the original table. -/
theorem InsPost_of_rehash {K V : Type} {c : Params K V} {upd : Bucket K V → Bucket K V}
    {m m' r : HashMap K V} {n : Nat} {link : Bucket K V} (hp : RehashPost c m n m')
    (h : InsPost c upd m' link r) : InsPost c upd m link r := by
  have hN : NoTomb m → NoTomb m' := by
    intro hN
    by_cases ht : n > m.bucket_count ∨ m.del_count > m.size
    · exact (hp.fresh ht).1
    · rw [hp.same ht]; exact hN
  have hlen : m.data.length ≤ m'.data.length := by
    by_cases ht : n > m.bucket_count ∨ m.del_count > m.size
    · have := (hp.fresh ht).2
      omega
    · rw [hp.same ht]
  refine ⟨h.inv, ?_, ?_, fun x => h.noTomb (hN x), le_trans hlen h.len⟩
  · intro b0 h0 he0
    obtain ⟨g1, g2⟩ := h.present b0 ((hp.live b0).2 h0) he0
    refine ⟨?_, by rw [g2, hp.el]⟩
    intro x
    rw [g1 x]
    constructor
    · rintro ⟨b, hb, hx⟩
      exact ⟨b, (hp.live b).1 hb, hx⟩
    · rintro ⟨b, hb, hx⟩
      exact ⟨b, (hp.live b).2 hb, hx⟩
  · intro ha
    obtain ⟨g1, g2⟩ := h.absent (fun b hb => ha b ((hp.live b).1 hb))
    refine ⟨?_, by rw [g2, hp.el]⟩
    intro x
    rw [g1 x, hp.live x]

theorem rehash_count {K V : Type} {c : Params K V} {m m' : HashMap K V} {n M : Nat}
    (hI : Inv c m) (hp : RehashPost c m n m')
    (hM : countLive m.data + countTomb m.data ≤ M) :
    countLive m'.data + countTomb m'.data ≤ M := by
  by_cases ht : n > m.bucket_count ∨ m.del_count > m.size
  · rw [countTomb_noTomb (hp.fresh ht).1, ← hp.inv.el, hp.el, hI.el]
    omega
  · rw [hp.same ht]; exact hM

/-! ## Outcome "LIVE slot with an equal key" -/

theorem live_post_id {K V : Type} {c : Params K V} {m : HashMap K V} (hI : Inv c m)
    {link : Bucket K V} {b : Bucket K V} (hb : LiveB m b)
    (he : c.equal_fn b.first link.first = true) : InsPost c id m link m := by
  refine ⟨hI, ?_, ?_, fun h => h, le_refl _⟩
  · intro _ _ _
    refine ⟨?_, rfl⟩
    intro x
    constructor
    · intro hx
      exact ⟨x, hx, by split <;> rfl⟩
    · rintro ⟨b1, hb1, hx⟩
      have : x = b1 := by rw [hx]; split <;> rfl
      rw [this]; exact hb1
  · intro ha
    rw [ha b hb] at he; cases he

theorem live_post_assign {K V : Type} {c : Params K V} (hc : c.Lawful) {m : HashMap K V}
    (hI : Inv c m) {link : Bucket K V} {i : Nat} {b : Bucket K V} (value : V)
    (hs : slot m.data i = some b) (hd : b.is_deleted = false)
    (he : c.equal_fn b.first link.first = true) :
    InsPost c (assignTo value) m link
      (HashMap.mk (m.data.set i (some (assignTo value b))) m.el_count m.del_count) := by
  have hlt := slot_some_lt hs
  have hk : (assignTo value b).first = b.first := rfl
  have hdd : (assignTo value b).is_deleted = b.is_deleted := rfl
  refine ⟨?_, ?_, ?_, ?_, ?_⟩
  · exact Inv_replace hc hI hs (by rw [hk]; exact hc.refl _) _ _ (by rw [hdd]) (by rw [hdd])
  · intro _ _ _
    refine ⟨?_, rfl⟩
    intro x
    rw [LiveB_set _ _ _ _ _ hlt]
    constructor
    · rintro (⟨h1, _⟩ | ⟨j, h1, h2, h3⟩)
      · exact ⟨b, ⟨i, hs, hd⟩, by rw [if_pos he]; exact h1⟩
      · refine ⟨x, ⟨j, h2, h3⟩, ?_⟩
        have : ¬ c.equal_fn x.first link.first = true := by
          intro hx
          exact h1 (slot_unique hc hI h2 hs (hc.trans _ _ _ hx (hc.symm _ _ he)))
        rw [if_neg this]
    · rintro ⟨b1, ⟨j, hj, hdj⟩, hx⟩
      by_cases hb1 : c.equal_fn b1.first link.first = true
      · rw [if_pos hb1] at hx
        have := slot_unique hc hI hj hs (hc.trans _ _ _ hb1 (hc.symm _ _ he))
        subst this
        rw [hs] at hj
        cases hj
        exact Or.inl ⟨hx, by rw [hdd]; exact hd⟩
      · rw [if_neg hb1] at hx
        subst hx
        refine Or.inr ⟨j, ?_, hj, hdj⟩
        intro e
        subst e
        rw [hs] at hj
        cases hj
        exact hb1 he
  · intro ha
    rw [ha b ⟨i, hs, hd⟩] at he; cases he
  · intro hN j x hx
    rcases (slot_set_some_iff _ _ _ _ _ hlt).1 hx with ⟨_, h⟩ | ⟨_, h⟩
    · cases h; rw [hdd]; exact hd
    · exact hN j x h
  · simp

theorem InsRes_of_rehash {K V : Type} {c : Params K V} {upd : Bucket K V → Bucket K V}
    {m m' : HashMap K V} {n : Nat} {link : Bucket K V} {r : HashMap K V × Iterator × Bool}
    (hp : RehashPost c m n m') (h : InsRes c upd m' link r) : InsRes c upd m link r := by
  obtain ⟨h1, h2, h3⟩ := h
  refine ⟨InsPost_of_rehash hp h1, h2, ?_⟩
  rw [h3]
  constructor
  · intro ha b hb
    exact ha b ((hp.live b).2 hb)
  · intro ha b hb
    exact ha b ((hp.live b).1 hb)

theorem IdxRes_of_rehash {K V : Type} {c : Params K V}
    {m m' : HashMap K V} {n : Nat} {key : K} {r : HashMap K V × V}
    (hp : RehashPost c m n m') (h : IdxRes c m' key r) : IdxRes c m key r :=
  ⟨InsPost_of_rehash hp h.1, h.2⟩

/-- A table that exhausts the probe budget is smaller than the threshold. -/
theorem exhausted_small {K V : Type} {c : Params K V} {m : HashMap K V} {key : K} {M : Nat}
    (hM : countLive m.data + countTomb m.data ≤ M)
    (hb : Blocked c m.data key 0 (m.data.length / 2)) : m.data.length < Thr M := by
  by_contra h
  exact not_blocked_of_Thr c m.data key M hM (by omega) hb

/-! ## The loop of `emplace` -/

theorem emplaceLoop_round {K V : Type} {c : Params K V} (hc : c.Lawful) (fuel : Nat)
    (link : Bucket K V) (hl : link.is_deleted = false) (w : Nat) (m : HashMap K V)
    (hI : Inv c m)
    (hex : KeyFree c m link.first → Blocked c m.data link.first 0 (m.data.length / 2) →
      ∃ r, (rehash c fuel m (m.bucket_count * 3)).bind (emplaceLoop c fuel link w) = some r ∧
        InsRes c id m link r) :
    ∃ r, emplaceLoop c fuel link (w + 1) m = some r ∧ InsRes c id m link r := by
  unfold emplaceLoop
  rcases probeKey_cases hc hI link.first with ⟨i, b, h1, h2, h3⟩ | ⟨hf, t, h1, h2, h3, h4⟩ |
    ⟨hf, h1, h2⟩
  · have hlt := slot_some_lt h1
    cases hd : b.is_deleted
    · rw [hd] at h3
      simp only [Bool.false_eq_true, if_false] at h3
      rw [h3]
      simp only
      rw [ofIndex_live ((isLive_iff _ _).2 ⟨b, h1, hd⟩)]
      refine ⟨_, rfl, live_post_id hI ⟨i, h1, hd⟩ h2, ⟨i, b, rfl, h1, hd, h2⟩, ?_⟩
      constructor
      · intro h; cases h
      · intro ha
        rw [ha b ⟨i, h1, hd⟩] at h2; cases h2
    · rw [hd] at h3
      simp only [if_true] at h3
      rw [h3]
      simp only
      rw [ofIndex_set _ _ _ hlt hl]
      have hp := tomb_post hc id hI hl h1 h2 hd
      refine ⟨_, rfl, hp, ⟨i, link, rfl, slot_set_self _ _ _ hlt, hl, hc.refl _⟩, ?_⟩
      constructor
      · intro _ b0 hb0
        by_contra hne
        have he0 : c.equal_fn b0.first link.first = true := by simpa using hne
        obtain ⟨j, hj, hd0⟩ := hb0
        have := slot_unique hc hI hj h1 (hc.trans _ _ _ he0 (hc.symm _ _ h2))
        subst this
        rw [h1] at hj
        cases hj
        rw [hd] at hd0; cases hd0
      · intro _; rfl
  · have hlt : probePos c m.data.length link.first t < m.data.length :=
      probePos_lt _ _ _ _ hI.pos
    rw [h4]
    simp only
    rw [ofIndex_set _ _ _ hlt hl]
    have hp := empty_post id hI hl hf h2 h1 h3
    refine ⟨_, rfl, hp, ⟨_, link, rfl, slot_set_self _ _ _ hlt, hl, hc.refl _⟩, ?_⟩
    constructor
    · rintro _ b0 ⟨j, hj, _⟩
      exact hf j b0 hj
    · intro _; rfl
  · rw [h2]
    exact hex hf h1

theorem emplaceLoop_ok {K V : Type} {c : Params K V} (hc : c.Lawful) (fuel M : Nat)
    (hfuel : need M ≤ fuel) (link : Bucket K V) (hl : link.is_deleted = false) (w : Nat) :
    ∀ m, Inv c m → countLive m.data + countTomb m.data ≤ M → Thr M ≤ m.data.length + w →
      ∃ r, emplaceLoop c fuel link (w + 1) m = some r ∧ InsRes c id m link r := by
  induction w with
  | zero =>
    intro m hI hM hthr
    apply emplaceLoop_round hc fuel link hl 0 m hI
    intro _ hb
    have := exhausted_small hM hb
    omega
  | succ w ih =>
    intro m hI hM hthr
    apply emplaceLoop_round hc fuel link hl (w + 1) m hI
    intro _ _
    obtain ⟨m', hm', hp⟩ := rehash_ok hc fuel M hfuel m (m.bucket_count * 3) hI (by omega)
    have htrig : m.bucket_count * 3 > m.bucket_count ∨ m.del_count > m.size := by
      left
      have := hI.pos
      unfold HashMap.bucket_count
      omega
    have hlen := (hp.fresh htrig).2
    obtain ⟨r, hr, hres⟩ := ih m' hp.inv (rehash_count hI hp hM) (by omega)
    refine ⟨r, ?_, InsRes_of_rehash hp hres⟩
    rw [hm']
    exact hr

/-! ## The loop of `insert_or_assign` -/

theorem insertOrAssignLoop_round {K V : Type} {c : Params K V} (hc : c.Lawful) (fuel : Nat)
    (key : K) (value : V) (w : Nat) (m : HashMap K V) (hI : Inv c m)
    (hex : KeyFree c m key → Blocked c m.data key 0 (m.data.length / 2) →
      ∃ r, (rehash c fuel m (m.bucket_count * 3)).bind
          (insertOrAssignLoop c fuel key value w) = some r ∧
        InsRes c (assignTo value) m { first := key, second := value, is_deleted := false } r) :
    ∃ r, insertOrAssignLoop c fuel key value (w + 1) m = some r ∧
      InsRes c (assignTo value) m { first := key, second := value, is_deleted := false } r := by
  unfold insertOrAssignLoop
  have hl : (Bucket.mk key value false).is_deleted = false := rfl
  rcases probeKey_cases hc hI key with ⟨i, b, h1, h2, h3⟩ | ⟨hf, t, h1, h2, h3, h4⟩ |
    ⟨hf, h1, h2⟩
  · have hlt := slot_some_lt h1
    cases hd : b.is_deleted
    · rw [hd] at h3
      simp only [Bool.false_eq_true, if_false] at h3
      rw [h3]
      simp only
      rw [h1]
      have hdd : (assignTo value b).is_deleted = false := hd
      have hof := ofIndex_set m.data i (assignTo value b) hlt hdd
      have hp := @live_post_assign K V c hc m hI (Bucket.mk key value false) i b value h1 hd h2
      refine ⟨(_, liveIt i, false), ?_, hp,
        ⟨i, assignTo value b, rfl, slot_set_self _ _ _ hlt, hdd, h2⟩, ?_⟩
      · show Option.map _ (Iterator.ofIndex (m.data.set i (some (assignTo value b))) i) = _
        rw [hof]
        rfl
      · constructor
        · intro h; cases h
        · intro ha
          rw [ha b ⟨i, h1, hd⟩] at h2; cases h2
    · rw [hd] at h3
      simp only [if_true] at h3
      rw [h3]
      simp only
      rw [ofIndex_set _ _ _ hlt hl]
      have hp := tomb_post hc (assignTo value) hI hl h1 h2 hd
      refine ⟨_, rfl, hp, ⟨i, _, rfl, slot_set_self _ _ _ hlt, hl, hc.refl _⟩, ?_⟩
      constructor
      · intro _ b0 hb0
        by_contra hne
        have he0 : c.equal_fn b0.first key = true := by simpa using hne
        obtain ⟨j, hj, hd0⟩ := hb0
        have := slot_unique hc hI hj h1 (hc.trans _ _ _ he0 (hc.symm _ _ h2))
        subst this
        rw [h1] at hj
        cases hj
        rw [hd] at hd0; cases hd0
      · intro _; rfl
  · have hlt : probePos c m.data.length key t < m.data.length :=
      probePos_lt _ _ _ _ hI.pos
    rw [h4]
    simp only
    rw [ofIndex_set _ _ _ hlt hl]
    have hp := empty_post (assignTo value) hI hl hf h2 h1 h3
    refine ⟨_, rfl, hp, ⟨_, _, rfl, slot_set_self _ _ _ hlt, hl, hc.refl _⟩, ?_⟩
    constructor
    · rintro _ b0 ⟨j, hj, _⟩
      exact hf j b0 hj
    · intro _; rfl
  · rw [h2]
    exact hex hf h1

theorem insertOrAssignLoop_ok {K V : Type} {c : Params K V} (hc : c.Lawful) (fuel M : Nat)
    (hfuel : need M ≤ fuel) (key : K) (value : V) (w : Nat) :
    ∀ m, Inv c m → countLive m.data + countTomb m.data ≤ M → Thr M ≤ m.data.length + w →
      ∃ r, insertOrAssignLoop c fuel key value (w + 1) m = some r ∧
        InsRes c (assignTo value) m { first := key, second := value, is_deleted := false } r := by
  induction w with
  | zero =>
    intro m hI hM hthr
    apply insertOrAssignLoop_round hc fuel key value 0 m hI
    intro _ hb
    have := exhausted_small hM hb
    omega
  | succ w ih =>
    intro m hI hM hthr
    apply insertOrAssignLoop_round hc fuel key value (w + 1) m hI
    intro _ _
    obtain ⟨m', hm', hp⟩ := rehash_ok hc fuel M hfuel m (m.bucket_count * 3) hI (by omega)
    have htrig : m.bucket_count * 3 > m.bucket_count ∨ m.del_count > m.size := by
      left
      have := hI.pos
      unfold HashMap.bucket_count
      omega
    have hlen := (hp.fresh htrig).2
    obtain ⟨r, hr, hres⟩ := ih m' hp.inv (rehash_count hI hp hM) (by omega)
    refine ⟨r, ?_, InsRes_of_rehash hp hres⟩
    rw [hm']
    exact hr

/-! ## The loop of `operator[]` -/

theorem indexLoop_round {K V : Type} {c : Params K V} (hc : c.Lawful) (fuel : Nat)
    (key : K) (w : Nat) (m : HashMap K V) (hI : Inv c m)
    (hex : KeyFree c m key → Blocked c m.data key 0 (m.data.length / 2) →
      ∃ r, (rehash c fuel m (m.bucket_count * 3)).bind (indexLoop c fuel key w) = some r ∧
        IdxRes c m key r) :
    ∃ r, indexLoop c fuel key (w + 1) m = some r ∧ IdxRes c m key r := by
  unfold indexLoop
  have hl : (Bucket.mk key c.mapped_default false).is_deleted = false := rfl
  rcases probeKey_cases hc hI key with ⟨i, b, h1, h2, h3⟩ | ⟨hf, t, h1, h2, h3, h4⟩ |
    ⟨hf, h1, h2⟩
  · have hlt := slot_some_lt h1
    cases hd : b.is_deleted
    · rw [hd] at h3
      simp only [Bool.false_eq_true, if_false] at h3
      rw [h3]
      simp only
      rw [h1]
      exact ⟨_, rfl, @live_post_id K V c m hI (Bucket.mk key c.mapped_default false) b
        ⟨i, h1, hd⟩ h2, ⟨i, b, h1, hd, h2, rfl⟩⟩
    · rw [hd] at h3
      simp only [if_true] at h3
      rw [h3]
      have hp := tomb_post hc id hI hl h1 h2 hd
      exact ⟨_, rfl, hp, ⟨i, _, slot_set_self _ _ _ hlt, hl, hc.refl _, rfl⟩⟩
  · have hlt : probePos c m.data.length key t < m.data.length :=
      probePos_lt _ _ _ _ hI.pos
    rw [h4]
    have hp := empty_post id hI hl hf h2 h1 h3
    exact ⟨_, rfl, hp, ⟨_, _, slot_set_self _ _ _ hlt, hl, hc.refl _, rfl⟩⟩
  · rw [h2]
    exact hex hf h1

theorem indexLoop_ok {K V : Type} {c : Params K V} (hc : c.Lawful) (fuel M : Nat)
    (hfuel : need M ≤ fuel) (key : K) (w : Nat) :
    ∀ m, Inv c m → countLive m.data + countTomb m.data ≤ M → Thr M ≤ m.data.length + w →
      ∃ r, indexLoop c fuel key (w + 1) m = some r ∧ IdxRes c m key r := by
  induction w with
  | zero =>
    intro m hI hM hthr
    apply indexLoop_round hc fuel key 0 m hI
    intro _ hb
    have := exhausted_small hM hb
    omega
  | succ w ih =>
    intro m hI hM hthr
    apply indexLoop_round hc fuel key (w + 1) m hI
    intro _ _
    obtain ⟨m', hm', hp⟩ := rehash_ok hc fuel M hfuel m (m.bucket_count * 3) hI (by omega)
    have htrig : m.bucket_count * 3 > m.bucket_count ∨ m.del_count > m.size := by
      left
      have := hI.pos
      unfold HashMap.bucket_count
      omega
    have hlen := (hp.fresh htrig).2
    obtain ⟨r, hr, hres⟩ := ih m' hp.inv (rehash_count hI hp hM) (by omega)
    refine ⟨r, ?_, IdxRes_of_rehash hp hres⟩
    rw [hm']
    exact hr

/-! ## The public operations return, and what they establish -/

theorem count_le_of_Inv {K V : Type} {c : Params K V} {m : HashMap K V} (hI : Inv c m) :
    countLive m.data + countTomb m.data ≤ m.el_count + m.del_count := by
  rw [hI.el, hI.del]

theorem need_ge_Thr (M : Nat) : Thr M + 1 ≤ need M := by unfold need; omega

theorem emplace_ok {K V : Type} {c : Params K V} (hc : c.Lawful) {m : HashMap K V}
    (hI : Inv c m) (key : K) (value : V) (fuel : Nat)
    (hf : need (m.el_count + m.del_count) ≤ fuel) :
    ∃ r, emplace c fuel m key value = some r ∧
      InsRes c id m { first := key, second := value, is_deleted := false } r := by
  unfold emplace reserve
  have hM := count_le_of_Inv hI
  obtain ⟨m', hm', hp⟩ := rehash_ok hc fuel _ hf m (m.size + 1) hI (by omega)
  obtain ⟨w, rfl⟩ : ∃ w, fuel = w + 1 := ⟨fuel - 1, by have := need_pos (m.el_count + m.del_count); omega⟩
  have := need_ge_Thr (m.el_count + m.del_count)
  obtain ⟨r, hr, hres⟩ := emplaceLoop_ok hc (w + 1) _ hf
    { first := key, second := value, is_deleted := false } rfl w m' hp.inv
    (rehash_count hI hp hM) (by omega)
  refine ⟨r, ?_, InsRes_of_rehash hp hres⟩
  rw [hm']
  exact hr

theorem insert_ok {K V : Type} {c : Params K V} (hc : c.Lawful) {m : HashMap K V}
    (hI : Inv c m) (kv : K × V) (fuel : Nat)
    (hf : need (m.el_count + m.del_count) ≤ fuel) :
    ∃ r, insert c fuel m kv = some r ∧
      InsRes c id m { first := kv.1, second := kv.2, is_deleted := false } r :=
  emplace_ok hc hI kv.1 kv.2 fuel hf

theorem insert_or_assign_ok {K V : Type} {c : Params K V} (hc : c.Lawful) {m : HashMap K V}
    (hI : Inv c m) (key : K) (value : V) (fuel : Nat)
    (hf : need (m.el_count + m.del_count) ≤ fuel) :
    ∃ r, insert_or_assign c fuel m key value = some r ∧
      InsRes c (assignTo value) m { first := key, second := value, is_deleted := false } r := by
  unfold insert_or_assign reserve
  have hM := count_le_of_Inv hI
  obtain ⟨m', hm', hp⟩ := rehash_ok hc fuel _ hf m (m.size + 1) hI (by omega)
  obtain ⟨w, rfl⟩ : ∃ w, fuel = w + 1 := ⟨fuel - 1, by have := need_pos (m.el_count + m.del_count); omega⟩
  have := need_ge_Thr (m.el_count + m.del_count)
  obtain ⟨r, hr, hres⟩ := insertOrAssignLoop_ok hc (w + 1) _ hf key value w m' hp.inv
    (rehash_count hI hp hM) (by omega)
  refine ⟨r, ?_, InsRes_of_rehash hp hres⟩
  rw [hm']
  exact hr

theorem index_ok {K V : Type} {c : Params K V} (hc : c.Lawful) {m : HashMap K V}
    (hI : Inv c m) (key : K) (fuel : Nat)
    (hf : need (m.el_count + m.del_count) ≤ fuel) :
    ∃ r, index c fuel m key = some r ∧ IdxRes c m key r := by
  unfold index reserve
  have hM := count_le_of_Inv hI
  obtain ⟨m', hm', hp⟩ := rehash_ok hc fuel _ hf m (m.size + 1) hI (by omega)
  obtain ⟨w, rfl⟩ : ∃ w, fuel = w + 1 := ⟨fuel - 1, by have := need_pos (m.el_count + m.del_count); omega⟩
  have := need_ge_Thr (m.el_count + m.del_count)
  obtain ⟨r, hr, hres⟩ := indexLoop_ok hc (w + 1) _ hf key w m' hp.inv
    (rehash_count hI hp hM) (by omega)
  refine ⟨r, ?_, IdxRes_of_rehash hp hres⟩
  rw [hm']
  exact hr

/-- A key without a LIVE slot is not found. -/
theorem find_absent {K V : Type} {c : Params K V} (hc : c.Lawful) {m : HashMap K V}
    (hI : Inv c m) {key : K} (ha : ∀ b, LiveB m b → c.equal_fn b.first key = false) :
    find c m key = some Iterator.endIt := by
  by_cases h : ∃ i b, slot m.data i = some b ∧ c.equal_fn b.first key = true
  · obtain ⟨i, b, h1, h2⟩ := h
    cases hd : b.is_deleted
    · rw [ha b ⟨i, h1, hd⟩] at h2; cases h2
    · exact find_tomb hc hI h1 h2 hd
  · apply find_keyFree
    intro i b hb
    by_contra hne
    exact h ⟨i, b, hb, by simpa using hne⟩

theorem erase_ok {K V : Type} {c : Params K V} (hc : c.Lawful) {m : HashMap K V}
    (hI : Inv c m) (key : K) (fuel : Nat) (hf : 2 ≤ fuel) :
    ∃ r, erase c fuel m key = some r ∧ ErsRes c m key r := by
  obtain ⟨f, rfl⟩ : ∃ f, fuel = f + 2 := ⟨fuel - 2, by omega⟩
  unfold erase eraseLoop
  by_cases h : ∃ b, LiveB m b ∧ c.equal_fn b.first key = true
  · obtain ⟨b, ⟨i, hs, hd⟩, he⟩ := h
    have hlt := slot_some_lt hs
    rw [find_live hc hI hs he hd]
    have hit : (liveIt i).iterator_end = false := rfl
    have hcur : (liveIt i).current = i := rfl
    simp only [hit, Bool.false_eq_true, if_false]
    unfold eraseAt
    simp only [hit, Bool.false_eq_true, if_false, hcur, hs]
    have hel : 0 < m.el_count := by
      rw [hI.el]; exact countLive_pos ((isLive_iff _ _).2 ⟨b, hs, hd⟩)
    have hI1 : Inv c (HashMap.mk (m.data.set i (some { b with is_deleted := true }))
        (m.el_count - 1) (m.del_count + 1)) :=
      @Inv_replace K V c hc m hI i b { b with is_deleted := true } hs (hc.refl _) _ _
        (by simp [hd]; omega) (by simp [hd])
    have hsome := next_liveIt_isSome (m.data.set i (some { b with is_deleted := true })) i
      (by rw [List.length_set]; exact hlt)
    obtain ⟨it', hit'⟩ := Option.isSome_iff_exists.1 hsome
    rw [hit']
    have hfind : find c (HashMap.mk (m.data.set i (some { b with is_deleted := true }))
        (m.el_count - 1) (m.del_count + 1)) key = some Iterator.endIt :=
      find_tomb hc hI1 (b := { b with is_deleted := true }) (slot_set_self _ _ _ hlt) he rfl
    refine ⟨(HashMap.mk (m.data.set i (some { b with is_deleted := true }))
        (m.el_count - 1) (m.del_count + 1), 1), ?_, hI1, ?_, ?_, ?_, ?_⟩
    · show eraseLoop c key (f + 1) _ (0 + 1) = _
      unfold eraseLoop
      rw [hfind]
      rfl
    · intro x
      rw [LiveB_set _ _ _ _ _ hlt]
      constructor
      · rintro (⟨_, h2⟩ | ⟨j, h1, h2, h3⟩)
        · cases h2
        · refine ⟨⟨j, h2, h3⟩, ?_⟩
          by_contra hne
          have hx : c.equal_fn x.first key = true := by simpa using hne
          exact h1 (slot_unique hc hI h2 hs (hc.trans _ _ _ hx (hc.symm _ _ he)))
      · rintro ⟨⟨j, h2, h3⟩, hx⟩
        refine Or.inr ⟨j, ?_, h2, h3⟩
        intro e
        subst e
        rw [hs] at h2
        cases h2
        rw [he] at hx; cases hx
    · intro _
      refine ⟨rfl, ?_, rfl⟩
      show m.el_count - 1 + 1 = m.el_count
      omega
    · intro ha
      rw [ha b ⟨i, hs, hd⟩] at he; cases he
    · simp
  · have ha : ∀ b, LiveB m b → c.equal_fn b.first key = false := by
      intro b hb
      by_contra hne
      exact h ⟨b, hb, by simpa using hne⟩
    rw [find_absent hc hI ha]
    refine ⟨(m, 0), rfl, hI, ?_, fun hex => absurd hex h, fun _ => rfl, rfl⟩
    intro x
    constructor
    · intro hx; exact ⟨hx, ha x hx⟩
    · intro hx; exact hx.1

/-! ## The abstract association -/

theorem absFind_cons {K V : Type} (c : Params K V) (q : K × V) (a : List (K × V)) (k : K) :
    absFind c (q :: a) k = if c.equal_fn q.1 k = true then some q.2 else absFind c a k := by
  unfold absFind
  rw [List.find?_cons]
  cases c.equal_fn q.1 k <;> rfl

theorem absFind_eq_none {K V : Type} (c : Params K V) (a : List (K × V)) (k : K) :
    absFind c a k = none ↔ ∀ p ∈ a, c.equal_fn p.1 k = false := by
  induction a with
  | nil => simp [absFind]
  | cons q a ih =>
    rw [absFind_cons]
    by_cases h : c.equal_fn q.1 k = true
    · rw [if_pos h]
      constructor
      · intro h'; cases h'
      · intro h'
        rw [h' q (List.mem_cons_self _ _)] at h; cases h
    · rw [if_neg h, ih]
      constructor
      · intro h' p hp
        rcases List.mem_cons.1 hp with e | e
        · subst e; simpa using h
        · exact h' p e
      · intro h' p hp
        exact h' p (List.mem_cons_of_mem _ hp)

theorem absFind_eq_some {K V : Type} (c : Params K V) (hc : c.Lawful) (a : List (K × V))
    (hd : a.Pairwise fun p q => c.equal_fn p.1 q.1 = false) (k : K) (v : V) :
    absFind c a k = some v ↔ ∃ p ∈ a, c.equal_fn p.1 k = true ∧ p.2 = v := by
  induction a with
  | nil => simp [absFind]
  | cons q a ih =>
    rw [absFind_cons]
    obtain ⟨hq, hd'⟩ := List.pairwise_cons.1 hd
    by_cases h : c.equal_fn q.1 k = true
    · rw [if_pos h]
      constructor
      · intro h'
        exact ⟨q, List.mem_cons_self _ _, h, Option.some.inj h'⟩
      · rintro ⟨p, hp, he, hv⟩
        rcases List.mem_cons.1 hp with e | e
        · subst e; rw [hv]
        · have := hq p e
          rw [hc.trans _ _ _ h (hc.symm _ _ he)] at this
          cases this
    · rw [if_neg h, ih hd']
      constructor
      · rintro ⟨p, hp, he, hv⟩
        exact ⟨p, List.mem_cons_of_mem _ hp, he, hv⟩
      · rintro ⟨p, hp, he, hv⟩
        rcases List.mem_cons.1 hp with e | e
        · subst e; exact absurd he h
        · exact ⟨p, e, he, hv⟩

theorem absErase_length {K V : Type} (c : Params K V) (hc : c.Lawful) (a : List (K × V))
    (hd : a.Pairwise fun p q => c.equal_fn p.1 q.1 = false) (k : K)
    (h : ∃ p ∈ a, c.equal_fn p.1 k = true) : (absErase c a k).length + 1 = a.length := by
  induction a with
  | nil =>
    obtain ⟨p, hp, _⟩ := h
    cases hp
  | cons q a ih =>
    obtain ⟨hq, hd'⟩ := List.pairwise_cons.1 hd
    unfold absErase at ih ⊢
    rw [List.filter_cons]
    by_cases hqk : c.equal_fn q.1 k = true
    · rw [hqk]
      simp only [Bool.not_true, Bool.false_eq_true, if_false, List.length_cons]
      have : a.filter (fun p => !c.equal_fn p.1 k) = a := by
        rw [List.filter_eq_self]
        intro p hp
        have h1 := hq p hp
        cases h2 : c.equal_fn p.1 k
        · rfl
        · rw [hc.trans _ _ _ hqk (hc.symm _ _ h2)] at h1; cases h1
      rw [this]
    · have hqk' : c.equal_fn q.1 k = false := by simpa using hqk
      rw [hqk']
      simp only [Bool.not_false, if_true, List.length_cons]
      rw [ih hd']
      obtain ⟨p, hp, he⟩ := h
      rcases List.mem_cons.1 hp with e | e
      · subst e; exact absurd he hqk
      · exact ⟨p, e, he⟩

theorem absErase_absent {K V : Type} (c : Params K V) (a : List (K × V)) (k : K)
    (h : ∀ p ∈ a, c.equal_fn p.1 k = false) : absErase c a k = a := by
  unfold absErase
  rw [List.filter_eq_self]
  intro p hp
  rw [h p hp]
  rfl

/-! ## LIVE buckets and LIVE pairs -/

theorem LiveB_iff {K V : Type} (m : HashMap K V) (b : Bucket K V) :
    LiveB m b ↔ b.is_deleted = false ∧ LivePair m (b.first, b.second) := by
  unfold LivePair
  constructor
  · rintro ⟨i, hi, hd⟩
    refine ⟨hd, i, ?_, rfl⟩
    rw [hi]
    cases b
    simp only at hd
    subst hd
    rfl
  · rintro ⟨hd, i, hi, _⟩
    refine ⟨i, ?_, hd⟩
    rw [hi]
    cases b
    simp only at hd
    subst hd
    rfl

theorem Agree.live_mem {K V : Type} {c : Params K V} {m : HashMap K V} {a : List (K × V)}
    (hA : Agree c m a) {b : Bucket K V} (hb : LiveB m b) : (b.first, b.second) ∈ a :=
  (hA.rel _).2 ((LiveB_iff m b).1 hb).2

theorem Agree.mem_live {K V : Type} {c : Params K V} {m : HashMap K V} {a : List (K × V)}
    (hA : Agree c m a) {p : K × V} (hp : p ∈ a) :
    LiveB m { first := p.1, second := p.2, is_deleted := false } :=
  (hA.rel p).1 hp

/-- Presence in the association is presence of a LIVE bucket with an equal key. -/
theorem Agree.present_iff {K V : Type} {c : Params K V} {m : HashMap K V} {a : List (K × V)}
    (hA : Agree c m a) (k : K) :
    (∃ p ∈ a, c.equal_fn p.1 k = true) ↔ ∃ b, LiveB m b ∧ c.equal_fn b.first k = true := by
  constructor
  · rintro ⟨p, hp, he⟩
    exact ⟨_, hA.mem_live hp, he⟩
  · rintro ⟨b, hb, he⟩
    exact ⟨_, hA.live_mem hb, he⟩

theorem Agree.absent_iff {K V : Type} {c : Params K V} {m : HashMap K V} {a : List (K × V)}
    (hA : Agree c m a) (k : K) :
    absFind c a k = none ↔ ∀ b, LiveB m b → c.equal_fn b.first k = false := by
  rw [absFind_eq_none]
  constructor
  · intro h b hb
    exact h _ (hA.live_mem hb)
  · intro h p hp
    exact h _ (hA.mem_live hp)

/-! ## Every operation preserves the abstraction relation -/

theorem agree_absent_cons {K V : Type} {c : Params K V} (hc : c.Lawful) {m m1 : HashMap K V}
    {a : List (K × V)} (hA : Agree c m a) (k : K) (v : V) (hI : Inv c m1)
    (hn : absFind c a k = none)
    (hl : ∀ x, LiveB m1 x ↔ (LiveB m x ∨ x = { first := k, second := v, is_deleted := false }))
    (hs : m1.el_count = m.el_count + 1) : Agree c m1 ((k, v) :: a) := by
  refine ⟨hI, ?_, ?_, ?_⟩
  · refine List.pairwise_cons.2 ⟨?_, hA.distinct⟩
    intro p hp
    by_contra hne
    have he : c.equal_fn k p.1 = true := by simpa using hne
    have := (absFind_eq_none c a k).1 hn p hp
    rw [hc.symm _ _ he] at this
    cases this
  · intro p
    unfold LivePair
    rw [hl, List.mem_cons, hA.rel p]
    unfold LivePair
    constructor
    · rintro (h | h)
      · subst h; exact Or.inr rfl
      · exact Or.inl h
    · rintro (h | h)
      · exact Or.inr h
      · left
        cases p
        simp only [Bucket.mk.injEq] at h
        rw [h.1, h.2.1]
  · rw [hs, hA.size]
    rfl

theorem agree_insert {K V : Type} {c : Params K V} (hc : c.Lawful) {m m1 : HashMap K V}
    {a : List (K × V)} (hA : Agree c m a) (k : K) (v : V)
    (hp : InsPost c id m { first := k, second := v, is_deleted := false } m1) :
    Agree c m1 (absInsert c a k v) := by
  unfold absInsert
  cases h : absFind c a k with
  | none =>
    simp only [Option.isSome_none, Bool.false_eq_true, if_false]
    obtain ⟨g1, g2⟩ := hp.absent ((hA.absent_iff k).1 h)
    exact agree_absent_cons hc hA k v hp.inv h g1 g2
  | some v0 =>
    simp only [Option.isSome_some, if_true]
    obtain ⟨p, hp1, hp2, _⟩ := (absFind_eq_some c hc a hA.distinct k v0).1 h
    obtain ⟨g1, g2⟩ := hp.present _ (hA.mem_live hp1) hp2
    have hl : ∀ x, LiveB m1 x ↔ LiveB m x := by
      intro x
      rw [g1]
      constructor
      · rintro ⟨b, hb, hx⟩
        have : x = b := by rw [hx]; split <;> rfl
        rw [this]; exact hb
      · intro hx
        exact ⟨x, hx, by split <;> rfl⟩
    refine ⟨hp.inv, hA.distinct, ?_, by rw [g2, hA.size]⟩
    intro q
    rw [hA.rel q]
    unfold LivePair
    rw [hl]

theorem agree_assign {K V : Type} {c : Params K V} (hc : c.Lawful) {m m1 : HashMap K V}
    {a : List (K × V)} (hA : Agree c m a) (k : K) (v : V)
    (hp : InsPost c (assignTo v) m { first := k, second := v, is_deleted := false } m1) :
    Agree c m1 (absAssign c a k v) := by
  unfold absAssign
  cases h : absFind c a k with
  | none =>
    simp only [Option.isSome_none, Bool.false_eq_true, if_false]
    obtain ⟨g1, g2⟩ := hp.absent ((hA.absent_iff k).1 h)
    exact agree_absent_cons hc hA k v hp.inv h g1 g2
  | some v0 =>
    simp only [Option.isSome_some, if_true]
    obtain ⟨p, hp1, hp2, _⟩ := (absFind_eq_some c hc a hA.distinct k v0).1 h
    obtain ⟨g1, g2⟩ := hp.present _ (hA.mem_live hp1) hp2
    refine ⟨hp.inv, ?_, ?_, by rw [g2, hA.size, List.length_map]⟩
    · apply List.Pairwise.map _ _ hA.distinct
      intro x y hxy
      have hx : (if c.equal_fn x.1 k = true then (x.1, v) else x).1 = x.1 := by split <;> rfl
      have hy : (if c.equal_fn y.1 k = true then (y.1, v) else y).1 = y.1 := by split <;> rfl
      rw [hx, hy]
      exact hxy
    · intro q
      unfold LivePair
      rw [g1, List.mem_map]
      constructor
      · rintro ⟨x, hx, hq⟩
        refine ⟨_, hA.mem_live hx, ?_⟩
        simp only
        by_cases he : c.equal_fn x.1 k = true
        · rw [if_pos he] at hq ⊢
          rw [← hq]
          rfl
        · rw [if_neg he] at hq ⊢
          rw [← hq]
      · rintro ⟨b, hb, hq⟩
        refine ⟨(b.first, b.second), hA.live_mem hb, ?_⟩
        simp only at hq ⊢
        have hbd := ((LiveB_iff m b).1 hb).1
        by_cases he : c.equal_fn b.first k = true
        · rw [if_pos he] at hq ⊢
          cases q
          cases b
          simp only [assignTo, Bucket.mk.injEq] at hq
          rw [hq.1, hq.2.1]
        · rw [if_neg he] at hq ⊢
          cases q
          cases b
          simp only [Bucket.mk.injEq] at hq
          rw [hq.1, hq.2.1]

theorem agree_erase {K V : Type} {c : Params K V} (hc : c.Lawful) {m : HashMap K V}
    {a : List (K × V)} (hA : Agree c m a) (k : K) {r : HashMap K V × Nat}
    (hp : ErsRes c m k r) : Agree c r.1 (absErase c a k) := by
  obtain ⟨h1, h2, h3, h4, _⟩ := hp
  refine ⟨h1, ?_, ?_, ?_⟩
  · unfold absErase
    exact List.Pairwise.filter _ hA.distinct
  · intro p
    unfold LivePair
    rw [h2]
    unfold absErase
    rw [List.mem_filter, hA.rel p]
    unfold LivePair
    simp
  · by_cases hex : ∃ b, LiveB m b ∧ c.equal_fn b.first k = true
    · obtain ⟨_, g2, _⟩ := h3 hex
      have := absErase_length c hc a hA.distinct k ((hA.present_iff k).2 hex)
      have := hA.size
      omega
    · have ha : ∀ b, LiveB m b → c.equal_fn b.first k = false := by
        intro b hb
        by_contra hne
        exact hex ⟨b, hb, by simpa using hne⟩
      rw [h4 ha, absErase_absent c a k ((absFind_eq_none c a k).1 ((hA.absent_iff k).2 ha))]
      exact hA.size

theorem agree_rehash {K V : Type} {c : Params K V} {m m1 : HashMap K V}
    {a : List (K × V)} (hA : Agree c m a) {n : Nat} (hp : RehashPost c m n m1) :
    Agree c m1 a := by
  refine ⟨hp.inv, hA.distinct, ?_, by rw [hp.el, hA.size]⟩
  intro p
  rw [hA.rel p]
  unfold LivePair
  rw [hp.live]

/-- With enough fuel every operation returns and re-establishes the abstraction relation. -/
theorem applyOp_ok {K V : Type} {c : Params K V} (hc : c.Lawful) {m : HashMap K V}
    {a : List (K × V)} (hA : Agree c m a) (op : Op K V) (fuel : Nat)
    (hf : need (m.el_count + m.del_count) ≤ fuel) :
    ∃ m1, applyOp c fuel m op = some m1 ∧ Agree c m1 (absApply c a op) := by
  cases op with
  | insert k v =>
    obtain ⟨r, hr, hres⟩ := insert_ok hc hA.inv (k, v) fuel hf
    refine ⟨r.1, ?_, agree_insert hc hA k v hres.1⟩
    simp only [applyOp, hr, Option.map_some']
  | insert_or_assign k v =>
    obtain ⟨r, hr, hres⟩ := insert_or_assign_ok hc hA.inv k v fuel hf
    refine ⟨r.1, ?_, agree_assign hc hA k v hres.1⟩
    simp only [applyOp, hr, Option.map_some']
  | index k =>
    obtain ⟨r, hr, hres⟩ := index_ok hc hA.inv k fuel hf
    refine ⟨r.1, ?_, agree_insert hc hA k c.mapped_default hres.1⟩
    simp only [applyOp, hr, Option.map_some']
  | erase k =>
    have h2 : 2 ≤ fuel := by
      unfold need Thr at hf
      omega
    obtain ⟨r, hr, hres⟩ := erase_ok hc hA.inv k fuel h2
    refine ⟨r.1, ?_, agree_erase hc hA k hres⟩
    simp only [applyOp, hr, Option.map_some']
  | rehash n =>
    obtain ⟨r, hr, hres⟩ := rehash_ok hc fuel _ hf m n hA.inv (by rw [← hA.inv.el]; omega)
    exact ⟨r, hr, agree_rehash hA hres⟩

theorem agree_new {K V : Type} (c : Params K V) (hint : Nat) :
    Agree c (HashMap.new hint) [] := by
  refine ⟨Inv_new c hint, List.Pairwise.nil, ?_, rfl⟩
  intro p
  constructor
  · intro h; cases h
  · rintro ⟨i, hi, _⟩
    rw [slot_new] at hi; cases hi

/-- Every reachable state satisfies the abstraction relation with the association built by
the same operations. -/
theorem reachable_agree {K V : Type} {c : Params K V} (hc : c.Lawful) {m : HashMap K V}
    {a : List (K × V)} (h : Reachable c m a) : Agree c m a := by
  induction h with
  | init hint => exact agree_new c hint
  | @step m0 m1 a0 op fuel _ hstep ih =>
    obtain ⟨m2, h2, hA2⟩ := applyOp_ok hc ih op (max fuel (need (m0.el_count + m0.del_count)))
      (le_max_right _ _)
    have := applyOp_mono c fuel (max fuel (need (m0.el_count + m0.del_count)))
      (le_max_left _ _) m0 op m1 hstep
    rw [this] at h2
    cases h2
    exact hA2

/-! ## Lookup through the abstraction -/

theorem deref_liveIt {K V : Type} {data : List (Option (Bucket K V))} {i : Nat}
    {b : Bucket K V} (h : slot data i = some b) :
    Iterator.deref data (liveIt i) = some (b.first, b.second) := by
  unfold Iterator.deref liveIt
  simp only [Bool.false_eq_true, if_false, h, Option.map_some']

theorem lookup_eq {K V : Type} {c : Params K V} (hc : c.Lawful) {m : HashMap K V}
    {a : List (K × V)} (hA : Agree c m a) (k : K) : lookup c m k = absFind c a k := by
  cases h : absFind c a k with
  | none =>
    unfold lookup
    rw [find_absent hc hA.inv ((hA.absent_iff k).1 h)]
    rfl
  | some v =>
    obtain ⟨p, hp1, hp2, hp3⟩ := (absFind_eq_some c hc a hA.distinct k v).1 h
    obtain ⟨i, hi, hd⟩ := hA.mem_live hp1
    unfold lookup
    rw [find_live hc hA.inv hi hp2 hd]
    simp only
    rw [deref_liveIt hi]
    simp only [Option.map_some', hp3]

/-! ## Container equality -/

theorem deref_itOf {K V : Type} {data : List (Option (Bucket K V))} {q : Nat} {rest : List Nat}
    {b : Bucket K V} (h : slot data q = some b) :
    Iterator.deref data (itOf (q :: rest)) = some (b.first, b.second) := by
  unfold Iterator.deref itOf
  simp only [Bool.false_eq_true, if_false, h, Option.map_some']

/-- A LIVE pair of a table is found by `find` on its key. -/
theorem livePair_unique {K V : Type} {c : Params K V} (hc : c.Lawful) {m : HashMap K V}
    (hI : Inv c m) {p : K × V} {j : Nat} {b : Bucket K V} (hp : LivePair m p)
    (hj : slot m.data j = some b) (he : c.equal_fn b.first p.1 = true) :
    (b.first, b.second) = p := by
  obtain ⟨i, hi, _⟩ := hp
  have := slot_unique hc hI hj hi he
  subst this
  rw [hj] at hi
  cases hi
  rfl

theorem subsetLoop_spec {K V : Type} [DecidableEq K] [DecidableEq V] {c : Params K V}
    (hc : c.Lawful) (first second : HashMap K V) (hI2 : Inv c second) (l : List Nat) :
    ∀ (p f : Nat), liveFrom first.data p = l → l.length < f →
      ∃ r, subsetLoop c first second f (itOf l) = some r ∧
        (r = true ↔ ∀ q ∈ l, ∀ b, slot first.data q = some b →
          LivePair second (b.first, b.second)) := by
  induction l with
  | nil =>
    intro p f _ hf
    cases f with
    | zero => simp at hf
    | succ f =>
      refine ⟨true, rfl, ?_⟩
      simp
  | cons q rest ih =>
    intro p f hl hf
    cases f with
    | zero => simp at hf
    | succ f =>
      obtain ⟨_, hq, hql, hrest⟩ := liveFrom_cons first.data _ p q rest (le_refl _) hl
      obtain ⟨b, hb, hbd⟩ := (isLive_iff _ _).1 hql
      unfold subsetLoop
      have he : (itOf (q :: rest)).iterator_end = false := rfl
      rw [he, deref_itOf hb]
      simp only [Bool.false_eq_true, if_false]
      by_cases hex : ∃ b2, LiveB second b2 ∧ c.equal_fn b2.first b.first = true
      · obtain ⟨b2, ⟨j, hj, hd2⟩, he2⟩ := hex
        rw [find_live hc hI2 hj he2 hd2]
        have he' : (liveIt j).iterator_end = false := rfl
        simp only [he', Bool.false_eq_true, if_false]
        rw [deref_liveIt hj]
        simp only
        by_cases hne : (b2.first, b2.second) ≠ (b.first, b.second)
        · rw [if_pos hne]
          refine ⟨false, rfl, ?_⟩
          constructor
          · intro h; cases h
          · intro h
            exfalso
            apply hne
            exact livePair_unique hc hI2 (h q (List.mem_cons_self _ _) b hb) hj he2
        · rw [if_neg hne]
          have heq : (b2.first, b2.second) = (b.first, b.second) := by
            by_contra h
            exact hne h
          rw [next_itOf first.data q rest hq, ← hrest]
          obtain ⟨r, hr, hiff⟩ := ih (q + 1) f hrest.symm (by simpa using hf)
          refine ⟨r, hr, ?_⟩
          rw [hiff]
          constructor
          · intro h q' hq' b' hb'
            rcases List.mem_cons.1 hq' with e | e
            · subst e
              rw [hb] at hb'
              cases hb'
              rw [← heq]
              exact ((LiveB_iff second b2).1 ⟨j, hj, hd2⟩).2
            · exact h q' e b' hb'
          · intro h q' hq' b' hb'
            exact h q' (List.mem_cons_of_mem _ hq') b' hb'
      · have ha : ∀ b2, LiveB second b2 → c.equal_fn b2.first b.first = false := by
          intro b2 hb2
          by_contra hne
          exact hex ⟨b2, hb2, by simpa using hne⟩
        rw [find_absent hc hI2 ha]
        refine ⟨false, rfl, ?_⟩
        constructor
        · intro h; cases h
        · intro h
          exfalso
          have hp := h q (List.mem_cons_self _ _) b hb
          have := ha _ hp
          rw [hc.refl] at this
          cases this

theorem sub_iff {K V : Type} (first second : HashMap K V) :
    (∀ q ∈ liveFrom first.data 0, ∀ b, slot first.data q = some b →
        LivePair second (b.first, b.second)) ↔
      ∀ p, LivePair first p → LivePair second p := by
  constructor
  · rintro h p ⟨i, hi, hd⟩
    exact h i ((liveFrom_mem _ _ _).2 ⟨Nat.zero_le _, slot_some_lt hi,
      (isLive_iff _ _).2 ⟨_, hi, hd⟩⟩) _ hi
  · intro h q hq b hb
    obtain ⟨_, _, hl⟩ := (liveFrom_mem _ _ _).1 hq
    obtain ⟨b', hb', hd'⟩ := (isLive_iff _ _).1 hl
    rw [hb] at hb'
    cases hb'
    exact h _ ((LiveB_iff first b).1 ⟨q, hb, hd'⟩).2

/-- The comparison `first == second` returns, and it returns `true` exactly when the two
tables hold the same pairs in their LIVE slots. -/
theorem mapEq_spec {K V : Type} [DecidableEq K] [DecidableEq V] {c : Params K V}
    (hc : c.Lawful) (first second : HashMap K V) (hI1 : Inv c first) (hI2 : Inv c second) :
    ∃ r, mapEq c first second = some r ∧
      (r = true ↔ ∀ p, LivePair first p ↔ LivePair second p) := by
  unfold mapEq
  rw [begin_eq, begin_eq]
  obtain ⟨r1, hr1, hiff1⟩ := subsetLoop_spec hc first second hI2 (liveFrom first.data 0) 0
    (first.bucket_count + 1) rfl (by
      have := liveFrom_length_le first.data 0
      unfold HashMap.bucket_count
      omega)
  obtain ⟨r2, hr2, hiff2⟩ := subsetLoop_spec hc second first hI1 (liveFrom second.data 0) 0
    (second.bucket_count + 1) rfl (by
      have := liveFrom_length_le second.data 0
      unfold HashMap.bucket_count
      omega)
  rw [sub_iff] at hiff1 hiff2
  simp only [Option.some_bind, hr1]
  cases r1 with
  | false =>
    refine ⟨false, by simp, ?_⟩
    constructor
    · intro h; cases h
    · intro h
      exact hiff1.2 (fun p hp => (h p).1 hp)
  | true =>
    refine ⟨r2, by simp [hr2], ?_⟩
    rw [hiff2]
    constructor
    · intro h p
      exact ⟨hiff1.1 rfl p, h p⟩
    · intro h p hp
      exact (h p).2 hp

/-! ## More fuel never changes the result of a public operation -/

theorem emplace_mono {K V : Type} (c : Params K V) (fuel fuel' : Nat) (hf : fuel ≤ fuel')
    (m : HashMap K V) (key : K) (value : V) (r : HashMap K V × Iterator × Bool)
    (h : emplace c fuel m key value = some r) : emplace c fuel' m key value = some r := by
  unfold emplace reserve at h ⊢
  obtain ⟨t, h3, h4⟩ := Option.bind_eq_some.1 h
  rw [rehash_mono c fuel fuel' _ _ _ hf h3]
  exact emplaceLoop_mono c fuel fuel' hf _ fuel fuel' t r hf h4

theorem insert_mono {K V : Type} (c : Params K V) (fuel fuel' : Nat) (hf : fuel ≤ fuel')
    (m : HashMap K V) (kv : K × V) (r : HashMap K V × Iterator × Bool)
    (h : insert c fuel m kv = some r) : insert c fuel' m kv = some r :=
  emplace_mono c fuel fuel' hf m kv.1 kv.2 r h

theorem insert_or_assign_mono {K V : Type} (c : Params K V) (fuel fuel' : Nat)
    (hf : fuel ≤ fuel') (m : HashMap K V) (key : K) (value : V)
    (r : HashMap K V × Iterator × Bool)
    (h : insert_or_assign c fuel m key value = some r) :
    insert_or_assign c fuel' m key value = some r := by
  unfold insert_or_assign reserve at h ⊢
  obtain ⟨t, h3, h4⟩ := Option.bind_eq_some.1 h
  rw [rehash_mono c fuel fuel' _ _ _ hf h3]
  exact insertOrAssignLoop_mono c fuel fuel' hf _ _ fuel fuel' t r hf h4

theorem index_mono {K V : Type} (c : Params K V) (fuel fuel' : Nat) (hf : fuel ≤ fuel')
    (m : HashMap K V) (key : K) (r : HashMap K V × V)
    (h : index c fuel m key = some r) : index c fuel' m key = some r := by
  unfold index reserve at h ⊢
  obtain ⟨t, h3, h4⟩ := Option.bind_eq_some.1 h
  rw [rehash_mono c fuel fuel' _ _ _ hf h3]
  exact indexLoop_mono c fuel fuel' hf _ fuel fuel' t r hf h4

/-! ## Lookup in the abstract association after an operation -/

theorem equal_fn_false_symm {K V : Type} (c : Params K V) (hc : c.Lawful) {x y : K}
    (h : c.equal_fn x y = false) : c.equal_fn y x = false := by
  cases h' : c.equal_fn y x
  · rfl
  · rw [hc.symm _ _ h'] at h; cases h

theorem absFind_absInsert_self {K V : Type} (c : Params K V) (hc : c.Lawful)
    (a : List (K × V)) (k : K) (v : V) :
    absFind c (absInsert c a k v) k =
      match absFind c a k with
      | some u => some u
      | none => some v := by
  unfold absInsert
  cases h : absFind c a k with
  | none =>
    simp only [Option.isSome_none, Bool.false_eq_true, if_false]
    rw [absFind_cons, if_pos (hc.refl k)]
  | some u =>
    simp only [Option.isSome_some, if_true]
    exact h

theorem absFind_absInsert_other {K V : Type} (c : Params K V) (hc : c.Lawful)
    (a : List (K × V)) (k k' : K) (v : V) (h : c.equal_fn k' k = false) :
    absFind c (absInsert c a k v) k' = absFind c a k' := by
  unfold absInsert
  split
  · rfl
  · rw [absFind_cons, if_neg]
    rw [equal_fn_false_symm c hc h]
    simp

theorem absFind_map_self {K V : Type} (c : Params K V) (a : List (K × V)) (k : K) (v : V)
    (h : ∃ p ∈ a, c.equal_fn p.1 k = true) :
    absFind c (a.map fun p => if c.equal_fn p.1 k = true then (p.1, v) else p) k = some v := by
  induction a with
  | nil =>
    obtain ⟨p, hp, _⟩ := h
    cases hp
  | cons q a ih =>
    rw [List.map_cons, absFind_cons]
    by_cases hq : c.equal_fn q.1 k = true
    · rw [if_pos hq]
      simp only
      rw [if_pos hq]
    · rw [if_neg hq]
      rw [if_neg hq]
      apply ih
      obtain ⟨p, hp, he⟩ := h
      rcases List.mem_cons.1 hp with e | e
      · subst e; exact absurd he hq
      · exact ⟨p, e, he⟩

theorem absFind_map_other {K V : Type} (c : Params K V) (hc : c.Lawful) (a : List (K × V))
    (k k' : K) (v : V) (h : c.equal_fn k' k = false) :
    absFind c (a.map fun p => if c.equal_fn p.1 k = true then (p.1, v) else p) k'
      = absFind c a k' := by
  induction a with
  | nil => rfl
  | cons q a ih =>
    rw [List.map_cons, absFind_cons, absFind_cons, ih]
    by_cases hq : c.equal_fn q.1 k = true
    · rw [if_pos hq]
      simp only
      have : ¬ c.equal_fn q.1 k' = true := by
        intro h'
        rw [hc.trans _ _ _ (hc.symm _ _ h') hq] at h
        cases h
      rw [if_neg this, if_neg this]
    · rw [if_neg hq]

theorem absFind_absAssign_self {K V : Type} (c : Params K V) (hc : c.Lawful)
    (a : List (K × V)) (k : K) (v : V) : absFind c (absAssign c a k v) k = some v := by
  unfold absAssign
  cases h : absFind c a k with
  | none =>
    simp only [Option.isSome_none, Bool.false_eq_true, if_false]
    rw [absFind_cons, if_pos (hc.refl k)]
  | some u =>
    simp only [Option.isSome_some, if_true]
    apply absFind_map_self
    by_contra hne
    have : absFind c a k = none := by
      rw [absFind_eq_none]
      intro p hp
      by_contra hp'
      exact hne ⟨p, hp, by simpa using hp'⟩
    rw [this] at h
    cases h

theorem absFind_absAssign_other {K V : Type} (c : Params K V) (hc : c.Lawful)
    (a : List (K × V)) (k k' : K) (v : V) (h : c.equal_fn k' k = false) :
    absFind c (absAssign c a k v) k' = absFind c a k' := by
  unfold absAssign
  split
  · exact absFind_map_other c hc a k k' v h
  · rw [absFind_cons, if_neg]
    rw [equal_fn_false_symm c hc h]
    simp

/-! ## `find` and `contains` through the abstraction -/

theorem find_spec {K V : Type} {c : Params K V} (hc : c.Lawful) {m : HashMap K V}
    {a : List (K × V)} (hA : Agree c m a) (k : K) :
    (∀ v, absFind c a k = some v → ∃ i b, find c m k = some (liveIt i) ∧
      slot m.data i = some b ∧ b.is_deleted = false ∧ c.equal_fn b.first k = true ∧
      b.second = v) ∧
    (absFind c a k = none → find c m k = some Iterator.endIt) := by
  constructor
  · intro v h
    obtain ⟨p, hp1, hp2, hp3⟩ := (absFind_eq_some c hc a hA.distinct k v).1 h
    obtain ⟨i, hi, hd⟩ := hA.mem_live hp1
    exact ⟨i, _, find_live hc hA.inv hi hp2 hd, hi, hd, hp2, hp3⟩
  · intro h
    exact find_absent hc hA.inv ((hA.absent_iff k).1 h)

theorem contains_eq {K V : Type} {c : Params K V} (hc : c.Lawful) {m : HashMap K V}
    {a : List (K × V)} (hA : Agree c m a) (k : K) :
    contains c m k = some (absFind c a k).isSome := by
  unfold contains
  cases h : absFind c a k with
  | none =>
    rw [(find_spec hc hA k).2 h]
    rfl
  | some v =>
    obtain ⟨i, b, hf, _⟩ := (find_spec hc hA k).1 v h
    rw [hf]
    rfl

/-! ## The concrete parameter sets are lawful -/

theorem natParams_lawful (p : CollisionPolicy) : (natParams p).Lawful := by
  refine ⟨?_, ?_, ?_, ?_⟩
  · intro a; simp [natParams]
  · intro a b h
    simp only [natParams, beq_iff_eq] at h ⊢
    exact h.symm
  · intro a b d h1 h2
    simp only [natParams, beq_iff_eq] at h1 h2 ⊢
    exact h1.trans h2
  · intro a b h
    simp only [natParams, beq_iff_eq] at h ⊢
    exact h

theorem absInsertAll_distinct {K V : Type} (c : Params K V) (l : List (K × V)) :
    ∀ a : List (K × V), l.Pairwise (fun p q => c.equal_fn p.1 q.1 = false) →
      (∀ p ∈ l, absFind c a p.1 = none) → absInsertAll c a l = l.reverse ++ a := by
  induction l with
  | nil => intro a _ _; rfl
  | cons kv rest ih =>
    intro a hd hn
    obtain ⟨h1, h2⟩ := List.pairwise_cons.1 hd
    unfold absInsertAll
    have : absInsert c a kv.1 kv.2 = kv :: a := by
      unfold absInsert
      rw [hn kv (List.mem_cons_self _ _)]
      rfl
    rw [this, ih (kv :: a) h2, List.reverse_cons, List.append_assoc]
    · rfl
    · intro p hp
      rw [absFind_cons, if_neg, hn p (List.mem_cons_of_mem _ hp)]
      rw [h1 p hp]
      simp

theorem insertAll_ok {K V : Type} {c : Params K V} (hc : c.Lawful) (l : List (K × V)) :
    ∀ (m : HashMap K V) (a : List (K × V)), Agree c m a →
      ∃ F, ∀ fuel, F ≤ fuel → ∃ m1, insertAll c fuel m l = some m1 ∧
        Agree c m1 (absInsertAll c a l) := by
  induction l with
  | nil =>
    intro m a hA
    exact ⟨0, fun fuel _ => ⟨m, rfl, hA⟩⟩
  | cons kv rest ih =>
    intro m a hA
    obtain ⟨r, hr, hres⟩ := insert_ok hc hA.inv kv (need (m.el_count + m.del_count))
      (le_refl _)
    have hA1 := agree_insert hc hA kv.1 kv.2 hres.1
    obtain ⟨F1, hF1⟩ := ih r.1 _ hA1
    refine ⟨max (need (m.el_count + m.del_count)) F1, ?_⟩
    intro fuel hfuel
    obtain ⟨m1, h1, h2⟩ := hF1 fuel (le_trans (le_max_right _ _) hfuel)
    refine ⟨m1, ?_, h2⟩
    unfold insertAll
    rw [insert_mono c _ fuel (le_trans (le_max_left _ _) hfuel) m kv r hr]
    exact h1

/-! ## Post-conditions for any fuel with which an operation returns -/

theorem rehash_post {K V : Type} {c : Params K V} (hc : c.Lawful) {m m1 : HashMap K V}
    (hI : Inv c m) {fuel n : Nat} (h : rehash c fuel m n = some m1) : RehashPost c m n m1 := by
  obtain ⟨r, hr, hp⟩ := rehash_ok hc (max fuel (need (countLive m.data))) _ (le_max_right _ _)
    m n hI (le_refl _)
  rw [rehash_mono c fuel _ m n m1 (le_max_left _ _) h] at hr
  cases hr
  exact hp

theorem emplace_split {K V : Type} {c : Params K V} (hc : c.Lawful) {m : HashMap K V}
    (hI : Inv c m) {fuel : Nat} {key : K} {value : V} {r : HashMap K V × Iterator × Bool}
    (h : emplace c fuel m key value = some r) :
    ∃ m', RehashPost c m (m.size + 1) m' ∧
      InsRes c id m' { first := key, second := value, is_deleted := false } r := by
  unfold emplace reserve at h
  obtain ⟨m', h1, h2⟩ := Option.bind_eq_some.1 h
  have hp := rehash_post hc hI h1
  refine ⟨m', hp, ?_⟩
  have hM := count_le_of_Inv hp.inv
  have hT := need_ge_Thr (m'.el_count + m'.del_count)
  obtain ⟨r', hr', hres⟩ := emplaceLoop_ok hc
    (max fuel (need (m'.el_count + m'.del_count))) _ (le_max_right _ _)
    { first := key, second := value, is_deleted := false } rfl
    (max fuel (need (m'.el_count + m'.del_count)) - 1) m' hp.inv hM (by omega)
  have hpos : 0 < max fuel (need (m'.el_count + m'.del_count)) := by omega
  have := emplaceLoop_mono c fuel (max fuel (need (m'.el_count + m'.del_count)))
    (le_max_left _ _) _ fuel (max fuel (need (m'.el_count + m'.del_count)) - 1 + 1) m' r
    (by omega) h2
  rw [this] at hr'
  cases hr'
  exact hres

theorem insert_or_assign_split {K V : Type} {c : Params K V} (hc : c.Lawful)
    {m : HashMap K V} (hI : Inv c m) {fuel : Nat} {key : K} {value : V}
    {r : HashMap K V × Iterator × Bool} (h : insert_or_assign c fuel m key value = some r) :
    ∃ m', RehashPost c m (m.size + 1) m' ∧
      InsRes c (assignTo value) m' { first := key, second := value, is_deleted := false } r := by
  unfold insert_or_assign reserve at h
  obtain ⟨m', h1, h2⟩ := Option.bind_eq_some.1 h
  have hp := rehash_post hc hI h1
  refine ⟨m', hp, ?_⟩
  have hM := count_le_of_Inv hp.inv
  have hT := need_ge_Thr (m'.el_count + m'.del_count)
  obtain ⟨r', hr', hres⟩ := insertOrAssignLoop_ok hc
    (max fuel (need (m'.el_count + m'.del_count))) _ (le_max_right _ _) key value
    (max fuel (need (m'.el_count + m'.del_count)) - 1) m' hp.inv hM (by omega)
  have := insertOrAssignLoop_mono c fuel (max fuel (need (m'.el_count + m'.del_count)))
    (le_max_left _ _) key value fuel (max fuel (need (m'.el_count + m'.del_count)) - 1 + 1)
    m' r (by omega) h2
  rw [this] at hr'
  cases hr'
  exact hres

theorem index_split {K V : Type} {c : Params K V} (hc : c.Lawful) {m : HashMap K V}
    (hI : Inv c m) {fuel : Nat} {key : K} {r : HashMap K V × V}
    (h : index c fuel m key = some r) :
    ∃ m', RehashPost c m (m.size + 1) m' ∧ IdxRes c m' key r := by
  unfold index reserve at h
  obtain ⟨m', h1, h2⟩ := Option.bind_eq_some.1 h
  have hp := rehash_post hc hI h1
  refine ⟨m', hp, ?_⟩
  have hM := count_le_of_Inv hp.inv
  have hT := need_ge_Thr (m'.el_count + m'.del_count)
  obtain ⟨r', hr', hres⟩ := indexLoop_ok hc
    (max fuel (need (m'.el_count + m'.del_count))) _ (le_max_right _ _) key
    (max fuel (need (m'.el_count + m'.del_count)) - 1) m' hp.inv hM (by omega)
  have := indexLoop_mono c fuel (max fuel (need (m'.el_count + m'.del_count)))
    (le_max_left _ _) key fuel (max fuel (need (m'.el_count + m'.del_count)) - 1 + 1)
    m' r (by omega) h2
  rw [this] at hr'
  cases hr'
  exact hres

theorem del_zero_of_noTomb {K V : Type} {c : Params K V} {m : HashMap K V} (hI : Inv c m)
    (hN : NoTomb m) : m.del_count = 0 := by
  rw [hI.del, countTomb_noTomb hN]

/-! ## Iterators handed out by a container -/

theorem ctorLoop_live {K V : Type} (data : List (Option (Bucket K V))) (sp fuel : Nat) :
    ∀ cur q, Iterator.ctorLoop data sp fuel cur = some (q, false) → isLive data q = true := by
  induction fuel with
  | zero =>
    intro cur q h
    unfold Iterator.ctorLoop at h
    by_cases hl : isLive data cur = true
    · rw [if_pos hl] at h
      cases h
      exact hl
    · rw [if_neg hl] at h; cases h
  | succ fuel ih =>
    intro cur q h
    unfold Iterator.ctorLoop at h
    by_cases hl : isLive data cur = true
    · rw [if_pos hl] at h
      cases h
      exact hl
    · rw [if_neg hl] at h
      simp only at h
      by_cases he : (cur + 1) % data.length = sp
      · rw [if_pos he] at h; cases h
      · rw [if_neg he] at h
        exact ih _ q h

theorem incLoop_live {K V : Type} (data : List (Option (Bucket K V))) (sp fuel : Nat) :
    ∀ cur q, Iterator.incLoop data sp fuel cur = some (q, false) → isLive data q = true := by
  induction fuel with
  | zero => intro cur q h; cases h
  | succ fuel ih =>
    intro cur q h
    unfold Iterator.incLoop at h
    simp only at h
    by_cases he : (cur + 1) % data.length = sp
    · rw [if_pos he] at h; cases h
    · rw [if_neg he] at h
      by_cases hl : isLive data ((cur + 1) % data.length) = true
      · rw [if_pos hl] at h
        cases h
        exact hl
      · rw [if_neg hl] at h
        exact ih _ q h

theorem produced_live {K V : Type} {data : List (Option (Bucket K V))} {it : Iterator}
    (h : Produced data it) :
    it.is_ordered = false ∧ (it.iterator_end = false → isLive data it.current = true) := by
  induction h with
  | default => exact ⟨rfl, fun h => by cases h⟩
  | scan ind it h =>
    unfold Iterator.ofIndex at h
    by_cases hge : ind ≥ data.length
    · rw [if_pos hge] at h
      cases h
      exact ⟨rfl, fun h => by cases h⟩
    · rw [if_neg hge] at h
      obtain ⟨r, hr, he⟩ := Option.map_eq_some'.1 h
      subst he
      refine ⟨rfl, ?_⟩
      intro hend
      obtain ⟨q, e⟩ := r
      simp only at hend
      subst hend
      exact ctorLoop_live data ind _ _ q hr
  | inc it it1 _ hn ih =>
    obtain ⟨ho, hl⟩ := ih
    unfold Iterator.next at hn
    by_cases hend : it.iterator_end = true
    · rw [if_pos hend] at hn
      cases hn
      exact ⟨ho, hl⟩
    · rw [if_neg hend, ho] at hn
      simp only [Bool.false_eq_true, if_false] at hn
      obtain ⟨r, hr, he⟩ := Option.map_eq_some'.1 hn
      subst he
      refine ⟨rfl, ?_⟩
      intro hend1
      obtain ⟨q, e⟩ := r
      simp only at hend1
      subst hend1
      exact incLoop_live data _ _ _ q hr

theorem find_produced {K V : Type} (c : Params K V) (m : HashMap K V) (key : K)
    (it : Iterator) (h : find c m key = some it) : Produced m.data it := by
  unfold find at h
  rw [findLoop_eq_probe] at h
  split at h
  · exact Produced.scan _ _ h
  · cases h
    exact Produced.default

theorem begin_produced {K V : Type} (m : HashMap K V) (it : Iterator)
    (h : m.begin = some it) : Produced m.data it :=
  Produced.scan 0 it h

/-! ## Concrete runs are reachable -/

theorem reachable_runOps {K V : Type} (c : Params K V) (fuel : Nat) (ops : List (Op K V)) :
    ∀ (m m1 : HashMap K V) (a : List (K × V)), Reachable c m a →
      runOps c fuel m ops = some m1 → Reachable c m1 (absRun c a ops) := by
  induction ops with
  | nil =>
    intro m m1 a h hr
    cases hr
    exact h
  | cons op rest ih =>
    intro m m1 a h hr
    unfold runOps at hr
    obtain ⟨m2, h1, h2⟩ := Option.bind_eq_some.1 hr
    exact ih m2 m1 _ (Reachable.step op fuel h h1) h2

theorem exTomb_reachable : Reachable (natParams .LinearProbing) exTomb [(4, 'b')] :=
  reachable_runOps (natParams .LinearProbing) 4 [.insert 0 'a', .insert 4 'b', .erase 0]
    (HashMap.new 3) exTomb [] (Reachable.init 3) (by decide)

theorem exU_reachable : Reachable (natParams .LinearProbing) exU [(0, 'u')] :=
  reachable_runOps (natParams .LinearProbing) 4 [.insert 0 'u']
    (HashMap.new 3) exU [] (Reachable.init 3) (by decide)

theorem exThree_reachable :
    Reachable (natParams .LinearProbing) exThree [(8, 'c'), (4, 'b'), (0, 'a')] :=
  reachable_runOps (natParams .LinearProbing) 8 [.insert 0 'a', .insert 4 'b', .insert 8 'c']
    (HashMap.new 3) exThree [] (Reachable.init 3) (by decide)

theorem exTwoErased_reachable :
    Reachable (natParams .LinearProbing) exTwoErased [(8, 'c')] :=
  reachable_runOps (natParams .LinearProbing) 8
    [.insert 0 'a', .insert 4 'b', .insert 8 'c', .erase 0, .erase 4]
    (HashMap.new 3) exTwoErased [] (Reachable.init 3) (by decide)

theorem exQuad_reachable :
    Reachable (natParams .QuadraticProbing) exQuad [(16, 'c'), (8, 'b'), (0, 'a')] :=
  reachable_runOps (natParams .QuadraticProbing) 4
    [.insert 0 'a', .insert 8 'b', .insert 16 'c']
    (HashMap.new 7) exQuad [] (Reachable.init 7) (by decide)

theorem exTwo_reachable :
    Reachable (natParams .LinearProbing) exTwo [(4, 'b'), (0, 'a')] :=
  reachable_runOps (natParams .LinearProbing) 4 [.insert 0 'a', .insert 4 'b']
    (HashMap.new 3) exTwo [] (Reachable.init 3) (by decide)

/-! ## Statements of the specification -/

/-- C2: in every reachable state `size()` equals the number of keys present, which is the
number of LIVE slots; and inserting pairwise-distinct keys into a map built with hint 0 (one
bucket) returns, gives `size()` equal to the number of keys, and leaves every key findable
with its value. -/
theorem C2_size_is_key_count {K V : Type} (c : Params K V) (hc : c.Lawful) :
    (∀ (m : HashMap K V) (a : List (K × V)), Reachable c m a →
      m.size = a.length ∧ m.size = countLive m.data ∧
      a.Pairwise (fun p q => c.equal_fn p.1 q.1 = false) ∧
      ∀ k, (contains c m k = some true ↔ ∃ p ∈ a, c.equal_fn p.1 k = true)) ∧
    (∀ l : List (K × V), l.Pairwise (fun p q => c.equal_fn p.1 q.1 = false) →
      (HashMap.new 0 : HashMap K V).bucket_count = 1 ∧
      ∃ F, ∀ fuel, F ≤ fuel → ∃ m1, insertAll c fuel (HashMap.new 0) l = some m1 ∧
        m1.size = l.length ∧
        ∀ kv ∈ l, lookup c m1 kv.1 = some kv.2 ∧ ∃ i, find c m1 kv.1 = some (liveIt i)) := by
  constructor
  · intro m a h
    have hA := reachable_agree hc h
    refine ⟨hA.size, hA.inv.el, hA.distinct, ?_⟩
    intro k
    rw [contains_eq hc hA k]
    constructor
    · intro h1
      have h2 : (absFind c a k).isSome = true := Option.some.inj h1
      obtain ⟨v, hv⟩ := Option.isSome_iff_exists.1 h2
      obtain ⟨p, hp1, hp2, _⟩ := (absFind_eq_some c hc a hA.distinct k v).1 hv
      exact ⟨p, hp1, hp2⟩
    · rintro ⟨p, hp1, hp2⟩
      have := (absFind_eq_some c hc a hA.distinct k p.2).2 ⟨p, hp1, hp2, rfl⟩
      rw [this]
      rfl
  · intro l hl
    refine ⟨by simp [HashMap.new, HashMap.bucket_count], ?_⟩
    obtain ⟨F, hF⟩ := insertAll_ok hc l (HashMap.new 0) [] (agree_new c 0)
    refine ⟨F, ?_⟩
    intro fuel hfuel
    obtain ⟨m1, h1, hA⟩ := hF fuel hfuel
    rw [absInsertAll_distinct c l [] hl (fun _ _ => rfl), List.append_nil] at hA
    refine ⟨m1, h1, ?_, ?_⟩
    · show m1.el_count = _
      rw [hA.size, List.length_reverse]
    · intro kv hkv
      have hf : absFind c l.reverse kv.1 = some kv.2 :=
        (absFind_eq_some c hc _ hA.distinct kv.1 kv.2).2
          ⟨kv, List.mem_reverse.2 hkv, hc.refl _, rfl⟩
      refine ⟨by rw [lookup_eq hc hA, hf], ?_⟩
      obtain ⟨i, b, g, _⟩ := (find_spec hc hA kv.1).1 kv.2 hf
      exact ⟨i, g⟩

/-- Witness for C2 (spec scenario 4, quadratic probing): ten distinct keys inserted into a
map built with hint 0. -/
theorem C2_size_is_key_count_witness :
    (HashMap.new 0 : HashMap Nat Char).bucket_count = 1 ∧
    ∃ F, ∀ fuel, F ≤ fuel → ∃ m1,
      insertAll (natParams .QuadraticProbing) fuel (HashMap.new 0)
        [(0, 'a'), (1, 'b'), (2, 'c'), (3, 'd'), (4, 'e'), (5, 'f'), (6, 'g'), (7, 'h'),
          (8, 'i'), (9, 'j')] = some m1 ∧
      m1.size = [(0, 'a'), (1, 'b'), (2, 'c'), (3, 'd'), (4, 'e'), (5, 'f'), (6, 'g'),
          (7, 'h'), (8, 'i'), (9, 'j')].length ∧
      ∀ kv ∈ [(0, 'a'), (1, 'b'), (2, 'c'), (3, 'd'), (4, 'e'), (5, 'f'), (6, 'g'),
          (7, 'h'), (8, 'i'), (9, 'j')],
        lookup (natParams .QuadraticProbing) m1 kv.1 = some kv.2 ∧
        ∃ i, find (natParams .QuadraticProbing) m1 kv.1 = some (liveIt i) :=
  (C2_size_is_key_count (natParams .QuadraticProbing) (natParams_lawful _)).2 _ (by decide)

theorem absInsert_present {K V : Type} (c : Params K V) (a : List (K × V)) (k : K) (v : V)
    (h : (absFind c a k).isSome = true) : absInsert c a k v = a := by
  unfold absInsert
  rw [if_pos h]

theorem absFind_absInsert_isSome {K V : Type} (c : Params K V) (hc : c.Lawful)
    (a : List (K × V)) (k : K) (v : V) : (absFind c (absInsert c a k v) k).isSome = true := by
  rw [absFind_absInsert_self c hc]
  cases absFind c a k <;> rfl

theorem not_inserted_of_present {K V : Type} {c : Params K V} {m : HashMap K V}
    {a : List (K × V)} (hA : Agree c m a) {k : K} (h : (absFind c a k).isSome = true)
    {ins : Bool} (hi : ins = true ↔ ∀ b, LiveB m b → c.equal_fn b.first k = false) :
    ins = false := by
  cases hins : ins
  · rfl
  · have := (hA.absent_iff k).2 (hi.1 hins)
    rw [this] at h
    cases h

/-- C3 (counterexample to the claim as written): key 0 is already present with value 'u'; then
`insert((0,'a'))` followed by `insert((0,'b'))` leaves the value at key 0 equal to 'u', not to
the value 'a' of the first of the two calls. -/
theorem C3_counterexample :
    Reachable (natParams .LinearProbing) exU [(0, 'u')] ∧
    ∃ r1 r2, insert (natParams .LinearProbing) 4 exU (0, 'a') = some r1 ∧
      insert (natParams .LinearProbing) 4 r1.1 (0, 'b') = some r2 ∧
      lookup (natParams .LinearProbing) r2.1 0 = some 'u' ∧
      lookup (natParams .LinearProbing) r2.1 0 ≠ some 'a' :=
  ⟨exU_reachable, (exU, liveIt 0, false), (exU, liveIt 0, false), by decide, by decide,
    by decide, by decide⟩

/-- C3 (amended): for every reachable map, key `k` and values `v`, `v'`, the calls
`insert((k, v))` and then `insert((k, v'))` return; the second call returns `inserted = false`
with an iterator at the LIVE entry of `k`, leaves `size()` unchanged, and leaves the value at
`k` as it was after the first call: `v` if `k` was absent before the first call, and the value
already stored for `k` otherwise. -/
theorem C3_second_insert_keeps_value {K V : Type} (c : Params K V) (hc : c.Lawful)
    (m : HashMap K V) (a : List (K × V)) (h : Reachable c m a) (k : K) (v v' : V) :
    ∃ F, ∀ fuel, F ≤ fuel → ∃ r1 r2, insert c fuel m (k, v) = some r1 ∧
      insert c fuel r1.1 (k, v') = some r2 ∧ r2.2.2 = false ∧ r2.1.size = r1.1.size ∧
      lookup c r2.1 k = lookup c r1.1 k ∧
      (absFind c a k = none → lookup c r2.1 k = some v) ∧
      (∀ u, absFind c a k = some u → lookup c r2.1 k = some u) ∧
      ∃ j b, r2.2.1 = liveIt j ∧ slot r2.1.data j = some b ∧ b.is_deleted = false ∧
        c.equal_fn b.first k = true := by
  have hA := reachable_agree hc h
  obtain ⟨r1, hr1, hres1⟩ := insert_ok hc hA.inv (k, v) _ (le_refl _)
  have hA1 := agree_insert hc hA k v hres1.1
  obtain ⟨r2, hr2, hres2⟩ := insert_ok hc hA1.inv (k, v') _ (le_refl _)
  have hA2 := agree_insert hc hA1 k v' hres2.1
  have hpres := absFind_absInsert_isSome c hc a k v
  rw [absInsert_present c _ k v' hpres] at hA2
  refine ⟨max (need (m.el_count + m.del_count)) (need (r1.1.el_count + r1.1.del_count)), ?_⟩
  intro fuel hfuel
  refine ⟨r1, r2, insert_mono c _ fuel (le_trans (le_max_left _ _) hfuel) m _ r1 hr1,
    insert_mono c _ fuel (le_trans (le_max_right _ _) hfuel) r1.1 _ r2 hr2,
    not_inserted_of_present hA1 hpres hres2.2.2, ?_, ?_, ?_, ?_, hres2.2.1⟩
  · show r2.1.el_count = r1.1.el_count
    rw [hA2.size, hA1.size]
  · rw [lookup_eq hc hA2, lookup_eq hc hA1]
  · intro hn
    rw [lookup_eq hc hA2, absFind_absInsert_self c hc, hn]
  · intro u hu
    rw [lookup_eq hc hA2, absFind_absInsert_self c hc, hu]

/-- Witness for C3 (amended), at the state of the counterexample. -/
theorem C3_second_insert_keeps_value_witness :
    ∃ F, ∀ fuel, F ≤ fuel → ∃ r1 r2,
      insert (natParams .LinearProbing) fuel exU (0, 'a') = some r1 ∧
      insert (natParams .LinearProbing) fuel r1.1 (0, 'b') = some r2 ∧ r2.2.2 = false ∧
      r2.1.size = r1.1.size ∧
      lookup (natParams .LinearProbing) r2.1 0 = lookup (natParams .LinearProbing) r1.1 0 ∧
      (absFind (natParams .LinearProbing) [(0, 'u')] 0 = none →
        lookup (natParams .LinearProbing) r2.1 0 = some 'a') ∧
      (∀ u, absFind (natParams .LinearProbing) [(0, 'u')] 0 = some u →
        lookup (natParams .LinearProbing) r2.1 0 = some u) ∧
      ∃ j b, r2.2.1 = liveIt j ∧ slot r2.1.data j = some b ∧ b.is_deleted = false ∧
        (natParams .LinearProbing).equal_fn b.first 0 = true :=
  C3_second_insert_keeps_value (natParams .LinearProbing) (natParams_lawful _) exU
    [(0, 'u')] exU_reachable 0 'a' 'b'

/-- C4: for every reachable map, key `k` and values `v`, `v'`: `insert_or_assign(k, v')` after
`insert((k, v))` returns `inserted = false`, makes the value found at `k` equal to `v'`, leaves
`size()` unchanged and leaves the lookup result of every other key unchanged; and
`insert_or_assign(k, v')` on an absent key returns `inserted = true`, stores `v'` at `k`,
increases `size()` by one and leaves every other key unchanged. -/
theorem C4_insert_or_assign {K V : Type} (c : Params K V) (hc : c.Lawful)
    (m : HashMap K V) (a : List (K × V)) (h : Reachable c m a) (k : K) (v v' : V) :
    ∃ F, ∀ fuel, F ≤ fuel →
      (∃ r1 r2, insert c fuel m (k, v) = some r1 ∧
        insert_or_assign c fuel r1.1 k v' = some r2 ∧ lookup c r2.1 k = some v' ∧
        r2.2.2 = false ∧ r2.1.size = r1.1.size ∧
        ∀ k', c.equal_fn k' k = false → lookup c r2.1 k' = lookup c r1.1 k') ∧
      (absFind c a k = none → ∃ r, insert_or_assign c fuel m k v' = some r ∧
        r.2.2 = true ∧ lookup c r.1 k = some v' ∧ r.1.size = m.size + 1 ∧
        ∀ k', c.equal_fn k' k = false → lookup c r.1 k' = lookup c m k') := by
  have hA := reachable_agree hc h
  obtain ⟨r1, hr1, hres1⟩ := insert_ok hc hA.inv (k, v) _ (le_refl _)
  have hA1 := agree_insert hc hA k v hres1.1
  obtain ⟨r2, hr2, hres2⟩ := insert_or_assign_ok hc hA1.inv k v' _ (le_refl _)
  have hA2 := agree_assign hc hA1 k v' hres2.1
  have hpres := absFind_absInsert_isSome c hc a k v
  obtain ⟨r, hr, hres⟩ := insert_or_assign_ok hc hA.inv k v' _ (le_refl _)
  have hA3 := agree_assign hc hA k v' hres.1
  refine ⟨max (need (m.el_count + m.del_count)) (need (r1.1.el_count + r1.1.del_count)), ?_⟩
  intro fuel hfuel
  constructor
  · refine ⟨r1, r2, insert_mono c _ fuel (le_trans (le_max_left _ _) hfuel) m _ r1 hr1,
      insert_or_assign_mono c _ fuel (le_trans (le_max_right _ _) hfuel) r1.1 _ _ r2 hr2,
      ?_, not_inserted_of_present hA1 hpres hres2.2.2, ?_, ?_⟩
    · rw [lookup_eq hc hA2, absFind_absAssign_self c hc]
    · obtain ⟨u, hu⟩ := Option.isSome_iff_exists.1 hpres
      obtain ⟨p, hp1, hp2, _⟩ := (absFind_eq_some c hc _ hA1.distinct k u).1 hu
      exact (hres2.1.present _ (hA1.mem_live hp1) hp2).2
    · intro k' hk'
      rw [lookup_eq hc hA2, lookup_eq hc hA1, absFind_absAssign_other c hc _ k k' v' hk']
  · intro hn
    refine ⟨r, insert_or_assign_mono c _ fuel (le_trans (le_max_left _ _) hfuel) m _ _ r hr,
      hres.2.2.2 ((hA.absent_iff k).1 hn), ?_, ?_, ?_⟩
    · rw [lookup_eq hc hA3, absFind_absAssign_self c hc]
    · exact (hres.1.absent ((hA.absent_iff k).1 hn)).2
    · intro k' hk'
      rw [lookup_eq hc hA3, lookup_eq hc hA, absFind_absAssign_other c hc _ k k' v' hk']

/-- Witness for C4: linear probing, the state of spec scenario 2, key 0 (absent there). -/
theorem C4_insert_or_assign_witness :
    ∃ F, ∀ fuel, F ≤ fuel →
      (∃ r1 r2, insert (natParams .LinearProbing) fuel exTomb (0, 'x') = some r1 ∧
        insert_or_assign (natParams .LinearProbing) fuel r1.1 0 'y' = some r2 ∧
        lookup (natParams .LinearProbing) r2.1 0 = some 'y' ∧
        r2.2.2 = false ∧ r2.1.size = r1.1.size ∧
        ∀ k', (natParams .LinearProbing).equal_fn k' 0 = false →
          lookup (natParams .LinearProbing) r2.1 k' = lookup (natParams .LinearProbing) r1.1 k') ∧
      (absFind (natParams .LinearProbing) [(4, 'b')] 0 = none →
        ∃ r, insert_or_assign (natParams .LinearProbing) fuel exTomb 0 'y' = some r ∧
        r.2.2 = true ∧ lookup (natParams .LinearProbing) r.1 0 = some 'y' ∧
        r.1.size = exTomb.size + 1 ∧
        ∀ k', (natParams .LinearProbing).equal_fn k' 0 = false →
          lookup (natParams .LinearProbing) r.1 k' = lookup (natParams .LinearProbing) exTomb k') :=
  C4_insert_or_assign (natParams .LinearProbing) (natParams_lawful _) exTomb [(4, 'b')]
    exTomb_reachable 0 'x' 'y'

/-- Erasing a key stored in the LIVE slot `i` turns that slot into a TOMBSTONE and returns 1. -/
theorem erase_present {K V : Type} {c : Params K V} (hc : c.Lawful) {m : HashMap K V}
    (hI : Inv c m) {key : K} {i : Nat} {b : Bucket K V} (hs : slot m.data i = some b)
    (hd : b.is_deleted = false) (he : c.equal_fn b.first key = true) (fuel : Nat)
    (hf : 2 ≤ fuel) :
    erase c fuel m key = some (HashMap.mk (m.data.set i (some { b with is_deleted := true }))
      (m.el_count - 1) (m.del_count + 1), 1) := by
  obtain ⟨f, rfl⟩ : ∃ f, fuel = f + 2 := ⟨fuel - 2, by omega⟩
  have hlt := slot_some_lt hs
  unfold erase eraseLoop
  rw [find_live hc hI hs he hd]
  have hit : (liveIt i).iterator_end = false := rfl
  have hcur : (liveIt i).current = i := rfl
  simp only [hit, Bool.false_eq_true, if_false]
  unfold eraseAt
  simp only [hit, Bool.false_eq_true, if_false, hcur, hs]
  have hel : 0 < m.el_count := by
    rw [hI.el]; exact countLive_pos ((isLive_iff _ _).2 ⟨b, hs, hd⟩)
  have hI1 : Inv c (HashMap.mk (m.data.set i (some { b with is_deleted := true }))
      (m.el_count - 1) (m.del_count + 1)) :=
    @Inv_replace K V c hc m hI i b { b with is_deleted := true } hs (hc.refl _) _ _
      (by simp [hd]; omega) (by simp [hd])
  have hsome := next_liveIt_isSome (m.data.set i (some { b with is_deleted := true })) i
    (by rw [List.length_set]; exact hlt)
  obtain ⟨it', hit'⟩ := Option.isSome_iff_exists.1 hsome
  rw [hit']
  have hfind : find c (HashMap.mk (m.data.set i (some { b with is_deleted := true }))
      (m.el_count - 1) (m.del_count + 1)) key = some Iterator.endIt :=
    @find_tomb K V c hc _ hI1 i { b with is_deleted := true } key
      (slot_set_self _ _ _ hlt) he rfl
  show eraseLoop c key (f + 1) _ (0 + 1) = _
  unfold eraseLoop
  rw [hfind]
  rfl

/-- Inserting a key whose slot `i` is a TOMBSTONE, when `reserve` has nothing to do, revives
slot `i`. -/
theorem insert_revive {K V : Type} {c : Params K V} (hc : c.Lawful) {m : HashMap K V}
    (hI : Inv c m) {key : K} (value : V) {i : Nat} {b : Bucket K V}
    (hs : slot m.data i = some b) (hd : b.is_deleted = true)
    (he : c.equal_fn b.first key = true) (hcap : m.size + 1 ≤ m.bucket_count)
    (htomb : m.del_count ≤ m.size) (fuel : Nat) (hf : 1 ≤ fuel) :
    insert c fuel m (key, value) = some
      (HashMap.mk (m.data.set i (some { first := key, second := value, is_deleted := false }))
        (m.el_count + 1) (m.del_count - 1), liveIt i, true) := by
  obtain ⟨f, rfl⟩ : ∃ f, fuel = f + 1 := ⟨fuel - 1, by omega⟩
  have hlt := slot_some_lt hs
  have hno : ¬(m.size + 1 > m.bucket_count ∨ m.del_count > m.size) := by omega
  unfold insert emplace reserve rehash
  rw [if_neg hno]
  simp only [Option.some_bind]
  unfold emplaceLoop
  simp only
  rw [probeKey_eq, probe_found hc hI hs he _ (le_refl _), hd]
  simp only [if_true]
  rw [ofIndex_set _ _ _ hlt rfl]
  rfl

theorem erase_mono {K V : Type} (c : Params K V) (fuel fuel' : Nat) (hf : fuel ≤ fuel')
    (m : HashMap K V) (key : K) (r : HashMap K V × Nat) (h : erase c fuel m key = some r) :
    erase c fuel' m key = some r :=
  eraseLoop_mono c key fuel fuel' m 0 r hf h

/-- C6: if a present key `k` (found in slot `i`) is erased and then inserted again with value
`v` while no rehash intervenes (at the insert, `size() + 1 <= bucket_count()` and
`tomb_count <= live_count`), the insert returns `inserted = true` with an iterator at slot
`i`, the slot that held the tombstone of `k`; that slot is LIVE with value `v`, `tomb_count`
has decreased by 1, `live_count` has increased by 1 and the bucket array has kept its
length. -/
theorem C6_reinsert_revives_slot {K V : Type} (c : Params K V) (hc : c.Lawful)
    (m : HashMap K V) (a : List (K × V)) (h : Reachable c m a) (k : K) (u v : V)
    (hpres : absFind c a k = some u) (fuel fuel' : Nat) (hf' : 1 ≤ fuel')
    (m1 : HashMap K V) (n : Nat) (he : erase c fuel m k = some (m1, n))
    (hcap : m1.size + 1 ≤ m1.bucket_count) (htomb : m1.del_count ≤ m1.size) :
    ∃ i m2, find c m k = some (liveIt i) ∧ isTomb m1.data i = true ∧
      insert c fuel' m1 (k, v) = some (m2, liveIt i, true) ∧
      slot m2.data i = some { first := k, second := v, is_deleted := false } ∧
      m2.del_count + 1 = m1.del_count ∧ m2.el_count = m1.el_count + 1 ∧
      m2.bucket_count = m1.bucket_count := by
  have hA := reachable_agree hc h
  obtain ⟨i, b, g1, g2, g3, g4, _⟩ := (find_spec hc hA k).1 u hpres
  have hlt := slot_some_lt g2
  have he2 := erase_present hc hA.inv g2 g3 g4 (max fuel 2) (le_max_right _ _)
  rw [erase_mono c fuel (max fuel 2) (le_max_left _ _) m k _ he] at he2
  have hm1 : m1 = HashMap.mk (m.data.set i (some { b with is_deleted := true }))
      (m.el_count - 1) (m.del_count + 1) := congrArg Prod.fst (Option.some.inj he2)
  have hI1 : Inv c m1 := by
    rw [hm1]
    exact @Inv_replace K V c hc m hA.inv i b { b with is_deleted := true } g2 (hc.refl _) _ _
      (by
        have hel : 0 < m.el_count := by
          rw [hA.inv.el]; exact countLive_pos ((isLive_iff _ _).2 ⟨b, g2, g3⟩)
        simp [g3]; omega)
      (by simp [g3])
  have hs1 : slot m1.data i = some { b with is_deleted := true } := by
    rw [hm1]; exact slot_set_self _ _ _ hlt
  have hins := insert_revive hc hI1 v hs1 rfl g4 hcap htomb fuel' hf'
  have hlt1 : i < m1.data.length := slot_some_lt hs1
  have hdel : 0 < m1.del_count := by rw [hm1]; show 0 < m.del_count + 1; omega
  refine ⟨i, _, g1, (isTomb_iff _ _).2 ⟨_, hs1, rfl⟩, hins, slot_set_self _ _ _ hlt1, ?_, rfl, ?_⟩
  · show m1.del_count - 1 + 1 = m1.del_count
    omega
  · show (m1.data.set i _).length = m1.data.length
    rw [List.length_set]

/-- Witness for C6 (spec scenario 3): after `erase(0)`, `insert((0,'z'))` revives slot 0 with
value 'z'; `size()` is 3 and `tomb_count` is 0. -/
theorem C6_reinsert_revives_slot_witness :
    ∃ i m2, find (natParams .LinearProbing) exThree 0 = some (liveIt i) ∧
      isTomb exThreeErased.data i = true ∧
      insert (natParams .LinearProbing) 1 exThreeErased (0, 'z') = some (m2, liveIt i, true) ∧
      slot m2.data i = some { first := 0, second := 'z', is_deleted := false } ∧
      m2.del_count + 1 = exThreeErased.del_count ∧
      m2.el_count = exThreeErased.el_count + 1 ∧
      m2.bucket_count = exThreeErased.bucket_count :=
  C6_reinsert_revives_slot (natParams .LinearProbing) (natParams_lawful _) exThree
    [(8, 'c'), (4, 'b'), (0, 'a')] exThree_reachable 0 'a' 'z' (by decide) 2 1 (le_refl _)
    exThreeErased 1 (by decide) (by decide) (by decide)

/-- C8 (code bug): the copy constructor and copy assignment copy `del_count` and the LIVE
slots but not the TOMBSTONE slots. In the reachable state of spec scenario 2 key 4 sits behind
the tombstone of key 0; in the copy that slot is null, so `find(4)` stops there: the copy does
not compare equal to the original and key 4 is not found in it. -/
theorem C8_copy_drops_tombstones :
    Reachable (natParams .LinearProbing) exTomb [(4, 'b')] ∧
    copyConstruct exTomb = some exCopy ∧
    copyAssign (HashMap.new 0) exTomb = some exCopy ∧
    mapEq (natParams .LinearProbing) exTomb exCopy = some false ∧
    find (natParams .LinearProbing) exTomb 4 = some (liveIt 1) ∧
    find (natParams .LinearProbing) exCopy 4 = some Iterator.endIt :=
  ⟨exTomb_reachable, by decide, by decide, by decide, by decide, by decide⟩

/-- C9: for every reachable container, iterating from `begin()` to `end()` ends, yields
exactly `size()` slots, visits each LIVE slot exactly once (the LIVE slots in increasing
index order, without repetition) and never yields an EMPTY or TOMBSTONE slot; on a container
with no LIVE slot `begin() == end()`. -/
theorem C9_iteration_visits_live {K V : Type} (c : Params K V) (hc : c.Lawful)
    (m : HashMap K V) (a : List (K × V)) (h : Reachable c m a) :
    ∃ l, traverse m = some l ∧ l.length = m.size ∧ l.Nodup ∧
      (∀ i, i ∈ l ↔ isLive m.data i = true) ∧
      l = (List.range m.bucket_count).filter (fun i => isLive m.data i) ∧
      (countLive m.data = 0 →
        ∃ it, m.begin = some it ∧ Iterator.eq it Iterator.endIt = true) := by
  have hA := reachable_agree hc h
  refine ⟨liveFrom m.data 0, traverse_eq m, ?_, ?_, ?_, liveFrom_zero m.data, ?_⟩
  · rw [liveFrom_zero_length]
    exact hA.inv.el.symm
  · rw [liveFrom_zero]
    exact List.Nodup.filter _ (List.nodup_range _)
  · intro i
    rw [liveFrom_mem]
    constructor
    · intro hi; exact hi.2.2
    · intro hi
      obtain ⟨b, hb, _⟩ := (isLive_iff _ _).1 hi
      exact ⟨Nat.zero_le _, slot_some_lt hb, hi⟩
  · intro h0
    refine ⟨itOf (liveFrom m.data 0), begin_eq m, ?_⟩
    have : liveFrom m.data 0 = [] := by
      apply List.eq_nil_of_length_eq_zero
      rw [liveFrom_zero_length]
      exact h0
    rw [this]
    rfl

/-- Witness for C9: the state of spec scenario 2 (one LIVE slot behind a TOMBSTONE). -/
theorem C9_iteration_visits_live_witness :
    ∃ l, traverse exTomb = some l ∧ l.length = exTomb.size ∧ l.Nodup ∧
      (∀ i, i ∈ l ↔ isLive exTomb.data i = true) ∧
      l = (List.range exTomb.bucket_count).filter (fun i => isLive exTomb.data i) ∧
      (countLive exTomb.data = 0 →
        ∃ it, exTomb.begin = some it ∧ Iterator.eq it Iterator.endIt = true) :=
  C9_iteration_visits_live (natParams .LinearProbing) (natParams_lawful _) exTomb [(4, 'b')]
    exTomb_reachable

theorem pairs_iff {K V : Type} {c : Params K V} {m1 m2 : HashMap K V} {a1 a2 : List (K × V)}
    (hA1 : Agree c m1 a1) (hA2 : Agree c m2 a2) :
    (∀ p, LivePair m1 p ↔ LivePair m2 p) ↔ ∀ p, p ∈ a1 ↔ p ∈ a2 := by
  constructor
  · intro h p
    rw [hA1.rel, hA2.rel]
    exact h p
  · intro h p
    rw [← hA1.rel, ← hA2.rel]
    exact h p

/-- C11 (counterexample to the claim as written): the multiset {(0,'a'), (0,'b')} holds the
same key twice with different values; inserting it in the two possible orders gives a map
with value 'a' and a map with value 'b' at key 0, which compare unequal. -/
theorem C11_counterexample :
    [((0 : Nat), 'a'), (0, 'b')].Perm [(0, 'b'), (0, 'a')] ∧
    insertAll (natParams .LinearProbing) 4 (HashMap.new 3) [(0, 'a'), (0, 'b')] = some exA0 ∧
    insertAll (natParams .LinearProbing) 4 (HashMap.new 3) [(0, 'b'), (0, 'a')] = some exB0 ∧
    mapEq (natParams .LinearProbing) exA0 exB0 = some false :=
  ⟨List.Perm.swap _ _ _, by decide, by decide, by decide⟩

/-- C11 (amended): for every finite list of (k, v) pairs with pairwise different keys (under
the equality predicate) and every reordering of it, inserting the pairs with `insert` in the
two orders into freshly constructed maps (of any capacity hints) returns two maps that compare
equal under `operator==`. -/
theorem C11_order_insensitive {K V : Type} [DecidableEq K] [DecidableEq V]
    (c : Params K V) (hc : c.Lawful) (l1 l2 : List (K × V)) (hp : l1.Perm l2)
    (hd : l1.Pairwise fun p q => c.equal_fn p.1 q.1 = false) (hint1 hint2 : Nat) :
    ∃ F, ∀ fuel, F ≤ fuel → ∃ m1 m2, insertAll c fuel (HashMap.new hint1) l1 = some m1 ∧
      insertAll c fuel (HashMap.new hint2) l2 = some m2 ∧ mapEq c m1 m2 = some true := by
  have hd2 : l2.Pairwise fun p q => c.equal_fn p.1 q.1 = false :=
    (hp.pairwise_iff (fun hxy => equal_fn_false_symm c hc hxy)).1 hd
  obtain ⟨F1, hF1⟩ := insertAll_ok hc l1 (HashMap.new hint1) [] (agree_new c hint1)
  obtain ⟨F2, hF2⟩ := insertAll_ok hc l2 (HashMap.new hint2) [] (agree_new c hint2)
  refine ⟨max F1 F2, ?_⟩
  intro fuel hfuel
  obtain ⟨m1, hm1, hA1⟩ := hF1 fuel (le_trans (le_max_left _ _) hfuel)
  obtain ⟨m2, hm2, hA2⟩ := hF2 fuel (le_trans (le_max_right _ _) hfuel)
  rw [absInsertAll_distinct c l1 [] hd (fun _ _ => rfl), List.append_nil] at hA1
  rw [absInsertAll_distinct c l2 [] hd2 (fun _ _ => rfl), List.append_nil] at hA2
  refine ⟨m1, m2, hm1, hm2, ?_⟩
  obtain ⟨r, hr, hiff⟩ := mapEq_spec hc m1 m2 hA1.inv hA2.inv
  rw [hr]
  have : r = true := by
    rw [hiff, pairs_iff hA1 hA2]
    intro p
    rw [List.mem_reverse, List.mem_reverse]
    exact hp.mem_iff
  rw [this]

/-- Witness for C11 (amended): spec scenario 6, the pairs (1,'a'), (2,'b') in the two
orders. -/
theorem C11_order_insensitive_witness :
    ∃ F, ∀ fuel, F ≤ fuel → ∃ m1 m2,
      insertAll (natParams .LinearProbing) fuel (HashMap.new 3) [(1, 'a'), (2, 'b')] = some m1 ∧
      insertAll (natParams .LinearProbing) fuel (HashMap.new 3) [(2, 'b'), (1, 'a')] = some m2 ∧
      mapEq (natParams .LinearProbing) m1 m2 = some true :=
  C11_order_insensitive (natParams .LinearProbing) (natParams_lawful _)
    [(1, 'a'), (2, 'b')] [(2, 'b'), (1, 'a')] (List.Perm.swap _ _ _) (by decide) 3 3

theorem atKey_of_find_live {K V : Type} {c : Params K V} {m : HashMap K V} {k : K} {i : Nat}
    {b : Bucket K V} (hf : find c m k = some (liveIt i)) (hs : slot m.data i = some b) :
    atKey c m k = .ok b.second := by
  unfold atKey
  rw [hf]
  unfold Iterator.derefE liveIt
  simp only [Bool.false_eq_true, if_false, hs]
  rfl

theorem atKey_of_find_end {K V : Type} {c : Params K V} {m : HashMap K V} {k : K}
    (hf : find c m k = some Iterator.endIt) : atKey c m k = .error .out_of_range := by
  unfold atKey
  rw [hf]
  rfl

/-- C12: for every reachable map (its bucket count is at least 1) and every key `k`,
`at(k)` fails with the out-of-range error exactly when `k` is absent, and returns the value
stored for `k` when `k` is present; `at` is a pure lookup, the state is not touched. -/
theorem C12_at_throws_iff_absent {K V : Type} (c : Params K V) (hc : c.Lawful)
    (m : HashMap K V) (a : List (K × V)) (h : Reachable c m a) (k : K) :
    1 ≤ m.bucket_count ∧
    (atKey c m k = .error .out_of_range ↔ absFind c a k = none) ∧
    (∀ v, absFind c a k = some v → atKey c m k = .ok v) := by
  have hA := reachable_agree hc h
  have hsome : ∀ v, absFind c a k = some v → atKey c m k = .ok v := by
    intro v hv
    obtain ⟨i, b, g1, g2, _, _, g5⟩ := (find_spec hc hA k).1 v hv
    rw [atKey_of_find_live g1 g2, g5]
  refine ⟨hA.inv.pos, ?_, hsome⟩
  constructor
  · intro hat
    cases hk : absFind c a k with
    | none => rfl
    | some v =>
      rw [hsome v hk] at hat
      cases hat
  · intro hn
    exact atKey_of_find_end ((find_spec hc hA k).2 hn)

/-- Witness for C12: in the state of spec scenario 2, `at(0)` throws and `at(4)` returns
'b'. -/
theorem C12_at_throws_iff_absent_witness :
    atKey (natParams .LinearProbing) exTomb 0 = .error .out_of_range ∧
    atKey (natParams .LinearProbing) exTomb 4 = .ok 'b' :=
  ⟨(C12_at_throws_iff_absent (natParams .LinearProbing) (natParams_lawful _) exTomb
      [(4, 'b')] exTomb_reachable 0).2.1.2 (by decide),
    (C12_at_throws_iff_absent (natParams .LinearProbing) (natParams_lawful _) exTomb
      [(4, 'b')] exTomb_reachable 4).2.2 'b' (by decide)⟩

/-- C13: on every reachable map `operator[](k)` returns. If `k` is present it returns the
stored value and leaves `size()` and the lookup result of every key unchanged; if `k` is
absent it inserts `k` with the default-constructed value, increases `size()` by 1, returns
that default value, after which `find(k)` is non-end, and leaves the lookup result of every
other key unchanged. -/
theorem C13_index_never_fails {K V : Type} (c : Params K V) (hc : c.Lawful)
    (m : HashMap K V) (a : List (K × V)) (h : Reachable c m a) (k : K) :
    ∃ F, ∀ fuel, F ≤ fuel → ∃ r, index c fuel m k = some r ∧
      (∀ v, absFind c a k = some v →
        r.2 = v ∧ r.1.size = m.size ∧ ∀ k', lookup c r.1 k' = lookup c m k') ∧
      (absFind c a k = none →
        r.2 = c.mapped_default ∧ r.1.size = m.size + 1 ∧
        lookup c r.1 k = some c.mapped_default ∧ (∃ i, find c r.1 k = some (liveIt i)) ∧
        ∀ k', c.equal_fn k' k = false → lookup c r.1 k' = lookup c m k') := by
  have hA := reachable_agree hc h
  obtain ⟨r, hr, hres⟩ := index_ok hc hA.inv k _ (le_refl _)
  have hA1 := agree_insert hc hA k c.mapped_default hres.1
  obtain ⟨j, b, hb1, hb2, hb3, hb4⟩ := hres.2
  have hval : absFind c (absInsert c a k c.mapped_default) k = some r.2 := by
    rw [hb4]
    exact (absFind_eq_some c hc _ hA1.distinct k b.second).2
      ⟨_, hA1.live_mem ⟨j, hb1, hb2⟩, hb3, rfl⟩
  refine ⟨_, fun fuel hfuel => ⟨r, index_mono c _ fuel hfuel m k r hr, ?_, ?_⟩⟩
  · intro v hv
    have hp : (absFind c a k).isSome = true := by rw [hv]; rfl
    rw [absInsert_present c a k _ hp] at hA1 hval
    refine ⟨?_, ?_, ?_⟩
    · rw [hv] at hval
      exact (Option.some.inj hval).symm
    · show r.1.el_count = m.el_count
      rw [hA1.size, hA.size]
    · intro k'
      rw [lookup_eq hc hA1, lookup_eq hc hA]
  · intro hn
    have hself := absFind_absInsert_self c hc a k c.mapped_default
    rw [hn] at hself
    simp only at hself
    refine ⟨?_, (hres.1.absent ((hA.absent_iff k).1 hn)).2, ?_, ?_, ?_⟩
    · rw [hself] at hval
      exact (Option.some.inj hval).symm
    · rw [lookup_eq hc hA1, hself]
    · obtain ⟨i, b', g, _⟩ := (find_spec hc hA1 k).1 _ hself
      exact ⟨i, g⟩
    · intro k' hk'
      rw [lookup_eq hc hA1, lookup_eq hc hA, absFind_absInsert_other c hc a k k' _ hk']

/-- Witness for C13: `operator[]` on the erased key 0 of spec scenario 2. -/
theorem C13_index_never_fails_witness :
    ∃ F, ∀ fuel, F ≤ fuel → ∃ r, index (natParams .LinearProbing) fuel exTomb 0 = some r ∧
      (∀ v, absFind (natParams .LinearProbing) [(4, 'b')] 0 = some v →
        r.2 = v ∧ r.1.size = exTomb.size ∧
        ∀ k', lookup (natParams .LinearProbing) r.1 k'
          = lookup (natParams .LinearProbing) exTomb k') ∧
      (absFind (natParams .LinearProbing) [(4, 'b')] 0 = none →
        r.2 = (natParams .LinearProbing).mapped_default ∧ r.1.size = exTomb.size + 1 ∧
        lookup (natParams .LinearProbing) r.1 0
          = some (natParams .LinearProbing).mapped_default ∧
        (∃ i, find (natParams .LinearProbing) r.1 0 = some (liveIt i)) ∧
        ∀ k', (natParams .LinearProbing).equal_fn k' 0 = false →
          lookup (natParams .LinearProbing) r.1 k'
            = lookup (natParams .LinearProbing) exTomb k') :=
  C13_index_never_fails (natParams .LinearProbing) (natParams_lawful _) exTomb [(4, 'b')]
    exTomb_reachable 0

theorem eq_endIt_iff (it : Iterator) :
    Iterator.eq it Iterator.endIt = true ↔ it.iterator_end = true := by
  unfold Iterator.eq Iterator.endIt
  cases it.iterator_end <;> simp

/-- C14: dereferencing (`operator*`, `operator->`) an iterator that equals `end()` fails with
the out-of-range error, for map and set iterators alike; and every iterator that `find`,
`begin()` or `++` hands out and that is not `end()` stands at a LIVE slot, so dereferencing it
does not fail and yields the entry of that slot. -/
theorem C14_deref_end_throws {K V : Type} (c : Params K V) (m : HashMap K V)
    (setData : List (Option (Bucket K Unit))) :
    (∀ it, Iterator.eq it Iterator.endIt = true →
      Iterator.derefE m.data it = .error .out_of_range ∧
      Iterator.derefSetE setData it = .error .out_of_range) ∧
    (∀ k it, find c m k = some it → Produced m.data it) ∧
    (∀ it, m.begin = some it → Produced m.data it) ∧
    (∀ it, Produced m.data it → Iterator.eq it Iterator.endIt = false →
      ∃ b, slot m.data it.current = some b ∧ b.is_deleted = false ∧
        Iterator.derefE m.data it = .ok (b.first, b.second)) ∧
    (∀ it, Produced setData it → Iterator.eq it Iterator.endIt = false →
      ∃ b, slot setData it.current = some b ∧ b.is_deleted = false ∧
        Iterator.derefSetE setData it = .ok b.first) := by
  refine ⟨?_, find_produced c m, begin_produced m, ?_, ?_⟩
  · intro it hit
    have := (eq_endIt_iff it).1 hit
    unfold Iterator.derefE Iterator.derefSetE
    rw [this]
    exact ⟨rfl, rfl⟩
  · intro it hp hne
    have hend : it.iterator_end = false := by
      cases he : it.iterator_end
      · rfl
      · rw [(eq_endIt_iff it).2 he] at hne; cases hne
    obtain ⟨b, hb, hd⟩ := (isLive_iff _ _).1 ((produced_live hp).2 hend)
    refine ⟨b, hb, hd, ?_⟩
    unfold Iterator.derefE
    rw [hend, hb]
    rfl
  · intro it hp hne
    have hend : it.iterator_end = false := by
      cases he : it.iterator_end
      · rfl
      · rw [(eq_endIt_iff it).2 he] at hne; cases hne
    obtain ⟨b, hb, hd⟩ := (isLive_iff _ _).1 ((produced_live hp).2 hend)
    refine ⟨b, hb, hd, ?_⟩
    unfold Iterator.derefSetE
    rw [hend, hb]
    rfl

/-- Witness for C14: in the state of spec scenario 2 the iterator of `find(0)` is `end()` and
its dereference throws; the iterator of `find(4)` yields the entry (4,'b'). -/
theorem C14_deref_end_throws_witness :
    Iterator.derefE exTomb.data Iterator.endIt = .error .out_of_range ∧
    ∃ b, slot exTomb.data (liveIt 1).current = some b ∧ b.is_deleted = false ∧
      Iterator.derefE exTomb.data (liveIt 1) = .ok (b.first, b.second) :=
  ⟨((C14_deref_end_throws (natParams .LinearProbing) exTomb []).1 Iterator.endIt
      (by decide)).1,
    (C14_deref_end_throws (natParams .LinearProbing) exTomb []).2.2.2.1 (liveIt 1)
      ((C14_deref_end_throws (natParams .LinearProbing) exTomb []).2.1 4 (liveIt 1)
        (by decide)) (by decide)⟩

/-! ### Operations on the state left by `clear()` -/

theorem moveAssign_new {K V : Type} (c : Params K V) (h : Nat) :
    moveAssign (HashMap.new h : HashMap K V) = HashMap.new h :=
  moveAssign_noTomb (Inv_new c h) (noTomb_new h)

theorem rehash_cleared {K V : Type} (c : Params K V) (fuel n : Nat) (m0 m1 : HashMap K V)
    (h : rehash c fuel (clear m0) n = some m1) :
    (n = 0 ∧ m1 = clear m0) ∨ (0 < n ∧ m1 = HashMap.new n) := by
  cases fuel with
  | zero =>
    unfold rehash at h
    by_cases ht : n > (clear m0).bucket_count ∨ (clear m0).del_count > (clear m0).size
    · rw [if_pos ht] at h; cases h
    · rw [if_neg ht] at h
      left
      refine ⟨?_, (Option.some.inj h).symm⟩
      have : (clear m0).bucket_count = 0 := rfl
      omega
  | succ f =>
    unfold rehash at h
    by_cases ht : n > (clear m0).bucket_count ∨ (clear m0).del_count > (clear m0).size
    · rw [if_pos ht] at h
      right
      have hn : 0 < n := by
        rcases ht with ht | ht
        · exact Nat.lt_of_le_of_lt (Nat.zero_le _) ht
        · exact absurd ht (Nat.lt_irrefl 0)
      refine ⟨hn, ?_⟩
      have hb : (clear m0).bucket_count = 0 := rfl
      rw [hb, Nat.zero_max] at h
      have : some (moveAssign (HashMap.new n : HashMap K V)) = some m1 := h
      rw [moveAssign_new c] at this
      exact (Option.some.inj this).symm
    · rw [if_neg ht] at h
      left
      refine ⟨?_, (Option.some.inj h).symm⟩
      have : (clear m0).bucket_count = 0 := rfl
      omega

theorem rehash_new_one {K V : Type} (c : Params K V) (fuel : Nat) :
    rehash c fuel (HashMap.new 1 : HashMap K V) ((HashMap.new 1 : HashMap K V).size + 1)
      = some (HashMap.new 1) := by
  have ht : ¬((HashMap.new 1 : HashMap K V).size + 1 > (HashMap.new 1 : HashMap K V).bucket_count
      ∨ (HashMap.new 1 : HashMap K V).del_count > (HashMap.new 1 : HashMap K V).size) := by
    simp [HashMap.new, HashMap.size, HashMap.bucket_count]
  cases fuel <;> (unfold rehash; rw [if_neg ht])

/-- An insert-family call on the state left by `clear()` first reserves one slot, which
replaces the empty array by a fresh one with two buckets; from there it runs as on a map
constructed with hint 1. -/
theorem applyOp_cleared {K V : Type} (c : Params K V) (fuel : Nat) (m0 m1 : HashMap K V)
    (op : Op K V) (hop : ∀ k, op ≠ Op.erase k)
    (h : applyOp c fuel (clear m0) op = some m1) :
    m1 = clear m0 ∨ (∃ n, m1 = HashMap.new n) ∨ applyOp c fuel (HashMap.new 1) op = some m1 := by
  cases op with
  | insert k v =>
    right; right
    simp only [applyOp, insert, emplace, reserve] at h ⊢
    obtain ⟨x, h1, h2⟩ := Option.map_eq_some'.1 h
    obtain ⟨t, h3, h4⟩ := Option.bind_eq_some.1 h1
    rcases rehash_cleared c fuel _ m0 t h3 with ⟨h0, _⟩ | ⟨_, ht⟩
    · exact absurd h0 (Nat.succ_ne_zero _)
    · rw [rehash_new_one c fuel]
      subst ht
      simp only [Option.some_bind]
      have h4' : emplaceLoop c fuel { first := k, second := v, is_deleted := false } fuel
          (HashMap.new 1) = some x := h4
      rw [h4']
      exact congrArg some h2
  | insert_or_assign k v =>
    right; right
    simp only [applyOp, insert_or_assign, reserve] at h ⊢
    obtain ⟨x, h1, h2⟩ := Option.map_eq_some'.1 h
    obtain ⟨t, h3, h4⟩ := Option.bind_eq_some.1 h1
    rcases rehash_cleared c fuel _ m0 t h3 with ⟨h0, _⟩ | ⟨_, ht⟩
    · exact absurd h0 (Nat.succ_ne_zero _)
    · rw [rehash_new_one c fuel]
      subst ht
      simp only [Option.some_bind]
      have h4' : insertOrAssignLoop c fuel k v fuel (HashMap.new 1) = some x := h4
      rw [h4']
      exact congrArg some h2
  | index k =>
    right; right
    simp only [applyOp, index, reserve] at h ⊢
    obtain ⟨x, h1, h2⟩ := Option.map_eq_some'.1 h
    obtain ⟨t, h3, h4⟩ := Option.bind_eq_some.1 h1
    rcases rehash_cleared c fuel _ m0 t h3 with ⟨h0, _⟩ | ⟨_, ht⟩
    · exact absurd h0 (Nat.succ_ne_zero _)
    · rw [rehash_new_one c fuel]
      subst ht
      simp only [Option.some_bind]
      have h4' : indexLoop c fuel k fuel (HashMap.new 1) = some x := h4
      rw [h4']
      exact congrArg some h2
  | erase k => exact absurd rfl (hop k)
  | rehash n =>
    simp only [applyOp] at h
    rcases rehash_cleared c fuel n m0 m1 h with ⟨_, h1⟩ | ⟨_, h1⟩
    · exact Or.inl h1
    · exact Or.inr (Or.inl ⟨n, h1⟩)

theorem agree_step {K V : Type} {c : Params K V} (hc : c.Lawful) {m m1 : HashMap K V}
    {a : List (K × V)} (hA : Agree c m a) (op : Op K V) (fuel : Nat)
    (h : applyOp c fuel m op = some m1) : Agree c m1 (absApply c a op) := by
  obtain ⟨m2, h2, hA2⟩ := applyOp_ok hc hA op (max fuel (need (m.el_count + m.del_count)))
    (le_max_right _ _)
  rw [applyOp_mono c fuel (max fuel (need (m.el_count + m.del_count)))
    (le_max_left _ _) m op m1 h] at h2
  cases h2
  exact hA2

/-- Every state reachable with `clear()` among the operations either satisfies the
abstraction relation or is the state left by `clear()`. -/
theorem reachC_cases {K V : Type} {c : Params K V} (hc : c.Lawful) {m : HashMap K V}
    (h : ReachC c m) : (∃ a, Agree c m a) ∨ m = clear m := by
  induction h with
  | init hint => exact Or.inl ⟨[], agree_new c hint⟩
  | clear _ _ => exact Or.inr rfl
  | @step m0 m1 op fuel _ hop hstep ih =>
    rcases ih with ⟨a, hA⟩ | hcl
    · exact Or.inl ⟨_, agree_step hc hA op fuel hstep⟩
    · rw [hcl] at hstep
      rcases applyOp_cleared c fuel m0 m1 op (hop (by rw [hcl]; rfl)) hstep with h1 | ⟨n, h1⟩ | h1
      · right
        rw [h1]
        rfl
      · left
        rw [h1]
        exact ⟨[], agree_new c n⟩
      · exact Or.inl ⟨_, agree_step hc (agree_new c 1) op fuel h1⟩

/-- In every state reached from a freshly constructed map by insert-family, erase,
rehash / reserve and clear calls alone (no copy), `live_count + tomb_count <= bucket_count()`,
hence `size() <= bucket_count()`. -/
theorem reachC_counts_fit {K V : Type} (c : Params K V) (hc : c.Lawful) (m : HashMap K V)
    (h : ReachC c m) :
    m.el_count + m.del_count ≤ m.bucket_count ∧ m.size ≤ m.bucket_count := by
  have : m.el_count + m.del_count ≤ m.bucket_count := by
    rcases reachC_cases hc h with ⟨a, hA⟩ | hcl
    · rw [hA.inv.el, hA.inv.del]
      exact countLive_add_countTomb_le m.data
    · rw [hcl]
      exact Nat.le_refl 0
  refine ⟨this, ?_⟩
  unfold HashMap.size
  omega

/-- C16 (code bug): `clear()` empties the bucket array, so after it `bucket_count()` is 0 and
`bucket(k)` is `hash_fn(k)` modulo 0, although the state is reachable by public operations. -/
theorem C16_clear_leaves_zero_buckets {K V : Type} (c : Params K V) (m : HashMap K V)
    (k : K) :
    (clear m).bucket_count = 0 ∧ ¬ 1 ≤ (clear m).bucket_count ∧
    bucket c (clear m) k = c.hash_fn k % 0 ∧ ¬ bucket c (clear m) k < (clear m).bucket_count ∧
    ReachC c (clear (HashMap.new 0 : HashMap K V)) :=
  ⟨rfl, Nat.not_succ_le_zero 0, rfl, Nat.not_lt_zero _, ReachC.clear (ReachC.init 0)⟩

/-- The table of `h + 1` null slots: `bucket_count() == h + 1`, `size() == 0`,
`empty() == true`, `tomb_count == 0`, `begin() == end()`, and `find(k) == end()` for every
key `k`. -/
theorem new_state {K V : Type} (c : Params K V) (h : Nat) :
    (HashMap.new h : HashMap K V).bucket_count = h + 1 ∧
    1 ≤ (HashMap.new h : HashMap K V).bucket_count ∧
    (HashMap.new h : HashMap K V).size = 0 ∧
    (HashMap.new h : HashMap K V).empty = true ∧
    (HashMap.new h : HashMap K V).del_count = 0 ∧
    (∃ it, (HashMap.new h : HashMap K V).begin = some it ∧
      Iterator.eq it Iterator.endIt = true) ∧
    ∀ k, find c (HashMap.new h) k = some Iterator.endIt := by
  have hb : (HashMap.new h : HashMap K V).bucket_count = h + 1 := by
    simp [HashMap.new, HashMap.bucket_count]
  refine ⟨hb, by omega, rfl, rfl, rfl, ?_, ?_⟩
  · refine ⟨_, begin_eq _, ?_⟩
    have : liveFrom (HashMap.new h : HashMap K V).data 0 = [] := by
      apply List.eq_nil_of_length_eq_zero
      rw [liveFrom_zero_length]
      exact countLive_replicate _
    rw [this]
    rfl
  · intro k
    apply find_keyFree
    intro i b hb
    rw [slot_new] at hb
    cases hb

/-- C18: `clear()` leaves `size() == 0`, `tomb_count == 0` and `begin() == end()`, and is
idempotent: applying it twice yields exactly the state of applying it once. -/
theorem C18_clear_idempotent {K V : Type} (m : HashMap K V) :
    (clear m).size = 0 ∧ (clear m).del_count = 0 ∧
    (∃ it, (clear m).begin = some it ∧ Iterator.eq it Iterator.endIt = true) ∧
    clear (clear m) = clear m :=
  ⟨rfl, rfl, ⟨_, rfl, rfl⟩, rfl⟩

theorem absFind_congr {K V : Type} (c : Params K V) (hc : c.Lawful) (a : List (K × V))
    (k1 k2 : K) (h : c.equal_fn k1 k2 = true) : absFind c a k1 = absFind c a k2 := by
  induction a with
  | nil => rfl
  | cons q a ih =>
    rw [absFind_cons, absFind_cons, ih, equal_fn_congr_right c hc q.1 k1 k2 h]

theorem absFind_absInsert_of_some {K V : Type} (c : Params K V) (hc : c.Lawful)
    (a : List (K × V)) (k k' : K) (v u : V) (h : absFind c a k' = some u) :
    absFind c (absInsert c a k v) k' = some u := by
  unfold absInsert
  split
  · exact h
  · next hk =>
    rw [absFind_cons]
    by_cases he : c.equal_fn k k' = true
    · exfalso
      apply hk
      rw [absFind_congr c hc a k k' he, h]
      rfl
    · rw [if_neg he]
      exact h

theorem absFind_absAssign_isSome {K V : Type} (c : Params K V) (hc : c.Lawful)
    (a : List (K × V)) (k k' : K) (v u : V) (h : absFind c a k' = some u) :
    (absFind c (absAssign c a k v) k').isSome = true := by
  cases he : c.equal_fn k' k
  · rw [absFind_absAssign_other c hc a k k' v he, h]
    rfl
  · rw [absFind_congr c hc _ k' k he, absFind_absAssign_self c hc]
    rfl

/-- C20: whenever `n <= bucket_count()` and `tomb_count <= live_count`, `rehash(n)` and
`reserve(n)` return at once and leave the whole state (the bucket array with every slot's
state and payload, `live_count` and `tomb_count`) unchanged; so `rehash(n)` takes effect only
when `n > bucket_count()` or `tomb_count > live_count`. -/
theorem C20_rehash_noop {K V : Type} (c : Params K V) (fuel : Nat) (m : HashMap K V)
    (n : Nat) (hn : n ≤ m.bucket_count) (hd : m.del_count ≤ m.size) :
    rehash c fuel m n = some m ∧ reserve c fuel m n = some m := by
  have ht : ¬(n > m.bucket_count ∨ m.del_count > m.size) := by omega
  have : rehash c fuel m n = some m := by
    cases fuel <;> (unfold rehash; rw [if_neg ht])
  exact ⟨this, this⟩

/-- Witness for C20: `rehash(4)` on the four-bucket state of spec scenario 2, where
`tomb_count = live_count = 1`. -/
theorem C20_rehash_noop_witness :
    rehash (natParams .LinearProbing) 0 exTomb 4 = some exTomb ∧
    reserve (natParams .LinearProbing) 0 exTomb 4 = some exTomb :=
  C20_rehash_noop (natParams .LinearProbing) 0 exTomb 4 (by decide) (by decide)

/-! ### Bucket count after `rehash` -/

theorem rehash_zero_eq {K V : Type} (c : Params K V) (t t1 : HashMap K V) (n : Nat)
    (h : rehash c 0 t n = some t1) : t1 = t := by
  unfold rehash at h
  by_cases ht : n > t.bucket_count ∨ t.del_count > t.size
  · rw [if_pos ht] at h; cases h
  · rw [if_neg ht] at h
    exact (Option.some.inj h).symm

theorem forceInsertLoop_zero_length {K V : Type} (c : Params K V) (ptr : Bucket K V)
    (w : Nat) : ∀ (t r : HashMap K V), forceInsertLoop (rehash c 0) c ptr w t = some r →
      r.data.length = t.data.length := by
  induction w with
  | zero => intro t r h; cases h
  | succ w ih =>
    intro t r h
    unfold forceInsertLoop at h
    cases hp : probeKey c t ptr.first with
    | empty cur =>
      rw [hp] at h
      cases h
      simp
    | tomb cur =>
      rw [hp] at h
      cases h
      simp
    | live cur =>
      rw [hp] at h
      cases h
      simp
    | exhausted =>
      rw [hp] at h
      simp only at h
      obtain ⟨t1, h1, h2⟩ := Option.bind_eq_some.1 h
      rw [ih t1 r h2, rehash_zero_eq c t t1 _ h1]

theorem rehashLoop_zero_length {K V : Type} (c : Params K V) (w f : Nat) :
    ∀ (data : List (Option (Bucket K V))) (t : HashMap K V) (it : Iterator) (r : HashMap K V),
      rehashLoop (rehash c 0) c w f data t it = some r → r.data.length = t.data.length := by
  induction f with
  | zero => intro data t it r h; cases h
  | succ f ih =>
    intro data t it r h
    unfold rehashLoop at h
    by_cases he : it.iterator_end = true
    · rw [if_pos he] at h
      cases h
      rfl
    · rw [if_neg he] at h
      cases hs : slot data it.current with
      | none => rw [hs] at h; cases h
      | some b =>
        rw [hs] at h
        simp only at h
        obtain ⟨t1, h1, h2⟩ := Option.bind_eq_some.1 h
        obtain ⟨it1, _, h4⟩ := Option.bind_eq_some.1 h2
        unfold forceInsertPtr at h1
        obtain ⟨t0, h5, h6⟩ := Option.bind_eq_some.1 h1
        rw [ih _ _ _ _ h4, forceInsertLoop_zero_length c b w t0 t1 h6,
          rehash_zero_eq c t t0 _ h5]

theorem moveAssign_length {K V : Type} (t : HashMap K V) :
    (moveAssign t).data.length = t.data.length := by
  unfold moveAssign
  simp

/-- C26: every `insert` / `emplace` call on a reachable table returns, for every key and for
both probing policies (`size_t` modelled by unbounded naturals): enough fuel for the loop
"probe up to the budget, otherwise `rehash(3 * B)` and restart" and for the nested
re-insertion of `rehash` exists, so the loop reaches an EMPTY or key-equal slot after finitely
many rehashes; every `rehash(n)` call returns as well. -/
theorem C26_insert_terminates {K V : Type} (c : Params K V) (hc : c.Lawful)
    (m : HashMap K V) (a : List (K × V)) (h : Reachable c m a) (k : K) (v : V) :
    ∃ F, ∀ fuel, F ≤ fuel →
      (∃ r, insert c fuel m (k, v) = some r) ∧ (∃ r, emplace c fuel m k v = some r) ∧
      ∀ n, ∃ r, rehash c fuel m n = some r := by
  have hA := reachable_agree hc h
  refine ⟨need (m.el_count + m.del_count), ?_⟩
  intro fuel hfuel
  obtain ⟨r, hr, _⟩ := insert_ok hc hA.inv (k, v) fuel hfuel
  refine ⟨⟨r, hr⟩, ⟨r, hr⟩, ?_⟩
  intro n
  obtain ⟨r', hr', _⟩ := rehash_ok hc fuel _ hfuel m n hA.inv (by rw [← hA.inv.el]; omega)
  exact ⟨r', hr'⟩

/-- Witness for C26: quadratic probing on 8 buckets, where the offsets reach only the slots
0, 1 and 4 from bucket 0 and all three are taken; `insert (24,'d')` exhausts the budget and
still returns. -/
theorem C26_insert_terminates_witness :
    insertTrace (natParams .QuadraticProbing) exQuad 24 = [0, 1, 4, 1] ∧
    ∃ F, ∀ fuel, F ≤ fuel →
      (∃ r, insert (natParams .QuadraticProbing) fuel exQuad (24, 'd') = some r) ∧
      (∃ r, emplace (natParams .QuadraticProbing) fuel exQuad 24 'd' = some r) ∧
      ∀ n, ∃ r, rehash (natParams .QuadraticProbing) fuel exQuad n = some r :=
  ⟨by decide, C26_insert_terminates (natParams .QuadraticProbing) (natParams_lawful _) exQuad
    [(16, 'c'), (8, 'b'), (0, 'a')] exQuad_reachable 24 'd'⟩

/-! ### The probe sequence -/

theorem policyState_eq (p : CollisionPolicy) (s : Nat) : policyState p s = s := by
  induction s with
  | zero => rfl
  | succ s ih =>
    unfold policyState
    rw [ih, next_fst]

theorem nthNext_eq (p : CollisionPolicy) (s : Nat) (hs : 1 ≤ s) : nthNext p s = offset p s := by
  unfold nthNext
  rw [policyState_eq, next_snd]
  congr 1
  omega

theorem probeTrace_get {K V : Type} (c : Params K V) (data : List (Option (Bucket K V)))
    (key : K) (n : Nat) :
    ∀ (s i x : Nat),
      (probeTrace c data key (c.hash_fn key % data.length) n
        (probePos c data.length key s) s)[i]? = some x →
      x = probePos c data.length key (s + i) := by
  induction n with
  | zero =>
    intro s i x h
    simp [probeTrace] at h
  | succ n ih =>
    intro s i x h
    unfold probeTrace at h
    cases i with
    | zero =>
      simp only [List.getElem?_cons_zero] at h
      exact (Option.some.inj h).symm
    | succ i =>
      simp only [List.getElem?_cons_succ] at h
      cases hs : slot data (probePos c data.length key s) with
      | none =>
        rw [hs] at h
        simp at h
      | some b =>
        rw [hs] at h
        simp only at h
        by_cases he : c.equal_fn b.first key = true
        · rw [if_pos he] at h
          simp at h
        · rw [if_neg he, next_fst, next_snd] at h
          have := ih (s + 1) i x h
          rw [this]
          congr 1
          omega

theorem getLast_cons_of_some {α : Type} (a x : α) (l : List α) (h : l.getLast? = some x) :
    (a :: l).getLast? = some x := by
  cases l with
  | nil => cases h
  | cons b t =>
    rw [List.getLast?_cons_cons]
    exact h

theorem probeTrace_last {K V : Type} (c : Params K V) (data : List (Option (Bucket K V)))
    (key : K) (ind : Nat) (n : Nat) :
    ∀ (cur ps : Nat),
      match probe c data key ind n cur ps with
      | .empty x => (probeTrace c data key ind n cur ps).getLast? = some x
      | .tomb x => (probeTrace c data key ind n cur ps).getLast? = some x
      | .live x => (probeTrace c data key ind n cur ps).getLast? = some x
      | .exhausted => (probeTrace c data key ind n cur ps).length = n := by
  induction n with
  | zero => intro cur ps; rfl
  | succ n ih =>
    intro cur ps
    unfold probe probeTrace
    cases hs : slot data cur with
    | none => rfl
    | some b =>
      simp only
      by_cases he : c.equal_fn b.first key = true
      · rw [if_pos he, if_pos he]
        cases b.is_deleted <;> rfl
      · rw [if_neg he, if_neg he]
        have := ih ((ind + (c.policy.next ps).2) % data.length) (c.policy.next ps).1
        revert this
        cases hp : probe c data key ind n ((ind + (c.policy.next ps).2) % data.length)
            (c.policy.next ps).1 <;> intro this
        · simp only at this ⊢
          exact getLast_cons_of_some _ _ _ this
        · simp only at this ⊢
          exact getLast_cons_of_some _ _ _ this
        · simp only at this ⊢
          exact getLast_cons_of_some _ _ _ this
        · simp only at this ⊢
          rw [List.length_cons, this]

/-! ### The probe budget -/

theorem runOps_mono {K V : Type} (c : Params K V) (fuel fuel' : Nat) (hf : fuel ≤ fuel')
    (ops : List (Op K V)) :
    ∀ (m r : HashMap K V), runOps c fuel m ops = some r → runOps c fuel' m ops = some r := by
  induction ops with
  | nil => intro m r h; exact h
  | cons op rest ih =>
    intro m r h
    unfold runOps at h ⊢
    obtain ⟨m1, h1, h2⟩ := Option.bind_eq_some.1 h
    rw [applyOp_mono c fuel fuel' hf m op m1 h1]
    exact ih m1 r h2

/-- C30 (refutation): with LinearProbing, identity hasher and hint 3, the three inserts
leave a table of 13 buckets in which buckets 1 and 2 are EMPTY: the third insert exhausts
its budget of `4 / 2 = 2` probe positions and rehashes. -/
theorem C30_counterexample :
    (HashMap.new 3 : HashMap Nat Char).bucket_count = 4 ∧
    ∃ r, runOps (natParams .LinearProbing) 8 (HashMap.new 3)
        [.insert 0 'a', .insert 4 'b', .insert 8 'c'] = some r ∧
      r.bucket_count = 13 ∧ r.bucket_count ≠ 4 ∧
      slot r.data 1 = none ∧ slot r.data 2 = none ∧
      ¬(isLive r.data 0 = true ∧ isLive r.data 1 = true ∧ isLive r.data 2 = true) :=
  ⟨by decide, exThree, by decide, by decide, by decide, by decide, by decide, by decide⟩

/-- C30 (amended): with LinearProbing, identity hasher and hint 3 (`B = 4`), after
`insert (0,'a')` and `insert (4,'b')` the two keys are LIVE at buckets 0 and 1 of the
4-bucket table and `find(4)` probes bucket 0, then bucket 1, and yields 'b'; the insert of
`(8,'c')` probes buckets 0 and 1, exhausts its budget of 2, and rehashes: whenever the three
inserts return, the table has 13 buckets with the keys 0, 4, 8 LIVE at buckets 0, 4, 8,
`size() == 3`, and `find(4)` reaches its entry at bucket 4 at once and yields 'b'. -/
theorem C30_scenario_one (fuel : Nat) (r : HashMap Nat Char)
    (h : runOps (natParams .LinearProbing) fuel (HashMap.new 3)
      [.insert 0 'a', .insert 4 'b', .insert 8 'c'] = some r) :
    runOps (natParams .LinearProbing) fuel (HashMap.new 3) [.insert 0 'a', .insert 4 'b']
      = some exTwo ∧
    exTwo.bucket_count = 4 ∧ liveFrom exTwo.data 0 = [0, 1] ∧
    findTrace (natParams .LinearProbing) exTwo 4 = [0, 1] ∧
    find (natParams .LinearProbing) exTwo 4 = some (liveIt 1) ∧
    lookup (natParams .LinearProbing) exTwo 4 = some 'b' ∧
    insertTrace (natParams .LinearProbing) exTwo 8 = [0, 1] ∧
    probeKey (natParams .LinearProbing) exTwo 8 = .exhausted ∧
    r = exThree ∧ r.bucket_count = 13 ∧ r.size = 3 ∧ liveFrom r.data 0 = [0, 4, 8] ∧
    findTrace (natParams .LinearProbing) r 4 = [4] ∧
    find (natParams .LinearProbing) r 4 = some (liveIt 4) ∧
    lookup (natParams .LinearProbing) r 4 = some 'b' := by
  have h8 := runOps_mono (natParams .LinearProbing) fuel (max fuel 8) (le_max_left _ _) _ _ _ h
  have e8 : runOps (natParams .LinearProbing) 8 (HashMap.new 3)
      [.insert 0 'a', .insert 4 'b', .insert 8 'c'] = some exThree := by decide
  rw [runOps_mono (natParams .LinearProbing) 8 (max fuel 8) (le_max_right _ _) _ _ _ e8] at h8
  have hr : r = exThree := (Option.some.inj h8).symm
  subst hr
  have h2 : runOps (natParams .LinearProbing) fuel (HashMap.new 3)
      [.insert 0 'a', .insert 4 'b'] = some exTwo := by
    have hpos : 1 ≤ fuel := by
      cases fuel with
      | zero => exact absurd h (by decide)
      | succ f => omega
    exact runOps_mono (natParams .LinearProbing) 1 fuel hpos _ _ _ (by decide)
  exact ⟨h2, by decide, by decide, by decide, by decide, by decide, by decide, by decide,
    rfl, by decide, by decide, by decide, by decide, by decide, by decide⟩

/-- Witness for C30: the run with fuel 8. -/
theorem C30_scenario_one_witness :
    runOps (natParams .LinearProbing) 8 (HashMap.new 3)
      [.insert 0 'a', .insert 4 'b', .insert 8 'c'] = some exThree ∧
    exThree.bucket_count = 13 ∧ liveFrom exThree.data 0 = [0, 4, 8] ∧
    lookup (natParams .LinearProbing) exThree 4 = some 'b' :=
  have h : runOps (natParams .LinearProbing) 8 (HashMap.new 3)
      [.insert 0 'a', .insert 4 'b', .insert 8 'c'] = some exThree := by decide
  have t := C30_scenario_one 8 exThree h
  ⟨h, t.2.2.2.2.2.2.2.2.2.1, t.2.2.2.2.2.2.2.2.2.2.2.1, t.2.2.2.2.2.2.2.2.2.2.2.2.2.2⟩

/-! ### Erase through an iterator -/

theorem scanRank_succ (B sp cur : Nat) (hc : cur < B) (hs : sp < B)
    (hne : (cur + 1) % B ≠ sp) : scanRank B sp ((cur + 1) % B) = scanRank B sp cur + 1 := by
  rw [succ_mod cur B hc] at hne ⊢
  unfold scanRank
  split_ifs at hne ⊢ <;> omega

theorem succ_mod_lt (B cur : Nat) (hB : 0 < B) : (cur + 1) % B < B := Nat.mod_lt _ hB

/-- What the increment loop returns: it stops at the first slot, in steps of
`(current + 1) % B`, that is the starting position (end) or LIVE. -/
theorem incLoop_spec {K V : Type} (data : List (Option (Bucket K V))) (sp : Nat) (fuel : Nat) :
    ∀ (cur : Nat) (r : Nat × Bool), Iterator.incLoop data sp fuel cur = some r →
      ∃ d, 1 ≤ d ∧ d ≤ fuel ∧ r.1 = (cur + d) % data.length ∧
        (∀ j, 1 ≤ j → j < d → (cur + j) % data.length ≠ sp ∧
          isLive data ((cur + j) % data.length) = false) ∧
        (r.2 = true → r.1 = sp) ∧
        (r.2 = false → r.1 ≠ sp ∧ isLive data r.1 = true) := by
  induction fuel with
  | zero => intro cur r h; cases h
  | succ fuel ih =>
    intro cur r h
    unfold Iterator.incLoop at h
    simp only at h
    by_cases he : (cur + 1) % data.length = sp
    · rw [if_pos he] at h
      cases h
      exact ⟨1, le_refl _, by omega, rfl, fun j h1 h2 => by omega, fun _ => he,
        fun h => by cases h⟩
    · rw [if_neg he] at h
      by_cases hl : isLive data ((cur + 1) % data.length) = true
      · rw [if_pos hl] at h
        cases h
        exact ⟨1, le_refl _, by omega, rfl, fun j h1 h2 => by omega,
          (fun h => by cases h), fun _ => ⟨he, hl⟩⟩
      · rw [if_neg hl] at h
        obtain ⟨d, h1, h2, h3, h4, h5, h6⟩ := ih _ r h
        have hadd : ∀ j, ((cur + 1) % data.length + j) % data.length
            = (cur + (j + 1)) % data.length := by
          intro j
          rw [Nat.add_mod, Nat.mod_mod, ← Nat.add_mod]
          congr 1
          omega
        refine ⟨d + 1, by omega, by omega, by rw [h3, hadd], ?_, h5, h6⟩
        intro j hj1 hj2
        by_cases hj : j = 1
        · subst hj
          exact ⟨he, by simpa using hl⟩
        · have := h4 (j - 1) (by omega) (by omega)
          rw [hadd, show j - 1 + 1 = j by omega] at this
          exact this

/-- The increment loop reads only slots that come after `cur` in scan order. -/
theorem incLoop_congr {K V : Type} (data D : List (Option (Bucket K V))) (sp : Nat)
    (hlen : data.length = D.length) (hs : sp < D.length) (fuel : Nat) :
    ∀ cur, cur < D.length →
      (∀ p, p < D.length → scanRank D.length sp cur < scanRank D.length sp p →
        isLive data p = isLive D p) →
      Iterator.incLoop data sp fuel cur = Iterator.incLoop D sp fuel cur := by
  induction fuel with
  | zero => intro cur _ _; rfl
  | succ fuel ih =>
    intro cur hc hag
    unfold Iterator.incLoop
    simp only
    rw [hlen]
    by_cases he : (cur + 1) % D.length = sp
    · rw [if_pos he, if_pos he]
    · rw [if_neg he, if_neg he]
      have hlt : (cur + 1) % D.length < D.length := Nat.mod_lt _ (by omega)
      have hrk := scanRank_succ D.length sp cur hc hs he
      rw [hag _ hlt (by omega)]
      by_cases hl : isLive D ((cur + 1) % D.length) = true
      · rw [if_pos hl, if_pos hl]
      · rw [if_neg hl, if_neg hl]
        apply ih _ hlt
        intro p hp hr
        exact hag p hp (by omega)

/-- A LIVE slot returned by the increment loop comes after `cur` in scan order. -/
theorem incLoop_rank {K V : Type} (data : List (Option (Bucket K V))) (sp : Nat)
    (hs : sp < data.length) (fuel : Nat) :
    ∀ cur q, cur < data.length → Iterator.incLoop data sp fuel cur = some (q, false) →
      q < data.length ∧ scanRank data.length sp cur < scanRank data.length sp q := by
  induction fuel with
  | zero => intro cur q _ h; cases h
  | succ fuel ih =>
    intro cur q hc h
    unfold Iterator.incLoop at h
    simp only at h
    by_cases he : (cur + 1) % data.length = sp
    · rw [if_pos he] at h; cases h
    · rw [if_neg he] at h
      have hlt : (cur + 1) % data.length < data.length := Nat.mod_lt _ (by omega)
      have hrk := scanRank_succ data.length sp cur hc hs he
      by_cases hl : isLive data ((cur + 1) % data.length) = true
      · rw [if_pos hl] at h
        cases h
        exact ⟨hlt, by omega⟩
      · rw [if_neg hl] at h
        obtain ⟨h1, h2⟩ := ih _ q hlt h
        exact ⟨h1, by omega⟩

theorem tombAt_length {K V : Type} (data : List (Option (Bucket K V))) (i : Nat) :
    (tombAt data i).length = data.length := by
  unfold tombAt
  cases slot data i with
  | none => rfl
  | some b => simp only; rw [List.length_set]

theorem slot_tombAt {K V : Type} (data : List (Option (Bucket K V))) (i j : Nat) :
    slot (tombAt data i) j
      = if j = i then (slot data j).map fun b => { b with is_deleted := true }
        else slot data j := by
  unfold tombAt
  by_cases hj : j = i
  · subst hj
    rw [if_pos rfl]
    cases hs : slot data j with
    | none => simp only; rw [hs]; rfl
    | some b =>
      simp only
      rw [slot_set_self _ _ _ (slot_some_lt hs)]
      rfl
  · rw [if_neg hj]
    cases hs : slot data i with
    | none => rfl
    | some b =>
      simp only
      exact slot_set_other _ _ _ _ (Ne.symm hj)

theorem slot_tombAll {K V : Type} (l : List Nat) :
    ∀ (data : List (Option (Bucket K V))) (j : Nat),
      slot (l.foldl tombAt data) j
        = if j ∈ l then (slot data j).map fun b => { b with is_deleted := true }
          else slot data j := by
  induction l with
  | nil => intro data j; simp
  | cons i rest ih =>
    intro data j
    rw [List.foldl_cons, ih, slot_tombAt]
    by_cases hj : j = i
    · subst hj
      simp only [if_true, List.mem_cons, true_or]
      split
      · cases slot data j <;> rfl
      · rfl
    · simp [hj]

theorem tombAll_length {K V : Type} (l : List Nat) :
    ∀ (data : List (Option (Bucket K V))), (l.foldl tombAt data).length = data.length := by
  induction l with
  | nil => intro data; rfl
  | cons i rest ih =>
    intro data
    rw [List.foldl_cons, ih, tombAt_length]

/-- The effect of `erase(pos)` at a LIVE slot on the state. -/
theorem eraseAt_live {K V : Type} (m : HashMap K V) (pos : Iterator)
    (he : pos.iterator_end = false) (hl : isLive m.data pos.current = true)
    (hs : pos.starting_pos < m.data.length)
    (hel : m.el_count = countLive m.data) (hdel : m.del_count = countTomb m.data) :
    ∃ r q, eraseAt m pos = some r ∧
      Iterator.incLoop (tombAt m.data pos.current) pos.starting_pos m.data.length pos.current
        = some q ∧
      r.2 = { pos.copy with current := q.1, iterator_end := q.2 } ∧
      r.1.data = tombAt m.data pos.current ∧
      r.1.el_count + 1 = m.el_count ∧ r.1.del_count = m.del_count + 1 ∧
      r.1.el_count = countLive r.1.data ∧ r.1.del_count = countTomb r.1.data := by
  obtain ⟨b, hb, hd⟩ := (isLive_iff _ _).1 hl
  have hlt := slot_some_lt hb
  have hta : tombAt m.data pos.current
      = m.data.set pos.current (some { b with is_deleted := true }) := by
    unfold tombAt; rw [hb]
  have hinc := incLoop_isSome (tombAt m.data pos.current) pos.starting_pos
    (by rw [tombAt_length]; exact hs) m.data.length pos.current
    (by rw [tombAt_length]; exact hlt)
    (by rw [tombAt_length]; split <;> omega)
  obtain ⟨q, hq⟩ := Option.isSome_iff_exists.1 hinc
  have hpos := countLive_pos hl
  have h1 := countLive_set m.data pos.current { b with is_deleted := true } hlt
  have h2 := countTomb_set m.data pos.current { b with is_deleted := true } hlt
  have hnt : isTomb m.data pos.current = false := by
    unfold isTomb; rw [hb]; exact hd
  rw [hl] at h1
  rw [hnt] at h2
  simp only [if_true, Bool.false_eq_true, if_false, Nat.add_zero] at h1 h2
  refine ⟨(⟨tombAt m.data pos.current, m.el_count - 1, m.del_count + 1⟩,
    { pos.copy with current := q.1, iterator_end := q.2 }), q, ?_, hq, rfl, rfl, ?_, rfl, ?_, ?_⟩
  · unfold eraseAt
    rw [if_neg (by rw [he]; simp), hb]
    simp only
    rw [← hta]
    unfold Iterator.next
    have hce : pos.copy.iterator_end = false := he
    have hco : pos.copy.is_ordered = false := rfl
    rw [if_neg (by rw [hce]; simp), if_neg (by rw [hco]; simp)]
    rw [tombAt_length]
    show Option.map _ (Option.map _ (Iterator.incLoop (tombAt m.data pos.current)
      pos.starting_pos m.data.length pos.current)) = _
    rw [hq]
    rfl
  · show m.el_count - 1 + 1 = m.el_count
    omega
  · show m.el_count - 1 = countLive (tombAt m.data pos.current)
    rw [hta]; omega
  · show m.del_count + 1 = countTomb (tombAt m.data pos.current)
    rw [hta]; omega

theorem rangeLoop_nil {K V : Type} (data : List (Option (Bucket K V))) (last : Iterator)
    (f : Nat) (it : Iterator) (h : rangeLoop data last f it = some []) :
    Iterator.eq it last = true := by
  cases f with
  | zero => cases h
  | succ f =>
    unfold rangeLoop at h
    by_cases he : Iterator.eq it last = true
    · exact he
    · rw [if_neg he] at h
      obtain ⟨it1, _, h2⟩ := Option.bind_eq_some.1 h
      obtain ⟨l, _, h3⟩ := Option.map_eq_some'.1 h2
      cases h3

theorem rangeLoop_end {K V : Type} (data : List (Option (Bucket K V))) (last : Iterator)
    (it : Iterator) (he : it.iterator_end = true) (hne : ¬Iterator.eq it last = true) (f : Nat) :
    rangeLoop data last f it = none := by
  induction f with
  | zero => rfl
  | succ f ih =>
    unfold rangeLoop
    rw [if_neg hne]
    have : Iterator.next data it = some it := by
      unfold Iterator.next
      rw [if_pos he]
    rw [this]
    show (rangeLoop data last f it).map _ = none
    rw [ih]
    rfl

theorem isLive_congr_slot {K V : Type} {data D : List (Option (Bucket K V))} {i : Nat}
    (h : slot data i = slot D i) : isLive data i = isLive D i := by
  unfold isLive; rw [h]

/-- The loop of `erase(first, last)` against the plain iteration over the range: the slots
erased are the slots the plain iteration visits. -/
theorem eraseRangeLoop_spec {K V : Type} (D0 : List (Option (Bucket K V))) (sp : Nat)
    (hs : sp < D0.length) (last : Iterator) (f : Nat) :
    ∀ (it : Iterator) (l : List Nat) (m : HashMap K V) (ld : Iterator),
      rangeLoop D0 last f it = some l →
      m.data.length = D0.length → it.copy = it →
      (it.iterator_end = false → it.starting_pos = sp ∧ it.current < D0.length ∧
        isLive D0 it.current = true ∧
        ∀ p, p < D0.length → scanRank D0.length sp it.current ≤ scanRank D0.length sp p →
          slot m.data p = slot D0 p) →
      m.el_count = countLive m.data → m.del_count = countTomb m.data →
      ∃ r ret, eraseRangeLoop last f m it ld = some (r, ret) ∧
        r.data = l.foldl tombAt m.data ∧
        r.el_count + l.length = m.el_count ∧ r.del_count = m.del_count + l.length ∧
        (l = [] → ret = ld) ∧
        (l ≠ [] → Iterator.eq ret last = true ∧
          ∃ m1 it1, eraseAt m1 it1 = some (r, ret) ∧ l.getLast? = some it1.current) ∧
        (∀ j, j ∈ l → isLive D0 j = true) := by
  induction f with
  | zero => intro it l m ld h; cases h
  | succ f ih =>
    intro it l m ld h hlen hcopy hinv hel hdel
    unfold rangeLoop at h
    unfold eraseRangeLoop
    by_cases heq : Iterator.eq it last = true
    · rw [if_pos heq] at h ⊢
      cases h
      exact ⟨m, ld, rfl, rfl, rfl, rfl, fun _ => rfl, fun hne => absurd rfl hne,
        fun j hj => by cases hj⟩
    · rw [if_neg heq] at h ⊢
      cases hend : it.iterator_end with
      | true =>
        exfalso
        have hnone := rangeLoop_end D0 last it hend heq (f + 1)
        unfold rangeLoop at hnone
        rw [if_neg heq, h] at hnone
        cases hnone
      | false =>
        obtain ⟨hsp, hcur, hlive, hag⟩ := hinv hend
        obtain ⟨cur, sp0, e, eo, io⟩ := it
        simp only at hend hsp hcur hlive hag
        subst hend
        subst hsp
        have heo : eo = [] := by
          have := congrArg Iterator.element_order hcopy
          exact this.symm
        have hio : io = false := by
          have := congrArg Iterator.is_ordered hcopy
          exact this.symm
        subst heo
        subst hio
        have hlm : isLive m.data cur = true := by
          rw [isLive_congr_slot (hag cur hcur (le_refl _))]; exact hlive
        obtain ⟨r1, q, he1, hq, hr2, hr1d, hr1e, hr1t, hr1el, hr1del⟩ :=
          eraseAt_live m ⟨cur, sp0, false, [], false⟩ rfl hlm (by rw [hlen]; exact hs) hel hdel
        simp only at hq hr2 hr1d hr1e hr1t
        have hcong : Iterator.incLoop (tombAt m.data cur) sp0 D0.length cur
            = Iterator.incLoop D0 sp0 D0.length cur := by
          apply incLoop_congr _ _ _ (by rw [tombAt_length, hlen]) hs _ cur hcur
          intro p hp hrk
          apply isLive_congr_slot
          rw [slot_tombAt, if_neg (by intro hpc; subst hpc; omega)]
          exact hag p hp (by omega)
        rw [hlen, hcong] at hq
        have hnext0 : Iterator.next D0 ⟨cur, sp0, false, [], false⟩
            = some ⟨q.1, sp0, q.2, [], false⟩ := by
          unfold Iterator.next
          simp only [Bool.false_eq_true, if_false]
          rw [hq]
          rfl
        have hnext1 : Iterator.next r1.1.data ⟨cur, sp0, false, [], false⟩
            = some ⟨q.1, sp0, q.2, [], false⟩ := by
          unfold Iterator.next
          simp only [Bool.false_eq_true, if_false]
          rw [hr1d, tombAt_length, hlen, hcong, hq]
          rfl
        have hr2' : r1.2 = ⟨q.1, sp0, q.2, [], false⟩ := hr2
        rw [hnext0] at h
        obtain ⟨l1, hl1, hl⟩ := Option.map_eq_some'.1 h
        simp only at hl
        subst hl
        have hinv1 : (⟨q.1, sp0, q.2, [], false⟩ : Iterator).iterator_end = false →
            (⟨q.1, sp0, q.2, [], false⟩ : Iterator).starting_pos = sp0 ∧
            (⟨q.1, sp0, q.2, [], false⟩ : Iterator).current < D0.length ∧
            isLive D0 (⟨q.1, sp0, q.2, [], false⟩ : Iterator).current = true ∧
            ∀ p, p < D0.length → scanRank D0.length sp0
              (⟨q.1, sp0, q.2, [], false⟩ : Iterator).current ≤ scanRank D0.length sp0 p →
              slot r1.1.data p = slot D0 p := by
          intro hq2
          have hq2' : q.2 = false := hq2
          have hqq : Iterator.incLoop D0 sp0 D0.length cur = some (q.1, false) := by
            rw [hq, ← hq2']
          obtain ⟨hq1, hrk⟩ := incLoop_rank D0 sp0 hs D0.length cur q.1 hcur hqq
          refine ⟨rfl, hq1, incLoop_live D0 sp0 D0.length cur q.1 hqq, ?_⟩
          intro p hp hrp
          have hrp' : scanRank D0.length sp0 q.1 ≤ scanRank D0.length sp0 p := hrp
          rw [hr1d, slot_tombAt, if_neg (by intro hpc; subst hpc; omega)]
          exact hag p hp (by omega)
        obtain ⟨r, ret, hres, hrd, hre, hrt, hnil, hcons, hall⟩ :=
          ih ⟨q.1, sp0, q.2, [], false⟩ l1 r1.1 ⟨q.1, sp0, q.2, [], false⟩ hl1
            (by rw [hr1d, tombAt_length, hlen]) rfl hinv1 hr1el hr1del
        refine ⟨r, ret, ?_, ?_, ?_, ?_, (fun hc => by cases hc), fun _ => ?_, ?_⟩
        · rw [he1]
          show (Iterator.next r1.1.data ⟨cur, sp0, false, [], false⟩).bind _ = _
          rw [hnext1]
          show eraseRangeLoop last f r1.1 ⟨q.1, sp0, q.2, [], false⟩ r1.2.copy = _
          rw [hr2']
          exact hres
        · rw [hrd, hr1d]
          rfl
        · rw [List.length_cons]; omega
        · rw [List.length_cons]; omega
        · cases hl1e : l1 with
          | nil =>
            rw [hl1e] at hnil hl1 hrd hre hrt
            have hret := hnil rfl
            have hrr : r = r1.1 := by
              obtain ⟨rd, re, rt⟩ := r
              obtain ⟨⟨r1d, r1e, r1t⟩, r1it⟩ := r1
              simp only [List.foldl_nil, List.length_nil, Nat.add_zero] at hrd hre hrt
              simp only
              rw [hrd, hre, hrt]
            refine ⟨?_, m, ⟨cur, sp0, false, [], false⟩, ?_, rfl⟩
            · rw [hret]
              exact rangeLoop_nil D0 last f _ hl1
            · rw [he1, hrr, hret, ← hr2']
          | cons x xs =>
            rw [hl1e] at hcons
            obtain ⟨h1, m1, it1, h2, h3⟩ := hcons (by simp)
            exact ⟨h1, m1, it1, h2, getLast_cons_of_some _ _ _ h3⟩
        · intro j hj
          rcases List.mem_cons.1 hj with hj | hj
          · rw [hj]; exact hlive
          · exact hall j hj

/-- A non-end iterator handed out by the container started its scan inside the bucket array
and stands at a LIVE slot: the two conditions under which `erase(pos)` is used below. -/
theorem produced_start_lt {K V : Type} {data : List (Option (Bucket K V))} {it : Iterator}
    (h : Produced data it) (hne : it.iterator_end = false) :
    isLive data it.current = true ∧ it.starting_pos < data.length := by
  refine ⟨(produced_live h).2 hne, ?_⟩
  induction h with
  | default => cases hne
  | scan ind it h =>
    unfold Iterator.ofIndex at h
    by_cases hge : ind ≥ data.length
    · rw [if_pos hge] at h
      cases h
      cases hne
    · rw [if_neg hge] at h
      obtain ⟨r, hr, he⟩ := Option.map_eq_some'.1 h
      subst he
      show ind < data.length
      omega
  | inc it it1 hp hn ih =>
    have ho := (produced_live hp).1
    unfold Iterator.next at hn
    by_cases hend : it.iterator_end = true
    · rw [if_pos hend] at hn
      cases hn
      exact ih hne
    · rw [if_neg hend, ho] at hn
      simp only [Bool.false_eq_true, if_false] at hn
      obtain ⟨r, hr, he⟩ := Option.map_eq_some'.1 hn
      subst he
      exact ih (by simpa using hend)

/-- C22: on a reachable table, `erase(pos)` for an iterator at a LIVE slot `i` turns slot `i`
into a TOMBSTONE holding the same key and value, decreases `el_count` by 1, increases
`del_count` by 1, and leaves `bucket_count()` and every other slot as they were;
`erase(end())` returns the table unchanged. (A non-end iterator handed out by the container
stands at a LIVE slot and has its starting position inside the bucket array.) -/
theorem C22_erase_pos_frame {K V : Type} (c : Params K V) (hc : c.Lawful) (m : HashMap K V)
    (a : List (K × V)) (h : Reachable c m a) (pos : Iterator)
    (hl : pos.iterator_end = false →
      isLive m.data pos.current = true ∧ pos.starting_pos < m.bucket_count) :
    (pos.iterator_end = true → eraseAt m pos = some (m, pos.copy)) ∧
    (pos.iterator_end = false →
      ∃ b r, slot m.data pos.current = some b ∧ b.is_deleted = false ∧
        eraseAt m pos = some r ∧
        slot r.1.data pos.current = some { b with is_deleted := true } ∧
        isTomb r.1.data pos.current = true ∧
        r.1.el_count + 1 = m.el_count ∧ r.1.del_count = m.del_count + 1 ∧
        r.1.bucket_count = m.bucket_count ∧
        ∀ j, j ≠ pos.current → slot r.1.data j = slot m.data j) := by
  have hI := (reachable_agree hc h).inv
  constructor
  · intro he
    unfold eraseAt
    rw [if_pos he]
  · intro he
    obtain ⟨hlive, hs⟩ := hl he
    obtain ⟨b, hb, hd⟩ := (isLive_iff _ _).1 hlive
    obtain ⟨r, q, h1, _, _, h4, h5, h6, _, _⟩ := eraseAt_live m pos he hlive hs hI.el hI.del
    have hsl : slot r.1.data pos.current = some { b with is_deleted := true } := by
      rw [h4, slot_tombAt, if_pos rfl, hb]
      rfl
    refine ⟨b, r, hb, hd, h1, hsl, ?_, h5, h6, ?_, ?_⟩
    · exact (isTomb_iff _ _).2 ⟨_, hsl, rfl⟩
    · show r.1.data.length = m.data.length
      rw [h4, tombAt_length]
    · intro j hj
      rw [h4, slot_tombAt, if_neg hj]

/-- Witness for C22: `erase` of the iterator at slot 4 of `exThree`. -/
theorem C22_erase_pos_frame_witness :
    isLive exThree.data 4 = true ∧
    ∃ b r, slot exThree.data (liveIt 4).current = some b ∧ b.is_deleted = false ∧
      eraseAt exThree (liveIt 4) = some r ∧
      slot r.1.data (liveIt 4).current = some { b with is_deleted := true } ∧
      isTomb r.1.data (liveIt 4).current = true ∧
      r.1.el_count + 1 = exThree.el_count ∧ r.1.del_count = exThree.del_count + 1 ∧
      r.1.bucket_count = exThree.bucket_count ∧
      ∀ j, j ≠ (liveIt 4).current → slot r.1.data j = slot exThree.data j :=
  ⟨by decide,
    (C22_erase_pos_frame (natParams .LinearProbing) (natParams_lawful _) exThree
      [(8, 'c'), (4, 'b'), (0, 'a')] exThree_reachable (liveIt 4)
      (fun _ => ⟨by decide, by decide⟩)).2 rfl⟩

/-- C23: on a reachable table with `B` buckets, `erase(pos)` for an iterator at a LIVE slot
returns an iterator with the starting position of `pos` that stands `d` steps of
`(current + 1) mod B` after `pos`, all slots passed on the way being EMPTY or TOMBSTONE and
none of them the starting position; it is at a LIVE slot, or it is `end()` when the scan has
come back to the starting position. `erase(first, last)` over a range whose plain iteration
visits the slots `l` erases exactly those slots, and returns `end()` when the range is empty
and otherwise the result of the single `erase` of the last slot of the range, which equals
`last`. -/
theorem C23_erase_returns_next {K V : Type} (c : Params K V) (hc : c.Lawful) (m : HashMap K V)
    (a : List (K × V)) (h : Reachable c m a) :
    (∀ pos : Iterator, pos.iterator_end = false → isLive m.data pos.current = true →
      pos.starting_pos < m.bucket_count →
      ∃ r d, eraseAt m pos = some r ∧ 1 ≤ d ∧ d ≤ m.bucket_count ∧
        r.2.starting_pos = pos.starting_pos ∧ r.2.is_ordered = false ∧
        r.2.current = (pos.current + d) % m.bucket_count ∧
        (∀ j, 1 ≤ j → j < d → (pos.current + j) % m.bucket_count ≠ pos.starting_pos ∧
          isLive m.data ((pos.current + j) % m.bucket_count) = false) ∧
        (r.2.iterator_end = true → r.2.current = pos.starting_pos) ∧
        (r.2.iterator_end = false → r.2.current ≠ pos.starting_pos ∧
          r.2.current ≠ pos.current ∧
          isLive m.data r.2.current = true ∧ isLive r.1.data r.2.current = true)) ∧
    (∀ (first last : Iterator) (f : Nat) (l : List Nat),
      (first.iterator_end = false →
        isLive m.data first.current = true ∧ first.starting_pos < m.bucket_count) →
      rangeLoop m.data last f first.copy = some l →
      ∃ r ret, eraseRange f m first last = some (r, ret) ∧
        (∀ j, slot r.data j = if j ∈ l then
            (slot m.data j).map fun b => { b with is_deleted := true }
          else slot m.data j) ∧
        (∀ j, j ∈ l → isLive m.data j = true ∧ isTomb r.data j = true) ∧
        r.el_count + l.length = m.el_count ∧ r.del_count = m.del_count + l.length ∧
        r.bucket_count = m.bucket_count ∧
        (l = [] → ret = Iterator.endIt) ∧
        (l ≠ [] → Iterator.eq ret last = true ∧
          ∃ m1 it1, eraseAt m1 it1 = some (r, ret) ∧ l.getLast? = some it1.current)) := by
  have hI := (reachable_agree hc h).inv
  constructor
  · intro pos he hlive hs
    obtain ⟨r, q, h1, hq, h3, h4, _, _, _, _⟩ := eraseAt_live m pos he hlive hs hI.el hI.del
    have hcur : pos.current < m.data.length := by
      obtain ⟨b, hb, _⟩ := (isLive_iff _ _).1 hlive
      exact slot_some_lt hb
    have hcong : Iterator.incLoop (tombAt m.data pos.current) pos.starting_pos m.data.length
        pos.current = Iterator.incLoop m.data pos.starting_pos m.data.length pos.current := by
      apply incLoop_congr _ _ _ (tombAt_length _ _) hs _ _ hcur
      intro p hp hrk
      apply isLive_congr_slot
      rw [slot_tombAt, if_neg (by intro hpc; subst hpc; omega)]
    rw [hcong] at hq
    obtain ⟨d, hd1, hd2, hd3, hd4, hd5, hd6⟩ := incLoop_spec m.data _ _ _ q hq
    have hr2c : r.2.current = q.1 := by rw [h3]
    have hr2e : r.2.iterator_end = q.2 := by rw [h3]
    refine ⟨r, d, h1, hd1, hd2, by rw [h3]; rfl, by rw [h3]; rfl, by rw [hr2c]; exact hd3, hd4,
      ?_, ?_⟩
    · intro hend
      rw [hr2c]
      exact hd5 (by rw [← hr2e]; exact hend)
    · intro hend
      have hq2 : q.2 = false := by rw [← hr2e]; exact hend
      obtain ⟨hne, hlq⟩ := hd6 hq2
      have hqq : Iterator.incLoop m.data pos.starting_pos m.data.length pos.current
          = some (q.1, false) := by rw [hq, ← hq2]
      obtain ⟨_, hrk⟩ := incLoop_rank m.data _ hs _ _ _ hcur hqq
      have hnc : q.1 ≠ pos.current := by
        intro hqc
        rw [hqc] at hrk
        omega
      rw [hr2c]
      refine ⟨hne, hnc, hlq, ?_⟩
      rw [h4]
      rw [isLive_congr_slot (show slot (tombAt m.data pos.current) q.1 = slot m.data q.1 by
        rw [slot_tombAt, if_neg hnc])]
      exact hlq
  · intro first last f l hfirst hrange
    have hkey : ∃ sp, sp < m.data.length ∧ (first.copy.iterator_end = false →
        first.copy.starting_pos = sp ∧ first.copy.current < m.data.length ∧
        isLive m.data first.copy.current = true ∧
        ∀ p, p < m.data.length → scanRank m.data.length sp first.copy.current
          ≤ scanRank m.data.length sp p → slot m.data p = slot m.data p) := by
      cases he : first.iterator_end with
      | true =>
        refine ⟨0, hI.pos, ?_⟩
        intro hc'
        have : first.iterator_end = false := hc'
        rw [he] at this
        cases this
      | false =>
        obtain ⟨h1, h2⟩ := hfirst he
        refine ⟨first.starting_pos, h2, ?_⟩
        intro _
        obtain ⟨b, hb, _⟩ := (isLive_iff _ _).1 h1
        exact ⟨rfl, slot_some_lt hb, h1, fun _ _ _ => rfl⟩
    obtain ⟨sp, hsp, hinv⟩ := hkey
    obtain ⟨r, ret, hres, hrd, hre, hrt, hnil, hcons, hall⟩ :=
      eraseRangeLoop_spec m.data sp hsp last f first.copy l m Iterator.endIt hrange rfl rfl
        hinv hI.el hI.del
    have hslot : ∀ j, slot r.data j = if j ∈ l then
        (slot m.data j).map fun b => { b with is_deleted := true } else slot m.data j := by
      intro j
      rw [hrd, slot_tombAll]
    refine ⟨r, ret, hres, hslot, ?_, hre, hrt, ?_, hnil, hcons⟩
    · intro j hj
      refine ⟨hall j hj, ?_⟩
      obtain ⟨b, hb, _⟩ := (isLive_iff _ _).1 (hall j hj)
      apply (isTomb_iff _ _).2
      refine ⟨{ b with is_deleted := true }, ?_, rfl⟩
      rw [hslot j, if_pos hj, hb]
      rfl
    · show r.data.length = m.data.length
      rw [hrd, tombAll_length]

/-- Witness for C23 on `exThree` (LIVE slots 0, 4, 8 of 13): erasing at slot 4 returns the
iterator at slot 8, erasing at slot 8 returns `end()` for the iterator of a traversal from
`begin()` and wraps to slot 0 for the iterator that `find` returns, and the range from `begin()` up to
the iterator at slot 8 has the slots 0 and 4. -/
theorem C23_erase_returns_next_witness :
    (eraseAt exThree (liveIt 4)).map (fun r => r.2.current) = some 8 ∧
    (eraseAt exThree (itOf [8])).map (fun r => r.2.iterator_end) = some true ∧
    (eraseAt exThree (liveIt 8)).map (fun r => (r.2.current, r.2.iterator_end))
      = some (0, false) ∧
    rangeLoop exThree.data (liveIt 8) 14 (itOf [0, 4, 8]).copy = some [0, 4] ∧
    (eraseRange 14 exThree (itOf [0, 4, 8]) (liveIt 8)).map (fun r => liveFrom r.1.data 0)
      = some [8] ∧
    ∃ r ret, eraseRange 14 exThree (itOf [0, 4, 8]) (liveIt 8) = some (r, ret) ∧
      (∀ j, slot r.data j = if j ∈ [0, 4] then
          (slot exThree.data j).map fun b => { b with is_deleted := true }
        else slot exThree.data j) ∧
      (∀ j, j ∈ [0, 4] → isLive exThree.data j = true ∧ isTomb r.data j = true) ∧
      r.el_count + [0, 4].length = exThree.el_count ∧
      r.del_count = exThree.del_count + [0, 4].length ∧
      r.bucket_count = exThree.bucket_count ∧
      ([0, 4] = [] → ret = Iterator.endIt) ∧
      ([0, 4] ≠ [] → Iterator.eq ret (liveIt 8) = true ∧
        ∃ m1 it1, eraseAt m1 it1 = some (r, ret) ∧ [0, 4].getLast? = some it1.current) :=
  ⟨by decide, by decide, by decide, by decide, by decide,
    (C23_erase_returns_next (natParams .LinearProbing) (natParams_lawful _) exThree
      [(8, 'c'), (4, 'b'), (0, 'a')] exThree_reachable).2 (itOf [0, 4, 8]) (liveIt 8) 14 [0, 4]
      (fun _ => ⟨by decide, by decide⟩) (by decide)⟩

/-- C24 (divergence of the code): `exThree` is reachable and holds the keys 0, 4 and 8 in the
LIVE slots 0, 4 and 8. `equal_range(0)` returns a first iterator at slot 0 that has lost its
list of matches in the copy into the returned pair, so iterating from it until the second
iterator visits the slots 0, 4 and 8, and yields the entries of the keys 4 and 8 besides the
entry of key 0. For the absent key 5 the range is empty. -/
theorem C24_equal_range_yields_other_keys :
    Reachable (natParams .LinearProbing) exThree [(8, 'c'), (4, 'b'), (0, 'a')] ∧
    ∃ fst snd, equal_range (natParams .LinearProbing) exThree 0 = some (fst, snd) ∧
      snd = Iterator.endIt ∧ fst.is_ordered = false ∧ fst.element_order = [] ∧
      rangeLoop exThree.data snd 14 fst = some [0, 4, 8] ∧
      Iterator.deref exThree.data fst = some (0, 'a') ∧
      ((Iterator.next exThree.data fst).bind fun it => Iterator.deref exThree.data it)
        = some (4, 'b') ∧
      ((equal_range (natParams .LinearProbing) exThree 4).bind fun p =>
        rangeLoop exThree.data p.2 14 p.1) = some [4, 8] ∧
      ((equal_range (natParams .LinearProbing) exThree 5).bind fun p =>
        rangeLoop exThree.data p.2 14 p.1) = some [] :=
  ⟨exThree_reachable, itOf [0], Iterator.endIt, by decide, by decide, by decide, by decide, by decide, by decide,
    by decide, by decide, by decide⟩

/-! ### Hinted inserts -/

theorem eq_endIt (it : Iterator) : Iterator.eq it Iterator.endIt = it.iterator_end := by
  unfold Iterator.eq
  cases it.iterator_end <;> rfl

theorem absInsert_of_live {K V : Type} {c : Params K V} {m : HashMap K V} {a : List (K × V)}
    (hA : Agree c m a) {b : Bucket K V} (hb : LiveB m b) {k : K}
    (he : c.equal_fn b.first k = true) (v : V) : absInsert c a k v = a := by
  unfold absInsert
  cases h : absFind c a k with
  | none =>
    have := (hA.absent_iff k).1 h b hb
    rw [he] at this; cases this
  | some v0 => rfl

theorem emplace_hint_rest {K V : Type} (c : Params K V) (fuel : Nat) (m : HashMap K V)
    (key : K) (value : V) :
    ((reserve c fuel m (m.size + 1)).bind fun m1 =>
      (emplaceLoop c fuel { first := key, second := value, is_deleted := false } fuel m1).map
        fun r => (r.1, r.2.1))
      = (emplace c fuel m key value).map fun r => (r.1, r.2.1) := by
  unfold emplace
  cases reserve c fuel m (m.size + 1) <;> rfl

theorem insert_or_assign_hint_rest {K V : Type} (c : Params K V) (fuel : Nat) (m : HashMap K V)
    (key : K) (value : V) :
    ((reserve c fuel m (m.size + 1)).bind fun m1 =>
      (insertOrAssignLoop c fuel key value fuel m1).map fun r => (r.1, r.2.1))
      = (insert_or_assign c fuel m key value).map fun r => (r.1, r.2.1) := by
  unfold insert_or_assign
  cases reserve c fuel m (m.size + 1) <;> rfl

/-- The hinted `emplace` against the unhinted one. -/
theorem emplace_hint_ok {K V : Type} {c : Params K V} (hc : c.Lawful) {m : HashMap K V}
    {a : List (K × V)} (hA : Agree c m a) (hint : Iterator)
    (hh : hint.iterator_end = true ∨ isLive m.data hint.current = true) (k : K) (v : V)
    (fuel : Nat) (hf : need (m.el_count + m.del_count) ≤ fuel) :
    ∃ rh ru, emplace_hint c fuel m hint k v = some rh ∧ emplace c fuel m k v = some ru ∧
      Agree c rh.1 (absInsert c a k v) ∧ Agree c ru.1 (absInsert c a k v) ∧
      AtKey c rh.1 rh.2 k := by
  obtain ⟨ru, hru, hres⟩ := emplace_ok hc hA.inv k v fuel hf
  have hAu := agree_insert hc hA k v hres.1
  have hrest : ∃ rh, ((emplace c fuel m k v).map fun r => (r.1, r.2.1)) = some rh ∧
      Agree c rh.1 (absInsert c a k v) ∧ AtKey c rh.1 rh.2 k := by
    refine ⟨(ru.1, ru.2.1), by rw [hru]; rfl, hAu, ?_⟩
    obtain ⟨j, b, h1, h2, h3, h4⟩ := hres.2.1
    refine ⟨by rw [h1]; rfl, b, ?_, h3, h4⟩
    show slot ru.1.data ru.2.1.current = some b
    rw [h1]; exact h2
  unfold emplace_hint
  simp only
  rw [emplace_hint_rest, eq_endIt]
  cases he : hint.iterator_end with
  | true =>
    simp only [if_true]
    obtain ⟨rh, h1, h2, h3⟩ := hrest
    exact ⟨rh, ru, h1, hru, h2, hAu, h3⟩
  | false =>
    simp only [Bool.false_eq_true, if_false]
    have hl : isLive m.data hint.current = true := by
      rcases hh with h | h
      · rw [he] at h; cases h
      · exact h
    obtain ⟨t, ht, htd⟩ := (isLive_iff _ _).1 hl
    rw [ht]
    simp only
    by_cases heq : c.equal_fn t.first k = true
    · rw [if_pos heq, htd]
      simp only [Bool.false_eq_true, if_false]
      refine ⟨(m, hint.copy), ru, rfl, hru, ?_, hAu, ?_⟩
      · rw [absInsert_of_live hA ⟨hint.current, ht, htd⟩ heq]
        exact hA
      · exact ⟨he, t, ht, htd, heq⟩
    · rw [if_neg heq]
      obtain ⟨rh, h1, h2, h3⟩ := hrest
      exact ⟨rh, ru, h1, hru, h2, hAu, h3⟩

/-- The hinted `insert_or_assign` against the unhinted one. -/
theorem insert_or_assign_hint_ok {K V : Type} {c : Params K V} (hc : c.Lawful)
    {m : HashMap K V} {a : List (K × V)} (hA : Agree c m a) (hint : Iterator)
    (hh : hint.iterator_end = true ∨ isLive m.data hint.current = true) (k : K) (v : V)
    (fuel : Nat) (hf : need (m.el_count + m.del_count) ≤ fuel) :
    ∃ rh ru, insert_or_assign_hint c fuel m hint k v = some rh ∧
      insert_or_assign c fuel m k v = some ru ∧
      Agree c rh.1 (absAssign c a k v) ∧ Agree c ru.1 (absAssign c a k v) ∧
      AtKey c rh.1 rh.2 k := by
  obtain ⟨ru, hru, hres⟩ := insert_or_assign_ok hc hA.inv k v fuel hf
  have hAu := agree_assign hc hA k v hres.1
  have hrest : ∃ rh, ((insert_or_assign c fuel m k v).map fun r => (r.1, r.2.1)) = some rh ∧
      Agree c rh.1 (absAssign c a k v) ∧ AtKey c rh.1 rh.2 k := by
    refine ⟨(ru.1, ru.2.1), by rw [hru]; rfl, hAu, ?_⟩
    obtain ⟨j, b, h1, h2, h3, h4⟩ := hres.2.1
    refine ⟨by rw [h1]; rfl, b, ?_, h3, h4⟩
    show slot ru.1.data ru.2.1.current = some b
    rw [h1]; exact h2
  unfold insert_or_assign_hint
  simp only
  rw [insert_or_assign_hint_rest, eq_endIt]
  cases he : hint.iterator_end with
  | true =>
    simp only [if_true]
    obtain ⟨rh, h1, h2, h3⟩ := hrest
    exact ⟨rh, ru, h1, hru, h2, hAu, h3⟩
  | false =>
    simp only [Bool.false_eq_true, if_false]
    have hl : isLive m.data hint.current = true := by
      rcases hh with h | h
      · rw [he] at h; cases h
      · exact h
    obtain ⟨⟨tf, ts, td⟩, ht, htd⟩ := (isLive_iff _ _).1 hl
    simp only at htd
    subst htd
    have hlt := slot_some_lt ht
    rw [ht]
    simp only
    by_cases heq : c.equal_fn tf k = true
    · rw [if_pos heq]
      simp only [Bool.false_eq_true, if_false]
      have hpost := @live_post_assign K V c hc m hA.inv
        { first := k, second := v, is_deleted := false } hint.current ⟨tf, ts, false⟩ v ht rfl heq
      refine ⟨_, ru, rfl, hru, agree_assign hc hA k v hpost, hAu, ?_⟩
      refine ⟨he, ⟨tf, v, false⟩, ?_, rfl, heq⟩
      exact slot_set_self _ _ _ hlt
    · rw [if_neg heq]
      obtain ⟨rh, h1, h2, h3⟩ := hrest
      exact ⟨rh, ru, h1, hru, h2, hAu, h3⟩

/-! ## hash_set.h : `rehash` returns

The development follows that of the map: the private `insert` of a bucket into a table
without TOMBSTONEs that does not hold its key, the migration loop, and `rehash`. -/

theorem setInsertPtr_ok {K : Type} {c : Params K Unit}
    (rh : HashSet K → Nat → Option (HashSet K)) (N : Nat) (hrh : RhOK c rh N)
    (ptr : Bucket K Unit) (hptr : ptr.is_deleted = false) (w : Nat) :
    ∀ t, Inv c t → NoTomb t → countLive t.data ≤ N → KeyFree c t ptr.first →
      Thr N ≤ t.data.length + w →
      ∃ r, setInsertPtr rh c ptr (w + 1) t = some r ∧ Inv c r ∧ NoTomb r ∧
        (∀ x, LiveB r x ↔ (LiveB t x ∨ x = ptr)) ∧ r.el_count = t.el_count + 1 ∧
        t.data.length ≤ r.data.length := by
  have first : ∀ t, Inv c t → NoTomb t → countLive t.data ≤ N → KeyFree c t ptr.first →
      ∃ t1, rh t (t.size + 1) = some t1 ∧ RehashPost c t (t.size + 1) t1 ∧ NoTomb t1 ∧
        t.data.length ≤ t1.data.length ∧ countLive t1.data ≤ N ∧ KeyFree c t1 ptr.first := by
    intro t hI hN hcnt hf
    obtain ⟨t1, ht1, hpost⟩ := hrh t (t.size + 1) hI hcnt
    have hN1 : NoTomb t1 := by
      by_cases htrig : t.size + 1 > t.bucket_count ∨ t.del_count > t.size
      · exact (hpost.fresh htrig).1
      · rw [hpost.same htrig]; exact hN
    have hlen : t.data.length ≤ t1.data.length := by
      by_cases htrig : t.size + 1 > t.bucket_count ∨ t.del_count > t.size
      · have := (hpost.fresh htrig).2
        omega
      · rw [hpost.same htrig]
    have hcnt1 : countLive t1.data ≤ N := by
      rw [← hpost.inv.el, hpost.el, hI.el]; exact hcnt
    exact ⟨t1, ht1, hpost, hN1, hlen, hcnt1,
      keyFree_of_live hN1 (fun b hb => (hpost.live b).1 hb) hf⟩
  induction w with
  | zero =>
    intro t hI hN hcnt hf hthr
    obtain ⟨t1, ht1, hpost, hN1, hlen, hcnt1, hf1⟩ := first t hI hN hcnt hf
    unfold setInsertPtr
    rw [ht1]
    simp only [Option.some_bind]
    rcases probe_absent hf1 (t1.data.length / 2) with ⟨s, hs1, hs2, hs3, hs4⟩ | ⟨hb, _⟩
    · rw [probeKey_eq, hs4]
      obtain ⟨h1, h2, h3⟩ := fill_ok hpost.inv hN1 hptr hs2 hs1 hs3
      refine ⟨_, rfl, h1, h2, ?_, ?_, ?_⟩
      · intro x
        rw [h3 x, hpost.live x]
      · show t1.el_count + 1 = t.el_count + 1
        rw [hpost.el]
      · show t.data.length ≤ (t1.data.set _ _).length
        rw [List.length_set]; exact hlen
    · exact absurd hb (not_blocked_of_Thr c t1.data ptr.first N
        (by rw [countTomb_noTomb hN1]; omega) (by omega))
  | succ w ih =>
    intro t hI hN hcnt hf hthr
    obtain ⟨t1, ht1, hpost, hN1, hlen, hcnt1, hf1⟩ := first t hI hN hcnt hf
    unfold setInsertPtr
    rw [ht1]
    simp only [Option.some_bind]
    rcases probe_absent hf1 (t1.data.length / 2) with ⟨s, hs1, hs2, hs3, hs4⟩ | ⟨hb, hex⟩
    · rw [probeKey_eq, hs4]
      obtain ⟨h1, h2, h3⟩ := fill_ok hpost.inv hN1 hptr hs2 hs1 hs3
      refine ⟨_, rfl, h1, h2, ?_, ?_, ?_⟩
      · intro x
        rw [h3 x, hpost.live x]
      · show t1.el_count + 1 = t.el_count + 1
        rw [hpost.el]
      · show t.data.length ≤ (t1.data.set _ _).length
        rw [List.length_set]; exact hlen
    · rw [probeKey_eq, hex]
      obtain ⟨t2, ht2, hpost2⟩ := hrh t1 (t1.bucket_count * 3) hpost.inv hcnt1
      have htrig : t1.bucket_count * 3 > t1.bucket_count ∨ t1.del_count > t1.size := by
        left
        have := hpost.inv.pos
        unfold HashMap.bucket_count
        omega
      obtain ⟨hN2, hlen2⟩ := hpost2.fresh htrig
      have hcnt2 : countLive t2.data ≤ N := by
        rw [← hpost2.inv.el, hpost2.el, hpost.inv.el]; exact hcnt1
      obtain ⟨r, hr, g1, g2, g3, g4, g5⟩ := ih t2 hpost2.inv hN2 hcnt2
        (keyFree_of_live hN2 (fun b hb => (hpost2.live b).1 hb) hf1) (by omega)
      refine ⟨r, ?_, g1, g2, ?_, ?_, ?_⟩
      · simp only [ht2, Option.some_bind]
        exact hr
      · intro x
        rw [g3 x, hpost2.live x, hpost.live x]
      · rw [g4, hpost2.el, hpost.el]
      · omega

theorem setRehashLoop_ok {K : Type} {c : Params K Unit} (hc : c.Lawful)
    (rh : HashSet K → Nat → Option (HashSet K)) (N w : Nat) (hw : Thr N < w)
    (m : HashSet K) (hIm : Inv c m) (l : List Nat) :
    ∀ (f : Nat) (data : List (Option (Bucket K Unit))) (t : HashSet K) (p : Nat),
      (l ≠ [] → RhOK c rh N) →
      liveFrom m.data p = l → l.length < f → data.length = m.data.length →
      (∀ i, p ≤ i → slot data i = slot m.data i) → Inv c t → NoTomb t →
      (∀ x, LiveB t x ↔ ∃ i, i < p ∧ slot m.data i = some x ∧ x.is_deleted = false) →
      t.el_count + l.length ≤ N + 1 →
      ∃ r, setRehashLoop rh c w f data t (itOf l) = some r ∧ Inv c r ∧ NoTomb r ∧
        (∀ x, LiveB r x ↔ LiveB m x) ∧ r.el_count = t.el_count + l.length ∧
        t.data.length ≤ r.data.length := by
  obtain ⟨w0, rfl⟩ : ∃ w0, w = w0 + 1 := ⟨w - 1, by omega⟩
  induction l with
  | nil =>
    intro f data t p _ hl hf hlen hag hI hN hlive hel
    cases f with
    | zero => simp at hf
    | succ f =>
      refine ⟨t, rfl, hI, hN, ?_, rfl, le_refl _⟩
      intro x
      rw [hlive x]
      constructor
      · rintro ⟨i, _, h1, h2⟩
        exact ⟨i, h1, h2⟩
      · rintro ⟨i, h1, h2⟩
        refine ⟨i, ?_, h1, h2⟩
        by_contra hge
        have : i ∈ liveFrom m.data p :=
          (liveFrom_mem _ _ _).2 ⟨by omega, slot_some_lt h1, (isLive_iff _ _).2 ⟨x, h1, h2⟩⟩
        rw [hl] at this
        cases this
  | cons q rest ih =>
    intro f data t p hrh hl hf hlen hag hI hN hlive hel
    cases f with
    | zero => simp at hf
    | succ f =>
      obtain ⟨hpq, hq, hql, hrest⟩ := liveFrom_cons m.data _ p q rest (le_refl _) hl
      obtain ⟨b, hb, hbd⟩ := (isLive_iff _ _).1 hql
      have hrh' := hrh (List.cons_ne_nil _ _)
      have hcnt : countLive t.data ≤ N := by
        rw [← hI.el]
        simp only [List.length_cons] at hel
        omega
      have hfree : KeyFree c t b.first := by
        intro i x hx
        by_contra hne
        have he : c.equal_fn x.first b.first = true := by simpa using hne
        obtain ⟨j, hj, hjx, _⟩ := (hlive x).1 ⟨i, hx, hN i x hx⟩
        have := slot_unique hc hIm hjx hb he
        omega
      obtain ⟨t1, ht1, g1, g2, g3, g4, g5⟩ :=
        setInsertPtr_ok rh N hrh' b hbd w0 t hI hN hcnt hfree (by omega)
      have hdq : slot data q = some b := by rw [hag q hpq]; exact hb
      have hq' : q < (data.set q none).length := by rw [List.length_set, hlen]; exact hq
      have hnext : Iterator.next (data.set q none) (itOf (q :: rest)) = some (itOf rest) := by
        rw [next_itOf _ q rest hq', liveFrom_set_lt _ _ _ _ (by omega),
          liveFrom_congr data m.data (q + 1) hlen (fun i hi => hag i (by omega)), ← hrest]
      obtain ⟨r, hr, k1, k2, k3, k4, k5⟩ := ih f (data.set q none) t1 (q + 1)
        (fun _ => hrh') hrest.symm (by simpa using hf) (by rw [List.length_set, hlen])
        (fun i hi => by rw [slot_set_other _ _ _ _ (by omega)]; exact hag i (by omega))
        g1 g2
        (by
          intro x
          rw [g3 x, hlive x]
          constructor
          · rintro (⟨i, h1, h2, h3⟩ | h)
            · exact ⟨i, by omega, h2, h3⟩
            · subst h
              exact ⟨q, by omega, hb, hbd⟩
          · rintro ⟨i, h1, h2, h3⟩
            by_cases hip : i < p
            · exact Or.inl ⟨i, hip, h2, h3⟩
            · right
              have hmem : i ∈ liveFrom m.data p :=
                (liveFrom_mem _ _ _).2 ⟨by omega, slot_some_lt h2, (isLive_iff _ _).2 ⟨x, h2, h3⟩⟩
              rw [hl] at hmem
              rcases List.mem_cons.1 hmem with h | h
              · subst h
                rw [hb] at h2
                cases h2
                rfl
              · rw [hrest] at h
                have := ((liveFrom_mem _ _ _).1 h).1
                omega)
        (by
          rw [g4]
          simp only [List.length_cons] at hel
          omega)
      refine ⟨r, ?_, k1, k2, k3, ?_, by omega⟩
      · unfold setRehashLoop
        have he : (itOf (q :: rest)).iterator_end = false := rfl
        have hcur : (itOf (q :: rest)).current = q := rfl
        rw [he, hcur, hdq]
        simp only [Bool.false_eq_true, if_false, ht1, Option.bind_some, hnext]
        exact hr
      · rw [k4, g4]
        simp only [List.length_cons]
        omega

/-! ## `HashSet::rehash` returns, and what it establishes -/

theorem setRehash_ok {K : Type} {c : Params K Unit} (hc : c.Lawful) :
    ∀ fuel N, need N ≤ fuel → RhOK c (setRehash c fuel) N := by
  intro fuel
  induction fuel with
  | zero =>
    intro N hN
    have := need_pos N
    omega
  | succ fuel ih =>
    intro N hN t count hI hcnt
    unfold setRehash
    by_cases htrig : count > t.bucket_count ∨ t.del_count > t.size
    · rw [if_pos htrig, begin_eq]
      show ∃ r, Option.map moveAssign (setRehashLoop (setRehash c fuel) c fuel (t.bucket_count + 1)
        t.data (HashMap.new (max t.bucket_count count)) (itOf (liveFrom t.data 0))) = some r ∧
        RehashPost c t count r
      have hlen0 : (liveFrom t.data 0).length = countLive t.data := liveFrom_zero_length _
      obtain ⟨r, hr, k1, k2, k3, k4, k5⟩ := setRehashLoop_ok hc (setRehash c fuel) (N - 1) fuel
        (by
          have h1 : Thr (N - 1) ≤ Thr N := Thr_mono (by omega)
          unfold need at hN
          omega)
        t hI (liveFrom t.data 0) (t.bucket_count + 1) t.data
        (HashMap.new (max t.bucket_count count)) 0
        (by
          intro hne
          have hpos : 0 < (liveFrom t.data 0).length := List.length_pos.2 hne
          apply ih (N - 1)
          have h1 : Thr (N - 1) ≤ Thr N := Thr_mono (by omega)
          unfold need at hN ⊢
          omega)
        rfl
        (by
          have := liveFrom_length_le t.data 0
          unfold HashMap.bucket_count
          omega)
        rfl (fun _ _ => rfl) (Inv_new c _) (noTomb_new _)
        (by
          intro x
          constructor
          · rintro ⟨i, hi, _⟩
            rw [slot_new] at hi; cases hi
          · rintro ⟨i, hi, _⟩
            omega)
        (by
          show 0 + _ ≤ _
          omega)
      refine ⟨r, ?_, ?_⟩
      · rw [hr]
        show some (moveAssign r) = some r
        rw [moveAssign_noTomb k1 k2]
      · refine ⟨k1, k3, ?_, fun h => absurd htrig h, fun _ => ⟨k2, ?_⟩⟩
        · rw [k4, hI.el, hlen0]
          show 0 + _ = _
          omega
        · have hnl : (HashMap.new (max t.bucket_count count) : HashSet K).data.length
              = max t.bucket_count count + 1 := by simp [HashMap.new]
          rw [hnl] at k5
          exact k5
    · rw [if_neg htrig]
      exact ⟨t, rfl, hI, fun _ => Iff.rfl, rfl, fun _ => rfl, fun h => absurd h htrig⟩

/-! ## hash_set.h : more fuel never changes a result -/

theorem setInsertPtr_mono {K : Type} {c : Params K Unit}
    {rh rh' : HashSet K → Nat → Option (HashSet K)}
    (hrh : ∀ t n r, rh t n = some r → rh' t n = some r) (ptr : Bucket K Unit) (w : Nat) :
    ∀ (w' : Nat) (t r : HashSet K), w ≤ w' → setInsertPtr rh c ptr w t = some r →
      setInsertPtr rh' c ptr w' t = some r := by
  induction w with
  | zero => intro w' t r _ h; cases h
  | succ w ih =>
    intro w' t r hw h
    obtain ⟨w'', rfl⟩ : ∃ w'', w' = w'' + 1 := ⟨w' - 1, by omega⟩
    unfold setInsertPtr at h ⊢
    obtain ⟨t1, h1, h2⟩ := Option.bind_eq_some.1 h
    rw [hrh _ _ _ h1]
    simp only [Option.some_bind]
    cases hp : probeKey c t1 ptr.first with
    | empty cur => rw [hp] at h2; exact h2
    | tomb cur => rw [hp] at h2; exact h2
    | live cur => rw [hp] at h2; exact h2
    | exhausted =>
      rw [hp] at h2
      simp only at h2 ⊢
      obtain ⟨t2, h3, h4⟩ := Option.bind_eq_some.1 h2
      rw [hrh _ _ _ h3]
      exact ih w'' t2 r (by omega) h4

theorem setRehashLoop_mono {K : Type} {c : Params K Unit}
    {rh rh' : HashSet K → Nat → Option (HashSet K)}
    (hrh : ∀ t n r, rh t n = some r → rh' t n = some r) (w w' : Nat) (hw : w ≤ w') (f : Nat) :
    ∀ (data : List (Option (Bucket K Unit))) (t : HashSet K) (it : Iterator) (r : HashSet K),
      setRehashLoop rh c w f data t it = some r → setRehashLoop rh' c w' f data t it = some r := by
  induction f with
  | zero => intro data t it r h; cases h
  | succ f ih =>
    intro data t it r h
    unfold setRehashLoop at h ⊢
    by_cases he : it.iterator_end = true
    · rw [if_pos he] at h ⊢; exact h
    · rw [if_neg he] at h ⊢
      cases hs : slot data it.current with
      | none => rw [hs] at h; cases h
      | some b =>
        rw [hs] at h
        simp only at h ⊢
        obtain ⟨t1, h1, h2⟩ := Option.bind_eq_some.1 h
        obtain ⟨it1, h3, h4⟩ := Option.bind_eq_some.1 h2
        rw [setInsertPtr_mono hrh b w w' t t1 hw h1]
        simp only [Option.some_bind, h3]
        exact ih _ _ _ _ h4

theorem setRehash_mono {K : Type} (c : Params K Unit) (fuel : Nat) :
    ∀ (fuel' : Nat) (m : HashSet K) (n : Nat) (r : HashSet K), fuel ≤ fuel' →
      setRehash c fuel m n = some r → setRehash c fuel' m n = some r := by
  induction fuel with
  | zero =>
    intro fuel' m n r _ h
    unfold setRehash at h
    by_cases ht : n > m.bucket_count ∨ m.del_count > m.size
    · rw [if_pos ht] at h; cases h
    · rw [if_neg ht] at h
      cases fuel' <;> (unfold setRehash; rw [if_neg ht]; exact h)
  | succ fuel ih =>
    intro fuel' m n r hf h
    obtain ⟨f'', rfl⟩ : ∃ f'', fuel' = f'' + 1 := ⟨fuel' - 1, by omega⟩
    unfold setRehash at h ⊢
    by_cases ht : n > m.bucket_count ∨ m.del_count > m.size
    · rw [if_pos ht] at h ⊢
      obtain ⟨it, h1, h2⟩ := Option.bind_eq_some.1 h
      rw [h1]
      simp only [Option.some_bind]
      obtain ⟨t, h3, h4⟩ := Option.map_eq_some'.1 h2
      rw [setRehashLoop_mono (fun t n r hr => ih f'' t n r (by omega) hr) fuel f'' (by omega)
        _ _ _ _ _ h3]
      exact congrArg some h4
    · rw [if_neg ht] at h ⊢; exact h


theorem setInsertLoop_mono {K : Type} (c : Params K Unit) (fuel fuel' : Nat) (hf : fuel ≤ fuel')
    (key : K) (w : Nat) :
    ∀ (w' : Nat) (m : HashSet K) (r : HashSet K × Iterator × Bool), w ≤ w' →
      setInsertLoop c fuel key w m = some r → setInsertLoop c fuel' key w' m = some r := by
  induction w with
  | zero => intro w' m r _ h; cases h
  | succ w ih =>
    intro w' m r hw h
    obtain ⟨w'', rfl⟩ : ∃ w'', w' = w'' + 1 := ⟨w' - 1, by omega⟩
    unfold setInsertLoop at h ⊢
    obtain ⟨m1, h1, h2⟩ := Option.bind_eq_some.1 h
    rw [setRehash_mono c fuel fuel' _ _ _ hf h1]
    simp only [Option.some_bind]
    cases hp : probeKey c m1 key with
    | empty cur => rw [hp] at h2; exact h2
    | tomb cur => rw [hp] at h2; exact h2
    | live cur => rw [hp] at h2; exact h2
    | exhausted =>
      rw [hp] at h2
      simp only at h2 ⊢
      obtain ⟨m2, h3, h4⟩ := Option.bind_eq_some.1 h2
      rw [setRehash_mono c fuel fuel' _ _ _ hf h3]
      exact ih w'' m2 r (by omega) h4

theorem setInsert_mono {K : Type} (c : Params K Unit) (fuel fuel' : Nat) (hf : fuel ≤ fuel')
    (m : HashSet K) (key : K) (r : HashSet K × Iterator × Bool)
    (h : setInsert c fuel m key = some r) : setInsert c fuel' m key = some r :=
  setInsertLoop_mono c fuel fuel' hf key fuel fuel' m r hf h

/-! ## hash_set.h : `insert` -/

theorem reviveAt_eq {K V : Type} {data : List (Option (Bucket K V))} {i : Nat} {b : Bucket K V}
    (h : slot data i = some b) :
    reviveAt data i = data.set i (some { b with is_deleted := false }) := by
  unfold reviveAt
  rw [h]

/-- One round of `HashSet::insert(key)` after its `reserve`. -/
theorem setInsertLoop_round {K : Type} {c : Params K Unit} (hc : c.Lawful) (fuel : Nat)
    (key : K) (w : Nat) (m m1 : HashSet K) (hm1 : setRehash c fuel m (m.size + 1) = some m1)
    (hI : Inv c m1)
    (hex : KeyFree c m1 key → Blocked c m1.data key 0 (m1.data.length / 2) →
      ∃ r, (setRehash c fuel m1 (m1.bucket_count * 3)).bind (setInsertLoop c fuel key w)
          = some r ∧ SetRes c m1 key r) :
    ∃ r, setInsertLoop c fuel key (w + 1) m = some r ∧ SetRes c m1 key r := by
  unfold setInsertLoop
  rw [hm1]
  simp only [Option.some_bind]
  rcases probeKey_cases hc hI key with ⟨i, b, h1, h2, h3⟩ | ⟨hf, t, h1, h2, h3, h4⟩ |
    ⟨hf, h1, h2⟩
  · have hlt := slot_some_lt h1
    cases hd : b.is_deleted
    · rw [hd] at h3
      simp only [Bool.false_eq_true, if_false] at h3
      rw [h3]
      simp only
      rw [ofIndex_live ((isLive_iff _ _).2 ⟨b, h1, hd⟩)]
      refine ⟨_, rfl, b, h2, hd, live_post_id hI ⟨i, h1, hd⟩ (hc.refl _),
        ⟨i, b, rfl, h1, hd, hc.refl _⟩, ?_⟩
      constructor
      · intro h; cases h
      · intro ha
        have := ha b ⟨i, h1, hd⟩
        rw [hc.refl] at this; cases this
    · rw [hd] at h3
      simp only [if_true] at h3
      rw [h3]
      simp only
      rw [reviveAt_eq h1, ofIndex_set _ _ _ hlt rfl]
      have hp := @tomb_post K Unit c hc id m1 hI { b with is_deleted := false } rfl i b h1
        (hc.refl _) hd
      refine ⟨_, rfl, { b with is_deleted := false }, h2, rfl, hp,
        ⟨i, { b with is_deleted := false }, rfl, slot_set_self _ _ _ hlt, rfl, hc.refl _⟩, ?_⟩
      constructor
      · intro _ b0 hb0
        by_contra hne
        have he0 : c.equal_fn b0.first b.first = true := by simpa using hne
        obtain ⟨j, hj, hd0⟩ := hb0
        have := slot_unique hc hI hj h1 he0
        subst this
        rw [h1] at hj
        cases hj
        rw [hd] at hd0; cases hd0
      · intro _; rfl
  · have hlt : probePos c m1.data.length key t < m1.data.length :=
      probePos_lt _ _ _ _ hI.pos
    rw [h4]
    simp only
    rw [ofIndex_set _ _ _ hlt rfl]
    have hp := @empty_post K Unit c id m1 hI { first := key, second := (), is_deleted := false }
      rfl hf t h2 h1 h3
    refine ⟨_, rfl, { first := key, second := (), is_deleted := false }, hc.refl _, rfl, hp,
      ⟨_, { first := key, second := (), is_deleted := false }, rfl, slot_set_self _ _ _ hlt,
        rfl, hc.refl _⟩, ?_⟩
    constructor
    · rintro _ b0 ⟨j, hj, _⟩
      exact hf j b0 hj
    · intro _; rfl
  · rw [h2]
    exact hex hf h1

theorem SetRes_of_rehash {K : Type} {c : Params K Unit} {m m1 : HashSet K} {n : Nat} {key : K}
    {r : HashSet K × Iterator × Bool} (hp : RehashPost c m n m1) (h : SetRes c m1 key r) :
    SetRes c m key r := by
  obtain ⟨b, h1, h2, h3⟩ := h
  exact ⟨b, h1, h2, InsRes_of_rehash hp h3⟩

theorem rehashPost_len {K V : Type} {c : Params K V} {m m1 : HashMap K V} {n : Nat}
    (hp : RehashPost c m n m1) : m.data.length ≤ m1.data.length := by
  by_cases ht : n > m.bucket_count ∨ m.del_count > m.size
  · have := (hp.fresh ht).2
    omega
  · rw [hp.same ht]

theorem setInsertLoop_ok {K : Type} {c : Params K Unit} (hc : c.Lawful) (fuel M : Nat)
    (hfuel : need M ≤ fuel) (key : K) (w : Nat) :
    ∀ m, Inv c m → countLive m.data + countTomb m.data ≤ M → Thr M ≤ m.data.length + w →
      ∃ r, setInsertLoop c fuel key (w + 1) m = some r ∧ SetRes c m key r := by
  induction w with
  | zero =>
    intro m hI hM hthr
    obtain ⟨m1, hm1, hp⟩ := setRehash_ok hc fuel M hfuel m (m.size + 1) hI (by omega)
    have hM1 := rehash_count hI hp hM
    have hlen := rehashPost_len hp
    obtain ⟨r, hr, hres⟩ := setInsertLoop_round hc fuel key 0 m m1 hm1 hp.inv (by
      intro _ hb
      have := exhausted_small hM1 hb
      omega)
    exact ⟨r, hr, SetRes_of_rehash hp hres⟩
  | succ w ih =>
    intro m hI hM hthr
    obtain ⟨m1, hm1, hp⟩ := setRehash_ok hc fuel M hfuel m (m.size + 1) hI (by omega)
    have hM1 := rehash_count hI hp hM
    have hlen := rehashPost_len hp
    obtain ⟨r, hr, hres⟩ := setInsertLoop_round hc fuel key (w + 1) m m1 hm1 hp.inv (by
      intro _ _
      obtain ⟨m2, hm2, hp2⟩ := setRehash_ok hc fuel M hfuel m1 (m1.bucket_count * 3) hp.inv
        (by omega)
      have htrig : m1.bucket_count * 3 > m1.bucket_count ∨ m1.del_count > m1.size := by
        left
        have := hp.inv.pos
        unfold HashMap.bucket_count
        omega
      have hlen2 := (hp2.fresh htrig).2
      obtain ⟨r, hr, hres⟩ := ih m2 hp2.inv (rehash_count hp.inv hp2 hM1) (by omega)
      refine ⟨r, ?_, SetRes_of_rehash hp2 hres⟩
      rw [hm2]
      exact hr)
    exact ⟨r, hr, SetRes_of_rehash hp hres⟩

theorem setInsert_ok {K : Type} {c : Params K Unit} (hc : c.Lawful) {m : HashSet K}
    (hI : Inv c m) (key : K) (fuel : Nat) (hf : need (m.el_count + m.del_count) ≤ fuel) :
    ∃ r, setInsert c fuel m key = some r ∧ SetRes c m key r := by
  unfold setInsert
  have hM := count_le_of_Inv hI
  have := need_ge_Thr (m.el_count + m.del_count)
  obtain ⟨w, hw⟩ : ∃ w, fuel = w + 1 := ⟨fuel - 1, by omega⟩
  have := setInsertLoop_ok hc fuel _ hf key w m hI hM (by omega)
  rw [← hw] at this
  exact this

/-- What `HashSet::insert` establishes whenever it returns. -/
theorem setInsert_post {K : Type} {c : Params K Unit} (hc : c.Lawful) {m : HashSet K}
    (hI : Inv c m) {key : K} {fuel : Nat} {r : HashSet K × Iterator × Bool}
    (h : setInsert c fuel m key = some r) : SetRes c m key r := by
  obtain ⟨r1, hr1, hres⟩ := setInsert_ok hc hI key
    (max fuel (need (m.el_count + m.del_count))) (le_max_right _ _)
  rw [setInsert_mono c fuel _ (le_max_left _ _) m key r h] at hr1
  cases hr1
  exact hres

theorem setRehash_post {K : Type} {c : Params K Unit} (hc : c.Lawful) {m m1 : HashSet K}
    (hI : Inv c m) {fuel n : Nat} (h : setRehash c fuel m n = some m1) :
    RehashPost c m n m1 := by
  obtain ⟨r, hr, hp⟩ := setRehash_ok hc (max fuel (need (countLive m.data))) _
    (le_max_right _ _) m n hI (le_refl _)
  rw [setRehash_mono c fuel _ m n m1 (le_max_left _ _) h] at hr
  cases hr
  exact hp

/-- Every reachable set satisfies the invariant. -/
theorem setReach_inv {K : Type} {c : Params K Unit} (hc : c.Lawful) {m : HashSet K}
    (h : SetReach c m) : Inv c m := by
  induction h with
  | init n => exact Inv_new c n
  | @step m0 m1 op fuel _ hstep ih =>
    cases op with
    | insert k =>
      obtain ⟨r, hr, hr1⟩ := Option.map_eq_some'.1 hstep
      obtain ⟨b, _, _, hres⟩ := setInsert_post hc ih hr
      rw [← hr1]
      exact hres.1.inv
    | erase k =>
      obtain ⟨r, hr, hr1⟩ := Option.map_eq_some'.1 hstep
      obtain ⟨r2, hr2, hres⟩ := erase_ok hc ih k (max fuel 2) (le_max_right _ _)
      rw [erase_mono c fuel (max fuel 2) (le_max_left _ _) m0 k r hr] at hr2
      cases hr2
      rw [← hr1]
      exact hres.1
    | rehash n => exact (setRehash_post hc ih hstep).inv

/-! ## hash_set.h : what `insert` does to the element set -/

theorem setParams_lawful (p : CollisionPolicy) : (setParams p).Lawful := by
  refine ⟨?_, ?_, ?_, ?_⟩
  · intro a; simp [setParams]
  · intro a b h
    simp only [setParams, beq_iff_eq] at h ⊢
    exact h.symm
  · intro a b d h1 h2
    simp only [setParams, beq_iff_eq] at h1 h2 ⊢
    exact h1.trans h2
  · intro a b h
    simp only [setParams, beq_iff_eq] at h ⊢
    exact h

theorem exSet_reach : SetReach (setParams .LinearProbing) exSet :=
  SetReach.step (.insert 4) 4
    (SetReach.step (.insert 0) 4 (SetReach.init 3)
      (show applySetOp (setParams .LinearProbing) 4 (HashMap.new 3) (.insert 0)
        = some ⟨[some ⟨0, (), false⟩, none, none, none], 1, 0⟩ by decide))
    (by decide)

theorem contains_live {K V : Type} {c : Params K V} (hc : c.Lawful) {m : HashMap K V}
    (hI : Inv c m) {b : Bucket K V} (hb : LiveB m b) {k : K}
    (he : c.equal_fn b.first k = true) : contains c m k = some true := by
  obtain ⟨i, hs, hd⟩ := hb
  unfold contains
  rw [find_live hc hI hs he hd]
  rfl

theorem contains_none {K V : Type} {c : Params K V} (hc : c.Lawful) {m : HashMap K V}
    (hI : Inv c m) {k : K} (ha : ∀ b, LiveB m b → c.equal_fn b.first k = false) :
    contains c m k = some false := by
  unfold contains
  rw [find_absent hc hI ha]
  rfl

theorem contains_congr {K V : Type} {c : Params K V} (hc : c.Lawful) {m1 m2 : HashMap K V}
    (h1 : Inv c m1) (h2 : Inv c m2)
    (hm : ∀ x, (∃ b, LiveB m1 b ∧ c.equal_fn b.first x = true) ↔
      ∃ b, LiveB m2 b ∧ c.equal_fn b.first x = true) (k : K) :
    contains c m1 k = contains c m2 k := by
  by_cases h : ∃ b, LiveB m1 b ∧ c.equal_fn b.first k = true
  · obtain ⟨b, hb, he⟩ := h
    obtain ⟨b2, hb2, he2⟩ := (hm k).1 ⟨b, hb, he⟩
    rw [contains_live hc h1 hb he, contains_live hc h2 hb2 he2]
  · have ha1 : ∀ b, LiveB m1 b → c.equal_fn b.first k = false := by
      intro b hb
      by_contra hne
      exact h ⟨b, hb, by simpa using hne⟩
    have ha2 : ∀ b, LiveB m2 b → c.equal_fn b.first k = false := by
      intro b hb
      by_contra hne
      exact h ((hm k).2 ⟨b, hb, by simpa using hne⟩)
    rw [contains_none hc h1 ha1, contains_none hc h2 ha2]

theorem setRes_atKey {K : Type} {c : Params K Unit} (hc : c.Lawful) {m : HashSet K} {k : K}
    {r : HashSet K × Iterator × Bool} (h : SetRes c m k r) : AtKey c r.1 r.2.1 k := by
  obtain ⟨b1, e1, _, _, ⟨j, b, h1, h2, h3, h4⟩, _⟩ := h
  refine ⟨by rw [h1]; rfl, b, ?_, h3, hc.trans _ _ _ h4 e1⟩
  rw [h1]
  exact h2

theorem setRes_present {K : Type} {c : Params K Unit} (hc : c.Lawful) {m : HashSet K} {k : K}
    {r : HashSet K × Iterator × Bool} (h : SetRes c m k r) (hm : Member c m k) :
    r.2.2 = false ∧ r.1.el_count = m.el_count ∧ ∀ x, LiveB r.1 x ↔ LiveB m x := by
  obtain ⟨b1, e1, _, hpost, _, hbool⟩ := h
  obtain ⟨b0, hb0, he0⟩ := hm
  have he : c.equal_fn b0.first b1.first = true := hc.trans _ _ _ he0 (hc.symm _ _ e1)
  obtain ⟨g1, g2⟩ := hpost.present b0 hb0 he
  refine ⟨?_, g2, ?_⟩
  · cases hr : r.2.2 with
    | false => rfl
    | true =>
      have := hbool.1 hr b0 hb0
      rw [he] at this; cases this
  · intro x
    rw [g1 x]
    constructor
    · rintro ⟨b, hb, hx⟩
      have : x = b := by rw [hx]; split <;> rfl
      rw [this]; exact hb
    · intro hx
      exact ⟨x, hx, by split <;> rfl⟩

theorem setRes_absent {K : Type} {c : Params K Unit} (hc : c.Lawful) {m : HashSet K} {k : K}
    {r : HashSet K × Iterator × Bool} (h : SetRes c m k r) (hm : ¬Member c m k) :
    r.2.2 = true ∧ r.1.el_count = m.el_count + 1 ∧
      ∃ b1 : Bucket K Unit, c.equal_fn b1.first k = true ∧ LiveB r.1 b1 ∧
        ∀ x, LiveB r.1 x ↔ (LiveB m x ∨ x = b1) := by
  obtain ⟨b1, e1, d1, hpost, _, hbool⟩ := h
  have ha : ∀ b, LiveB m b → c.equal_fn b.first b1.first = false := by
    intro b hb
    rw [equal_fn_congr_right c hc b.first b1.first k e1]
    by_contra hne
    exact hm ⟨b, hb, by simpa using hne⟩
  obtain ⟨g1, g2⟩ := hpost.absent ha
  exact ⟨hbool.2 ha, g2, b1, e1, (g1 b1).2 (Or.inr rfl), g1⟩

/-- C27: `HashSet` is strictly unique-key. On a reachable set every `insert(k)` returns (for
all fuel from some bound on), and whenever it returns: for an absent `k` it returns
`inserted = true`, `size()` has grown by 1, `contains(k)` is true, `count(k) == 1`, exactly
one LIVE slot holds a key equal to `k`, and the elements are the old ones and `k`; for a
present `k` it returns `inserted = false` with an iterator at the LIVE slot of the element
equal to `k`, and `size()` and the LIVE buckets are those of before. -/
theorem C27_set_unique_keys {K : Type} (c : Params K Unit) (hc : c.Lawful) (s : HashSet K)
    (h : SetReach c s) (k : K) :
    (∃ F, ∀ fuel, F ≤ fuel → ∃ r, setInsert c fuel s k = some r) ∧
    ∀ fuel r, setInsert c fuel s k = some r →
      (¬Member c s k →
        r.2.2 = true ∧ r.1.size = s.size + 1 ∧ contains c r.1 k = some true ∧
        setCount c r.1 k = some 1 ∧ AtKey c r.1 r.2.1 k ∧
        (∃ i, ∀ j b, slot r.1.data j = some b → b.is_deleted = false →
          c.equal_fn b.first k = true → j = i) ∧
        ∀ x, Member c r.1 x ↔ (Member c s x ∨ c.equal_fn k x = true)) ∧
      (Member c s k →
        r.2.2 = false ∧ AtKey c r.1 r.2.1 k ∧ r.1.size = s.size ∧
        (∀ b, LiveB r.1 b ↔ LiveB s b) ∧ (∀ x, Member c r.1 x ↔ Member c s x) ∧
        contains c r.1 k = some true ∧ setCount c r.1 k = some 1) := by
  have hI := setReach_inv hc h
  constructor
  · refine ⟨need (s.el_count + s.del_count), ?_⟩
    intro fuel hf
    obtain ⟨r, hr, _⟩ := setInsert_ok hc hI k fuel hf
    exact ⟨r, hr⟩
  · intro fuel r hr
    have hres := setInsert_post hc hI hr
    have hat := setRes_atKey hc hres
    have hIr : Inv c r.1 := by
      obtain ⟨_, _, _, hp, _⟩ := hres
      exact hp.inv
    have hcont : contains c r.1 k = some true := by
      obtain ⟨_, b, hb, hd, he⟩ := hat
      exact contains_live hc hIr ⟨_, hb, hd⟩ he
    have hcount : setCount c r.1 k = some 1 := by
      unfold setCount
      rw [hcont]
      rfl
    constructor
    · intro hm
      obtain ⟨g1, g2, b1, e1, hb1, g3⟩ := setRes_absent hc hres hm
      refine ⟨g1, g2, hcont, hcount, hat, ?_, ?_⟩
      · obtain ⟨i, hi, _⟩ := hb1
        refine ⟨i, ?_⟩
        intro j b hj _ he
        exact slot_unique hc hIr hj hi (hc.trans _ _ _ he (hc.symm _ _ e1))
      · intro x
        constructor
        · rintro ⟨b, hb, he⟩
          rcases (g3 b).1 hb with hb' | hb'
          · exact Or.inl ⟨b, hb', he⟩
          · right
            rw [hb'] at he
            exact hc.trans _ _ _ (hc.symm _ _ e1) he
        · rintro (⟨b, hb, he⟩ | he)
          · exact ⟨b, (g3 b).2 (Or.inl hb), he⟩
          · exact ⟨b1, hb1, hc.trans _ _ _ e1 he⟩
    · intro hm
      obtain ⟨g1, g2, g3⟩ := setRes_present hc hres hm
      refine ⟨g1, hat, g2, g3, ?_, hcont, hcount⟩
      intro x
      constructor
      · rintro ⟨b, hb, he⟩
        exact ⟨b, (g3 b).1 hb, he⟩
      · rintro ⟨b, hb, he⟩
        exact ⟨b, (g3 b).2 hb, he⟩

/-- Witness for C27: the set `exSet` with the elements 0 and 4, and the absent key 8, whose
insert grows the table; inserting the present key 4 returns `false` and the iterator at
slot 1. -/
theorem C27_set_unique_keys_witness :
    setInsert (setParams .LinearProbing) 4 exSet 4 = some (exSet, liveIt 1, false) ∧
    (setInsert (setParams .LinearProbing) 4 exSet 8).map (fun r => (r.1.size, r.2.2))
      = some (3, true) ∧
    ((∃ F, ∀ fuel, F ≤ fuel → ∃ r, setInsert (setParams .LinearProbing) fuel exSet 8 = some r) ∧
    ∀ fuel r, setInsert (setParams .LinearProbing) fuel exSet 8 = some r →
      (¬Member (setParams .LinearProbing) exSet 8 →
        r.2.2 = true ∧ r.1.size = exSet.size + 1 ∧
        contains (setParams .LinearProbing) r.1 8 = some true ∧
        setCount (setParams .LinearProbing) r.1 8 = some 1 ∧
        AtKey (setParams .LinearProbing) r.1 r.2.1 8 ∧
        (∃ i, ∀ j b, slot r.1.data j = some b → b.is_deleted = false →
          (setParams .LinearProbing).equal_fn b.first 8 = true → j = i) ∧
        ∀ x, Member (setParams .LinearProbing) r.1 x ↔
          (Member (setParams .LinearProbing) exSet x ∨
            (setParams .LinearProbing).equal_fn 8 x = true)) ∧
      (Member (setParams .LinearProbing) exSet 8 →
        r.2.2 = false ∧ AtKey (setParams .LinearProbing) r.1 r.2.1 8 ∧
        r.1.size = exSet.size ∧
        (∀ b, LiveB r.1 b ↔ LiveB exSet b) ∧
        (∀ x, Member (setParams .LinearProbing) r.1 x ↔
          Member (setParams .LinearProbing) exSet x) ∧
        contains (setParams .LinearProbing) r.1 8 = some true ∧
        setCount (setParams .LinearProbing) r.1 8 = some 1)) :=
  ⟨by decide, by decide,
    C27_set_unique_keys (setParams .LinearProbing) (setParams_lawful _) exSet exSet_reach 8⟩

/-- The hinted `HashSet::insert` against the unhinted one. -/
theorem setInsertHint_ok {K : Type} {c : Params K Unit} (hc : c.Lawful) {s : HashSet K}
    (hI : Inv c s) (hint : Iterator)
    (hh : hint.iterator_end = true ∨ isLive s.data hint.current = true) (k : K)
    (fuel : Nat) (hf : need (s.el_count + s.del_count) ≤ fuel) :
    ∃ rh ru, setInsertHint c fuel s hint k = some rh ∧ setInsert c fuel s k = some ru ∧
      Inv c rh.1 ∧ Inv c ru.1 ∧ (∀ x, LiveB rh.1 x ↔ LiveB ru.1 x) ∧
      rh.1.el_count = ru.1.el_count ∧ AtKey c rh.1 rh.2 k := by
  obtain ⟨ru, hru, hres⟩ := setInsert_ok hc hI k fuel hf
  have hIu : Inv c ru.1 := by
    obtain ⟨_, _, _, hp, _⟩ := hres
    exact hp.inv
  have hrest : ∃ rh ru, ((setInsert c fuel s k).map fun r => (r.1, r.2.1)) = some rh ∧
      setInsert c fuel s k = some ru ∧
      Inv c rh.1 ∧ Inv c ru.1 ∧ (∀ x, LiveB rh.1 x ↔ LiveB ru.1 x) ∧
      rh.1.el_count = ru.1.el_count ∧ AtKey c rh.1 rh.2 k :=
    ⟨(ru.1, ru.2.1), ru, by rw [hru]; rfl, hru, hIu, hIu, fun _ => Iff.rfl, rfl,
      setRes_atKey hc hres⟩
  unfold setInsertHint
  simp only
  rw [eq_endIt]
  cases he : hint.iterator_end with
  | true =>
    simp only [if_true]
    exact hrest
  | false =>
    simp only [Bool.false_eq_true, if_false]
    have hl : isLive s.data hint.current = true := by
      rcases hh with h | h
      · rw [he] at h; cases h
      · exact h
    obtain ⟨t, ht, htd⟩ := (isLive_iff _ _).1 hl
    rw [ht]
    simp only
    by_cases heq : c.equal_fn t.first k = true
    · rw [if_pos heq, htd]
      simp only [Bool.false_eq_true, if_false]
      obtain ⟨_, g2, g3⟩ := setRes_present hc hres ⟨t, ⟨hint.current, ht, htd⟩, heq⟩
      exact ⟨(s, hint.copy), ru, rfl, hru, hI, hIu, fun x => (g3 x).symm, g2.symm,
        he, t, ht, htd, heq⟩
    · rw [if_neg heq]
      exact hrest

/-- C25: hints never cause incorrectness. On a reachable map, for a hint that is `end()` or
stands at a LIVE slot, `emplace_hint`, `insert(hint, v)` and `insert_or_assign(hint, k, v)`
return (for all fuel from some bound on) together with their unhinted forms, the two
resulting tables hold the same value for every key, contain the same keys and have the same
`size()`, and the returned iterator stands at a LIVE slot whose key equals `k`; the same
holds for `HashSet::insert(hint, k)` on a reachable set. -/
theorem C25_hints_never_change_result {K V : Type} (c : Params K V) (hc : c.Lawful)
    (m : HashMap K V) (a : List (K × V)) (h : Reachable c m a) (hint : Iterator)
    (hh : hint.iterator_end = true ∨ isLive m.data hint.current = true) (k : K) (v : V) :
    (∃ F, ∀ fuel, F ≤ fuel →
      (∃ rh ru, emplace_hint c fuel m hint k v = some rh ∧
        insert_hint c fuel m hint (k, v) = some rh ∧
        emplace c fuel m k v = some ru ∧ insert c fuel m (k, v) = some ru ∧
        (∀ key, lookup c rh.1 key = lookup c ru.1 key) ∧
        (∀ key, contains c rh.1 key = contains c ru.1 key) ∧
        rh.1.size = ru.1.size ∧ AtKey c rh.1 rh.2 k) ∧
      (∃ rh ru, insert_or_assign_hint c fuel m hint k v = some rh ∧
        insert_or_assign c fuel m k v = some ru ∧
        (∀ key, lookup c rh.1 key = lookup c ru.1 key) ∧
        (∀ key, contains c rh.1 key = contains c ru.1 key) ∧
        rh.1.size = ru.1.size ∧ AtKey c rh.1 rh.2 k ∧ lookup c rh.1 k = some v)) ∧
    (∀ (cs : Params K Unit), cs.Lawful → ∀ (s : HashSet K), SetReach cs s →
      ∀ hintS : Iterator, (hintS.iterator_end = true ∨ isLive s.data hintS.current = true) →
      ∃ F, ∀ fuel, F ≤ fuel →
        ∃ rh ru, setInsertHint cs fuel s hintS k = some rh ∧ setInsert cs fuel s k = some ru ∧
          (∀ x, Member cs rh.1 x ↔ Member cs ru.1 x) ∧
          (∀ key, contains cs rh.1 key = contains cs ru.1 key) ∧
          rh.1.size = ru.1.size ∧ AtKey cs rh.1 rh.2 k) := by
  have hA := reachable_agree hc h
  constructor
  · refine ⟨need (m.el_count + m.del_count), ?_⟩
    intro fuel hf
    constructor
    · obtain ⟨rh, ru, h1, h2, h3, h4, h5⟩ := emplace_hint_ok hc hA hint hh k v fuel hf
      refine ⟨rh, ru, h1, h1, h2, h2, ?_, ?_, ?_, h5⟩
      · intro key
        rw [lookup_eq hc h3, lookup_eq hc h4]
      · intro key
        rw [contains_eq hc h3, contains_eq hc h4]
      · show rh.1.el_count = ru.1.el_count
        rw [h3.size, h4.size]
    · obtain ⟨rh, ru, h1, h2, h3, h4, h5⟩ := insert_or_assign_hint_ok hc hA hint hh k v fuel hf
      refine ⟨rh, ru, h1, h2, ?_, ?_, ?_, h5, ?_⟩
      · intro key
        rw [lookup_eq hc h3, lookup_eq hc h4]
      · intro key
        rw [contains_eq hc h3, contains_eq hc h4]
      · show rh.1.el_count = ru.1.el_count
        rw [h3.size, h4.size]
      · rw [lookup_eq hc h3]
        exact absFind_absAssign_self c hc a k v
  · intro cs hcs s hs hintS hhS
    have hI := setReach_inv hcs hs
    refine ⟨need (s.el_count + s.del_count), ?_⟩
    intro fuel hf
    obtain ⟨rh, ru, h1, h2, h3, h4, h5, h6, h7⟩ := setInsertHint_ok hcs hI hintS hhS k fuel hf
    have hmem : ∀ x, Member cs rh.1 x ↔ Member cs ru.1 x := by
      intro x
      constructor
      · rintro ⟨b, hb, he⟩
        exact ⟨b, (h5 b).1 hb, he⟩
      · rintro ⟨b, hb, he⟩
        exact ⟨b, (h5 b).2 hb, he⟩
    exact ⟨rh, ru, h1, h2, hmem, fun key => contains_congr hcs h3 h4 hmem key, h6, h7⟩

/-- Witness for C25 on `exThree` (keys 0, 4, 8 in the LIVE slots 0, 4, 8): with the right
hint, the iterator at slot 4, `emplace_hint` for key 4 returns the hint and leaves the table
alone; with the wrong hint, the iterator at slot 0, it returns the iterator at slot 4. -/
theorem C25_hints_never_change_result_witness :
    emplace_hint (natParams .LinearProbing) 4 exThree (liveIt 4) 4 'z'
      = some (exThree, liveIt 4) ∧
    emplace_hint (natParams .LinearProbing) 4 exThree (liveIt 0) 4 'z'
      = some (exThree, liveIt 4) ∧
    (insert_or_assign_hint (natParams .LinearProbing) 4 exThree (liveIt 4) 4 'z').bind
      (fun r => lookup (natParams .LinearProbing) r.1 4) = some 'z' ∧
    setInsertHint (setParams .LinearProbing) 4 exSet (liveIt 0) 4 = some (exSet, liveIt 1) ∧
    ∃ F, ∀ fuel, F ≤ fuel →
      (∃ rh ru, emplace_hint (natParams .LinearProbing) fuel exThree (liveIt 4) 4 'z' = some rh ∧
        insert_hint (natParams .LinearProbing) fuel exThree (liveIt 4) (4, 'z') = some rh ∧
        emplace (natParams .LinearProbing) fuel exThree 4 'z' = some ru ∧
        insert (natParams .LinearProbing) fuel exThree (4, 'z') = some ru ∧
        (∀ key, lookup (natParams .LinearProbing) rh.1 key
          = lookup (natParams .LinearProbing) ru.1 key) ∧
        (∀ key, contains (natParams .LinearProbing) rh.1 key
          = contains (natParams .LinearProbing) ru.1 key) ∧
        rh.1.size = ru.1.size ∧ AtKey (natParams .LinearProbing) rh.1 rh.2 4) ∧
      (∃ rh ru,
        insert_or_assign_hint (natParams .LinearProbing) fuel exThree (liveIt 4) 4 'z'
          = some rh ∧
        insert_or_assign (natParams .LinearProbing) fuel exThree 4 'z' = some ru ∧
        (∀ key, lookup (natParams .LinearProbing) rh.1 key
          = lookup (natParams .LinearProbing) ru.1 key) ∧
        (∀ key, contains (natParams .LinearProbing) rh.1 key
          = contains (natParams .LinearProbing) ru.1 key) ∧
        rh.1.size = ru.1.size ∧ AtKey (natParams .LinearProbing) rh.1 rh.2 4 ∧
        lookup (natParams .LinearProbing) rh.1 4 = some 'z') :=
  ⟨by decide, by decide, by decide, by decide,
    (C25_hints_never_change_result (natParams .LinearProbing) (natParams_lawful _) exThree
      [(8, 'c'), (4, 'b'), (0, 'a')] exThree_reachable (liveIt 4) (Or.inr (by decide))
      4 'z').1⟩

/-! ### What decides `find` -/

/-- C33: in every reachable state, two LIVE slots that hold keys equal under the equality
predicate are the same slot. -/
theorem C33_live_keys_distinct {K V : Type} (c : Params K V) (hc : c.Lawful) (m : HashMap K V)
    (a : List (K × V)) (h : Reachable c m a) (i j : Nat) (bi bj : Bucket K V)
    (hi : slot m.data i = some bi) (hj : slot m.data j = some bj)
    (_hdi : bi.is_deleted = false) (_hdj : bj.is_deleted = false)
    (he : c.equal_fn bi.first bj.first = true) : i = j :=
  slot_unique hc (reachable_agree hc h).inv hi hj he

/-- Witness for C33 on `exThree`, the state after the three inserts of scenario 1 and the
growth to 13 buckets. -/
theorem C33_live_keys_distinct_witness :
    slot exThree.data 4 = some ⟨4, 'b', false⟩ ∧ 4 = 4 :=
  ⟨by decide,
    C33_live_keys_distinct (natParams .LinearProbing) (natParams_lawful _) exThree
      [(8, 'c'), (4, 'b'), (0, 'a')] exThree_reachable 4 4 ⟨4, 'b', false⟩ ⟨4, 'b', false⟩
      (by decide) (by decide) rfl rfl (by decide)⟩

theorem eraseAt_length {K V : Type} (m : HashMap K V) (pos : Iterator)
    (r : HashMap K V × Iterator) (h : eraseAt m pos = some r) :
    r.1.data.length = m.data.length := by
  unfold eraseAt at h
  by_cases he : pos.iterator_end = true
  · rw [if_pos he] at h
    cases h
    rfl
  · rw [if_neg he] at h
    cases hs : slot m.data pos.current with
    | none => rw [hs] at h; cases h
    | some b =>
      rw [hs] at h
      simp only at h
      obtain ⟨it, _, h2⟩ := Option.map_eq_some'.1 h
      rw [← h2]
      show (m.data.set _ _).length = _
      rw [List.length_set]

theorem rehashPost_ge {K V : Type} {c : Params K V} {m m1 : HashMap K V} {n : Nat}
    (hp : RehashPost c m n m1) : n ≤ m1.data.length := by
  by_cases ht : n > m.bucket_count ∨ m.del_count > m.size
  · have := (hp.fresh ht).2
    have := le_max_right m.data.length n
    omega
  · rw [hp.same ht]
    have : ¬ n > m.data.length := fun h => ht (Or.inl h)
    omega

/-- Without wrap-around (`rehash` computed in `Nat`), `bucket_count()` never decreases under
`insert`, `insert_or_assign`, `operator[]`, `erase(key)`, `erase(pos)`, `rehash` and `reserve`
on a reachable table, and after `rehash(n)` or `reserve(n)` it is at least `n`. -/
theorem applyOp_bucket_count {K V : Type} (c : Params K V) (hc : c.Lawful)
    (m : HashMap K V) (a : List (K × V)) (h : Reachable c m a) (op : Op K V) (fuel : Nat)
    (m1 : HashMap K V) (hstep : applyOp c fuel m op = some m1) :
    m.bucket_count ≤ m1.bucket_count ∧
    (∀ n, op = .rehash n → n ≤ m1.bucket_count) ∧
    (∀ n r, reserve c fuel m n = some r →
      m.bucket_count ≤ r.bucket_count ∧ n ≤ r.bucket_count) ∧
    (∀ pos r, eraseAt m pos = some r → r.1.bucket_count = m.bucket_count) := by
  have hI := (reachable_agree hc h).inv
  refine ⟨?_, ?_, ?_, fun pos r hr => eraseAt_length m pos r hr⟩
  · cases op with
    | insert k v =>
      obtain ⟨r, hr, hr1⟩ := Option.map_eq_some'.1 hstep
      obtain ⟨m', hp, hres⟩ := emplace_split hc hI hr
      have h1 := rehashPost_len hp
      have h2 := hres.1.len
      rw [← hr1]
      show m.data.length ≤ r.1.data.length
      omega
    | insert_or_assign k v =>
      obtain ⟨r, hr, hr1⟩ := Option.map_eq_some'.1 hstep
      obtain ⟨m', hp, hres⟩ := insert_or_assign_split hc hI hr
      have h1 := rehashPost_len hp
      have h2 := hres.1.len
      rw [← hr1]
      show m.data.length ≤ r.1.data.length
      omega
    | index k =>
      obtain ⟨r, hr, hr1⟩ := Option.map_eq_some'.1 hstep
      obtain ⟨m', hp, hres⟩ := index_split hc hI hr
      have h1 := rehashPost_len hp
      have h2 := hres.1.len
      rw [← hr1]
      show m.data.length ≤ r.1.data.length
      omega
    | erase k =>
      obtain ⟨r, hr, hr1⟩ := Option.map_eq_some'.1 hstep
      obtain ⟨r2, hr2, hres⟩ := erase_ok hc hI k (max fuel 2) (le_max_right _ _)
      rw [erase_mono c fuel (max fuel 2) (le_max_left _ _) m k r hr] at hr2
      cases hr2
      rw [← hr1]
      show m.data.length ≤ r.1.data.length
      rw [hres.2.2.2.2]
    | rehash n => exact rehashPost_len (rehash_post hc hI hstep)
  · intro n hn
    subst hn
    exact rehashPost_ge (rehash_post hc hI hstep)
  · intro n r hr
    have hp := rehash_post hc hI hr
    exact ⟨rehashPost_len hp, rehashPost_ge hp⟩

/-! ### Linear probing grows at most once per insert -/

theorem emplaceLoop_direct {K V : Type} (c : Params K V) (fuel : Nat) (link : Bucket K V)
    (w w' : Nat) (m : HashMap K V) (h : probeKey c m link.first ≠ .exhausted) :
    emplaceLoop c fuel link (w + 1) m = emplaceLoop c fuel link (w' + 1) m := by
  unfold emplaceLoop
  cases hp : probeKey c m link.first with
  | empty cur => rfl
  | tomb cur => rfl
  | live cur => rfl
  | exhausted => exact absurd hp h

theorem exhausted_blocked {K V : Type} (c : Params K V) (m : HashMap K V) (key : K)
    (h : probeKey c m key = .exhausted) : Blocked c m.data key 0 (m.data.length / 2) := by
  have hsp := probe_spec c m.data key (m.data.length / 2) 0
  rw [probePos_zero] at hsp
  rw [probeKey_eq] at h
  rw [h] at hsp
  simpa using hsp

/-- C39: with LinearProbing, on a reachable table, the `rehash(bucket_count() * 3)` that
`emplace` / `insert` issues on probe-budget exhaustion leaves a table whose LIVE count is
smaller than its probe budget, so the next pass over the probe sequence is not exhausted: a
call that returns has taken the exhaustion branch at most once (two rounds of its loop
suffice). -/
theorem C39_linear_single_growth {K V : Type} (c : Params K V) (hc : c.Lawful)
    (hlin : c.policy = .LinearProbing) (m : HashMap K V) (a : List (K × V))
    (h : Reachable c m a) (k : K) (v : V) :
    (∀ fuel m1 m2, reserve c fuel m (m.size + 1) = some m1 →
      probeKey c m1 k = .exhausted → rehash c fuel m1 (m1.bucket_count * 3) = some m2 →
      m2.size < m2.bucket_count / 2 ∧ probeKey c m2 k ≠ .exhausted) ∧
    (∀ fuel r, emplace c fuel m k v = some r →
      ∃ m1, reserve c fuel m (m.size + 1) = some m1 ∧
        emplaceLoop c fuel { first := k, second := v, is_deleted := false } 2 m1 = some r) := by
  have hI := (reachable_agree hc h).inv
  have part1 : ∀ fuel m1 m2, reserve c fuel m (m.size + 1) = some m1 →
      probeKey c m1 k = .exhausted → rehash c fuel m1 (m1.bucket_count * 3) = some m2 →
      m2.size < m2.bucket_count / 2 ∧ probeKey c m2 k ≠ .exhausted := by
    intro fuel m1 m2 h1 hex h2
    have hp1 := rehash_post hc hI h1
    have hp2 := rehash_post hc hp1.inv h2
    have hpos := hp1.inv.pos
    have htrig : m1.bucket_count * 3 > m1.bucket_count ∨ m1.del_count > m1.size := by
      left
      unfold HashMap.bucket_count
      omega
    obtain ⟨hN2, hlen2⟩ := hp2.fresh htrig
    have hmax : m1.bucket_count * 3 ≤ max m1.data.length (m1.bucket_count * 3) :=
      le_max_right _ _
    have hmax' : m1.data.length * 3 ≤ max m1.data.length (m1.bucket_count * 3) := hmax
    have hcnt := countLive_add_countTomb_le m1.data
    have hel : m2.el_count ≤ m1.data.length := by
      rw [hp2.el, hp1.inv.el]
      omega
    have hsz : m2.size < m2.bucket_count / 2 := by
      show m2.el_count < m2.data.length / 2
      omega
    refine ⟨hsz, ?_⟩
    intro hex2
    have hb := exhausted_blocked c m2 k hex2
    have := blocked_le_count c m2.data k (m2.data.length / 2) hb (by
      intro s hs
      rw [hlin]
      show s < m2.data.length
      have := Nat.div_le_self m2.data.length 2
      omega)
    rw [countTomb_noTomb hN2, ← hp2.inv.el] at this
    have hsz' : m2.el_count < m2.data.length / 2 := hsz
    omega
  refine ⟨part1, ?_⟩
  intro fuel r hr
  unfold emplace at hr
  obtain ⟨m1, h1, h2⟩ := Option.bind_eq_some.1 hr
  refine ⟨m1, h1, ?_⟩
  cases fuel with
  | zero => cases h2
  | succ w =>
    by_cases hex : probeKey c m1 k = .exhausted
    · unfold emplaceLoop at h2 ⊢
      have hex' : probeKey c m1
          ({ first := k, second := v, is_deleted := false } : Bucket K V).first
          = .exhausted := hex
      rw [hex'] at h2 ⊢
      simp only at h2 ⊢
      obtain ⟨m2, h3, h4⟩ := Option.bind_eq_some.1 h2
      rw [h3]
      simp only [Option.some_bind]
      cases w with
      | zero => cases h4
      | succ w' =>
        have hne := (part1 (w' + 1 + 1) m1 m2 h1 hex h3).2
        rw [emplaceLoop_direct c _ _ 0 w' m2 hne]
        exact h4
    · rw [emplaceLoop_direct c _ _ 1 w m1 hex]
      exact h2

/-- Witness for C39: the insert of key 8 into `exTwo` (4 buckets, linear probing) exhausts the
budget once, and the rehashed table `exThree` has 3 LIVE slots against a budget of 6. -/
theorem C39_linear_single_growth_witness :
    probeKey (natParams .LinearProbing) exTwo 8 = .exhausted ∧
    rehash (natParams .LinearProbing) 8 exTwo (exTwo.bucket_count * 3)
      = some ⟨[some ⟨0, 'a', false⟩, none, none, none, some ⟨4, 'b', false⟩, none, none, none,
          none, none, none, none, none], 2, 0⟩ ∧
    emplace (natParams .LinearProbing) 8 exTwo 8 'c' = some (exThree, liveIt 8, true) ∧
    ∀ fuel r, emplace (natParams .LinearProbing) fuel exTwo 8 'c' = some r →
      ∃ m1, reserve (natParams .LinearProbing) fuel exTwo (exTwo.size + 1) = some m1 ∧
        emplaceLoop (natParams .LinearProbing) fuel
          { first := 8, second := 'c', is_deleted := false } 2 m1 = some r :=
  ⟨by decide, by decide, by decide,
    (C39_linear_single_growth (natParams .LinearProbing) (natParams_lawful _) rfl exTwo
      [(4, 'b'), (0, 'a')] exTwo_reachable 8 'c').2⟩

/-! ### An insert without rehash touches one slot -/

theorem setRehash_same {K : Type} (c : Params K Unit) (fuel : Nat) (m : HashSet K) (n : Nat)
    (h : ¬(n > m.bucket_count ∨ m.del_count > m.size)) : setRehash c fuel m n = some m := by
  cases fuel with
  | zero => unfold setRehash; rw [if_neg h]
  | succ f => unfold setRehash; rw [if_neg h]

theorem slot_moveAssign {K V : Type} (m : HashMap K V) (i : Nat) :
    (slot m.data i = none → slot (moveAssign m).data i = none) ∧
    (∀ b, slot m.data i = some b →
      slot (moveAssign m).data i = if b.is_deleted = true then none else some b) := by
  unfold slot moveAssign
  simp only [List.getD_eq_getElem?_getD, List.getElem?_map]
  cases h : m.data[i]? with
  | none => simp
  | some x =>
    cases x with
    | none => simp
    | some b => cases hb : b.is_deleted <;> simp [hb]

/-- In a reachable state the counters are the numbers of LIVE and of TOMBSTONE slots. -/
theorem reachable_counts {K V : Type} {c : Params K V} (hc : c.Lawful) {m : HashMap K V}
    {a : List (K × V)} (h : Reachable c m a) :
    m.el_count = countLive m.data ∧ m.del_count = countTomb m.data :=
  ⟨(reachable_agree hc h).inv.el, (reachable_agree hc h).inv.del⟩

/-- Move construction and move assignment keep the counters exact: the LIVE slots are moved,
the TOMBSTONE slots are dropped and `del_count` is reset. -/
theorem moveAssign_counts {K V : Type} (m : HashMap K V) (h : m.el_count = countLive m.data) :
    (moveAssign m).el_count = countLive (moveAssign m).data ∧
    (moveAssign m).del_count = countTomb (moveAssign m).data := by
  have hl : ∀ i, isLive (moveAssign m).data i = isLive m.data i := by
    intro i
    unfold isLive
    cases hs : slot m.data i with
    | none => rw [(slot_moveAssign m i).1 hs]
    | some b =>
      rw [(slot_moveAssign m i).2 b hs]
      cases hd : b.is_deleted <;> simp [hd]
  have ht : ∀ i, isTomb (moveAssign m).data i = false := by
    intro i
    unfold isTomb
    cases hs : slot m.data i with
    | none => rw [(slot_moveAssign m i).1 hs]
    | some b =>
      rw [(slot_moveAssign m i).2 b hs]
      cases hd : b.is_deleted <;> simp [hd]
  constructor
  · show m.el_count = _
    rw [h]
    unfold countLive countLiveBelow
    rw [moveAssign_length]
    congr 1
    apply Finset.filter_congr
    intro i _
    rw [hl i]
  · show 0 = _
    symm
    unfold countTomb
    rw [Finset.card_eq_zero, Finset.filter_eq_empty_iff]
    intro i _ hi
    rw [ht i] at hi
    cases hi

/-- C34 (divergence of the code): the counters are exact in the reachable state `exTomb` (one
LIVE slot, one TOMBSTONE) and stay exact under move construction and move assignment, but
the copy constructor and copy assignment copy `del_count` without the TOMBSTONE slots: the
copy `exCopy` has `del_count == 1` and no TOMBSTONE slot. -/
theorem C34_copy_keeps_tomb_count :
    Reachable (natParams .LinearProbing) exTomb [(4, 'b')] ∧
    exTomb.el_count = countLive exTomb.data ∧ exTomb.del_count = countTomb exTomb.data ∧
    (moveAssign exTomb).el_count = countLive (moveAssign exTomb).data ∧
    (moveAssign exTomb).del_count = countTomb (moveAssign exTomb).data ∧
    copyConstruct exTomb = some exCopy ∧
    copyAssign (HashMap.new 0) exTomb = some exCopy ∧
    exCopy.el_count = countLive exCopy.data ∧
    exCopy.del_count = 1 ∧ countTomb exCopy.data = 0 ∧
    exCopy.del_count ≠ countTomb exCopy.data :=
  have h := reachable_counts (natParams_lawful .LinearProbing) exTomb_reachable
  have hm := moveAssign_counts exTomb h.1
  ⟨exTomb_reachable, h.1, h.2, hm.1, hm.2, by decide, by decide, by decide, by decide,
    by decide, by decide⟩

/-! ### Traversal from an iterator that `find` returned -/

theorem liveBetween_ge {K V : Type} (data : List (Option (Bucket K V))) (a b : Nat)
    (h : b ≤ a) : liveBetween data a b = [] := by
  unfold liveBetween
  rw [show b - a = 0 by omega]
  rfl

theorem liveBetween_step {K V : Type} (data : List (Option (Bucket K V))) (a b : Nat)
    (h : a < b) :
    liveBetween data a b = if isLive data a = true then a :: liveBetween data (a + 1) b
      else liveBetween data (a + 1) b := by
  unfold liveBetween
  rw [show b - a = (b - (a + 1)) + 1 by omega, List.range'_succ, List.filter_cons]

theorem liveBetween_cons {K V : Type} (data : List (Option (Bucket K V))) (n : Nat) :
    ∀ (a b q : Nat) (rest : List Nat), b - a ≤ n → liveBetween data a b = q :: rest →
      a ≤ q ∧ q < b ∧ isLive data q = true ∧ rest = liveBetween data (q + 1) b := by
  induction n with
  | zero =>
    intro a b q rest hn h
    rw [liveBetween_ge data a b (by omega)] at h
    cases h
  | succ n ih =>
    intro a b q rest hn h
    by_cases hab : a < b
    · rw [liveBetween_step data a b hab] at h
      by_cases hl : isLive data a = true
      · rw [if_pos hl] at h
        cases h
        exact ⟨le_refl _, hab, hl, rfl⟩
      · rw [if_neg hl] at h
        obtain ⟨h1, h2, h3, h4⟩ := ih (a + 1) b q rest (by omega) h
        exact ⟨by omega, h2, h3, h4⟩
    · rw [liveBetween_ge data a b (by omega)] at h
      cases h

theorem liveFrom_eq_between {K V : Type} (data : List (Option (Bucket K V))) (p : Nat) :
    liveFrom data p = liveBetween data p data.length := rfl

theorem liveBetween_append {K V : Type} (data : List (Option (Bucket K V))) (a b d : Nat)
    (hab : a ≤ b) (hbd : b ≤ d) :
    liveBetween data a b ++ liveBetween data b d = liveBetween data a d := by
  unfold liveBetween
  rw [← List.filter_append]
  congr 1
  have := List.range'_append_1 a (b - a) (d - b)
  rw [show a + (b - a) = b by omega, show d - b + (b - a) = d - a by omega] at this
  exact this

/-- The increment loop after the scan has wrapped: the next LIVE slot below the starting
position, or the end. -/
theorem incLoop_between {K V : Type} (data : List (Option (Bucket K V))) (sp : Nat)
    (hsp : sp < data.length) (fuel : Nat) :
    ∀ cur, cur < sp → sp ≤ cur + fuel →
      Iterator.incLoop data sp fuel cur
        = some ((liveBetween data (cur + 1) sp).head?.getD sp,
            (liveBetween data (cur + 1) sp).isEmpty) := by
  induction fuel with
  | zero => intro cur h1 h2; omega
  | succ fuel ih =>
    intro cur h1 h2
    unfold Iterator.incLoop
    simp only
    rw [Nat.mod_eq_of_lt (show cur + 1 < data.length by omega)]
    by_cases he : cur + 1 = sp
    · rw [if_pos he, liveBetween_ge data (cur + 1) sp (by omega), he]
      rfl
    · rw [if_neg he, liveBetween_step data (cur + 1) sp (by omega)]
      by_cases hl : isLive data (cur + 1) = true
      · rw [if_pos hl, if_pos hl]
        rfl
      · rw [if_neg hl, if_neg hl]
        exact ih (cur + 1) (by omega) (by omega)

/-- The increment loop before the scan has wrapped: the next LIVE slot above the current one,
or else the first LIVE slot below the starting position, or the end. -/
theorem incLoop_wrap {K V : Type} (data : List (Option (Bucket K V))) (sp : Nat) (fuel : Nat) :
    ∀ cur, sp ≤ cur → cur < data.length → data.length - cur + sp ≤ fuel →
      Iterator.incLoop data sp fuel cur
        = some ((liveFrom data (cur + 1) ++ liveBetween data 0 sp).head?.getD sp,
            (liveFrom data (cur + 1) ++ liveBetween data 0 sp).isEmpty) := by
  induction fuel with
  | zero => intro cur h1 h2 h3; omega
  | succ fuel ih =>
    intro cur h1 h2 h3
    unfold Iterator.incLoop
    simp only
    by_cases he : cur + 1 = data.length
    · rw [show (cur + 1) % data.length = 0 by rw [he, Nat.mod_self],
        liveFrom_ge data (cur + 1) (by omega), List.nil_append]
      by_cases h0 : 0 = sp
      · rw [if_pos h0, ← h0, liveBetween_ge data 0 0 (le_refl _)]
        rfl
      · rw [if_neg h0, liveBetween_step data 0 sp (by omega)]
        by_cases hl : isLive data 0 = true
        · rw [if_pos hl, if_pos hl]
          rfl
        · rw [if_neg hl, if_neg hl]
          exact incLoop_between data sp (by omega) fuel 0 (by omega) (by omega)
    · rw [Nat.mod_eq_of_lt (show cur + 1 < data.length by omega),
        if_neg (show ¬cur + 1 = sp by omega), liveFrom_step data (cur + 1) (by omega)]
      by_cases hl : isLive data (cur + 1) = true
      · rw [if_pos hl, if_pos hl]
        rfl
      · rw [if_neg hl, if_neg hl]
        exact ih (cur + 1) (by omega) (by omega) (by omega)

/-- Advancing an iterator whose scan started at `sp` moves it to the next slot of the cyclic
order, or to the end. -/
theorem next_cyc {K V : Type} (data : List (Option (Bucket K V))) (sp q : Nat)
    (hsp : sp < data.length) (hq : q < data.length) :
    Iterator.next data ⟨q, sp, false, [], false⟩ = some (itCyc sp (cycRest data sp q)) := by
  have hinc : Iterator.incLoop data sp data.length q
      = some ((cycRest data sp q).head?.getD sp, (cycRest data sp q).isEmpty) := by
    unfold cycRest
    by_cases h : sp ≤ q
    · rw [if_pos h]
      exact incLoop_wrap data sp data.length q h hq (by omega)
    · rw [if_neg h]
      exact incLoop_between data sp hsp data.length q (by omega) (by omega)
  unfold Iterator.next
  simp only [Bool.false_eq_true, if_false]
  rw [hinc]
  cases cycRest data sp q <;> rfl

theorem cycRest_cons {K V : Type} (data : List (Option (Bucket K V))) (sp q q1 : Nat)
    (rest : List Nat) (hsp : sp < data.length)
    (h : cycRest data sp q = q1 :: rest) :
    q1 < data.length ∧ isLive data q1 = true ∧ rest = cycRest data sp q1 := by
  unfold cycRest at h
  by_cases hq : sp ≤ q
  · rw [if_pos hq] at h
    cases hl : liveFrom data (q + 1) with
    | nil =>
      rw [hl, List.nil_append] at h
      obtain ⟨_, h2, h3, h4⟩ := liveBetween_cons data _ 0 sp q1 rest (le_refl _) h
      refine ⟨by omega, h3, ?_⟩
      unfold cycRest
      rw [if_neg (by omega)]
      exact h4
    | cons x xs =>
      rw [hl, List.cons_append] at h
      cases h
      obtain ⟨h1, h2, h3, h4⟩ := liveFrom_cons data _ (q + 1) q1 xs (le_refl _) hl
      refine ⟨h2, h3, ?_⟩
      unfold cycRest
      rw [if_pos (by omega), h4]
  · rw [if_neg hq] at h
    obtain ⟨_, h2, h3, h4⟩ := liveBetween_cons data _ (q + 1) sp q1 rest (le_refl _) h
    refine ⟨by omega, h3, ?_⟩
    unfold cycRest
    rw [if_neg (by omega)]
    exact h4

theorem traverseLoop_cyc {K V : Type} (data : List (Option (Bucket K V))) (sp : Nat)
    (hsp : sp < data.length) (l : List Nat) :
    ∀ (q f : Nat), q < data.length → cycRest data sp q = l → l.length + 1 < f →
      traverseLoop data f ⟨q, sp, false, [], false⟩ = some (q :: l) := by
  induction l with
  | nil =>
    intro q f hq hl hf
    obtain ⟨f1, rfl⟩ : ∃ f1, f = f1 + 1 + 1 := ⟨f - 2, by simp at hf; omega⟩
    unfold traverseLoop
    simp only [Bool.false_eq_true, if_false]
    rw [next_cyc data sp q hsp hq, hl]
    rfl
  | cons q1 rest ih =>
    intro q f hq hl hf
    obtain ⟨f1, rfl⟩ : ∃ f1, f = f1 + 1 := ⟨f - 1, by omega⟩
    obtain ⟨h1, _, h3⟩ := cycRest_cons data sp q q1 rest hsp hl
    unfold traverseLoop
    simp only [Bool.false_eq_true, if_false]
    rw [next_cyc data sp q hsp hq, hl]
    show (traverseLoop data f1 ⟨q1, sp, false, [], false⟩).map _ = _
    rw [ih q1 f1 h1 h3.symm (by simpa using hf)]
    rfl

/-- The slots in cyclic order from a LIVE slot `i` are the LIVE slots, each once. -/
theorem cyc_perm {K V : Type} (data : List (Option (Bucket K V))) (i : Nat)
    (hi : isLive data i = true) :
    (i :: cycRest data i i).Perm (liveFrom data 0) := by
  have hlt : i < data.length := by
    obtain ⟨b, hb, _⟩ := (isLive_iff data i).1 hi
    exact slot_some_lt hb
  have h1 : liveFrom data 0 = liveBetween data 0 i ++ liveFrom data i := by
    rw [liveFrom_eq_between, liveFrom_eq_between,
      liveBetween_append data 0 i data.length (Nat.zero_le _) (by omega)]
  have h2 : liveFrom data i = i :: liveFrom data (i + 1) := by
    rw [liveFrom_step data i hlt, if_pos hi]
  have h3 : cycRest data i i = liveFrom data (i + 1) ++ liveBetween data 0 i := by
    unfold cycRest
    rw [if_pos (le_refl _)]
  rw [h1, h2, h3]
  exact @List.perm_append_comm _ (i :: liveFrom data (i + 1)) (liveBetween data 0 i)

/-- Traversal from the iterator at a LIVE slot of a table with exact counters. -/
theorem traverse_from_live {K V : Type} {c : Params K V} {m : HashMap K V} (hI : Inv c m)
    (i : Nat) (hi : isLive m.data i = true) :
    traverseLoop m.data (m.bucket_count + 1) (liveIt i) = some (i :: cycRest m.data i i) ∧
    (i :: cycRest m.data i i).length = m.size ∧
    (i :: cycRest m.data i i).Nodup ∧
    ∀ j, j ∈ i :: cycRest m.data i i ↔ isLive m.data j = true := by
  have hlt : i < m.data.length := by
    obtain ⟨b, hb, _⟩ := (isLive_iff m.data i).1 hi
    exact slot_some_lt hb
  have hperm := cyc_perm m.data i hi
  have hlen : (i :: cycRest m.data i i).length = m.size := by
    rw [hperm.length_eq, liveFrom_zero_length]
    exact hI.el.symm
  have hle := countLive_add_countTomb_le m.data
  refine ⟨?_, hlen, ?_, ?_⟩
  · apply traverseLoop_cyc m.data i hlt _ i _ hlt rfl
    have h1 : (cycRest m.data i i).length + 1 = m.size := hlen
    have h2 : m.size = countLive m.data := hI.el
    unfold HashMap.bucket_count
    omega
  · rw [hperm.nodup_iff]
    unfold liveFrom
    exact List.Nodup.filter _ (List.nodup_range' _ _)
  · intro j
    rw [hperm.mem_iff, liveFrom_mem]
    constructor
    · rintro ⟨_, _, h⟩
      exact h
    · intro h
      obtain ⟨b, hb, _⟩ := (isLive_iff m.data j).1 h
      exact ⟨Nat.zero_le _, slot_some_lt hb, h⟩

/-- C38: on a reachable table, for a present key `k` held in the LIVE slot `i`, `find(k)` is
the iterator at `i` with starting position `i`; iterating it until `end()` visits `i`, then
the LIVE slots above `i` in increasing order, then, wrapping from the last bucket to
bucket 0, the LIVE slots below `i`, and ends: every LIVE slot exactly once, `size()` slots in
all. The iterator that `insert` returns behaves the same on the table it leaves. -/
theorem C38_find_iterator_wraps {K V : Type} (c : Params K V) (hc : c.Lawful)
    (m : HashMap K V) (a : List (K × V)) (h : Reachable c m a) (k : K) (i : Nat)
    (b : Bucket K V) (hs : slot m.data i = some b) (hd : b.is_deleted = false)
    (he : c.equal_fn b.first k = true) :
    find c m k = some (liveIt i) ∧ (liveIt i).starting_pos = i ∧
    traverseLoop m.data (m.bucket_count + 1) (liveIt i)
      = some (i :: (liveFrom m.data (i + 1) ++ liveBetween m.data 0 i)) ∧
    (i :: (liveFrom m.data (i + 1) ++ liveBetween m.data 0 i)).length = m.size ∧
    (i :: (liveFrom m.data (i + 1) ++ liveBetween m.data 0 i)).Nodup ∧
    (∀ j, j ∈ i :: (liveFrom m.data (i + 1) ++ liveBetween m.data 0 i)
      ↔ isLive m.data j = true) ∧
    (∀ fuel v r, insert c fuel m (k, v) = some r →
      ∃ j l, r.2.1 = liveIt j ∧
        traverseLoop r.1.data (r.1.bucket_count + 1) r.2.1 = some l ∧
        l.length = r.1.size ∧ l.Nodup ∧ ∀ x, x ∈ l ↔ isLive r.1.data x = true) := by
  have hI := (reachable_agree hc h).inv
  have hi : isLive m.data i = true := (isLive_iff _ _).2 ⟨b, hs, hd⟩
  have h3 : cycRest m.data i i = liveFrom m.data (i + 1) ++ liveBetween m.data 0 i := by
    unfold cycRest
    rw [if_pos (le_refl _)]
  obtain ⟨t1, t2, t3, t4⟩ := traverse_from_live hI i hi
  rw [h3] at t1 t2 t3 t4
  refine ⟨find_live hc hI hs he hd, rfl, t1, t2, t3, t4, ?_⟩
  intro fuel v r hr
  obtain ⟨m1, _, ⟨hpost, ⟨j, b1, e1, e2, e3, _⟩, _⟩⟩ := emplace_split hc hI hr
  have hj : isLive r.1.data j = true := (isLive_iff _ _).2 ⟨b1, e2, e3⟩
  obtain ⟨u1, u2, u3, u4⟩ := traverse_from_live hpost.inv j hj
  refine ⟨j, _, e1, ?_, u2, u3, u4⟩
  rw [e1]
  exact u1

/-- Witness for C38 on `exThree` (LIVE slots 0, 4, 8 of 13): the iterator `find(4)` visits the
slots 4, 8 and then, after wrapping, 0. -/
theorem C38_find_iterator_wraps_witness :
    traverseLoop exThree.data 14 (liveIt 4) = some [4, 8, 0] ∧
    find (natParams .LinearProbing) exThree 4 = some (liveIt 4) ∧
    traverseLoop exThree.data (exThree.bucket_count + 1) (liveIt 4)
      = some (4 :: (liveFrom exThree.data (4 + 1) ++ liveBetween exThree.data 0 4)) ∧
    (4 :: (liveFrom exThree.data (4 + 1) ++ liveBetween exThree.data 0 4)).length
      = exThree.size :=
  have h := C38_find_iterator_wraps (natParams .LinearProbing) (natParams_lawful _) exThree
    [(8, 'c'), (4, 'b'), (0, 'a')] exThree_reachable 4 4 ⟨4, 'b', false⟩ (by decide) rfl
    (by decide)
  ⟨by decide, h.1, h.2.2.1, h.2.2.2.1⟩

/-! ## The set and the map run the same table algorithm

### Slots in the same state -/

theorem setOf_lawful {K V : Type} {c : Params K V} (hc : c.Lawful) : (setOf c).Lawful :=
  ⟨hc.refl, hc.symm, hc.trans, hc.hash_eq⟩

theorem slotSim_none {K V : Type} (c : Params K V) :
    SlotSim c (none : Option (Bucket K Unit)) (none : Option (Bucket K V)) := trivial

theorem slotSim_some {K V : Type} (c : Params K V) (a : Bucket K Unit) (b : Bucket K V)
    (he : c.equal_fn a.first b.first = true) (hd : a.is_deleted = b.is_deleted) :
    SlotSim c (some a) (some b) := ⟨he, hd⟩

theorem slotSim_left_none {K V : Type} {c : Params K V} {y : Option (Bucket K V)}
    (h : SlotSim c none y) : y = none := by
  cases y with
  | none => rfl
  | some b => exact h.elim

theorem slotSim_left_some {K V : Type} {c : Params K V} {a : Bucket K Unit}
    {y : Option (Bucket K V)} (h : SlotSim c (some a) y) :
    ∃ b, y = some b ∧ c.equal_fn a.first b.first = true ∧ a.is_deleted = b.is_deleted := by
  cases y with
  | none => exact h.elim
  | some b => exact ⟨b, rfl, h.1, h.2⟩

theorem slotSim_right_none {K V : Type} {c : Params K V} {x : Option (Bucket K Unit)}
    (h : SlotSim c x (none : Option (Bucket K V))) : x = none := by
  cases x with
  | none => rfl
  | some a => exact h.elim

theorem slotSim_right_some {K V : Type} {c : Params K V} {x : Option (Bucket K Unit)}
    {b : Bucket K V} (h : SlotSim c x (some b)) :
    ∃ a, x = some a ∧ c.equal_fn a.first b.first = true ∧ a.is_deleted = b.is_deleted := by
  cases x with
  | none => exact h.elim
  | some a => exact ⟨a, rfl, h.1, h.2⟩

theorem isLive_sim {K V : Type} {c : Params K V} {ds : List (Option (Bucket K Unit))}
    {dm : List (Option (Bucket K V))} (h : DataSim c ds dm) (i : Nat) :
    isLive ds i = isLive dm i := by
  have hs := h.2 i
  unfold isLive
  cases hx : slot ds i with
  | none =>
    rw [hx] at hs
    rw [slotSim_left_none hs]
  | some a =>
    rw [hx] at hs
    obtain ⟨b, hb, _, hd⟩ := slotSim_left_some hs
    rw [hb]
    simp only
    rw [hd]

theorem slot_set_ge {K V : Type} (data : List (Option (Bucket K V))) (i : Nat)
    (x : Option (Bucket K V)) (h : data.length ≤ i) : data.set i x = data :=
  List.set_eq_of_length_le h

theorem dataSim_set {K V : Type} {c : Params K V} {ds : List (Option (Bucket K Unit))}
    {dm : List (Option (Bucket K V))} (h : DataSim c ds dm) (i : Nat)
    {x : Option (Bucket K Unit)} {y : Option (Bucket K V)} (hxy : SlotSim c x y) :
    DataSim c (ds.set i x) (dm.set i y) := by
  refine ⟨by rw [List.length_set, List.length_set]; exact h.1, ?_⟩
  intro j
  by_cases hi : i < ds.length
  · by_cases hj : i = j
    · subst hj
      rw [slot_set_self _ _ _ hi, slot_set_self _ _ _ (by rw [← h.1]; exact hi)]
      exact hxy
    · rw [slot_set_other _ _ _ _ hj, slot_set_other _ _ _ _ hj]
      exact h.2 j
  · rw [slot_set_ge ds i x (by omega), slot_set_ge dm i y (by rw [← h.1]; omega)]
    exact h.2 j

/-- Replacing a slot of the map by a bucket in the same state as the set's. -/
theorem dataSim_set_right {K V : Type} {c : Params K V} {ds : List (Option (Bucket K Unit))}
    {dm : List (Option (Bucket K V))} (h : DataSim c ds dm) (i : Nat)
    {y : Option (Bucket K V)} (hxy : SlotSim c (slot ds i) y) :
    DataSim c ds (dm.set i y) := by
  refine ⟨by rw [List.length_set]; exact h.1, ?_⟩
  intro j
  by_cases hi : i < dm.length
  · by_cases hj : i = j
    · subst hj
      rw [slot_set_self _ _ _ hi]
      exact hxy
    · rw [slot_set_other _ _ _ _ hj]
      exact h.2 j
  · rw [slot_set_ge dm i y (by omega)]
    exact h.2 j

/-! ### Iterators depend on the states of the slots only -/

theorem ctorLoop_congr {V1 V2 K : Type} (d1 : List (Option (Bucket K V1)))
    (d2 : List (Option (Bucket K V2))) (hlen : d1.length = d2.length)
    (hl : ∀ i, isLive d1 i = isLive d2 i) (sp fuel : Nat) :
    ∀ cur, Iterator.ctorLoop d1 sp fuel cur = Iterator.ctorLoop d2 sp fuel cur := by
  induction fuel with
  | zero =>
    intro cur
    unfold Iterator.ctorLoop
    rw [hl cur]
  | succ fuel ih =>
    intro cur
    unfold Iterator.ctorLoop
    rw [hl cur, hlen]
    simp only
    rw [ih]

theorem ofIndex_congr {V1 V2 K : Type} (d1 : List (Option (Bucket K V1)))
    (d2 : List (Option (Bucket K V2))) (hlen : d1.length = d2.length)
    (hl : ∀ i, isLive d1 i = isLive d2 i) (ind : Nat) :
    Iterator.ofIndex d1 ind = Iterator.ofIndex d2 ind := by
  unfold Iterator.ofIndex
  rw [hlen, ctorLoop_congr d1 d2 hlen hl]

theorem incLoop_live_congr {V1 V2 K : Type} (d1 : List (Option (Bucket K V1)))
    (d2 : List (Option (Bucket K V2))) (hlen : d1.length = d2.length)
    (hl : ∀ i, isLive d1 i = isLive d2 i) (sp fuel : Nat) :
    ∀ cur, Iterator.incLoop d1 sp fuel cur = Iterator.incLoop d2 sp fuel cur := by
  induction fuel with
  | zero => intro cur; rfl
  | succ fuel ih =>
    intro cur
    unfold Iterator.incLoop
    simp only
    rw [hlen, hl, ih]

theorem next_congr {V1 V2 K : Type} (d1 : List (Option (Bucket K V1)))
    (d2 : List (Option (Bucket K V2))) (hlen : d1.length = d2.length)
    (hl : ∀ i, isLive d1 i = isLive d2 i) (it : Iterator) :
    Iterator.next d1 it = Iterator.next d2 it := by
  unfold Iterator.next
  rw [hlen, incLoop_live_congr d1 d2 hlen hl]

theorem next_unordered {K V : Type} (data : List (Option (Bucket K V))) (it it1 : Iterator)
    (ho : it.is_ordered = false) (he : it.iterator_end = false)
    (h : Iterator.next data it = some it1) :
    it1.is_ordered = false ∧ (it1.iterator_end = false → isLive data it1.current = true) := by
  unfold Iterator.next at h
  rw [he, ho] at h
  simp only [Bool.false_eq_true, if_false] at h
  obtain ⟨r, hr, hr1⟩ := Option.map_eq_some'.1 h
  subst hr1
  refine ⟨rfl, ?_⟩
  intro hend
  obtain ⟨q, e⟩ := r
  simp only at hend
  subst hend
  exact incLoop_live data _ _ _ q hr

/-! ### Probing and lookup -/

theorem equal_fn_congr2 {K V : Type} (c : Params K V) (hc : c.Lawful) (a b k1 k2 : K)
    (hab : c.equal_fn a b = true) (hk : c.equal_fn k1 k2 = true) :
    c.equal_fn a k1 = c.equal_fn b k2 := by
  rw [equal_fn_congr_right c hc a k1 k2 hk]
  cases h1 : c.equal_fn a k2 <;> cases h2 : c.equal_fn b k2 <;> try rfl
  · have := hc.trans a b k2 hab h2
    rw [h1] at this; cases this
  · have := hc.trans b a k2 (hc.symm _ _ hab) h1
    rw [h2] at this; cases this

theorem probe_sim {K V : Type} {c : Params K V} (hc : c.Lawful)
    {ds : List (Option (Bucket K Unit))} {dm : List (Option (Bucket K V))}
    (h : DataSim c ds dm) (k1 k2 : K) (hk : c.equal_fn k1 k2 = true) (ind : Nat) (n : Nat) :
    ∀ cur ps, probe (setOf c) ds k1 ind n cur ps = probe c dm k2 ind n cur ps := by
  induction n with
  | zero => intro cur ps; rfl
  | succ n ih =>
    intro cur ps
    unfold probe
    have hs := h.2 cur
    cases hx : slot ds cur with
    | none =>
      rw [hx] at hs
      rw [slotSim_left_none hs]
    | some a =>
      rw [hx] at hs
      obtain ⟨b, hb, he, hd⟩ := slotSim_left_some hs
      rw [hb]
      simp only
      have he2 : (setOf c).equal_fn a.first k1 = c.equal_fn b.first k2 :=
        equal_fn_congr2 c hc _ _ _ _ he hk
      rw [he2, hd, h.1]
      have hp : (setOf c).policy = c.policy := rfl
      rw [hp, ih]

theorem probeKey_sim {K V : Type} {c : Params K V} (hc : c.Lawful) {s : HashSet K}
    {m : HashMap K V} (h : Sim c s m) (k1 k2 : K) (hk : c.equal_fn k1 k2 = true) :
    probeKey (setOf c) s k1 = probeKey c m k2 := by
  unfold probeKey bucket HashMap.bucket_count
  have hh : (setOf c).hash_fn k1 = c.hash_fn k2 := hc.hash_eq k1 k2 hk
  have hp : (setOf c).policy = c.policy := rfl
  rw [hh, hp, h.data.1]
  exact probe_sim hc h.data k1 k2 hk _ _ _ _

theorem findLoop_sim {K V : Type} {c : Params K V} (hc : c.Lawful)
    {ds : List (Option (Bucket K Unit))} {dm : List (Option (Bucket K V))}
    (h : DataSim c ds dm) (k : K) (ind : Nat) (n : Nat) :
    ∀ cur ps, findLoop (setOf c) ds k ind n cur ps = findLoop c dm k ind n cur ps := by
  induction n with
  | zero => intro cur ps; rfl
  | succ n ih =>
    intro cur ps
    unfold findLoop
    have hs := h.2 cur
    cases hx : slot ds cur with
    | none =>
      rw [hx] at hs
      rw [slotSim_left_none hs]
    | some a =>
      rw [hx] at hs
      obtain ⟨b, hb, he, hd⟩ := slotSim_left_some hs
      rw [hb]
      simp only
      have he2 : (setOf c).equal_fn a.first k = c.equal_fn b.first k :=
        equal_fn_congr2 c hc _ _ _ _ he (hc.refl k)
      rw [he2, hd, h.1, ofIndex_congr ds dm h.1 (isLive_sim h)]
      have hp : (setOf c).policy = c.policy := rfl
      rw [hp, ih]

/-- The set and the map find the same keys, at the same slots. -/
theorem find_sim {K V : Type} {c : Params K V} (hc : c.Lawful) {s : HashSet K}
    {m : HashMap K V} (h : Sim c s m) (k : K) : find (setOf c) s k = find c m k := by
  unfold find bucket HashMap.bucket_count
  have hh : (setOf c).hash_fn k = c.hash_fn k := rfl
  have hp : (setOf c).policy = c.policy := rfl
  rw [hh, hp, h.data.1]
  exact findLoop_sim hc h.data k _ _ _ _

/-! ### Construction, move assignment, erase -/

theorem sim_new {K V : Type} (c : Params K V) (n : Nat) :
    Sim c (HashMap.new n : HashSet K) (HashMap.new n : HashMap K V) := by
  refine ⟨⟨by simp [HashMap.new], ?_⟩, rfl, rfl⟩
  intro i
  rw [slot_new, slot_new]
  exact slotSim_none c

theorem sim_moveAssign {K V : Type} {c : Params K V} {s : HashSet K} {m : HashMap K V}
    (h : Sim c s m) : Sim c (moveAssign s) (moveAssign m) := by
  refine ⟨⟨by rw [moveAssign_length, moveAssign_length]; exact h.data.1, ?_⟩, h.el, rfl⟩
  intro i
  have hs := h.data.2 i
  cases hx : slot s.data i with
  | none =>
    rw [hx] at hs
    rw [(slot_moveAssign s i).1 hx, (slot_moveAssign m i).1 (slotSim_left_none hs)]
    exact slotSim_none c
  | some a =>
    rw [hx] at hs
    obtain ⟨b, hb, he, hd⟩ := slotSim_left_some hs
    rw [(slot_moveAssign s i).2 a hx, (slot_moveAssign m i).2 b hb, hd]
    by_cases hdb : b.is_deleted = true
    · rw [if_pos hdb, if_pos hdb]
      exact slotSim_none c
    · rw [if_neg hdb, if_neg hdb]
      exact slotSim_some c a b he hd

theorem eraseAt_sim {K V : Type} {c : Params K V} {s : HashSet K} {m : HashMap K V}
    (h : Sim c s m) (pos : Iterator) :
    OptRel (fun r r1 => Sim c r.1 r1.1 ∧ r.2 = r1.2) (eraseAt s pos) (eraseAt m pos) := by
  unfold eraseAt
  by_cases he : pos.iterator_end = true
  · rw [if_pos he, if_pos he]
    exact ⟨h, rfl⟩
  · rw [if_neg he, if_neg he]
    have hs := h.data.2 pos.current
    cases hx : slot s.data pos.current with
    | none =>
      rw [hx] at hs
      rw [slotSim_left_none hs]
      trivial
    | some a =>
      rw [hx] at hs
      obtain ⟨b, hb, hab, hd⟩ := slotSim_left_some hs
      rw [hb]
      simp only
      have hds : DataSim c (s.data.set pos.current (some { a with is_deleted := true }))
          (m.data.set pos.current (some { b with is_deleted := true })) :=
        dataSim_set h.data _ (slotSim_some c _ _ hab rfl)
      rw [next_congr _ _ hds.1 (isLive_sim hds)]
      cases Iterator.next (m.data.set pos.current (some { b with is_deleted := true }))
          pos.copy with
      | none => trivial
      | some it =>
        refine ⟨⟨hds, ?_, ?_⟩, rfl⟩
        · show s.el_count - 1 = m.el_count - 1
          rw [h.el]
        · show s.del_count + 1 = m.del_count + 1
          rw [h.del]

theorem eraseLoop_sim {K V : Type} {c : Params K V} (hc : c.Lawful) (k : K) (f : Nat) :
    ∀ (s : HashSet K) (m : HashMap K V) (n : Nat), Sim c s m →
      OptRel (fun r r1 => Sim c r.1 r1.1 ∧ r.2 = r1.2)
        (eraseLoop (setOf c) k f s n) (eraseLoop c k f m n) := by
  induction f with
  | zero => intro s m n _; trivial
  | succ f ih =>
    intro s m n h
    unfold eraseLoop
    rw [find_sim hc h k]
    cases find c m k with
    | none => trivial
    | some it =>
      simp only
      by_cases he : it.iterator_end = true
      · rw [if_pos he, if_pos he]
        exact ⟨h, rfl⟩
      · rw [if_neg he, if_neg he]
        have he1 := eraseAt_sim h it
        cases hx : eraseAt s it with
        | none =>
          rw [hx] at he1
          cases hy : eraseAt m it with
          | none => trivial
          | some y => rw [hy] at he1; exact he1.elim
        | some x =>
          rw [hx] at he1
          cases hy : eraseAt m it with
          | none => rw [hy] at he1; exact he1.elim
          | some y =>
            rw [hy] at he1
            exact ih x.1 y.1 (n + 1) he1.1

/-! ### Results that exist together -/

theorem optRel_bind {α β γ δ : Type} {R : α → β → Prop} {S : γ → δ → Prop}
    {x : Option α} {y : Option β} {f : α → Option γ} {g : β → Option δ}
    (h : OptRel R x y)
    (hfg : ∀ a b, x = some a → y = some b → R a b → OptRel S (f a) (g b)) :
    OptRel S (x.bind f) (y.bind g) := by
  cases x with
  | none =>
    cases y with
    | none => trivial
    | some b => exact h.elim
  | some a =>
    cases y with
    | none => exact h.elim
    | some b => exact hfg a b rfl rfl h

theorem optRel_map {α β γ δ : Type} {R : α → β → Prop} {S : γ → δ → Prop}
    {x : Option α} {y : Option β} {f : α → γ} {g : β → δ}
    (h : OptRel R x y) (hfg : ∀ a b, x = some a → y = some b → R a b → S (f a) (g b)) :
    OptRel S (x.map f) (y.map g) := by
  cases x with
  | none =>
    cases y with
    | none => trivial
    | some b => exact h.elim
  | some a =>
    cases y with
    | none => exact h.elim
    | some b => exact hfg a b rfl rfl h

theorem optRel_mono {α β : Type} {R S : α → β → Prop} {x : Option α} {y : Option β}
    (h : OptRel R x y) (hRS : ∀ a b, x = some a → y = some b → R a b → S a b) :
    OptRel S x y := by
  cases x with
  | none =>
    cases y with
    | none => trivial
    | some b => exact h.elim
  | some a =>
    cases y with
    | none => exact h.elim
    | some b => exact hRS a b rfl rfl h

theorem optRel_eq {α β : Type} {R : α → β → Prop} (x : Option α) (y : Option α) (f : α → β)
    (hxy : x = y) (h : ∀ a, x = some a → R a (f a)) : OptRel R x (y.map f) := by
  subst hxy
  cases x with
  | none => trivial
  | some a => exact h a rfl

theorem optRel_isSome {α β : Type} {R : α → β → Prop} {x : Option α} {y : Option β}
    (h : OptRel R x y) : x.isSome = y.isSome := by
  cases x with
  | none =>
    cases y with
    | none => rfl
    | some b => exact h.elim
  | some a =>
    cases y with
    | none => exact h.elim
    | some b => rfl

/-! ### What the probing pass found, in a table that satisfies the invariant -/

theorem probeKey_empty_inv {K V : Type} {c : Params K V} (hc : c.Lawful) {m : HashMap K V}
    (hI : Inv c m) (link : Bucket K V) (hl : link.is_deleted = false) (cur : Nat)
    (h : probeKey c m link.first = .empty cur) :
    cur < m.data.length ∧ slot m.data cur = none ∧
      Inv c (HashMap.mk (m.data.set cur (some link)) (m.el_count + 1) m.del_count) := by
  rcases probeKey_cases hc hI link.first with ⟨i, b, _, _, h3⟩ | ⟨hf, t, h1, h2, h3, h4⟩ |
    ⟨_, _, h2⟩
  · rw [h] at h3
    cases hd : b.is_deleted <;> rw [hd] at h3 <;> cases h3
  · rw [h] at h4
    cases h4
    exact ⟨probePos_lt _ _ _ _ hI.pos, h2, (empty_post id hI hl hf h2 h1 h3).inv⟩
  · rw [h] at h2; cases h2

theorem probeKey_tomb_inv {K V : Type} {c : Params K V} (hc : c.Lawful) {m : HashMap K V}
    (hI : Inv c m) (key : K) (cur : Nat) (h : probeKey c m key = .tomb cur) :
    ∃ b, slot m.data cur = some b ∧ c.equal_fn b.first key = true ∧ b.is_deleted = true ∧
      Inv c (HashMap.mk (m.data.set cur (some { b with is_deleted := false }))
        (m.el_count + 1) (m.del_count - 1)) := by
  rcases probeKey_cases hc hI key with ⟨i, b, h1, h2, h3⟩ | ⟨_, t, _, _, _, h4⟩ | ⟨_, _, h2⟩
  · rw [h] at h3
    cases hd : b.is_deleted
    · rw [hd] at h3; cases h3
    · rw [hd] at h3
      cases h3
      exact ⟨b, h1, h2, hd,
        (@tomb_post K V c hc id m hI { b with is_deleted := false } rfl cur b h1
          (hc.refl _) hd).inv⟩
  · rw [h] at h4; cases h4
  · rw [h] at h2; cases h2

theorem probeKey_live_inv {K V : Type} {c : Params K V} (hc : c.Lawful) {m : HashMap K V}
    (hI : Inv c m) (key : K) (cur : Nat) (h : probeKey c m key = .live cur) :
    ∃ b, slot m.data cur = some b ∧ c.equal_fn b.first key = true ∧ b.is_deleted = false := by
  rcases probeKey_cases hc hI key with ⟨i, b, h1, h2, h3⟩ | ⟨_, t, _, _, _, h4⟩ | ⟨_, _, h2⟩
  · rw [h] at h3
    cases hd : b.is_deleted
    · rw [hd] at h3
      cases h3
      exact ⟨b, h1, h2, hd⟩
    · rw [hd] at h3; cases h3
  · rw [h] at h4; cases h4
  · rw [h] at h2; cases h2

/-! ### After `reserve` or a growing `rehash`, the next `reserve` changes nothing -/

theorem reserve_settled {K V : Type} {c : Params K V} {t t1 : HashMap K V}
    (hp : RehashPost c t (t.size + 1) t1) :
    ¬(t1.size + 1 > t1.bucket_count ∨ t1.del_count > t1.size) := by
  by_cases htrig : t.size + 1 > t.bucket_count ∨ t.del_count > t.size
  · obtain ⟨hn, hlen⟩ := hp.fresh htrig
    have hd : t1.del_count = 0 := by rw [hp.inv.del]; exact countTomb_noTomb hn
    have he := hp.el
    unfold HashMap.size HashMap.bucket_count at *
    omega
  · rw [hp.same htrig]
    exact htrig

theorem grow_settled {K V : Type} {c : Params K V} {t t1 : HashMap K V} (hI : Inv c t)
    (hp : RehashPost c t (t.bucket_count * 3) t1) :
    ¬(t1.size + 1 > t1.bucket_count ∨ t1.del_count > t1.size) := by
  have htrig : t.bucket_count * 3 > t.bucket_count ∨ t.del_count > t.size := by
    left
    have := hI.pos
    unfold HashMap.bucket_count
    omega
  obtain ⟨hn, hlen⟩ := hp.fresh htrig
  have hd : t1.del_count = 0 := by rw [hp.inv.del]; exact countTomb_noTomb hn
  have he := hp.el
  have h1 := hI.el
  have h2 := countLive_add_countTomb_le t.data
  unfold HashMap.size HashMap.bucket_count at *
  omega

/-! ### Insertion of a bucket during `rehash` -/

/-- One pass of the set's `insert(ptr)` whose `reserve` changes nothing, against one round of
the map's `force_insert_ptr` loop. -/
theorem setInsertPtr_round {K V : Type} {c : Params K V} (hc : c.Lawful)
    (rh_s : HashSet K → Nat → Option (HashSet K))
    (rh_m : HashMap K V → Nat → Option (HashMap K V))
    (hSame : ∀ t n, ¬(n > t.bucket_count ∨ t.del_count > t.size) → rh_s t n = some t)
    (b : Bucket K Unit) (b' : Bucket K V) (hbb : c.equal_fn b.first b'.first = true)
    (hb : b.is_deleted = false) (hb' : b'.is_deleted = false) (w : Nat)
    (t : HashSet K) (t' : HashMap K V) (hI : Inv (setOf c) t) (hS : Sim c t t')
    (hnt : ¬(t.size + 1 > t.bucket_count ∨ t.del_count > t.size))
    (hex : probeKey c t' b'.first = .exhausted →
      OptRel (fun r r' => Sim c r r' ∧ Inv (setOf c) r)
        ((rh_s t (t.bucket_count * 3)).bind (setInsertPtr rh_s (setOf c) b w))
        ((rh_m t' (t'.bucket_count * 3)).bind (forceInsertLoop rh_m c b' w))) :
    OptRel (fun r r' => Sim c r r' ∧ Inv (setOf c) r)
      (setInsertPtr rh_s (setOf c) b (w + 1) t) (forceInsertLoop rh_m c b' (w + 1) t') := by
  have hpk := probeKey_sim hc hS b.first b'.first hbb
  unfold setInsertPtr forceInsertLoop
  rw [hSame t _ hnt]
  simp only [Option.some_bind]
  rw [hpk]
  cases hp : probeKey c t' b'.first with
  | empty cur =>
    rw [hp] at hpk
    simp only
    refine ⟨⟨dataSim_set hS.data cur (slotSim_some c b b' hbb (hb.trans hb'.symm)), ?_,
      hS.del⟩, (probeKey_empty_inv (setOf_lawful hc) hI b hb cur hpk).2.2⟩
    show t.el_count + 1 = t'.el_count + 1
    rw [hS.el]
  | tomb cur =>
    rw [hp] at hpk
    simp only
    obtain ⟨a, ha, hae, _, hInv⟩ := probeKey_tomb_inv (setOf_lawful hc) hI b.first cur hpk
    rw [reviveAt_eq ha]
    refine ⟨⟨dataSim_set hS.data cur
      (slotSim_some c { a with is_deleted := false } b' (hc.trans _ _ _ hae hbb) hb'.symm),
      ?_, ?_⟩, hInv⟩
    · show t.el_count + 1 = t'.el_count + 1
      rw [hS.el]
    · show t.del_count - 1 = t'.del_count - 1
      rw [hS.del]
  | live cur =>
    rw [hp] at hpk
    simp only
    obtain ⟨a, ha, hae, had⟩ := probeKey_live_inv (setOf_lawful hc) hI b.first cur hpk
    refine ⟨⟨dataSim_set_right hS.data cur ?_, hS.el, hS.del⟩, hI⟩
    rw [ha]
    exact slotSim_some c a b' (hc.trans _ _ _ hae hbb) (had.trans hb'.symm)
  | exhausted =>
    simp only
    exact hex hp

theorem setInsertPtr_sim_settled {K V : Type} {c : Params K V} (hc : c.Lawful)
    (rh_s : HashSet K → Nat → Option (HashSet K))
    (rh_m : HashMap K V → Nat → Option (HashMap K V))
    (hRS : ∀ t t' n, Inv (setOf c) t → Sim c t t' → OptRel (Sim c) (rh_s t n) (rh_m t' n))
    (hRP : ∀ t n r, Inv (setOf c) t → rh_s t n = some r → RehashPost (setOf c) t n r)
    (hSame : ∀ t n, ¬(n > t.bucket_count ∨ t.del_count > t.size) → rh_s t n = some t)
    (b : Bucket K Unit) (b' : Bucket K V) (hbb : c.equal_fn b.first b'.first = true)
    (hb : b.is_deleted = false) (hb' : b'.is_deleted = false) (w : Nat) :
    ∀ (t : HashSet K) (t' : HashMap K V), Inv (setOf c) t → Sim c t t' →
      ¬(t.size + 1 > t.bucket_count ∨ t.del_count > t.size) →
      OptRel (fun r r' => Sim c r r' ∧ Inv (setOf c) r)
        (setInsertPtr rh_s (setOf c) b (w + 1) t) (forceInsertLoop rh_m c b' (w + 1) t') := by
  induction w with
  | zero =>
    intro t t' hI hS hnt
    refine setInsertPtr_round hc rh_s rh_m hSame b b' hbb hb hb' 0 t t' hI hS hnt ?_
    intro _
    have hbc : t.bucket_count = t'.bucket_count := hS.data.1
    rw [← hbc]
    exact optRel_bind (hRS t t' _ hI hS) (fun _ _ _ _ _ => trivial)
  | succ w ih =>
    intro t t' hI hS hnt
    refine setInsertPtr_round hc rh_s rh_m hSame b b' hbb hb hb' (w + 1) t t' hI hS hnt ?_
    intro _
    have hbc : t.bucket_count = t'.bucket_count := hS.data.1
    rw [← hbc]
    refine optRel_bind (hRS t t' _ hI hS) ?_
    intro t2 t2' h2 _ hS2
    have hp2 := hRP t _ t2 hI h2
    exact ih t2 t2' hp2.inv hS2 (grow_settled hI hp2)

/-- The set's private `insert(ptr)` and the map's `force_insert_ptr` keep the two tables in the
same state. -/
theorem setInsertPtr_sim {K V : Type} {c : Params K V} (hc : c.Lawful)
    (rh_s : HashSet K → Nat → Option (HashSet K))
    (rh_m : HashMap K V → Nat → Option (HashMap K V))
    (hRS : ∀ t t' n, Inv (setOf c) t → Sim c t t' → OptRel (Sim c) (rh_s t n) (rh_m t' n))
    (hRP : ∀ t n r, Inv (setOf c) t → rh_s t n = some r → RehashPost (setOf c) t n r)
    (hSame : ∀ t n, ¬(n > t.bucket_count ∨ t.del_count > t.size) → rh_s t n = some t)
    (b : Bucket K Unit) (b' : Bucket K V) (hbb : c.equal_fn b.first b'.first = true)
    (hb : b.is_deleted = false) (hb' : b'.is_deleted = false) (w : Nat)
    (t : HashSet K) (t' : HashMap K V) (hI : Inv (setOf c) t) (hS : Sim c t t') :
    OptRel (fun r r' => Sim c r r' ∧ Inv (setOf c) r)
      (setInsertPtr rh_s (setOf c) b w t) (forceInsertPtr rh_m c w t' b') := by
  cases w with
  | zero =>
    show OptRel _ none ((rh_m t' (t'.size + 1)).bind (forceInsertLoop rh_m c b' 0))
    cases rh_m t' (t'.size + 1) <;> trivial
  | succ w =>
    have key : setInsertPtr rh_s (setOf c) b (w + 1) t =
        (rh_s t (t.size + 1)).bind fun t1 => setInsertPtr rh_s (setOf c) b (w + 1) t1 := by
      cases h1 : rh_s t (t.size + 1) with
      | none =>
        rw [setInsertPtr.eq_2, h1]
        rfl
      | some t1 =>
        have hs := hSame t1 (t1.size + 1) (reserve_settled (hRP _ _ _ hI h1))
        rw [Option.some_bind, setInsertPtr.eq_2 rh_s _ b t w, h1, Option.some_bind,
          setInsertPtr.eq_2 rh_s _ b t1 w, hs, Option.some_bind]
    rw [key]
    unfold forceInsertPtr
    have hsz : t.size = t'.size := hS.el
    rw [← hsz]
    refine optRel_bind (hRS t t' _ hI hS) ?_
    intro t1 t1' h1 _ hS1
    have hp1 := hRP t _ t1 hI h1
    exact setInsertPtr_sim_settled hc rh_s rh_m hRS hRP hSame b b' hbb hb hb' w t1 t1'
      hp1.inv hS1 (reserve_settled hp1)

/-! ### The migration loop and `rehash` -/

theorem setRehashLoop_sim {K V : Type} {c : Params K V} (hc : c.Lawful)
    (rh_s : HashSet K → Nat → Option (HashSet K))
    (rh_m : HashMap K V → Nat → Option (HashMap K V))
    (hRS : ∀ t t' n, Inv (setOf c) t → Sim c t t' → OptRel (Sim c) (rh_s t n) (rh_m t' n))
    (hRP : ∀ t n r, Inv (setOf c) t → rh_s t n = some r → RehashPost (setOf c) t n r)
    (hSame : ∀ t n, ¬(n > t.bucket_count ∨ t.del_count > t.size) → rh_s t n = some t)
    (w : Nat) :
    ∀ (f : Nat) (data : List (Option (Bucket K Unit))) (data' : List (Option (Bucket K V)))
      (t : HashSet K) (t' : HashMap K V) (it : Iterator),
      DataSim c data data' → Sim c t t' → Inv (setOf c) t → it.is_ordered = false →
      (it.iterator_end = false → isLive data it.current = true) →
      OptRel (fun r r' => Sim c r r' ∧ Inv (setOf c) r)
        (setRehashLoop rh_s (setOf c) w f data t it) (rehashLoop rh_m c w f data' t' it) := by
  intro f
  induction f with
  | zero => intro _ _ _ _ _ _ _ _ _ _; trivial
  | succ f ih =>
    intro data data' t t' it hD hS hI ho hlive
    unfold setRehashLoop rehashLoop
    by_cases he : it.iterator_end = true
    · rw [if_pos he, if_pos he]
      exact ⟨hS, hI⟩
    · rw [if_neg he, if_neg he]
      have hef : it.iterator_end = false := by simpa using he
      obtain ⟨b, hb, hbd⟩ := (isLive_iff _ _).1 (hlive hef)
      have hs := hD.2 it.current
      rw [hb] at hs
      obtain ⟨b', hb', hbb, hd⟩ := slotSim_left_some hs
      rw [hb, hb']
      simp only
      refine optRel_bind (setInsertPtr_sim hc rh_s rh_m hRS hRP hSame b b' hbb hbd
        (by rw [← hd]; exact hbd) w t t' hI hS) ?_
      rintro t1 t1' _ _ ⟨hS1, hI1⟩
      have hD1 : DataSim c (data.set it.current none) (data'.set it.current none) :=
        dataSim_set hD it.current (slotSim_none c)
      rw [next_congr _ _ hD1.1 (isLive_sim hD1)]
      cases hn : Iterator.next (data'.set it.current none) it with
      | none => trivial
      | some it1 =>
        simp only [Option.some_bind]
        obtain ⟨ho1, hl1⟩ := next_unordered _ it it1 ho hef hn
        exact ih _ _ t1 t1' it1 hD1 hS1 hI1 ho1
          (fun h => by rw [isLive_sim hD1]; exact hl1 h)

theorem trigger_sim {K V : Type} {c : Params K V} {t : HashSet K} {t' : HashMap K V}
    (hS : Sim c t t') (n : Nat) :
    (n > t.bucket_count ∨ t.del_count > t.size) ↔
      (n > t'.bucket_count ∨ t'.del_count > t'.size) := by
  have h1 : t.bucket_count = t'.bucket_count := hS.data.1
  have h2 : t.size = t'.size := hS.el
  rw [h1, h2, hS.del]

/-- `HashSet::rehash` and `HashMap::rehash` keep the two tables in the same state, and one
returns exactly when the other does. -/
theorem setRehash_sim {K V : Type} {c : Params K V} (hc : c.Lawful) (fuel : Nat) :
    ∀ (t : HashSet K) (t' : HashMap K V) (n : Nat), Inv (setOf c) t → Sim c t t' →
      OptRel (Sim c) (setRehash (setOf c) fuel t n) (rehash c fuel t' n) := by
  induction fuel with
  | zero =>
    intro t t' n _ hS
    unfold setRehash rehash
    by_cases htr : n > t.bucket_count ∨ t.del_count > t.size
    · rw [if_pos htr, if_pos ((trigger_sim hS n).1 htr)]
      trivial
    · rw [if_neg htr, if_neg (fun h => htr ((trigger_sim hS n).2 h))]
      exact hS
  | succ fuel ih =>
    intro t t' n hI hS
    unfold setRehash rehash
    by_cases htr : n > t.bucket_count ∨ t.del_count > t.size
    · rw [if_pos htr, if_pos ((trigger_sim hS n).1 htr)]
      have hbg : t.begin = t'.begin :=
        ofIndex_congr t.data t'.data hS.data.1 (isLive_sim hS.data) 0
      have hbc : t.bucket_count = t'.bucket_count := hS.data.1
      rw [hbg, hbc]
      cases hb : t'.begin with
      | none => trivial
      | some it =>
        simp only [Option.some_bind]
        obtain ⟨ho, hl⟩ := produced_live (begin_produced t' it hb)
        refine optRel_map (setRehashLoop_sim hc (setRehash (setOf c) fuel) (rehash c fuel) ih
          (fun t n r hIt h => setRehash_post (setOf_lawful hc) hIt h)
          (fun t n h => setRehash_same (setOf c) fuel t n h) fuel (t'.bucket_count + 1)
          t.data t'.data (HashMap.new (max t'.bucket_count n))
          (HashMap.new (max t'.bucket_count n)) it hS.data (sim_new c _) (Inv_new _ _) ho
          (fun h => by rw [isLive_sim hS.data]; exact hl h)) ?_
        intro a b _ _ hab
        exact sim_moveAssign hab.1
    · rw [if_neg htr, if_neg (fun h => htr ((trigger_sim hS n).2 h))]
      exact hS

/-! ### `HashSet::insert(key)` against `HashMap::emplace(key, value)` -/

theorem setInsertLoop_round_sim {K V : Type} {c : Params K V} (hc : c.Lawful) (fuel : Nat)
    (k : K) (v : V) (w : Nat) (t : HashSet K) (t' : HashMap K V) (hI : Inv (setOf c) t)
    (hS : Sim c t t') (hnt : ¬(t.size + 1 > t.bucket_count ∨ t.del_count > t.size))
    (hex : probeKey c t' k = .exhausted →
      OptRel (fun r r' => Sim c r.1 r'.1 ∧ r.2 = r'.2)
        ((setRehash (setOf c) fuel t (t.bucket_count * 3)).bind
          (setInsertLoop (setOf c) fuel k w))
        ((rehash c fuel t' (t'.bucket_count * 3)).bind
          (emplaceLoop c fuel { first := k, second := v, is_deleted := false } w))) :
    OptRel (fun r r' => Sim c r.1 r'.1 ∧ r.2 = r'.2)
      (setInsertLoop (setOf c) fuel k (w + 1) t)
      (emplaceLoop c fuel { first := k, second := v, is_deleted := false } (w + 1) t') := by
  have hpk := probeKey_sim hc hS k k (hc.refl k)
  unfold setInsertLoop emplaceLoop
  rw [setRehash_same (setOf c) fuel t _ hnt]
  simp only [Option.some_bind]
  rw [hpk]
  cases hp : probeKey c t' k with
  | empty cur =>
    rw [hp] at hpk
    simp only
    obtain ⟨hlt, _, _⟩ := probeKey_empty_inv (setOf_lawful hc) hI
      { first := k, second := (), is_deleted := false } rfl cur hpk
    have hlt' : cur < t'.data.length := by rw [← hS.data.1]; exact hlt
    rw [ofIndex_set _ _ _ hlt rfl, ofIndex_set _ _ _ hlt' rfl]
    refine ⟨⟨dataSim_set hS.data cur (slotSim_some c _ _ (hc.refl k) rfl), ?_, hS.del⟩, rfl⟩
    show t.el_count + 1 = t'.el_count + 1
    rw [hS.el]
  | tomb cur =>
    rw [hp] at hpk
    simp only
    obtain ⟨a, ha, hae, _, _⟩ := probeKey_tomb_inv (setOf_lawful hc) hI k cur hpk
    have hlt := slot_some_lt ha
    have hlt' : cur < t'.data.length := by rw [← hS.data.1]; exact hlt
    rw [reviveAt_eq ha, ofIndex_set _ _ _ hlt rfl, ofIndex_set _ _ _ hlt' rfl]
    refine ⟨⟨dataSim_set hS.data cur
      (slotSim_some c { a with is_deleted := false }
        { first := k, second := v, is_deleted := false } hae rfl), ?_, ?_⟩, rfl⟩
    · show t.el_count + 1 = t'.el_count + 1
      rw [hS.el]
    · show t.del_count - 1 = t'.del_count - 1
      rw [hS.del]
  | live cur =>
    simp only
    rw [ofIndex_congr t.data t'.data hS.data.1 (isLive_sim hS.data)]
    cases Iterator.ofIndex t'.data cur with
    | none => trivial
    | some it => exact ⟨hS, rfl⟩
  | exhausted =>
    simp only
    exact hex hp

theorem setInsertLoop_sim_settled {K V : Type} {c : Params K V} (hc : c.Lawful) (fuel : Nat)
    (k : K) (v : V) (w : Nat) :
    ∀ (t : HashSet K) (t' : HashMap K V), Inv (setOf c) t → Sim c t t' →
      ¬(t.size + 1 > t.bucket_count ∨ t.del_count > t.size) →
      OptRel (fun r r' => Sim c r.1 r'.1 ∧ r.2 = r'.2)
        (setInsertLoop (setOf c) fuel k (w + 1) t)
        (emplaceLoop c fuel { first := k, second := v, is_deleted := false } (w + 1) t') := by
  induction w with
  | zero =>
    intro t t' hI hS hnt
    refine setInsertLoop_round_sim hc fuel k v 0 t t' hI hS hnt ?_
    intro _
    have hbc : t.bucket_count = t'.bucket_count := hS.data.1
    rw [← hbc]
    exact optRel_bind (setRehash_sim hc fuel t t' _ hI hS) (fun _ _ _ _ _ => trivial)
  | succ w ih =>
    intro t t' hI hS hnt
    refine setInsertLoop_round_sim hc fuel k v (w + 1) t t' hI hS hnt ?_
    intro _
    have hbc : t.bucket_count = t'.bucket_count := hS.data.1
    rw [← hbc]
    refine optRel_bind (setRehash_sim hc fuel t t' _ hI hS) ?_
    intro t2 t2' h2 _ hS2
    have hp2 := setRehash_post (setOf_lawful hc) hI h2
    exact ih t2 t2' hp2.inv hS2 (grow_settled hI hp2)

theorem setInsertLoop_sim {K V : Type} {c : Params K V} (hc : c.Lawful) (fuel : Nat)
    (k : K) (v : V) (w : Nat) (t : HashSet K) (t' : HashMap K V) (hI : Inv (setOf c) t)
    (hS : Sim c t t') :
    OptRel (fun r r' => Sim c r.1 r'.1 ∧ r.2 = r'.2)
      (setInsertLoop (setOf c) fuel k w t)
      ((rehash c fuel t' (t'.size + 1)).bind
        (emplaceLoop c fuel { first := k, second := v, is_deleted := false } w)) := by
  cases w with
  | zero =>
    show OptRel _ none _
    cases rehash c fuel t' (t'.size + 1) <;> trivial
  | succ w =>
    have key : setInsertLoop (setOf c) fuel k (w + 1) t =
        (setRehash (setOf c) fuel t (t.size + 1)).bind
          fun t1 => setInsertLoop (setOf c) fuel k (w + 1) t1 := by
      cases h1 : setRehash (setOf c) fuel t (t.size + 1) with
      | none =>
        rw [setInsertLoop.eq_2, h1]
        rfl
      | some t1 =>
        have hs := setRehash_same (setOf c) fuel t1 (t1.size + 1)
          (reserve_settled (setRehash_post (setOf_lawful hc) hI h1))
        rw [Option.some_bind, setInsertLoop.eq_2 _ fuel k t w, h1, Option.some_bind,
          setInsertLoop.eq_2 _ fuel k t1 w, hs, Option.some_bind]
    rw [key]
    have hsz : t.size = t'.size := hS.el
    rw [← hsz]
    refine optRel_bind (setRehash_sim hc fuel t t' _ hI hS) ?_
    intro t1 t1' h1 _ hS1
    have hp1 := setRehash_post (setOf_lawful hc) hI h1
    exact setInsertLoop_sim_settled hc fuel k v w t1 t1' hp1.inv hS1 (reserve_settled hp1)

/-- `HashSet::insert(k)` and `HashMap::emplace(k, v)` leave the two tables in the same state
and return the same iterator and the same flag. -/
theorem setInsert_sim {K V : Type} {c : Params K V} (hc : c.Lawful) (fuel : Nat)
    (k : K) (v : V) (t : HashSet K) (t' : HashMap K V) (hI : Inv (setOf c) t)
    (hS : Sim c t t') :
    OptRel (fun r r' => Sim c r.1 r'.1 ∧ r.2 = r'.2)
      (setInsert (setOf c) fuel t k) (emplace c fuel t' k v) :=
  setInsertLoop_sim hc fuel k v fuel t t' hI hS

/-! ### Sequences of operations -/

theorem applySetOp_sim {K V : Type} {c : Params K V} (hc : c.Lawful) (fuel : Nat)
    (op : SetOp K) (v : V) (t : HashSet K) (t' : HashMap K V) (hI : Inv (setOf c) t)
    (hS : Sim c t t') :
    OptRel (Sim c) (applySetOp (setOf c) fuel t op) (applyOp c fuel t' (mapOpOf (op, v))) := by
  cases op with
  | insert k =>
    exact optRel_map (setInsert_sim hc fuel k v t t' hI hS) (fun _ _ _ _ h => h.1)
  | erase k =>
    exact optRel_map (eraseLoop_sim hc k fuel t t' 0 hS) (fun _ _ _ _ h => h.1)
  | rehash n => exact setRehash_sim hc fuel t t' n hI hS

theorem runSetOps_sim {K V : Type} {c : Params K V} (hc : c.Lawful) (fuel : Nat) :
    ∀ (ops : List (SetOp K × V)) (t : HashSet K) (t' : HashMap K V),
      SetReach (setOf c) t → Sim c t t' →
      OptRel (Sim c) (runSetOps (setOf c) fuel t (ops.map Prod.fst))
        (runOps c fuel t' (ops.map mapOpOf)) := by
  intro ops
  induction ops with
  | nil => intro t t' _ hS; exact hS
  | cons p rest ih =>
    intro t t' hR hS
    obtain ⟨op, v⟩ := p
    show OptRel (Sim c)
      ((applySetOp (setOf c) fuel t op).bind fun m1 =>
        runSetOps (setOf c) fuel m1 (rest.map Prod.fst))
      ((applyOp c fuel t' (mapOpOf (op, v))).bind fun m1 =>
        runOps c fuel m1 (rest.map mapOpOf))
    refine optRel_bind (applySetOp_sim hc fuel op v t t' (setReach_inv (setOf_lawful hc) hR)
      hS) ?_
    intro t1 t1' h1 _ hS1
    exact ih t1 t1' (SetReach.step op fuel hR h1) hS1

/-- With enough fuel a set operation on a table that satisfies the invariant returns, and more
fuel does not change what it returns. -/
theorem applySetOp_ok {K : Type} {c : Params K Unit} (hc : c.Lawful) {t : HashSet K}
    (hI : Inv c t) (op : SetOp K) :
    ∃ F r, ∀ fuel, F ≤ fuel → applySetOp c fuel t op = some r := by
  cases op with
  | insert k =>
    obtain ⟨r, hr, _⟩ := setInsert_ok hc hI k _ (le_refl _)
    refine ⟨need (t.el_count + t.del_count), r.1, ?_⟩
    intro fuel hf
    show (setInsert c fuel t k).map (fun r => r.1) = some r.1
    rw [setInsert_mono c _ fuel hf t k r hr]
    rfl
  | erase k =>
    obtain ⟨r, hr, _⟩ := erase_ok hc hI k 2 (le_refl _)
    refine ⟨2, r.1, ?_⟩
    intro fuel hf
    show (erase c fuel t k).map (fun r => r.1) = some r.1
    rw [erase_mono c 2 fuel hf t k r hr]
    rfl
  | rehash n =>
    obtain ⟨r, hr, _⟩ := setRehash_ok hc _ (countLive t.data) (le_refl _) t n hI (le_refl _)
    refine ⟨need (countLive t.data), r, ?_⟩
    intro fuel hf
    exact setRehash_mono c _ fuel t n r hf hr

theorem runSetOps_ok {K : Type} {c : Params K Unit} (hc : c.Lawful) :
    ∀ (ops : List (SetOp K)) (t : HashSet K), SetReach c t →
      ∃ F, ∀ fuel, F ≤ fuel → ∃ r, runSetOps c fuel t ops = some r := by
  intro ops
  induction ops with
  | nil => intro t _; exact ⟨0, fun _ _ => ⟨t, rfl⟩⟩
  | cons op rest ih =>
    intro t hR
    obtain ⟨F1, t1, h1⟩ := applySetOp_ok hc (setReach_inv hc hR) op
    obtain ⟨F2, h2⟩ := ih t1 (SetReach.step op F1 hR (h1 F1 (le_refl _)))
    refine ⟨max F1 F2, ?_⟩
    intro fuel hf
    obtain ⟨r, hr⟩ := h2 fuel (le_trans (le_max_right _ _) hf)
    refine ⟨r, ?_⟩
    show (applySetOp c fuel t op).bind (fun m1 => runSetOps c fuel m1 rest) = some r
    rw [h1 fuel (le_trans (le_max_left _ _) hf)]
    exact hr

theorem isTomb_sim {K V : Type} {c : Params K V} {ds : List (Option (Bucket K Unit))}
    {dm : List (Option (Bucket K V))} (h : DataSim c ds dm) (i : Nat) :
    isTomb ds i = isTomb dm i := by
  have hs := h.2 i
  unfold isTomb
  cases hx : slot ds i with
  | none =>
    rw [hx] at hs
    rw [slotSim_left_none hs]
  | some a =>
    rw [hx] at hs
    obtain ⟨b, hb, _, hd⟩ := slotSim_left_some hs
    rw [hb]
    simp only
    rw [hd]

theorem keys_sim {K V : Type} {c : Params K V} {ds : List (Option (Bucket K Unit))}
    {dm : List (Option (Bucket K V))} (h : DataSim c ds dm)
    (hid : ∀ x y, c.equal_fn x y = true → x = y) (i : Nat) :
    (slot ds i).map (fun b => b.first) = (slot dm i).map (fun b => b.first) := by
  have hs := h.2 i
  cases hx : slot ds i with
  | none =>
    rw [hx] at hs
    rw [slotSim_left_none hs]
    rfl
  | some a =>
    rw [hx] at hs
    obtain ⟨b, hb, he, _⟩ := slotSim_left_some hs
    rw [hb]
    show some a.first = some b.first
    rw [hid _ _ he]

/-- C35 (counterexample to "the same key at every index"): with an equality predicate that
identifies keys of the same parity, a set and a map are built with hint 3 and run
`insert 0, insert 1, erase 0, insert 2` (the map with the corresponding `emplace` and `erase`
calls). The last call meets the TOMBSTONE of key 0: the set revives it and keeps key 0 in
slot 0, the map stores the new bucket and holds key 2 there. -/
theorem C35_counterexample :
    (runSetOps (setOf parityParams) 4 (HashMap.new 3)
        ([(.insert 0, 'a'), (.insert 1, 'b'), (.erase 0, ' '), (.insert 2, 'c')].map
          Prod.fst)).map (fun s => (slot s.data 0).map fun b => (b.first, b.is_deleted))
      = some (some (0, false)) ∧
    (runOps parityParams 4 (HashMap.new 3)
        ([(.insert 0, 'a'), (.insert 1, 'b'), (.erase 0, ' '), (.insert 2, 'c')].map
          mapOpOf)).map (fun m => (slot m.data 0).map fun b => (b.first, b.is_deleted))
      = some (some (2, false)) := by
  decide

/-- C35 (amended): a set and a map built with the same hint, hasher, equality and probing
policy and run through the same sequence of `insert(k)` / `erase(k)` / `rehash(n)` calls
(the map with `emplace(k, v)` for `insert(k)`) stay in step, whatever the sequence (so after
every step of it) and whatever the fuel: one run returns exactly when the other does, and then
both have the same `bucket_count()`, `size()` and tombstone counter, every index is EMPTY,
LIVE or TOMBSTONE in both, the keys at an index are equal under the equality predicate (and
identical when that predicate only relates identical keys), and `find` returns the same
iterator for every key. With enough fuel both runs return. -/
theorem C35_set_map_same_table {K V : Type} (c : Params K V) (hc : c.Lawful) (hint : Nat)
    (ops : List (SetOp K × V)) :
    (∀ fuel, OptRel (fun (s : HashSet K) (m : HashMap K V) =>
        s.bucket_count = m.bucket_count ∧ s.size = m.size ∧ s.del_count = m.del_count ∧
        (∀ i, isLive s.data i = isLive m.data i ∧ isTomb s.data i = isTomb m.data i ∧
          SlotSim c (slot s.data i) (slot m.data i)) ∧
        (∀ k, find (setOf c) s k = find c m k) ∧
        ((∀ x y, c.equal_fn x y = true → x = y) →
          ∀ i, (slot s.data i).map (fun b => b.first) = (slot m.data i).map (fun b => b.first)))
      (runSetOps (setOf c) fuel (HashMap.new hint) (ops.map Prod.fst))
      (runOps c fuel (HashMap.new hint) (ops.map mapOpOf))) ∧
    ∃ F, ∀ fuel, F ≤ fuel →
      (runSetOps (setOf c) fuel (HashMap.new hint) (ops.map Prod.fst)).isSome = true ∧
      (runOps c fuel (HashMap.new hint) (ops.map mapOpOf)).isSome = true := by
  have hsim := fun fuel => runSetOps_sim hc fuel ops (HashMap.new hint) (HashMap.new hint)
    (SetReach.init hint) (sim_new c hint)
  constructor
  · intro fuel
    refine optRel_mono (hsim fuel) ?_
    intro s m _ _ h
    exact ⟨h.data.1, h.el, h.del,
      fun i => ⟨isLive_sim h.data i, isTomb_sim h.data i, h.data.2 i⟩,
      fun k => find_sim hc h k, fun hid i => keys_sim h.data hid i⟩
  · obtain ⟨F, hF⟩ := runSetOps_ok (setOf_lawful hc) (ops.map Prod.fst) (HashMap.new hint)
      (SetReach.init hint)
    refine ⟨F, ?_⟩
    intro fuel hf
    obtain ⟨r, hr⟩ := hF fuel hf
    have hs : (runSetOps (setOf c) fuel (HashMap.new hint) (ops.map Prod.fst)).isSome
        = true := by rw [hr]; rfl
    refine ⟨hs, ?_⟩
    rw [← optRel_isSome (hsim fuel)]
    exact hs

theorem C35_set_map_same_table_witness :
    (natParams .LinearProbing).Lawful ∧
    ((∀ fuel, OptRel (fun (s : HashSet Nat) (m : HashMap Nat Char) =>
        s.bucket_count = m.bucket_count ∧ s.size = m.size ∧ s.del_count = m.del_count ∧
        (∀ i, isLive s.data i = isLive m.data i ∧ isTomb s.data i = isTomb m.data i ∧
          SlotSim (natParams .LinearProbing) (slot s.data i) (slot m.data i)) ∧
        (∀ k, find (setOf (natParams .LinearProbing)) s k
          = find (natParams .LinearProbing) m k) ∧
        ((∀ x y, (natParams .LinearProbing).equal_fn x y = true → x = y) →
          ∀ i, (slot s.data i).map (fun b => b.first) = (slot m.data i).map (fun b => b.first)))
      (runSetOps (setOf (natParams .LinearProbing)) fuel (HashMap.new 3)
        ([(.insert 0, 'a'), (.insert 4, 'b'), (.erase 0, ' '), (.insert 8, 'c')].map Prod.fst))
      (runOps (natParams .LinearProbing) fuel (HashMap.new 3)
        ([(.insert 0, 'a'), (.insert 4, 'b'), (.erase 0, ' '), (.insert 8, 'c')].map
          mapOpOf))) ∧
    ∃ F, ∀ fuel, F ≤ fuel →
      (runSetOps (setOf (natParams .LinearProbing)) fuel (HashMap.new 3)
        ([(.insert 0, 'a'), (.insert 4, 'b'), (.erase 0, ' '), (.insert 8, 'c')].map
          Prod.fst)).isSome = true ∧
      (runOps (natParams .LinearProbing) fuel (HashMap.new 3)
        ([(.insert 0, 'a'), (.insert 4, 'b'), (.erase 0, ' '), (.insert 8, 'c')].map
          mapOpOf)).isSome = true) :=
  ⟨natParams_lawful .LinearProbing,
    C35_set_map_same_table (natParams .LinearProbing) (natParams_lawful .LinearProbing) 3
      [(.insert 0, 'a'), (.insert 4, 'b'), (.erase 0, ' '), (.insert 8, 'c')]⟩

/-! ## `size_t` arithmetic: the constructor and `rehash` -/

theorem wrap_of_le (n : Nat) (h : n ≤ SIZE_MAX) : wrap n = n := by
  unfold wrap
  exact Nat.mod_eq_of_lt (by omega)

theorem wrap_size_max_succ : wrap (SIZE_MAX + 1) = 0 := by
  unfold wrap
  exact Nat.mod_self _

theorem wrap_le (n : Nat) : wrap n ≤ SIZE_MAX := by
  unfold wrap
  exact Nat.lt_succ_iff.1 (Nat.mod_lt n (Nat.succ_pos SIZE_MAX))

theorem newW_eq {K V : Type} (h : Nat) (hh : h < SIZE_MAX) :
    (HashMap.newW h : HashMap K V) = HashMap.new h := by
  unfold HashMap.newW HashMap.new
  rw [wrap_of_le _ (by omega)]

theorem newW_size_max {K V : Type} :
    (HashMap.newW SIZE_MAX : HashMap K V) = { data := [], el_count := 0, del_count := 0 } := by
  unfold HashMap.newW
  rw [wrap_size_max_succ]
  rfl

/-- On an empty table a `rehash` that takes effect returns the freshly constructed table. -/
theorem rehashW_empty {K V : Type} (c : Params K V) (fuel h n : Nat)
    (ht : n > (HashMap.newW h : HashMap K V).bucket_count) :
    rehashW c (fuel + 1) (HashMap.newW h) n
      = some (moveAssign (HashMap.newW (max (HashMap.newW h : HashMap K V).bucket_count n))) := by
  unfold rehashW
  rw [if_pos (Or.inl ht), begin_eq]
  have hl : liveFrom (HashMap.newW h : HashMap K V).data 0 = [] := by
    apply List.eq_nil_of_length_eq_zero
    rw [liveFrom_zero_length]
    exact countLive_replicate _
  rw [hl]
  simp only [Option.some_bind]
  unfold rehashLoopW
  rfl

/-! ### The constructed state -/

/-- C17 (code bug at `SIZE_MAX`): the constructor pushes `expected_max_size + 1` null slots
with the bound computed in `size_t`. For a capacity hint `h < SIZE_MAX` the container has
`bucket_count() == h + 1` (at least 1 even for `h = 0`), `size() == 0`, `empty() == true`,
`tomb_count == 0`, `begin() == end()` and `find(k) == end()` for every key. For
`h == SIZE_MAX` the bound wraps to 0: the container has no bucket at all, and `bucket(k)`,
with which `find` starts, is `hash_fn(k)` modulo 0. -/
theorem C17_constructed_state {K V : Type} (c : Params K V) (h : Nat) (hh : h ≤ SIZE_MAX) :
    (HashMap.newW h : HashMap K V).bucket_count = (if h = SIZE_MAX then 0 else h + 1) ∧
    (HashMap.newW h : HashMap K V).size = 0 ∧
    (HashMap.newW h : HashMap K V).empty = true ∧
    (HashMap.newW h : HashMap K V).del_count = 0 ∧
    (∃ it, (HashMap.newW h : HashMap K V).begin = some it ∧
      Iterator.eq it Iterator.endIt = true) ∧
    (h < SIZE_MAX → 1 ≤ (HashMap.newW h : HashMap K V).bucket_count ∧
      ∀ k, find c (HashMap.newW h) k = some Iterator.endIt) ∧
    (h = SIZE_MAX → ¬ 1 ≤ (HashMap.newW h : HashMap K V).bucket_count ∧
      ∀ k, bucket c (HashMap.newW h) k = c.hash_fn k % 0 ∧
        ¬ bucket c (HashMap.newW h) k < (HashMap.newW h : HashMap K V).bucket_count) := by
  by_cases hm : h = SIZE_MAX
  · subst hm
    rw [if_pos rfl, newW_size_max]
    exact ⟨rfl, rfl, rfl, rfl, ⟨_, rfl, rfl⟩, fun hlt => absurd hlt (Nat.lt_irrefl _),
      fun _ => ⟨Nat.not_succ_le_zero 0, fun _ => ⟨rfl, Nat.not_lt_zero _⟩⟩⟩
  · have hlt : h < SIZE_MAX := by omega
    rw [if_neg hm, newW_eq h hlt]
    obtain ⟨h1, h2, h3, h4, h5, h6, h7⟩ := new_state c h
    exact ⟨h1, h3, h4, h5, h6, fun _ => ⟨h2, h7⟩, fun he => absurd he hm⟩

theorem C17_constructed_state_witness :
    ((HashMap.newW 3 : HashMap Nat Char).bucket_count = (if 3 = SIZE_MAX then 0 else 3 + 1) ∧
    (HashMap.newW 3 : HashMap Nat Char).size = 0 ∧
    (HashMap.newW 3 : HashMap Nat Char).empty = true ∧
    (HashMap.newW 3 : HashMap Nat Char).del_count = 0 ∧
    (∃ it, (HashMap.newW 3 : HashMap Nat Char).begin = some it ∧
      Iterator.eq it Iterator.endIt = true) ∧
    (3 < SIZE_MAX → 1 ≤ (HashMap.newW 3 : HashMap Nat Char).bucket_count ∧
      ∀ k, find (natParams .LinearProbing) (HashMap.newW 3) k = some Iterator.endIt) ∧
    (3 = SIZE_MAX → ¬ 1 ≤ (HashMap.newW 3 : HashMap Nat Char).bucket_count ∧
      ∀ k, bucket (natParams .LinearProbing) (HashMap.newW 3) k
          = (natParams .LinearProbing).hash_fn k % 0 ∧
        ¬ bucket (natParams .LinearProbing) (HashMap.newW 3) k
          < (HashMap.newW 3 : HashMap Nat Char).bucket_count)) ∧
    (HashMap.newW 3 : HashMap Nat Char).bucket_count = 4 ∧
    (HashMap.newW SIZE_MAX : HashMap Nat Char).bucket_count = 0 :=
  ⟨C17_constructed_state (natParams .LinearProbing) 3 (by decide), by decide, by decide⟩

/-! ### Copies and the counters -/

/-- C15 (code bug): the copy assignment and the copy constructor copy `del_count` but not the
TOMBSTONE slots. A map is constructed with hint 3; after `insert` of the keys 0, 1, 2, 3 and
`erase 0`, `erase 1` it has 4 buckets, `live_count == 2` and `tomb_count == 2`. Its copy has
the same counters and two null slots, so `insert (0,'x')` on the copy needs no rehash and
stores the key in slot 0: the copy then has `live_count + tomb_count == 5` with 4 buckets. -/
theorem C15_copy_breaks_counts :
    runOps (natParams .LinearProbing) 4 (HashMap.new 3)
      [.insert 0 'a', .insert 1 'b', .insert 2 'c', .insert 3 'd', .erase 0, .erase 1]
      = some exFourErased ∧
    exFourErased.el_count + exFourErased.del_count ≤ exFourErased.bucket_count ∧
    copyAssign (HashMap.new 0) exFourErased = some exFourCopy ∧
    copyConstruct exFourErased = some exFourCopy ∧
    insert (natParams .LinearProbing) 4 exFourCopy (0, 'x')
      = some (exFourCopyIns, liveIt 0, true) ∧
    exFourCopyIns.el_count = 3 ∧ exFourCopyIns.del_count = 2 ∧
    exFourCopyIns.bucket_count = 4 ∧
    ¬ exFourCopyIns.el_count + exFourCopyIns.del_count ≤ exFourCopyIns.bucket_count := by
  decide

/-! ### The bucket count after `rehash` -/

/-- C37 (code bug at `SIZE_MAX`): `reserve(SIZE_MAX)` and `rehash(SIZE_MAX)` build the new
table with `HashMap(std::max(bucket_count(), SIZE_MAX))`, whose loop bound wraps to 0. On an
empty map constructed with hint 3 (4 buckets) the call leaves a map with 0 buckets, fewer
than before and fewer than the requested count; on the map `exU` (4 buckets, key 0) the new
table is regrown by the `reserve(1)` of `force_insert_ptr` and the call leaves 2 buckets.
(`reserve(10)` on the same empty map leaves 11 buckets.) -/
theorem C37_reserve_size_max_shrinks :
    (HashMap.newW 3 : HashMap Nat Char).bucket_count = 4 ∧
    (reserveW (natParams .LinearProbing) 2 (HashMap.newW 3) 10).map
      (fun r => r.bucket_count) = some 11 ∧
    (∀ fuel, reserveW (natParams .LinearProbing) (fuel + 1) (HashMap.newW 3) SIZE_MAX
      = some { data := [], el_count := 0, del_count := 0 }) ∧
    (∀ fuel, rehashW (natParams .LinearProbing) (fuel + 1) (HashMap.newW 3) SIZE_MAX
      = some { data := [], el_count := 0, del_count := 0 }) ∧
    ({ data := [], el_count := 0, del_count := 0 } : HashMap Nat Char).bucket_count = 0 ∧
    exU.bucket_count = 4 ∧
    rehashW (natParams .LinearProbing) 2 exU SIZE_MAX = some exUWrapped ∧
    exUWrapped.bucket_count = 2 ∧
    ¬ exU.bucket_count ≤ exUWrapped.bucket_count ∧
    ¬ SIZE_MAX ≤ exUWrapped.bucket_count := by
  have hr : ∀ fuel, rehashW (natParams .LinearProbing) (fuel + 1)
      (HashMap.newW 3 : HashMap Nat Char) SIZE_MAX
      = some { data := [], el_count := 0, del_count := 0 } := by
    intro fuel
    rw [rehashW_empty _ fuel 3 SIZE_MAX (by decide)]
    have hmax : max (HashMap.newW 3 : HashMap Nat Char).bucket_count SIZE_MAX = SIZE_MAX := by
      decide
    rw [hmax, newW_size_max]
    rfl
  exact ⟨by decide, by decide, hr, hr, rfl, by decide, by decide, by decide, by decide,
    by decide⟩

theorem nextW_fst (p : CollisionPolicy) (ind : Nat) : (p.nextW ind).1 = wrap (ind + 1) := by
  cases p <;> rfl

theorem nextW_snd (p : CollisionPolicy) (ind : Nat) :
    (p.nextW ind).2 = wrap (offset p (wrap (ind + 1))) := by
  cases p
  · show wrap (ind + 1) = wrap (wrap (ind + 1))
    unfold wrap
    rw [Nat.mod_mod]
  · rfl

theorem offset_mono (p : CollisionPolicy) (s t : Nat) (h : s ≤ t) : offset p s ≤ offset p t := by
  cases p
  · exact h
  · exact Nat.mul_le_mul h h

theorem le_offset (p : CollisionPolicy) (s : Nat) : s ≤ offset p s := by
  cases p
  · exact Nat.le_refl s
  · exact Nat.le_mul_self s

theorem policyStateW_eq (p : CollisionPolicy) (s : Nat) (hs : s ≤ SIZE_MAX) :
    policyStateW p s = s := by
  induction s with
  | zero => rfl
  | succ s ih =>
    unfold policyStateW
    rw [ih (by omega), nextW_fst, wrap_of_le _ hs]

/-- The `s`-th value of `next()`: the offset of step `s`, reduced to `size_t`. -/
theorem nthNextW_wrap (p : CollisionPolicy) (s : Nat) (hs : 1 ≤ s) (hm : s ≤ SIZE_MAX) :
    nthNextW p s = wrap (offset p s) := by
  unfold nthNextW
  have h1 : s - 1 + 1 = s := by omega
  rw [policyStateW_eq p (s - 1) (by omega), nextW_snd, h1, wrap_of_le _ hm]

theorem nthNextW_eq (p : CollisionPolicy) (s : Nat) (hs : 1 ≤ s)
    (hr : offset p s ≤ SIZE_MAX) : nthNextW p s = offset p s := by
  rw [nthNextW_wrap p s hs (le_trans (le_offset p s) hr), wrap_of_le _ hr]

theorem probeTraceW_get {K V : Type} (c : Params K V) (data : List (Option (Bucket K V)))
    (key : K) (hL : 0 < data.length)
    (hR : data.length - 1 + offset c.policy (data.length - 1) ≤ SIZE_MAX) (n : Nat) :
    ∀ (s i x : Nat), s + n ≤ data.length →
      (probeTraceW c data key (c.hash_fn key % data.length) n
        (probePos c data.length key s) s)[i]? = some x →
      x = probePos c data.length key (s + i) := by
  induction n with
  | zero =>
    intro s i x _ h
    simp [probeTraceW] at h
  | succ n ih =>
    intro s i x hsn h
    unfold probeTraceW at h
    cases i with
    | zero =>
      simp only [List.getElem?_cons_zero] at h
      exact (Option.some.inj h).symm
    | succ i =>
      simp only [List.getElem?_cons_succ] at h
      cases hs : slot data (probePos c data.length key s) with
      | none =>
        rw [hs] at h
        simp at h
      | some b =>
        rw [hs] at h
        simp only at h
        by_cases he : c.equal_fn b.first key = true
        · rw [if_pos he] at h
          simp at h
        · rw [if_neg he] at h
          cases n with
          | zero => simp [probeTraceW] at h
          | succ n =>
            have hs1 : s + 1 ≤ data.length - 1 := by omega
            have ho : offset c.policy (s + 1) ≤ offset c.policy (data.length - 1) :=
              offset_mono _ _ _ hs1
            have hlo := le_offset c.policy (data.length - 1)
            have hind : c.hash_fn key % data.length < data.length := Nat.mod_lt _ hL
            have e1 : (c.policy.nextW s).1 = s + 1 := by
              rw [nextW_fst, wrap_of_le _ (by omega)]
            have e2 : (c.policy.nextW s).2 = offset c.policy (s + 1) := by
              rw [nextW_snd, wrap_of_le (s + 1) (by omega), wrap_of_le _ (by omega)]
            have e3 : wrap (c.hash_fn key % data.length + offset c.policy (s + 1))
                = c.hash_fn key % data.length + offset c.policy (s + 1) :=
              wrap_of_le _ (by omega)
            rw [e1, e2, e3] at h
            have := ih (s + 1) i x (by omega) h
            rw [this]
            congr 1
            omega

theorem probeTraceW_length {K V : Type} (c : Params K V) (data : List (Option (Bucket K V)))
    (key : K) (ind : Nat) (n : Nat) :
    ∀ cur ps, (probeTraceW c data key ind n cur ps).length ≤ n := by
  induction n with
  | zero => intro cur ps; exact Nat.le_refl 0
  | succ n ih =>
    intro cur ps
    unfold probeTraceW
    rw [List.length_cons]
    cases slot data cur with
    | none => simp
    | some b =>
      simp only
      split
      · simp
      · exact Nat.succ_le_succ (ih _ _)

theorem probeTraceW_last {K V : Type} (c : Params K V) (data : List (Option (Bucket K V)))
    (key : K) (ind : Nat) (n : Nat) :
    ∀ (cur ps : Nat),
      (∀ x, probeW c data key ind n cur ps = .empty x ∨
          probeW c data key ind n cur ps = .tomb x ∨
          probeW c data key ind n cur ps = .live x →
        (probeTraceW c data key ind n cur ps).getLast? = some x) ∧
      (probeW c data key ind n cur ps = .exhausted →
        (probeTraceW c data key ind n cur ps).length = n) := by
  induction n with
  | zero =>
    intro cur ps
    refine ⟨?_, fun _ => rfl⟩
    intro x h
    rcases h with h | h | h <;> cases h
  | succ n ih =>
    intro cur ps
    unfold probeW probeTraceW
    cases hs : slot data cur with
    | none =>
      refine ⟨?_, fun h => by cases h⟩
      intro x h
      rcases h with h | h | h <;> cases h
      rfl
    | some b =>
      simp only
      by_cases he : c.equal_fn b.first key = true
      · rw [if_pos he, if_pos he]
        cases hd : b.is_deleted
        · refine ⟨?_, fun h => by simp at h⟩
          intro x h
          simp only [Bool.false_eq_true, if_false] at h
          rcases h with h | h | h <;> cases h
          rfl
        · refine ⟨?_, fun h => by simp at h⟩
          intro x h
          simp only [if_true] at h
          rcases h with h | h | h <;> cases h
          rfl
      · rw [if_neg he, if_neg he]
        obtain ⟨h1, h2⟩ := ih (wrap (ind + (c.policy.nextW ps).2) % data.length)
          (c.policy.nextW ps).1
        refine ⟨?_, ?_⟩
        · intro x h
          exact getLast_cons_of_some _ _ _ (h1 x h)
        · intro h
          rw [List.length_cons, h2 h]

theorem nextW_eq_next (p : CollisionPolicy) (ind : Nat)
    (h : offset p (ind + 1) ≤ SIZE_MAX) : p.nextW ind = p.next ind := by
  have h1 : ind + 1 ≤ SIZE_MAX := le_trans (le_offset p (ind + 1)) h
  have e1 : (p.nextW ind).1 = (p.next ind).1 := by
    rw [nextW_fst, next_fst, wrap_of_le _ h1]
  have e2 : (p.nextW ind).2 = (p.next ind).2 := by
    rw [nextW_snd, next_snd, wrap_of_le _ h1, wrap_of_le _ h]
  exact Prod.ext e1 e2

/-- Within the range of `size_t` the probing loop computed in `Nat` is the probing loop of
the machine. -/
theorem probeW_eq_probe {K V : Type} (c : Params K V) (data : List (Option (Bucket K V)))
    (key : K) (hL : 0 < data.length)
    (hR : data.length - 1 + offset c.policy (data.length - 1) ≤ SIZE_MAX) (n : Nat) :
    ∀ (s : Nat), s + n ≤ data.length →
      probeW c data key (c.hash_fn key % data.length) n (probePos c data.length key s) s
        = probe c data key (c.hash_fn key % data.length) n
            (probePos c data.length key s) s := by
  induction n with
  | zero => intro s _; rfl
  | succ n ih =>
    intro s hsn
    unfold probeW probe
    cases hs : slot data (probePos c data.length key s) with
    | none => rfl
    | some b =>
      simp only
      by_cases he : c.equal_fn b.first key = true
      · rw [if_pos he, if_pos he]
      · rw [if_neg he, if_neg he]
        cases n with
        | zero => rfl
        | succ n =>
          have hs1 : s + 1 ≤ data.length - 1 := by omega
          have ho : offset c.policy (s + 1) ≤ offset c.policy (data.length - 1) :=
            offset_mono _ _ _ hs1
          have hind : c.hash_fn key % data.length < data.length := Nat.mod_lt _ hL
          have e0 : c.policy.nextW s = c.policy.next s := nextW_eq_next _ _ (by omega)
          have e3 : wrap (c.hash_fn key % data.length + (c.policy.next s).2)
              = c.hash_fn key % data.length + (c.policy.next s).2 := by
            rw [next_snd]
            exact wrap_of_le _ (by omega)
          have e4 : (c.hash_fn key % data.length + (c.policy.next s).2) % data.length
              = probePos c data.length key (s + 1) := by
            rw [next_snd]
            rfl
          rw [e0, e3, e4, next_fst]
          exact ih (s + 1) (by omega)

theorem probeKeyW_eq_probeKey {K V : Type} (c : Params K V) (m : HashMap K V) (key : K)
    (hB : 1 ≤ m.bucket_count)
    (hR : m.bucket_count - 1 + offset c.policy (m.bucket_count - 1) ≤ SIZE_MAX) :
    probeKeyW c m key = probeKey c m key := by
  unfold probeKeyW probeKey
  have hpos : 0 < m.data.length := hB
  have h0 : bucket c m key = probePos c m.data.length key 0 := (probePos_zero c _ key).symm
  have := probeW_eq_probe c m.data key hpos hR (m.bucket_count / 2) 0
    (by
      show 0 + m.data.length / 2 ≤ m.data.length
      have := Nat.div_le_self m.data.length 2
      omega)
  rw [← h0] at this
  exact this

/-- The range condition of the probe sequence for LinearProbing: at most `2 ^ 63` buckets. -/
theorem probe_range_linear (B : Nat) (h : B ≤ 9223372036854775808) :
    B - 1 + offset .LinearProbing (B - 1) ≤ SIZE_MAX := by
  show B - 1 + (B - 1) ≤ 18446744073709551615
  omega

/-- The range condition of the probe sequence for QuadraticProbing: at most `2 ^ 32`
buckets. -/
theorem probe_range_quadratic (B : Nat) (h : B ≤ 4294967296) :
    B - 1 + offset .QuadraticProbing (B - 1) ≤ SIZE_MAX := by
  show B - 1 + (B - 1) * (B - 1) ≤ 18446744073709551615
  have h1 : B - 1 ≤ 4294967295 := by omega
  have h2 := Nat.mul_le_mul h1 h1
  omega

/-- C28 (counterexample to "`offset(s)` is `s * s` for QuadraticProbing"): `ind * ind` is a
product of `size_t` values. The `2 ^ 32`-th call of `next()` after `start()` returns 0, not
`2 ^ 32 * 2 ^ 32`; the call before it returns `(2 ^ 32 - 1) * (2 ^ 32 - 1)`. -/
theorem C28_counterexample :
    nthNextW .QuadraticProbing 4294967296 = 0 ∧
    offset .QuadraticProbing 4294967296 = 4294967296 * 4294967296 ∧
    nthNextW .QuadraticProbing 4294967296 ≠ offset .QuadraticProbing 4294967296 ∧
    nthNextW .QuadraticProbing 4294967295 = 4294967295 * 4294967295 := by
  have h1 : nthNextW .QuadraticProbing 4294967296 = 0 := by
    rw [nthNextW_wrap _ _ (by decide) (by decide)]
    decide
  have h2 : nthNextW .QuadraticProbing 4294967295 = 4294967295 * 4294967295 := by
    rw [nthNextW_wrap _ _ (by decide) (by decide)]
    decide
  refine ⟨h1, rfl, ?_, h2⟩
  rw [h1]
  decide

/-- C28 (amended): in a table with `B >= 1` buckets for which
`(B - 1) + offset(B - 1) <= SIZE_MAX` (that is `B <= 2 ^ 63` for LinearProbing and
`B <= 2 ^ 32` for QuadraticProbing), the `s`-th slot read by `find` and by the probing loop of
the insert family is `(hasher(k) mod B + offset(s)) mod B`, where `offset(0) = 0` and, for
`s >= 1`, `offset(s)` is the `s`-th value of `next()` after `start()` as long as that value
does not exceed `SIZE_MAX`: `s` for LinearProbing and `s * s` for QuadraticProbing. In
general the `s`-th value of `next()` is `s`, respectively `s * s` reduced modulo `2 ^ 64`.
The loops leave at the last slot they read, or read as many slots as their budget allows. -/
theorem C28_probe_sequence {K V : Type} (c : Params K V) (m : HashMap K V) (key : K)
    (hB : 1 ≤ m.bucket_count)
    (hR : m.bucket_count - 1 + offset c.policy (m.bucket_count - 1) ≤ SIZE_MAX) (s x : Nat) :
    ((findTraceW c m key)[s]? = some x →
      x = (c.hash_fn key % m.bucket_count + offset c.policy s) % m.bucket_count ∧
      x < m.bucket_count) ∧
    ((insertTraceW c m key)[s]? = some x →
      x = (c.hash_fn key % m.bucket_count + offset c.policy s) % m.bucket_count ∧
      x < m.bucket_count) ∧
    offset c.policy 0 = 0 ∧
    (1 ≤ s → offset c.policy s ≤ SIZE_MAX → nthNextW c.policy s = offset c.policy s) ∧
    (1 ≤ s → s ≤ SIZE_MAX → nthNextW .LinearProbing s = s) ∧
    (1 ≤ s → s * s ≤ SIZE_MAX → nthNextW .QuadraticProbing s = s * s) ∧
    (1 ≤ s → s ≤ SIZE_MAX → nthNextW .QuadraticProbing s = wrap (s * s)) ∧
    (findTraceW c m key).length ≤ m.bucket_count ∧
    (insertTraceW c m key).length ≤ m.bucket_count / 2 ∧
    (∀ cur, probeKeyW c m key = .empty cur ∨ probeKeyW c m key = .tomb cur ∨
      probeKeyW c m key = .live cur → (insertTraceW c m key).getLast? = some cur) ∧
    (probeKeyW c m key = .exhausted → (insertTraceW c m key).length = m.bucket_count / 2) := by
  have hpos : 0 < m.data.length := hB
  have hkey : ∀ n, n ≤ m.data.length →
      (probeTraceW c m.data key (bucket c m key) n (bucket c m key) c.policy.start)[s]?
        = some x →
      x = (c.hash_fn key % m.bucket_count + offset c.policy s) % m.bucket_count ∧
      x < m.bucket_count := by
    intro n hn hx
    have h0 : bucket c m key = probePos c m.data.length key 0 := (probePos_zero c _ key).symm
    have hx' : (probeTraceW c m.data key (c.hash_fn key % m.data.length) n
        (probePos c m.data.length key 0) 0)[s]? = some x := by
      rw [← h0]; exact hx
    have := probeTraceW_get c m.data key hpos hR n 0 s x (by omega) hx'
    rw [Nat.zero_add] at this
    exact ⟨this, by rw [this]; exact probePos_lt c _ key s hpos⟩
  have hlast := probeTraceW_last c m.data key (bucket c m key) (m.bucket_count / 2)
    (bucket c m key) c.policy.start
  refine ⟨hkey _ (Nat.le_refl _), hkey _ (Nat.div_le_self _ _), offset_zero _,
    fun hs hr => nthNextW_eq _ s hs hr, fun hs hm => nthNextW_eq .LinearProbing s hs hm,
    fun hs hm => nthNextW_eq .QuadraticProbing s hs hm,
    fun hs hm => nthNextW_wrap .QuadraticProbing s hs hm,
    probeTraceW_length _ _ _ _ _ _ _, probeTraceW_length _ _ _ _ _ _ _, ?_, ?_⟩
  · intro cur hc
    exact hlast.1 cur hc
  · intro hc
    exact hlast.2 hc

/-- Witness for C28: quadratic probing with 8 buckets from base bucket 0 reads the slots
0, 1, 4, 1, 0, ...; in `exQuad`, `find(24)` reads 0, 1, 4 and then slot 1 again. -/
theorem C28_probe_sequence_witness :
    findTraceW (natParams .QuadraticProbing) exQuad 24 = [0, 1, 4, 1, 0, 1, 4, 1] ∧
    (List.range 5).map (probePos (natParams .QuadraticProbing) 8 24) = [0, 1, 4, 1, 0] ∧
    ((findTraceW (natParams .QuadraticProbing) exQuad 24)[3]? = some 1 →
      1 = ((natParams .QuadraticProbing).hash_fn 24 % exQuad.bucket_count
        + offset (natParams .QuadraticProbing).policy 3) % exQuad.bucket_count ∧
      1 < exQuad.bucket_count) :=
  ⟨by decide, by decide,
    (C28_probe_sequence (natParams .QuadraticProbing) exQuad 24 (by decide) (by decide)
      3 1).1⟩

/-! ## Tombstone compaction and the hinted calls -/

theorem emplace_hint_miss {K V : Type} (c : Params K V) (fuel : Nat) (m : HashMap K V)
    (hint : Iterator) (k : K) (v : V)
    (hh : hint.iterator_end = true ∨
      ∀ t, slot m.data hint.current = some t → c.equal_fn t.first k = false) :
    emplace_hint c fuel m hint k v = (insert c fuel m (k, v)).map fun r => (r.1, r.2.1) := by
  unfold emplace_hint insert
  simp only
  rw [emplace_hint_rest, eq_endIt]
  cases he : hint.iterator_end with
  | true => simp only [if_true]
  | false =>
    simp only [Bool.false_eq_true, if_false]
    cases hs : slot m.data hint.current with
    | none => rfl
    | some t =>
      simp only
      rcases hh with h | h
      · rw [he] at h; cases h
      · rw [h t hs]
        simp only [Bool.false_eq_true, if_false]

theorem insert_or_assign_hint_miss {K V : Type} (c : Params K V) (fuel : Nat)
    (m : HashMap K V) (hint : Iterator) (k : K) (v : V)
    (hh : hint.iterator_end = true ∨
      ∀ t, slot m.data hint.current = some t → c.equal_fn t.first k = false) :
    insert_or_assign_hint c fuel m hint k v
      = (insert_or_assign c fuel m k v).map fun r => (r.1, r.2.1) := by
  unfold insert_or_assign_hint
  simp only
  rw [insert_or_assign_hint_rest, eq_endIt]
  cases he : hint.iterator_end with
  | true => simp only [if_true]
  | false =>
    simp only [Bool.false_eq_true, if_false]
    cases hs : slot m.data hint.current with
    | none => rfl
    | some t =>
      simp only
      rcases hh with h | h
      · rw [he] at h; cases h
      · rw [h t hs]
        simp only [Bool.false_eq_true, if_false]

theorem emplace_hint_hit {K V : Type} (c : Params K V) (fuel : Nat) (m : HashMap K V)
    (hint : Iterator) (k : K) (v : V) (t : Bucket K V) (he : hint.iterator_end = false)
    (hs : slot m.data hint.current = some t) (heq : c.equal_fn t.first k = true) :
    emplace_hint c fuel m hint k v =
      if t.is_deleted then
        some ({ m with del_count := m.del_count - 1, el_count := m.el_count + 1,
                       data := m.data.set hint.current
                         (some { first := k, second := v, is_deleted := false }) }, hint.copy)
      else some (m, hint.copy) := by
  unfold emplace_hint
  simp only
  rw [eq_endIt, he, hs]
  simp only [Bool.false_eq_true, if_false]
  rw [if_pos heq]

theorem insert_or_assign_hint_hit {K V : Type} (c : Params K V) (fuel : Nat)
    (m : HashMap K V) (hint : Iterator) (k : K) (v : V) (t : Bucket K V)
    (he : hint.iterator_end = false) (hs : slot m.data hint.current = some t)
    (heq : c.equal_fn t.first k = true) :
    insert_or_assign_hint c fuel m hint k v =
      if t.is_deleted then
        some ({ m with del_count := m.del_count - 1, el_count := m.el_count + 1,
                       data := m.data.set hint.current
                         (some { first := t.first, second := v, is_deleted := false }) },
          hint.copy)
      else
        some ({ m with data := m.data.set hint.current (some { t with second := v }) },
          hint.copy) := by
  unfold insert_or_assign_hint
  simp only
  rw [eq_endIt, he, hs]
  simp only [Bool.false_eq_true, if_false]
  rw [if_pos heq]

theorem exists_tomb_of_count {K V : Type} (data : List (Option (Bucket K V)))
    (h : 0 < countTomb data) : ∃ i, isTomb data i = true := by
  unfold countTomb at h
  obtain ⟨i, hi⟩ := Finset.card_pos.1 h
  exact ⟨i, (Finset.mem_filter.1 hi).2⟩

/-- `HashSet::insert(k)` on a reachable set with more TOMBSTONEs than elements compacts the
table and keeps every element. -/
theorem setInsert_compacts {K : Type} {cs : Params K Unit} (hcs : cs.Lawful) {s : HashSet K}
    (hR : SetReach cs s) (hdel : s.del_count > s.size) (k : K) (fuel : Nat)
    (hf : need (s.el_count + s.del_count) ≤ fuel) :
    ∃ r, setInsert cs fuel s k = some r ∧ r.1.del_count = 0 ∧ NoTomb r.1 ∧
      ∀ k', contains cs s k' = some true → contains cs r.1 k' = some true := by
  have hI := setReach_inv hcs hR
  obtain ⟨r, hr, hres⟩ := setInsert_ok hcs hI k fuel hf
  have hrI : Inv cs r.1 := by
    obtain ⟨_, _, _, hp, _⟩ := hres
    exact hp.inv
  obtain ⟨w, hw⟩ : ∃ w, fuel = w + 1 := by
    have := need_pos (s.el_count + s.del_count)
    exact ⟨fuel - 1, by omega⟩
  have hN : NoTomb r.1 := by
    have hr' := hr
    unfold setInsert at hr'
    rw [hw, setInsertLoop.eq_2] at hr'
    obtain ⟨s1, h1, h2⟩ := Option.bind_eq_some.1 hr'
    rw [← hw] at h1
    have hp := setRehash_post hcs hI h1
    have hN1 : NoTomb s1 := (hp.fresh (Or.inr hdel)).1
    have hs := setRehash_same cs fuel s1 (s1.size + 1) (reserve_settled hp)
    have h3 : setInsert cs fuel s1 k = some r := by
      unfold setInsert
      rw [hw, setInsertLoop.eq_2, ← hw, hs, Option.some_bind]
      rw [hw]
      exact h2
    obtain ⟨_, _, _, hpost, _⟩ := setInsert_post hcs hp.inv h3
    exact hpost.noTomb hN1
  refine ⟨r, hr, del_zero_of_noTomb hrI hN, hN, ?_⟩
  intro k' hk'
  by_cases hm : Member cs s k'
  · obtain ⟨b, hb, he⟩ := hm
    by_cases hmk : Member cs s k
    · obtain ⟨_, _, hl⟩ := setRes_present hcs hres hmk
      exact contains_live hcs hrI ((hl b).2 hb) he
    · obtain ⟨_, _, b1, _, _, hl⟩ := setRes_absent hcs hres hmk
      exact contains_live hcs hrI ((hl b).2 (Or.inl hb)) he
  · have hn : contains cs s k' = some false := by
      apply contains_none hcs hI
      intro b hb
      by_contra hne
      exact hm ⟨b, hb, by simpa using hne⟩
    rw [hn] at hk'
    cases hk'

/-- C19 (counterexamples to the claim as written). The map `exTwoErased` has one element
(key 8, value 'c') and two TOMBSTONEs. A hinted insert-family call whose hint is the iterator
at key 8 returns before `reserve`: `emplace_hint(find(8), 8, 'q')` leaves the map as it is,
with `tomb_count == 2` and the TOMBSTONE in slot 0. And `insert_or_assign(8, 'z')` does
compact the table but key 8 is then found with the value 'z', not with its value 'c'. -/
theorem C19_counterexample :
    exTwoErased.del_count > exTwoErased.size ∧
    find (natParams .LinearProbing) exTwoErased 8 = some (liveIt 8) ∧
    emplace_hint (natParams .LinearProbing) 8 exTwoErased (liveIt 8) 8 'q'
      = some (exTwoErased, (liveIt 8).copy) ∧
    insert_hint (natParams .LinearProbing) 8 exTwoErased (liveIt 8) (8, 'q')
      = some (exTwoErased, (liveIt 8).copy) ∧
    exTwoErased.del_count = 2 ∧ isTomb exTwoErased.data 0 = true ∧
    lookup (natParams .LinearProbing) exTwoErased 8 = some 'c' ∧
    (insert_or_assign (natParams .LinearProbing) 8 exTwoErased 8 'z').map
      (fun r => (r.1.del_count, lookup (natParams .LinearProbing) r.1 8))
      = some (0, some 'z') := by
  decide

/-- C19 (amended): in a reachable map in which erasures have made `tomb_count > live_count`,
the next unhinted insert-family call (`insert` / `emplace`, `insert_or_assign`, `operator[]`),
which first calls `reserve(live_count + 1)`, returns after a rehash: after the call
`tomb_count == 0`, no slot of the bucket array is a TOMBSTONE, and every key that was present
before the call is still found, with its value, except that after `insert_or_assign(k, v)`
the keys equal to `k` are found with the value `v`. A hinted call (`emplace_hint`, hinted
`insert_or_assign`) whose hint is `end()` or stands at a slot that is null or holds a
different key does exactly what the unhinted call does. A hinted call whose hint stands at a
slot with an equal key returns before `reserve`, so no rehash takes place: for a LIVE slot
`emplace_hint` returns the map unchanged and the hinted `insert_or_assign` only assigns the
value, `tomb_count` and the TOMBSTONE slots staying as they were; for a TOMBSTONE slot that
one slot is revived. `HashSet::insert(k)` on a reachable set compacts in
the same way, and its hinted form with a hint at a LIVE slot holding an equal key returns the
set unchanged. -/
theorem C19_tombstone_compaction {K V : Type} (c : Params K V) (hc : c.Lawful)
    (m : HashMap K V) (a : List (K × V)) (h : Reachable c m a)
    (hdel : m.del_count > m.size) (k : K) (v : V) :
    (∃ F, ∀ fuel, F ≤ fuel →
      (∃ r, insert c fuel m (k, v) = some r ∧ r.1.del_count = 0 ∧ NoTomb r.1 ∧
        (∀ i, isTomb r.1.data i = false) ∧
        ∀ k' u, absFind c a k' = some u → lookup c r.1 k' = some u) ∧
      (∃ r, insert_or_assign c fuel m k v = some r ∧ r.1.del_count = 0 ∧ NoTomb r.1 ∧
        (∀ i, isTomb r.1.data i = false) ∧
        ∀ k' u, absFind c a k' = some u →
          lookup c r.1 k' = some (if c.equal_fn k' k = true then v else u)) ∧
      (∃ r, index c fuel m k = some r ∧ r.1.del_count = 0 ∧ NoTomb r.1 ∧
        (∀ i, isTomb r.1.data i = false) ∧
        ∀ k' u, absFind c a k' = some u → lookup c r.1 k' = some u)) ∧
    (∀ fuel hint, (hint.iterator_end = true ∨
        ∀ t, slot m.data hint.current = some t → c.equal_fn t.first k = false) →
      emplace_hint c fuel m hint k v = (insert c fuel m (k, v)).map (fun r => (r.1, r.2.1)) ∧
      insert_or_assign_hint c fuel m hint k v
        = (insert_or_assign c fuel m k v).map (fun r => (r.1, r.2.1))) ∧
    (∀ fuel hint t, hint.iterator_end = false → slot m.data hint.current = some t →
      c.equal_fn t.first k = true →
      (t.is_deleted = false →
        emplace_hint c fuel m hint k v = some (m, hint.copy) ∧
        insert_or_assign_hint c fuel m hint k v
          = some ({ m with data := m.data.set hint.current (some { t with second := v }) },
              hint.copy) ∧
        ∀ i, isTomb (m.data.set hint.current (some { t with second := v })) i
          = isTomb m.data i) ∧
      (t.is_deleted = true →
        emplace_hint c fuel m hint k v
          = some ({ m with del_count := m.del_count - 1, el_count := m.el_count + 1,
                           data := m.data.set hint.current
                             (some { first := k, second := v, is_deleted := false }) },
              hint.copy) ∧
        insert_or_assign_hint c fuel m hint k v
          = some ({ m with del_count := m.del_count - 1, el_count := m.el_count + 1,
                           data := m.data.set hint.current
                             (some { first := t.first, second := v, is_deleted := false }) },
              hint.copy))) ∧
    (∃ i, isTomb m.data i = true) ∧
    (∀ (cs : Params K Unit) (s : HashSet K), cs.Lawful → SetReach cs s →
      s.del_count > s.size →
      (∃ F, ∀ fuel, F ≤ fuel →
        ∃ r, setInsert cs fuel s k = some r ∧ r.1.del_count = 0 ∧ NoTomb r.1 ∧
          ∀ k', contains cs s k' = some true → contains cs r.1 k' = some true) ∧
      ∀ fuel hint t, hint.iterator_end = false → slot s.data hint.current = some t →
        cs.equal_fn t.first k = true → t.is_deleted = false →
        setInsertHint cs fuel s hint k = some (s, hint.copy)) := by
  have hA := reachable_agree hc h
  have htomb : ∀ m1 : HashMap K V, NoTomb m1 → ∀ i, isTomb m1.data i = false := by
    intro m1 hN i
    cases ht : isTomb m1.data i
    · rfl
    · obtain ⟨b, hb, hd⟩ := (isTomb_iff _ _).1 ht
      rw [hN i b hb] at hd
      cases hd
  refine ⟨⟨need (m.el_count + m.del_count), ?_⟩, ?_, ?_, ?_, ?_⟩
  · intro fuel hfuel
    refine ⟨?_, ?_, ?_⟩
    · obtain ⟨r, hr, hres⟩ := insert_ok hc hA.inv (k, v) fuel hfuel
      have hA1 := agree_insert hc hA k v hres.1
      obtain ⟨m', hp, hres'⟩ := emplace_split hc hA.inv hr
      have hN : NoTomb r.1 := hres'.1.noTomb (hp.fresh (Or.inr hdel)).1
      refine ⟨r, hr, del_zero_of_noTomb hres.1.inv hN, hN, htomb _ hN, ?_⟩
      intro k' u hu
      rw [lookup_eq hc hA1]
      exact absFind_absInsert_of_some c hc a k k' v u hu
    · obtain ⟨r, hr, hres⟩ := insert_or_assign_ok hc hA.inv k v fuel hfuel
      have hA1 := agree_assign hc hA k v hres.1
      obtain ⟨m', hp, hres'⟩ := insert_or_assign_split hc hA.inv hr
      have hN : NoTomb r.1 := hres'.1.noTomb (hp.fresh (Or.inr hdel)).1
      refine ⟨r, hr, del_zero_of_noTomb hres.1.inv hN, hN, htomb _ hN, ?_⟩
      intro k' u hu
      rw [lookup_eq hc hA1]
      by_cases he : c.equal_fn k' k = true
      · rw [if_pos he, absFind_congr c hc _ k' k he, absFind_absAssign_self c hc]
      · rw [if_neg he, absFind_absAssign_other c hc a k k' v (by simpa using he)]
        exact hu
    · obtain ⟨r, hr, hres⟩ := index_ok hc hA.inv k fuel hfuel
      have hA1 := agree_insert hc hA k c.mapped_default hres.1
      obtain ⟨m', hp, hres'⟩ := index_split hc hA.inv hr
      have hN : NoTomb r.1 := hres'.1.noTomb (hp.fresh (Or.inr hdel)).1
      refine ⟨r, hr, del_zero_of_noTomb hres.1.inv hN, hN, htomb _ hN, ?_⟩
      intro k' u hu
      rw [lookup_eq hc hA1]
      exact absFind_absInsert_of_some c hc a k k' _ u hu
  · intro fuel hint hh
    exact ⟨emplace_hint_miss c fuel m hint k v hh,
      insert_or_assign_hint_miss c fuel m hint k v hh⟩
  · intro fuel hint t he hs heq
    have hlt := slot_some_lt hs
    refine ⟨?_, ?_⟩
    · intro hd
      refine ⟨?_, ?_, ?_⟩
      · rw [emplace_hint_hit c fuel m hint k v t he hs heq, hd]
        simp only [Bool.false_eq_true, if_false]
      · rw [insert_or_assign_hint_hit c fuel m hint k v t he hs heq, hd]
        simp only [Bool.false_eq_true, if_false]
      · intro i
        by_cases hi : hint.current = i
        · subst hi
          rw [isTomb_set_self _ _ _ hlt]
          have : isTomb m.data hint.current = t.is_deleted := by
            unfold isTomb
            rw [hs]
          rw [this]
        · rw [isTomb_set_other _ _ _ _ hi]
    · intro hd
      refine ⟨?_, ?_⟩
      · rw [emplace_hint_hit c fuel m hint k v t he hs heq, hd]
        simp only [if_true]
      · rw [insert_or_assign_hint_hit c fuel m hint k v t he hs heq, hd]
        simp only [if_true]
  · apply exists_tomb_of_count
    rw [← hA.inv.del]
    unfold HashMap.size at hdel
    omega
  · intro cs s hcs hR hds
    refine ⟨⟨need (s.el_count + s.del_count), ?_⟩, ?_⟩
    · intro fuel hf
      exact setInsert_compacts hcs hR hds k fuel hf
    · intro fuel hint t he hs heq hd
      unfold setInsertHint
      simp only
      rw [eq_endIt, he, hs]
      simp only [Bool.false_eq_true, if_false]
      rw [if_pos heq, hd]
      simp only [Bool.false_eq_true, if_false]

/-- Witness for C19 (amended): the state of spec scenario 1 after erasing keys 0 and 4 (one
LIVE slot, two TOMBSTONEs), then a call for key 12. -/
theorem C19_tombstone_compaction_witness :
    (natParams .LinearProbing).Lawful ∧
    Reachable (natParams .LinearProbing) exTwoErased [(8, 'c')] ∧
    exTwoErased.del_count > exTwoErased.size ∧
    (∃ F, ∀ fuel, F ≤ fuel →
      (∃ r, insert (natParams .LinearProbing) fuel exTwoErased (12, 'd') = some r ∧
        r.1.del_count = 0 ∧ NoTomb r.1 ∧ (∀ i, isTomb r.1.data i = false) ∧
        ∀ k' u, absFind (natParams .LinearProbing) [(8, 'c')] k' = some u →
          lookup (natParams .LinearProbing) r.1 k' = some u) ∧
      (∃ r, insert_or_assign (natParams .LinearProbing) fuel exTwoErased 12 'd' = some r ∧
        r.1.del_count = 0 ∧ NoTomb r.1 ∧ (∀ i, isTomb r.1.data i = false) ∧
        ∀ k' u, absFind (natParams .LinearProbing) [(8, 'c')] k' = some u →
          lookup (natParams .LinearProbing) r.1 k'
            = some (if (natParams .LinearProbing).equal_fn k' 12 = true then 'd' else u)) ∧
      (∃ r, index (natParams .LinearProbing) fuel exTwoErased 12 = some r ∧
        r.1.del_count = 0 ∧ NoTomb r.1 ∧ (∀ i, isTomb r.1.data i = false) ∧
        ∀ k' u, absFind (natParams .LinearProbing) [(8, 'c')] k' = some u →
          lookup (natParams .LinearProbing) r.1 k' = some u)) ∧
    (∃ i, isTomb exTwoErased.data i = true) :=
  have h := C19_tombstone_compaction (natParams .LinearProbing) (natParams_lawful _)
    exTwoErased [(8, 'c')] exTwoErased_reachable (by decide) 12 'd'
  ⟨natParams_lawful _, exTwoErased_reachable, by decide, h.1, h.2.2.2.1⟩

end OAHash
